import Mathlib

/-! simpledb: a shallow embedding of the binary codec and the storage engine

The Go package `simpledb` stores records of one struct type in an append-only
row log on a seekable byte source and keeps an in-memory index from row id
to row offset.  This file embeds the codec (`binary.go`, `types.go`), the schema
(`table_schema.go`) and the engine (`db*.go`) as Lean functions and proves
properties of them.

Conventions of the embedding.
* A byte is a natural number; byte strings are `List Nat`.
* A reader is the list of bytes that are still unread; a decoder returns the
  unread rest together with its result.
* Machine integers are naturals or integers; conversions between Go integer
  types are written out where they can change the value.
* Go maps are association lists.  The order of a list stands for the order in
  which `range` happens to visit the map.
* Floating-point values are carried as their IEEE-754 bit patterns.
-/

namespace SimpleDB

/-! ## Errors -/

/-- The ways an operation can fail.  `panic` stands for a Go run-time panic,
the others for returned `error` values. -/
inductive Err
  | eof
  | unexpectedEOF
  | varintOverflow
  | invalidType
  | schemaMismatch
  | notFound
  | invalidSeek
  | panic
  deriving DecidableEq, Repr

/-! ## Types and values (`reflect.Type`, `reflect.Value`) -/

/-- The `reflect.Kind` of a type that is neither an array nor a slice.  The
kinds from `Chan` on have structure the codec never looks at. -/
inductive Kind
  | Bool | Int | Int8 | Int16 | Int32 | Int64
  | Uint | Uint8 | Uint16 | Uint32 | Uint64 | Uintptr
  | Float32 | Float64 | Complex64 | Complex128
  | String
  | Chan | Func | Interface | Map | Pointer | Struct | UnsafePointer
  deriving DecidableEq, Repr

/-- A Go type built from the builtin basic types, as far as the codec inspects
it: its kind and, for an array or slice, its element type.  A defined basic
type such as `type Email string` is told apart from the builtin type of its
kind in `GoType`. -/
inductive Ty
  | basic (k : Kind)
  | array (n : Nat) (elem : Ty)
  | slice (elem : Ty)
  deriving DecidableEq, Repr

/-- A Go value.  Signed integers are `int`, unsigned ones `uint`, floats and
complex numbers are their bit patterns, a string is its bytes, and the nil slice
is kept apart from the empty slice as `reflect.DeepEqual` does. -/
inductive Value
  | bool (b : Bool)
  | int (i : Int)
  | uint (n : Nat)
  | float (bits : Nat)
  | complex (re im : Nat)
  | str (s : List Nat)
  | array (elems : List Value)
  | slice (elems : List Value)
  | nilSlice
  | other (tag : Nat)

/-- PrimitiveFixedSizeKinds of `types.go`. -/
def PrimitiveFixedSizeKinds : List Kind :=
  [.Bool, .Int8, .Int16, .Int32, .Int64, .Uint8, .Uint16, .Uint32, .Uint64,
   .Float32, .Float64, .Complex64, .Complex128]

/-- Go `isFixedSizeType`. -/
def isFixedSizeType : Ty → Bool
  | .basic k => PrimitiveFixedSizeKinds.contains k
  | .array _ e => isFixedSizeType e
  | .slice _ => false

/-- Go `isVariableSizeType`. -/
def isVariableSizeType : Ty → Bool
  | .basic .String => true
  | .slice _ => true
  | _ => false

/-- Go `isValidColumnType`. -/
def isValidColumnType : Ty → Bool
  | .basic .String => true
  | .slice e => isValidColumnType e
  | t => isFixedSizeType t

/-- Go `needsRecursiveEncoding`. -/
def needsRecursiveEncoding : Ty → Bool
  | .slice e => isVariableSizeType e
  | _ => false

/-- The `sizeof` of package `encoding/binary`: the encoded size of a fixed-size
type, `none` where the package answers -1. -/
def sizeof : Ty → Option Nat
  | .basic .Bool => some 1
  | .basic .Int8 => some 1 | .basic .Int16 => some 2
  | .basic .Int32 => some 4 | .basic .Int64 => some 8
  | .basic .Uint8 => some 1 | .basic .Uint16 => some 2
  | .basic .Uint32 => some 4 | .basic .Uint64 => some 8
  | .basic .Float32 => some 4 | .basic .Float64 => some 8
  | .basic .Complex64 => some 8 | .basic .Complex128 => some 16
  | .basic _ => none
  | .array n e => (sizeof e).map (fun s => n * s)
  | .slice _ => none

/-- A signed integer that fits `w` bytes. -/
def isIntOf (w : Nat) : Value → Bool
  | .int i => decide (-(2:Int) ^ (8 * w - 1) ≤ i ∧ i < (2:Int) ^ (8 * w - 1))
  | _ => false

/-- An unsigned integer that fits `w` bytes. -/
def isUintOf (w : Nat) : Value → Bool
  | .uint n => decide (n < 2 ^ (8 * w))
  | _ => false

/-- A float of `w` bytes. -/
def isFloatOf (w : Nat) : Value → Bool
  | .float b => decide (b < 2 ^ (8 * w))
  | _ => false

/-- A complex number with parts of `w` bytes. -/
def isComplexOf (w : Nat) : Value → Bool
  | .complex r i => decide (r < 2 ^ (8 * w) ∧ i < 2 ^ (8 * w))
  | _ => false

/-- A boolean. -/
def isBoolValue : Value → Bool
  | .bool _ => true
  | _ => false

/-- A string: bytes, and no more of them than a Go `int` can count. -/
def isStrValue : Value → Bool
  | .str s => decide (s.length < 2 ^ 63) && s.all (fun b => decide (b < 256))
  | _ => false

/-- A value of a kind the codec does not look into. -/
def isOtherValue : Value → Bool
  | .other _ => true
  | _ => false

/-- The value `v` is a value of the basic kind `k`. -/
def hasKind (k : Kind) (v : Value) : Bool :=
  match k with
  | .Bool => isBoolValue v
  | .Int8 => isIntOf 1 v
  | .Int16 => isIntOf 2 v
  | .Int32 => isIntOf 4 v
  | .Int64 => isIntOf 8 v
  | .Int => isIntOf 8 v
  | .Uint8 => isUintOf 1 v
  | .Uint16 => isUintOf 2 v
  | .Uint32 => isUintOf 4 v
  | .Uint64 => isUintOf 8 v
  | .Uint => isUintOf 8 v
  | .Uintptr => isUintOf 8 v
  | .Float32 => isFloatOf 4 v
  | .Float64 => isFloatOf 8 v
  | .Complex64 => isComplexOf 4 v
  | .Complex128 => isComplexOf 8 v
  | .String => isStrValue v
  | _ => isOtherValue v

/-- The value `v` is a value of type `t`: it has the right shape, its integers
fit their width, its bytes are bytes and its lengths fit a Go `int`. -/
def hasType : Ty → Value → Bool
  | .basic k, v => hasKind k v
  | .array n e, .array vs => decide (vs.length = n) && vs.all (hasType e)
  | .slice e, .slice vs => decide (vs.length < 2 ^ 63) && vs.all (hasType e)
  | .slice _, .nilSlice => true
  | _, _ => false

/-- The zero value of a type. -/
def zeroValue : Ty → Value
  | .basic .Bool => .bool false
  | .basic .Int | .basic .Int8 | .basic .Int16 | .basic .Int32 | .basic .Int64 => .int 0
  | .basic .Uint | .basic .Uint8 | .basic .Uint16 | .basic .Uint32 | .basic .Uint64
  | .basic .Uintptr => .uint 0
  | .basic .Float32 | .basic .Float64 => .float 0
  | .basic .Complex64 | .basic .Complex128 => .complex 0 0
  | .basic .String => .str []
  | .basic _ => .other 0
  | .array n e => .array (List.replicate n (zeroValue e))
  | .slice _ => .nilSlice

mutual
/-- The value with every nil slice in it replaced by an empty slice. -/
def nilToEmpty : Value → Value
  | .array vs => .array (nilToEmptyList vs)
  | .slice vs => .slice (nilToEmptyList vs)
  | .nilSlice => .slice []
  | v => v
/-- Go `nilToEmpty` on every element. -/
def nilToEmptyList : List Value → List Value
  | [] => []
  | v :: vs => nilToEmpty v :: nilToEmptyList vs
end

/-! ## Bytes, big-endian integers and varints -/

/-- The `w` bytes of `n` modulo `256 ^ w`, most significant first
(`binary.BigEndian.PutUintXX`). -/
def bigEndian : Nat → Nat → List Nat
  | 0, _ => []
  | w + 1, n => (n / 256 ^ w % 256) :: bigEndian w n

/-- The number a big-endian byte string denotes (`binary.BigEndian.UintXX`). -/
def fromBigEndian (bs : List Nat) : Nat :=
  bs.foldl (fun acc b => acc * 256 + b) 0

/-- Conversion of a signed integer to the unsigned integer of `w` bytes with
the same bits. -/
def toUnsigned (w : Nat) (i : Int) : Nat := (i % (256 : Int) ^ w).toNat

/-- Conversion of an unsigned integer of `w` bytes to the signed integer with
the same bits. -/
def toSigned (w : Nat) (n : Nat) : Int :=
  if 2 * n < 256 ^ w then (n : Int) else (n : Int) - (256 : Int) ^ w

/-- The loop of `binary.PutUvarint`; `fuel` is the room left in the buffer of
`binary.MaxVarintLen64` bytes. -/
def putUvarint : Nat → Nat → List Nat
  | 0, _ => []
  | fuel + 1, x =>
    if x ≥ 0x80 then ((x % 256) ||| 0x80) :: putUvarint fuel (x >>> 7)
    else [x % 256]

/-- Go `encodeUvarint`; the argument is a `uint64`. -/
def encodeUvarint (n : Nat) : List Nat := putUvarint 10 (n % 2 ^ 64)

/-- The loop of `binary.ReadUvarint` from iteration `i` on, with accumulator `x`
and shift `s`, reading through `wrappedByteReader.ReadByte`; `fuel` is
`MaxVarintLen64 - i`.  Returns the number and the unread bytes. -/
def readUvarintLoop : Nat → Nat → Nat → Nat → List Nat → Except Err (Nat × List Nat)
  | 0, _, _, _, _ => .error .varintOverflow
  | _ + 1, i, _, _, [] => .error (if i > 0 then .unexpectedEOF else .eof)
  | fuel + 1, i, x, s, b :: r =>
    if b < 0x80 then
      if i = 9 ∧ b > 1 then .error .varintOverflow
      else .ok (x ||| (b <<< s), r)
    else readUvarintLoop fuel (i + 1) (x ||| ((b &&& 0x7f) <<< s)) (s + 7) r

/-- Go `binary.ReadUvarint`. -/
def ReadUvarint (r : List Nat) : Except Err (Nat × List Nat) :=
  readUvarintLoop 10 0 0 0 r

/-- The loop of `encodeUint64`: `k` is `i + 1`, so `k = 0` with `n > 0` is the
index -1, a run-time panic (`none`). -/
def encodeUint64Loop : Nat → Nat → List Nat → Option (List Nat)
  | 0, n, buf => if n > 0 then none else some buf
  | i + 1, n, buf =>
    if n > 0 then encodeUint64Loop i (n >>> 8) (buf.set i (n &&& 0xff))
    else some buf

/-- Go `encodeUint64`; the argument is a `uint64`, for which the loop stays
inside the buffer. -/
def encodeUint64 (n : Nat) : List Nat :=
  (encodeUint64Loop 8 (n % 2 ^ 64) (List.replicate 8 0)).getD (List.replicate 8 0)

/-- Go `io.ReadFull` for a buffer of `n` bytes. -/
def readFull (n : Nat) (r : List Nat) : Except Err (List Nat × List Nat) :=
  if n ≤ r.length then .ok (r.take n, r.drop n)
  else if r.length = 0 then .error .eof
  else .error .unexpectedEOF

/-- Go `decodeUint64`. -/
def decodeUint64 (r : List Nat) : Except Err (Nat × List Nat) :=
  match readFull 8 r with
  | .error e => .error e
  | .ok (buf, rest) =>
    .ok ((List.range 8).foldl
      (fun n i => n ||| ((buf.getD i 0) <<< (64 - (i + 1) * 8))) 0, rest)

/-- Go `encodeRowHeader`. -/
def encodeRowHeader (id size : Nat) : List Nat :=
  encodeUint64 id ++ encodeUvarint size

/-! ## The codec (`binary.go`) -/

/-- The boolean a value holds. -/
def Value.asBool : Value → Bool
  | .bool b => b
  | _ => false

/-- The signed integer a value holds. -/
def Value.asInt : Value → Int
  | .int i => i
  | _ => 0

/-- The unsigned integer, or the bits of the float, a value holds. -/
def Value.asUint : Value → Nat
  | .uint n => n
  | .float b => b
  | _ => 0

/-- The bits of the real part of a complex value. -/
def Value.asRe : Value → Nat
  | .complex r _ => r
  | _ => 0

/-- The bits of the imaginary part of a complex value. -/
def Value.asIm : Value → Nat
  | .complex _ i => i
  | _ => 0

/-- The `encoder.value` of package `encoding/binary` in big-endian order on a
value of a basic fixed-size kind. -/
def encodeBasic (k : Kind) (v : Value) : List Nat :=
  match k with
  | .Bool => [if v.asBool then 1 else 0]
  | .Int8 => bigEndian 1 (toUnsigned 1 v.asInt)
  | .Int16 => bigEndian 2 (toUnsigned 2 v.asInt)
  | .Int32 => bigEndian 4 (toUnsigned 4 v.asInt)
  | .Int64 => bigEndian 8 (toUnsigned 8 v.asInt)
  | .Uint8 => bigEndian 1 v.asUint
  | .Uint16 => bigEndian 2 v.asUint
  | .Uint32 => bigEndian 4 v.asUint
  | .Uint64 => bigEndian 8 v.asUint
  | .Float32 => bigEndian 4 v.asUint
  | .Float64 => bigEndian 8 v.asUint
  | .Complex64 => bigEndian 4 v.asRe ++ bigEndian 4 v.asIm
  | .Complex128 => bigEndian 8 v.asRe ++ bigEndian 8 v.asIm
  | _ => []

/-- The `encoder.value` of package `encoding/binary` in big-endian order: the
bytes of a fixed-size value. -/
def encodeFixed : Ty → Value → List Nat
  | .basic k, v => encodeBasic k v
  | .array _ e, .array vs => (vs.map (encodeFixed e)).flatten
  | _, _ => []

/-- The elements of a slice or array value; a nil slice has none. -/
def Value.elems : Value → List Value
  | .slice vs => vs
  | .array vs => vs
  | _ => []

/-- Go `binary.Write(buf, binary.BigEndian, data)`: `data` must be a fixed-size
value or a slice of fixed-size values. -/
def binaryWrite : Ty → Value → Except Err (List Nat)
  | .slice e, v =>
    match sizeof e with
    | none => .error .invalidType
    | some _ => .ok ((v.elems.map (encodeFixed e)).flatten)
  | t, v =>
    match sizeof t with
    | none => .error .invalidType
    | some _ => .ok (encodeFixed t v)

/-- The loop `for i := 0; i < fieldValueLength; i++` of `encodeToBinary`, with
`enc` the recursive call; the result is what the loop appends to `buf`. -/
def encodeEach (enc : Value → Except Err (List Nat)) :
    List Value → Except Err (List Nat)
  | [] => .ok []
  | v :: vs =>
    match enc v with
    | .error e => .error e
    | .ok bs =>
      match encodeEach enc vs with
      | .error e => .error e
      | .ok rest => .ok (bs ++ rest)

/-- The bytes of a string value. -/
def Value.asStr : Value → List Nat
  | .str s => s
  | _ => []

/-- Go `encodeToBinary`.  The result is the content of `buf` that the final
`buf.WriteTo(w)` appends to `w`; the returned count is the length of that
content.  A string is turned into a `[]byte`, whose bytes `binary.Write`
copies out after the length varint.  The value is of a type built from the
builtin basic types, so one of kind `String` is a `string`;
`GoType.encodeToBinary` is the function with the defined types kept apart. -/
def encodeToBinary : Ty → Value → Except Err (List Nat)
  | .basic k, v =>
    if k = .String then .ok (encodeUvarint v.asStr.length ++ v.asStr)
    else binaryWrite (.basic k) v
  | .array n e, v => binaryWrite (.array n e) v
  | .slice e, v =>
    if isVariableSizeType e then
      match encodeEach (encodeToBinary e) v.elems with
      | .error err => .error err
      | .ok body => .ok (encodeUvarint v.elems.length ++ body)
    else
      match binaryWrite (.slice e) v with
      | .error err => .error err
      | .ok body => .ok (encodeUvarint v.elems.length ++ body)

/-- The `decoder.value` loop over the `n` elements of an array. -/
def decodeFixedN (dec : List Nat → Value × List Nat) :
    Nat → List Nat → List Value × List Nat
  | 0, bs => ([], bs)
  | n + 1, bs =>
    let r := dec bs
    let rs := decodeFixedN dec n r.2
    (r.1 :: rs.1, rs.2)

/-- The `decoder.value` of package `encoding/binary` in big-endian order for a
basic fixed-size kind: the value at the front of the buffer and the rest of
the buffer. -/
def decodeBasic (k : Kind) (bs : List Nat) : Value × List Nat :=
  match k with
  | .Bool => (.bool (bs.headD 0 != 0), bs.drop 1)
  | .Int8 => (.int (toSigned 1 (fromBigEndian (bs.take 1))), bs.drop 1)
  | .Int16 => (.int (toSigned 2 (fromBigEndian (bs.take 2))), bs.drop 2)
  | .Int32 => (.int (toSigned 4 (fromBigEndian (bs.take 4))), bs.drop 4)
  | .Int64 => (.int (toSigned 8 (fromBigEndian (bs.take 8))), bs.drop 8)
  | .Uint8 => (.uint (fromBigEndian (bs.take 1)), bs.drop 1)
  | .Uint16 => (.uint (fromBigEndian (bs.take 2)), bs.drop 2)
  | .Uint32 => (.uint (fromBigEndian (bs.take 4)), bs.drop 4)
  | .Uint64 => (.uint (fromBigEndian (bs.take 8)), bs.drop 8)
  | .Float32 => (.float (fromBigEndian (bs.take 4)), bs.drop 4)
  | .Float64 => (.float (fromBigEndian (bs.take 8)), bs.drop 8)
  | .Complex64 =>
    (.complex (fromBigEndian (bs.take 4)) (fromBigEndian ((bs.drop 4).take 4)), bs.drop 8)
  | .Complex128 =>
    (.complex (fromBigEndian (bs.take 8)) (fromBigEndian ((bs.drop 8).take 8)), bs.drop 16)
  | _ => (.other 0, bs)

/-- The `decoder.value` of package `encoding/binary` in big-endian order: reads
a fixed-size value off the front of a buffer that is long enough. -/
def decodeFixed : Ty → List Nat → Value × List Nat
  | .basic k, bs => decodeBasic k bs
  | .array n e, bs =>
    let r := decodeFixedN (decodeFixed e) n bs
    (.array r.1, r.2)
  | .slice _, bs => (.nilSlice, bs)

/-- Go `binary.Read(r, binary.BigEndian, &x)` for `x` of fixed-size type `t`:
the value read and the unread bytes. -/
def binaryRead (t : Ty) (r : List Nat) : Except Err (Value × List Nat) :=
  match sizeof t with
  | none => .error .invalidType
  | some size =>
    match readFull size r with
    | .error e => .error e
    | .ok (buf, rest) => .ok ((decodeFixed t buf).1, rest)

/-- Go `binary.Read(r, binary.BigEndian, &x)` for `x` a slice of `n` elements
of fixed-size type `e`. -/
def binaryReadSlice (e : Ty) (n : Nat) (r : List Nat) : Except Err (List Value × List Nat) :=
  match sizeof e with
  | none => .error .invalidType
  | some size =>
    match readFull (size * n) r with
    | .error err => .error err
    | .ok (buf, rest) => .ok ((decodeFixedN (decodeFixed e) n buf).1, rest)

/-- The loop `for i := 0; i < fieldValueLength; i++` of `decodeFromBinary`,
with `dec` the recursive call: the elements, the bytes read and the unread
bytes. -/
def decodeEach (dec : List Nat → Except Err (Value × Nat × List Nat)) :
    Nat → List Nat → Except Err (List Value × Nat × List Nat)
  | 0, r => .ok ([], 0, r)
  | n + 1, r =>
    match dec r with
    | .error e => .error e
    | .ok (v, k, r1) =>
      match decodeEach dec n r1 with
      | .error e => .error e
      | .ok (vs, ks, r2) => .ok (v :: vs, k + ks, r2)

/-- The path of `decodeFromBinary` for a slice whose element type `e` is not
of variable size: the length varint, `reflect.MakeSlice` (which panics on a
negative length), then one `binary.Read` for the whole slice. -/
def decodeSliceFixed (e : Ty) (r : List Nat) : Except Err (List Value × Nat × List Nat) :=
  match ReadUvarint r with
  | .error err => .error err
  | .ok (length, r1) =>
    if length ≥ 2 ^ 63 then .error .panic
    else
      match binaryReadSlice e length r1 with
      | .error err => .error err
      | .ok (vs, rest) =>
        .ok (vs, (encodeUvarint length).length + (sizeof (.array length e)).getD 0, rest)

/-- The bytes of a decoded `[]byte`. -/
def bytesOf : List Value → List Nat
  | [] => []
  | .uint b :: vs => b :: bytesOf vs
  | _ :: vs => 0 :: bytesOf vs

/-- Go `decodeFromBinary` into a settable value of type `t`: on success the
value stored, the returned count of bytes read, and the bytes left unread in
the reader.  A string is decoded as a `[]byte` and converted.  The type is
built from the builtin basic types, so one of kind `String` is `string`;
`GoType.decodeFromBinary` is the function with the defined types kept apart. -/
def decodeFromBinary : Ty → List Nat → Except Err (Value × Nat × List Nat)
  | .basic k, r =>
    if k = .String then
      match decodeSliceFixed (.basic .Uint8) r with
      | .error err => .error err
      | .ok (vs, n, rest) => .ok (.str (bytesOf vs), n, rest)
    else
      match binaryRead (.basic k) r with
      | .error err => .error err
      | .ok (v, rest) => .ok (v, (sizeof (.basic k)).getD 0, rest)
  | .array n e, r =>
    match binaryRead (.array n e) r with
    | .error err => .error err
    | .ok (v, rest) => .ok (v, (sizeof (.array n e)).getD 0, rest)
  | .slice e, r =>
    if isVariableSizeType e then
      match ReadUvarint r with
      | .error err => .error err
      | .ok (length, r1) =>
        if length ≥ 2 ^ 63 then .error .panic
        else
          match decodeEach (decodeFromBinary e) length r1 with
          | .error err => .error err
          | .ok (vs, n, rest) => .ok (.slice vs, (encodeUvarint length).length + n, rest)
    else
      match decodeSliceFixed e r with
      | .error err => .error err
      | .ok (vs, n, rest) => .ok (.slice vs, n, rest)

/-! ## Struct types and the schema (`types.go`, `table_schema.go`) -/

/-- A struct field as `reflect.VisibleFields` lists it: `exported` is
`field.IsExported()` and `tag` is `field.Tag.Get(StructTag)`. -/
structure Field where
  name : String
  type : Ty
  exported : Bool
  tag : String
  deriving DecidableEq, Repr

/-- A struct type (`reflect.Type` of kind `Struct`). -/
structure StructType where
  name : String
  fields : List Field
  deriving DecidableEq, Repr

/-- A struct value: its type and the values of its fields in declaration
order. -/
structure Record where
  type : StructType
  vals : List Value

/-- What a caller passes where the package takes an `interface{}`. -/
inductive Iface
  | struct (r : Record)
  | ptr (r : Record)
  | other

/-- An `interface{}` holding a column value: its dynamic type and the value. -/
structure Dyn where
  type : Ty
  val : Value

/-- Byte-wise `a <= b` on the code points of two strings, the order of
`sort.Strings`. -/
def codesLe : List Nat → List Nat → Bool
  | [], _ => true
  | _ :: _, [] => false
  | a :: as, b :: bs => a < b || (a == b && codesLe as bs)

/-- Go `a <= b` on strings. -/
def strLe (a b : String) : Bool :=
  codesLe (a.data.map Char.toNat) (b.data.map Char.toNat)

/-- Insertion into a sorted list of strings. -/
def insertSorted (x : String) : List String → List String
  | [] => [x]
  | y :: ys => if strLe x y then x :: y :: ys else y :: insertSorted x ys

/-- Go `sort.Strings`. -/
def sortStrings : List String → List String
  | [] => []
  | x :: xs => insertSorted x (sortStrings xs)

/-- Go `getExportedFieldNames`. -/
def getExportedFieldNames (t : StructType) : List String :=
  sortStrings ((t.fields.filter (fun f => f.exported)).map (fun f => f.name))

/-- Go `getExportedIndexedFields`. -/
def getExportedIndexedFields (t : StructType) : List String :=
  sortStrings ((t.fields.filter (fun f => f.exported && f.tag == "indexed")).map
    (fun f => f.name))

/-- Go `Value.FieldByName`: the field called `name` and its value. -/
def fieldLookup : List Field → List Value → String → Option (Field × Value)
  | f :: fs, v :: vs, name => if f.name = name then some (f, v) else fieldLookup fs vs name
  | _, _, _ => none

/-- Assignment to the field called `name`. -/
def fieldSet : List Field → List Value → String → Value → List Value
  | f :: fs, v :: vs, name, x =>
    if f.name = name then x :: vs else v :: fieldSet fs vs name x
  | _, vs, _, _ => vs

/-- The loop of `encodeStructToBinary` over the field names. -/
def encodeFields (fields : List Field) (vals : List Value) :
    List String → Except Err (List Nat)
  | [] => .ok []
  | name :: names =>
    match fieldLookup fields vals name with
    | none => .error .panic
    | some (f, v) =>
      match encodeToBinary f.type v with
      | .error e => .error e
      | .ok bs =>
        match encodeFields fields vals names with
        | .error e => .error e
        | .ok rest => .ok (bs ++ rest)

/-- Go `encodeStructToBinary` on a struct value: the bytes written; the
returned count is their number. -/
def encodeStructToBinary (r : Record) : Except Err (List Nat) :=
  encodeFields r.type.fields r.vals (getExportedFieldNames r.type)

/-- The loop of `decodeStructFromBinary` over the field names: the field
values after the loop, the bytes read and the unread bytes. -/
def decodeFields (fields : List Field) :
    List String → List Value → List Nat → Except Err (List Value × Nat × List Nat)
  | [], vals, r => .ok (vals, 0, r)
  | name :: names, vals, r =>
    match fieldLookup fields vals name with
    | none => .error .panic
    | some (f, _) =>
      match decodeFromBinary f.type r with
      | .error e => .error e
      | .ok (v, n, r1) =>
        match decodeFields fields names (fieldSet fields vals name v) r1 with
        | .error e => .error e
        | .ok (vals', m, r2) => .ok (vals', n + m, r2)

/-- Go `decodeStructFromBinary` into the struct `dest` points to. -/
def decodeStructFromBinary (r : List Nat) (dest : Record) :
    Except Err (Record × Nat × List Nat) :=
  match decodeFields dest.type.fields (getExportedFieldNames dest.type) dest.vals r with
  | .error e => .error e
  | .ok (vals, n, rest) => .ok (⟨dest.type, vals⟩, n, rest)

/-- Go `tableSchema`. -/
structure tableSchema where
  dataType : StructType
  deriving DecidableEq, Repr

/-- Go `tableSchema.Reflect`: the schema of the struct value passed. -/
def tableSchema.Reflect (strct : Iface) : Except Err tableSchema :=
  match strct with
  | .struct r =>
    if r.type.fields.all (fun f => !f.exported || isValidColumnType f.type) then
      .ok ⟨r.type⟩
    else .error .schemaMismatch
  | _ => .error .schemaMismatch

/-- Go `tableSchema.Encode` into an empty buffer: the bytes written. -/
def tableSchema.Encode (schema : tableSchema) (e : Iface) : Except Err (List Nat) :=
  match e with
  | .ptr r => if r.type = schema.dataType then encodeStructToBinary r else .error .schemaMismatch
  | .struct r =>
    if r.type = schema.dataType then encodeStructToBinary r else .error .schemaMismatch
  | .other => .error .schemaMismatch

/-- Go `tableSchema.Decode`: the struct behind the pointer `e` after decoding,
the bytes read and the unread bytes. -/
def tableSchema.Decode (schema : tableSchema) (r : List Nat) (e : Iface) :
    Except Err (Record × Nat × List Nat) :=
  match e with
  | .ptr dest =>
    if dest.type = schema.dataType then decodeStructFromBinary r dest
    else .error .schemaMismatch
  | _ => .error .schemaMismatch

/-- The zero value of a struct type, as `reflect.New` allocates it. -/
def zeroRecord (t : StructType) : Record :=
  ⟨t, t.fields.map (fun f => zeroValue f.type)⟩

/-! ## Go maps -/

/-- Go `m[k]` with the comma-ok form. -/
def mapGet {κ β : Type} [DecidableEq κ] : List (κ × β) → κ → Option β
  | [], _ => none
  | (k', v) :: rest, k => if k' = k then some v else mapGet rest k

/-- Go `m[k] = v`. -/
def mapSet {κ β : Type} [DecidableEq κ] : List (κ × β) → κ → β → List (κ × β)
  | [], k, v => [(k, v)]
  | (k', v') :: rest, k, v =>
    if k' = k then (k, v) :: rest else (k', v') :: mapSet rest k v

/-- Go `delete(m, k)`. -/
def mapDelete {κ β : Type} [DecidableEq κ] (m : List (κ × β)) (k : κ) : List (κ × β) :=
  m.filter (fun p => decide (p.1 ≠ k))

/-! ## The byte source -/

/-- The content of the source after a `Write` of `bs` with the cursor at `pos`:
the bytes are overwritten in place, the file grows as needed and a gap
between the old end and `pos` reads as zeros. -/
def writeAt (data : List Nat) (pos : Nat) (bs : List Nat) : List Nat :=
  (data.take pos ++ List.replicate (pos - data.length) 0) ++ bs ++ data.drop (pos + bs.length)

/-- Conversion `int64(x)` of a `uint64`. -/
def toInt64 (n : Nat) : Int :=
  if n < 2 ^ 63 then (n : Int) else (n : Int) - 2 ^ 64

/-- The value of an `int64` sum: the exact sum wrapped into the 64-bit
range. -/
def wrapInt64 (x : Int) : Int := (x + 2 ^ 63) % 2 ^ 64 - 2 ^ 63

/-- Go `DeletedID`. -/
def DeletedID : Nat := 0

/-! ## The engine (`db*.go`)

The state is the schema, the content of the source and the two index maps.
The cursor of the source is not part of the state: every operation starts with
an absolute `Seek` before it reads or writes, so the cursor an operation leaves
behind is never observed. -/

/-- Go `DB`. -/
structure DB where
  schema : tableSchema
  source : List Nat
  index : List (Nat × Int)
  customIndices : List (String × List (Nat × Dyn))

/-- Go `DB.Has`. -/
def DB.Has (db : DB) (id : Nat) : Bool := (mapGet db.index id).isSome

/-- Go `DB.RowCount`. -/
def DB.RowCount (db : DB) : Nat := db.index.length

/-- Go `DB.Size`. -/
def DB.Size (db : DB) : Int := db.source.length

/-- The struct behind an `interface{}` after `reflect.Indirect`. -/
def Iface.record : Iface → Option Record
  | .struct r => some r
  | .ptr r => some r
  | .other => none

/-- The loop of `addToIndex` over `db.customIndices`: every custom index gets
the value of its field for `id`. -/
def setCustomIndices (value : Record) (id : Nat) :
    List (String × List (Nat × Dyn)) → Option (List (String × List (Nat × Dyn)))
  | [] => some []
  | (fieldName, customIndex) :: rest =>
    match fieldLookup value.type.fields value.vals fieldName with
    | none => none
    | some (f, v) =>
      match setCustomIndices value id rest with
      | none => none
      | some rest' => some ((fieldName, mapSet customIndex id ⟨f.type, v⟩) :: rest')

/-- Go `DB.addToIndex`; `decodeValue` is the result the callback would give.
A field missing from the value is a panic of `FieldByName(..).Interface()`. -/
def DB.addToIndex (db : DB) (id : Nat) (cursor : Int)
    (decodeValue : Except Err Iface) : DB × Option Err :=
  if db.customIndices.length > 0 then
    match decodeValue with
    | .error e => (db, some e)
    | .ok value =>
      match value.record with
      | none => (db, some .panic)
      | some rec =>
        match setCustomIndices rec id db.customIndices with
        | none => (db, some .panic)
        | some ci => ({ db with customIndices := ci, index := mapSet db.index id cursor }, none)
  else ({ db with index := mapSet db.index id cursor }, none)

/-- Go `DB.removeFromIndex`. -/
def DB.removeFromIndex (db : DB) (id : Nat) : DB :=
  { db with
    index := mapDelete db.index id
    customIndices := db.customIndices.map (fun p => (p.1, mapDelete p.2 id)) }

/-- Go `randUint64`: the next draw of the random source. -/
def randUint64 : List Nat → Option (Nat × List Nat)
  | [] => none
  | r :: rs => some (r % 2 ^ 64, rs)

/-- The loop of `newID` with the current `id`; `rands` are the draws the random
source will produce.  `none` when the loop is still running after the last of
them. -/
def newIDLoop (index : List (Nat × Int)) : Nat → List Nat → Option Nat
  | id, [] => if id = DeletedID then none else some id
  | id, r :: rs =>
    if id = DeletedID then
      let id' := r % 2 ^ 64
      if (mapGet index id').isSome then newIDLoop index id' rs
      else newIDLoop index id' rs
    else some id

/-- Go `DB.newID`. -/
def DB.newID (db : DB) (rands : List Nat) : Option Nat :=
  newIDLoop db.index DeletedID rands

/-- Go `DB.insert`. -/
def DB.insert (db : DB) (value : Iface) (id : Nat) : DB × Option Err :=
  -- Seek(0, io.SeekEnd)
  let cursor : Nat := db.source.length
  match db.schema.Encode value with
  | .error e => (db, some e)
  | .ok buf =>
    -- a bytes.Buffer panics with ErrTooLarge before its length leaves the range of int
    if buf.length ≥ 2 ^ 63 then (db, some .panic)
    else
      let rowHeader := encodeRowHeader id buf.length
      let src1 := writeAt db.source cursor rowHeader
      let src2 := writeAt src1 (cursor + rowHeader.length) buf
      DB.addToIndex { db with source := src2 } id cursor (.ok value)

/-- Go `DB.Insert`; `none` when `newID` does not return. -/
def DB.Insert (db : DB) (value : Iface) (rands : List Nat) : Option (DB × Except Err Nat) :=
  match db.newID rands with
  | none => none
  | some id =>
    match db.insert value id with
    | (db', some e) => some (db', .error e)
    | (db', none) => some (db', .ok id)

/-- Go `DB.drop`. -/
def DB.drop (db : DB) (id : Nat) : DB × Option Err :=
  if id = DeletedID then (db, some .notFound)
  else
    match mapGet db.index id with
    | none => (db, some .notFound)
    | some cursor =>
      if cursor < 0 then (db, some .invalidSeek)
      else
        let pos := cursor.toNat
        let src1 := writeAt db.source pos (encodeUint64 DeletedID)
        match ReadUvarint (src1.drop (pos + 8)) with
        | .error e => ({ db with source := src1 }, some e)
        | .ok (size, rest) =>
          if size ≥ 2 ^ 63 then ({ db with source := src1 }, some .panic)
          else
            let src2 := writeAt src1 (src1.length - rest.length) (List.replicate size 0)
            (DB.removeFromIndex { db with source := src2 } id, none)

/-- Go `DB.Drop`. -/
def DB.Drop (db : DB) (id : Nat) : DB × Option Err := db.drop id

/-- Go `DB.Update`. -/
def DB.Update (db : DB) (id : Nat) (value : Iface) : DB × Option Err :=
  match db.Drop id with
  | (db', some e) => (db', some e)
  | (db', none) => db'.insert value id

/-- Go `DB.decodeAt`: the struct behind `destPtr` after a successful decode. -/
def DB.decodeAt (db : DB) (cursor : Int) (destPtr : Iface) : Except Err Record :=
  if cursor + 8 < 0 then .error .invalidSeek
  else
    match ReadUvarint (db.source.drop (cursor + 8).toNat) with
    | .error e => .error e
    | .ok (_, r) =>
      match db.schema.Decode r destPtr with
      | .error e => .error e
      | .ok (rec, _, _) => .ok rec

/-- Go `DB.Find`: the struct behind `destPtr` after a successful call. -/
def DB.Find (db : DB) (id : Nat) (destPtr : Iface) : Except Err Record :=
  match mapGet db.index id with
  | none => .error .notFound
  | some cursor => db.decodeAt cursor destPtr

/-- Go `DB.Pop`: the state, the error and the struct behind `destPtr` after
the call.  Nothing is stored through `destPtr` before the final `Set`, which
panics when `destPtr` is not a pointer. -/
def DB.Pop (db : DB) (id : Nat) (destPtr : Iface) : DB × Option Err × Option Record :=
  match mapGet db.index id with
  | none => (db, some .notFound, destPtr.record)
  | some cursor =>
    match destPtr.record with
    | none => (db, some .schemaMismatch, none)
    | some dest =>
      let holdingPtr := Iface.ptr (zeroRecord dest.type)
      match db.decodeAt cursor holdingPtr with
      | .error e => (db, some e, some dest)
      | .ok held =>
        match db.drop id with
        | (db', some e) => (db', some e, some dest)
        | (db', none) =>
          match destPtr with
          | .ptr _ => (db', none, some held)
          | _ => (db', some .panic, some dest)

/-- Go `Row`. -/
structure Row where
  Value : Record
  ID : Nat

/-- IEEE-754 `==` on the bit patterns of two floats of `w` bytes with `m`
mantissa bits. -/
def floatEq (w m : Nat) (a b : Nat) : Bool :=
  let isNaN := fun x => decide (x / 2 ^ m % 2 ^ (8 * w - 1 - m) = 2 ^ (8 * w - 1 - m) - 1) &&
    decide (x % 2 ^ m ≠ 0)
  !isNaN a && !isNaN b && (a == b || (a % 2 ^ (8 * w - 1) == 0 && b % 2 ^ (8 * w - 1) == 0))

/-- Go `reflect.DeepEqual` on two values of the basic kind `k`. -/
def deepEqualBasic (k : Kind) (a b : Value) : Bool :=
  match k with
  | .Bool => a.asBool == b.asBool
  | .Int | .Int8 | .Int16 | .Int32 | .Int64 => a.asInt == b.asInt
  | .Uint | .Uint8 | .Uint16 | .Uint32 | .Uint64 | .Uintptr => a.asUint == b.asUint
  | .Float32 => floatEq 4 23 a.asUint b.asUint
  | .Float64 => floatEq 8 52 a.asUint b.asUint
  | .Complex64 => floatEq 4 23 a.asRe b.asRe && floatEq 4 23 a.asIm b.asIm
  | .Complex128 => floatEq 8 52 a.asRe b.asRe && floatEq 8 52 a.asIm b.asIm
  | .String => a.asStr == b.asStr
  | _ => false

/-- Pairwise comparison of two lists of the same length. -/
def all2 (eq : Value → Value → Bool) : List Value → List Value → Bool
  | [], [] => true
  | a :: as, b :: bs => eq a b && all2 eq as bs
  | _, _ => false

/-- A nil slice. -/
def Value.isNil : Value → Bool
  | .nilSlice => true
  | _ => false

/-- Go `reflect.DeepEqual` on two values of type `t`: a nil slice and an empty
slice are not deeply equal. -/
def deepEqualAt : Ty → Value → Value → Bool
  | .basic k, a, b => deepEqualBasic k a b
  | .array _ e, a, b => all2 (deepEqualAt e) a.elems b.elems
  | .slice e, a, b =>
    a.isNil == b.isNil && all2 (deepEqualAt e) a.elems b.elems

/-- Go `reflect.DeepEqual` on two `interface{}` values: values of different
types are never deeply equal. -/
def deepEqual (a b : Dyn) : Bool :=
  decide (a.type = b.type) && deepEqualAt a.type a.val b.val

/-- Go `matchesFilterQuery`; `query` lists the map in the order `range` visits
it.  A column that is not an exported field of the value is a panic of
`FieldByName(..).Interface()`. -/
def matchesFilterQuery (value : Record) : List (String × Dyn) → Except Err Bool
  | [] => .ok true
  | (columnName, columnValue) :: rest =>
    match fieldLookup value.type.fields value.vals columnName with
    | none => .error .panic
    | some (f, v) =>
      if !f.exported then .error .panic
      else if !deepEqual ⟨f.type, v⟩ columnValue then .ok false
      else matchesFilterQuery value rest

/-- The loop over `query` at the head of the body of `Filter`: `true` when
the row is skipped (`continue nextRow`). -/
def skipByIndex (customIndices : List (String × List (Nat × Dyn))) (id : Nat) :
    List (String × Dyn) → Bool
  | [] => false
  | (fieldName, queryValue) :: rest =>
    match mapGet customIndices fieldName with
    | some customIndex =>
      match mapGet customIndex id with
      | none => true
      | some indexedValue =>
        if !deepEqual queryValue indexedValue then true
        else skipByIndex customIndices id rest
    | none => skipByIndex customIndices id rest

/-- The loop of `Filter` over `db.index`, in the order of the list. -/
def filterLoop (db : DB) (query : List (String × Dyn)) :
    List (Nat × Int) → Except Err (List Row)
  | [] => .ok []
  | (id, cursor) :: rest =>
    if db.customIndices.length > 0 && skipByIndex db.customIndices id query then
      filterLoop db query rest
    else
      match db.decodeAt cursor (.ptr (zeroRecord db.schema.dataType)) with
      | .error e => .error e
      | .ok dest =>
        match matchesFilterQuery dest query with
        | .error e => .error e
        | .ok true =>
          match filterLoop db query rest with
          | .error e => .error e
          | .ok results => .ok (⟨dest, id⟩ :: results)
        | .ok false => filterLoop db query rest

/-- Go `DB.Filter`. -/
def DB.Filter (db : DB) (query : List (String × Dyn)) : Except Err (List Row) :=
  filterLoop db query db.index

/-- Go `io.CopyN(tempFile, db.source, n)` with the source cursor in front of
`r`: the bytes copied. -/
def copyN (r : List Nat) (n : Int) : Except Err (List Nat) :=
  if n ≤ 0 then .ok []
  else if n.toNat ≤ r.length then .ok (r.take n.toNat)
  else .error .eof

/-- The loop of `Defrag` over `db.index`, in the order of the list: the
content of the temporary file and the new index. -/
def defragLoop (source : List Nat) :
    List (Nat × Int) → List Nat → List (Nat × Int) → Int →
      Except Err (List Nat × List (Nat × Int))
  | [], tempFile, newIndex, _ => .ok (tempFile, newIndex)
  | (id, cursor) :: rest, tempFile, newIndex, offset =>
    if cursor + 8 < 0 then .error .invalidSeek
    else
      match ReadUvarint (source.drop (cursor + 8).toNat) with
      | .error e => .error e
      | .ok (size, r) =>
        let rowHeader := encodeRowHeader id size
        match copyN r (toInt64 size) with
        | .error e => .error e
        | .ok payload =>
          defragLoop source rest (tempFile ++ rowHeader ++ payload)
            (mapSet newIndex id offset) (offset + toInt64 size + rowHeader.length)

/-- Go `DB.Defrag`.  An error inside the loop leaves source and index as they
were. -/
def DB.Defrag (db : DB) : DB × Option Err :=
  match defragLoop db.source db.index [] [] 0 with
  | .error e => (db, some e)
  | .ok (tempFile, newIndex) =>
    -- io.Copy(db.source, tempFile) from offset 0, then Truncate(newSize)
    let newSize := tempFile.length
    ({ db with source := (writeAt db.source 0 tempFile).take newSize, index := newIndex }, none)

/-- The loop of `PopulateIndex` with the reader at `offset`; `fuel` bounds the
number of rows read, `none` when it runs out. -/
def populateLoop : Nat → Int → DB → Option (DB × Option Err)
  | 0, _, _ => none
  | fuel + 1, offset, db =>
    match decodeUint64 (db.source.drop offset.toNat) with
    | .error e => if e = .eof then some (db, none) else some (db, some e)
    | .ok (id, r1) =>
      match ReadUvarint r1 with
      | .error e => some (db, some e)
      | .ok (size, r2) =>
        let decodeValue : Except Err Iface :=
          match db.schema.Decode r2 (.ptr (zeroRecord db.schema.dataType)) with
          | .error e => .error e
          | .ok (rec, _, _) => .ok (.ptr rec)
        match db.addToIndex id offset decodeValue with
        | (db', some e) => some (db', some e)
        | (db', none) =>
          let rowHeaderSize : Int := ((encodeUvarint size).length : Int) + 8
          let offset' := wrapInt64 (offset + wrapInt64 (toInt64 size + rowHeaderSize))
          if offset' < 0 then some (db', some .invalidSeek)
          else populateLoop fuel offset' db'

/-- Go `DB.PopulateIndex`. -/
def DB.PopulateIndex (db : DB) (fuel : Nat) : Option (DB × Option Err) :=
  populateLoop fuel 0 { db with index := [] }

/-- Go `DB.ReflectSchema`. -/
def DB.ReflectSchema (db : DB) (value : Iface) : Except Err DB :=
  match tableSchema.Reflect value with
  | .error e => .error e
  | .ok schema =>
    match value.record with
    | none => .error .schemaMismatch
    | some r =>
      .ok { db with
        schema := schema
        customIndices := (getExportedIndexedFields r.type).map (fun fieldName => (fieldName, [])) }

/-- Go `NewDB`. -/
def NewDB (source : List Nat) (exampleValue : Iface) (fuel : Nat) :
    Option (Except Err DB) :=
  let db : DB := ⟨⟨⟨"", []⟩⟩, source, [], []⟩
  match db.ReflectSchema exampleValue with
  | .error e => some (.error e)
  | .ok db1 =>
    match db1.PopulateIndex fuel with
    | none => none
    | some (_, some e) => some (.error e)
    | some (db2, none) => some (.ok db2)

mutual
/-- Whether a nil slice occurs in the value. -/
def hasNil : Value → Bool
  | .array vs => hasNilList vs
  | .slice vs => hasNilList vs
  | .nilSlice => true
  | _ => false
/-- Whether a nil slice occurs in one of the values. -/
def hasNilList : List Value → Bool
  | [] => false
  | v :: vs => hasNil v || hasNilList vs
end

/-! ## Well-formed inputs and the on-disk layout -/

/-- The struct type is one a Go program can declare: its field names are
distinct. -/
def StructType.WF (t : StructType) : Prop := (t.fields.map (fun f => f.name)).Nodup

/-- The struct type passes `tableSchema.Reflect`: every exported field has a
valid column type. -/
def StructType.Valid (t : StructType) : Prop :=
  ∀ f ∈ t.fields, f.exported = true → isValidColumnType f.type = true

/-- Every value is a value of the type of its field. -/
def fieldsTyped : List Field → List Value → Prop
  | [], [] => True
  | f :: fs, v :: vs => hasType f.type v = true ∧ fieldsTyped fs vs
  | _, _ => False

/-- The record is a Go struct value: each field holds a value of its type. -/
def Record.WellTyped (r : Record) : Prop := fieldsTyped r.type.fields r.vals

/-- The argument is a Go value: a struct, or a pointer to one, is well typed. -/
def Iface.WellTyped : Iface → Prop
  | .struct r => r.WellTyped
  | .ptr r => r.WellTyped
  | .other => True

/-- What decoding the stored fields of `src` into `dest` leaves in `dest`: an
exported field gets the field of `src` with nil slices made empty, any other
field keeps the value `dest` had. -/
def mergeFields : List Field → List Value → List Value → List Value
  | f :: fs, s :: ss, d :: ds =>
    (if f.exported then nilToEmpty s else d) :: mergeFields fs ss ds
  | _, _, ds => ds

/-- The field values after decoding the fields called `names` of `src` into
`dest`. -/
def mergeBy (names : List String) : List Field → List Value → List Value → List Value
  | f :: fs, s :: ss, d :: ds =>
    (if f.name ∈ names then nilToEmpty s else d) :: mergeBy names fs ss ds
  | _, _, ds => ds

/-- The record `Find` leaves behind a pointer to `dest` when the row holds the
encoding of `src`. -/
def storedAs (src dest : Record) : Record :=
  ⟨dest.type, mergeFields dest.type.fields src.vals dest.vals⟩

/-- A decode result with `rest` appended to the unread bytes. -/
def withRest (rest : List Nat) :
    Except Err (List Value × Nat × List Nat) → Except Err (List Value × Nat × List Nat)
  | .error e => .error e
  | .ok (vs, n, r) => .ok (vs, n, r ++ rest)

/-- The record a decode leaves behind `dest`, without the byte count. -/
def decodeOnly (schema : tableSchema) (r : List Nat) (dest : Iface) : Except Err Record :=
  match schema.Decode r dest with
  | .error e => .error e
  | .ok (rec, _, _) => .ok rec

/-- The names are names of exported fields of valid column type. -/
def NamesOK (fs : List Field) (names : List String) : Prop :=
  ∀ n ∈ names, ∃ f ∈ fs, f.exported = true ∧ f.name = n ∧ isValidColumnType f.type = true

/-- A row of the log: its id field and its payload. -/
structure DiskRow where
  id : Nat
  payload : List Nat

/-- The bytes of a row: header, then payload. -/
def DiskRow.bytes (r : DiskRow) : List Nat :=
  encodeRowHeader r.id r.payload.length ++ r.payload

/-- The tombstone a row becomes: id zero and a payload of as many zero bytes. -/
def DiskRow.tombstone (r : DiskRow) : DiskRow :=
  ⟨DeletedID, List.replicate r.payload.length 0⟩

/-- The bytes of a log made of the given rows. -/
def layout (rows : List DiskRow) : List Nat := (rows.map DiskRow.bytes).flatten

/-- The row `r` of the log `rows` starts at byte offset `off`. -/
def RowAt (rows : List DiskRow) (off : Nat) (r : DiskRow) : Prop :=
  ∃ pre post, rows = pre ++ r :: post ∧ (layout pre).length = off

/-- The payload decodes by itself: what a decode stores does not depend on the
bytes after the payload, and a decode into a struct of the schema's type
succeeds. -/
def Decodable (schema : tableSchema) (payload : List Nat) : Prop :=
  (∀ (dest : Iface) (rest : List Nat),
    decodeOnly schema (payload ++ rest) dest = decodeOnly schema payload dest) ∧
  (∀ dest : Record, dest.type = schema.dataType →
    dest.vals.length = dest.type.fields.length →
    ∃ rec, decodeOnly schema payload (.ptr dest) = .ok rec)

/-- The payload was written for a record of the schema's type: it is the
encoding of such a record, or what `drop` made of one, as many zero bytes. -/
def RowPayload (schema : tableSchema) (p : List Nat) : Prop :=
  ∃ rec buf, rec.type = schema.dataType ∧ rec.WellTyped ∧
    encodeStructToBinary rec = .ok buf ∧ (p = buf ∨ p = List.replicate buf.length 0)

/-- The consistency of log and index: the source is a sequence of rows, each
written for a record of the schema's type, and every index entry points at
the start of a row that carries the entry's id and a payload that decodes. -/
structure Inv (db : DB) (rows : List DiskRow) : Prop where
  schemaWF : db.schema.dataType.WF
  schemaValid : db.schema.dataType.Valid
  custom : ∀ p ∈ db.customIndices, ∃ f ∈ db.schema.dataType.fields, f.name = p.1
  source : db.source = layout rows
  rowsWF : ∀ r ∈ rows, r.payload.length < 2 ^ 63
  keys : (db.index.map (fun p => p.1)).Nodup
  entries : ∀ p ∈ db.index, p.1 < 2 ^ 64 ∧ 0 ≤ p.2 ∧
    ∃ r, RowAt rows p.2.toNat r ∧ r.id = p.1 ∧ Decodable db.schema r.payload
  rowsOK : ∀ r ∈ rows, r.id < 2 ^ 64 ∧ RowPayload db.schema r.payload

/-- The states the engine can be in: opened on an empty source, then any calls
of `Insert`, `Drop`, `Update`, `Pop`, `Defrag` and `PopulateIndex` with Go
values as arguments, whatever they return, and any reopening of the source by
`NewDB` with the same record type.  `reorder` lets `range` visit the index in
any order.  `PopulateIndex` is run on sources a file can hold, shorter than
2^63 bytes. -/
inductive Reachable : DB → Prop
  | init (exampleValue : Record) (fuel : Nat) (db : DB) :
      exampleValue.type.WF →
      NewDB [] (.struct exampleValue) fuel = some (.ok db) → Reachable db
  | insert (db : DB) (value : Iface) (rands : List Nat) (db' : DB) (res : Except Err Nat) :
      Reachable db → value.WellTyped → db.Insert value rands = some (db', res) →
      Reachable db'
  | drop (db : DB) (id : Nat) : Reachable db → Reachable (db.Drop id).1
  | update (db : DB) (id : Nat) (value : Iface) :
      Reachable db → value.WellTyped → Reachable (db.Update id value).1
  | pop (db : DB) (id : Nat) (destPtr : Iface) : Reachable db → Reachable (db.Pop id destPtr).1
  | defrag (db : DB) : Reachable db → Reachable db.Defrag.1
  | reorder (db : DB) (l : List (Nat × Int)) :
      Reachable db → l.Perm db.index → Reachable { db with index := l }
  | populate (db : DB) (fuel : Nat) (db' : DB) (e : Option Err) :
      Reachable db → db.source.length < 2 ^ 63 →
      db.PopulateIndex fuel = some (db', e) → Reachable db'
  | reopen (db : DB) (exampleValue : Record) (fuel : Nat) (db' : DB) :
      Reachable db → db.source.length < 2 ^ 63 →
      exampleValue.type = db.schema.dataType →
      NewDB db.source (.struct exampleValue) fuel = some (.ok db') → Reachable db'

/-- The value is accepted by the schema: it is a Go struct of the schema's
type, or a pointer to one, and its encoding fits a `bytes.Buffer`. -/
def Accepted (schema : tableSchema) (value : Iface) : Prop :=
  value.WellTyped ∧ ∃ rec, value.record = some rec ∧ rec.type = schema.dataType ∧
    ∀ buf, encodeStructToBinary rec = .ok buf → buf.length < 2 ^ 63

/-- The row with id `id` and payload `payload` is in the log and indexed under
`id`. -/
def Stored (db : DB) (id : Nat) (payload : List Nat) : Prop :=
  ∃ rows off, Inv db rows ∧ mapGet db.index id = some off ∧ 0 ≤ off ∧
    RowAt rows off.toNat ⟨id, payload⟩

/-- A successful operation other than a `Drop`, `Update` or `Pop` of `id` and
other than an `Insert` that returns `id`. -/
inductive OtherStep (id : Nat) : DB → DB → Prop
  | insert (db db' : DB) (value : Iface) (rands : List Nat) (id' : Nat) :
      value.WellTyped → db.Insert value rands = some (db', .ok id') → id' ≠ id →
      OtherStep id db db'
  | drop (db db' : DB) (id' : Nat) :
      id' ≠ id → db.Drop id' = (db', none) → OtherStep id db db'
  | update (db db' : DB) (id' : Nat) (value : Iface) :
      id' ≠ id → value.WellTyped → db.Update id' value = (db', none) → OtherStep id db db'
  | pop (db db' : DB) (id' : Nat) (destPtr : Iface) (res : Option Record) :
      id' ≠ id → db.Pop id' destPtr = (db', none, res) → OtherStep id db db'

/-- The fields of `ds` that are not exported hold the values they hold in
`ss`. -/
def unexportedAgree : List Field → List Value → List Value → Prop
  | [], [], [] => True
  | f :: fs, s :: ss, d :: ds => (f.exported = false → d = s) ∧ unexportedAgree fs ss ds
  | _, _, _ => False

/-- The calls `Pop(id, dest)` for the destinations of the list, one after the
other: the final state and the error of each call. -/
def popAll (db : DB) (id : Nat) : List Iface → DB × List (Option Err)
  | [] => (db, [])
  | d :: ds =>
    let r := db.Pop id d
    let rest := popAll r.1 id ds
    (rest.1, r.2.1 :: rest.2)

/-! ## Fixtures -/

/-- The struct type `struct { Data []byte }`. -/
def blobType : StructType := ⟨"Blob", [⟨"Data", .slice (.basic .Uint8), true, ""⟩]⟩

/-- The struct type `struct { Data []byte }` with the column tagged
`simpledb:"indexed"`. -/
def indexedBlobType : StructType :=
  ⟨"Blob", [⟨"Data", .slice (.basic .Uint8), true, "indexed"⟩]⟩

/-- A fresh engine for `blobType` on an empty source. -/
def blobEmpty : DB := ⟨⟨blobType⟩, [], [], []⟩

/-- A fresh engine for `indexedBlobType` on an empty source. -/
def indexedBlobEmpty : DB := ⟨⟨indexedBlobType⟩, [], [], [("Data", [])]⟩

/-- The engine for `blobType` after the insert of `{Data: []byte{3}}` under the
id 9. -/
def blobNine : DB :=
  ⟨⟨blobType⟩, [0, 0, 0, 0, 0, 0, 0, 9, 2, 1, 3], [(9, 0)], []⟩

/-- The fewest bytes a value of the type is encoded in: the fixed size, or the
one byte of the length varint 0. -/
def minSize (t : Ty) : Nat :=
  if isVariableSizeType t then 1 else (sizeof t).getD 0

/-- A decode result that took `m` bytes off `k` zero bytes followed by
`rest`. -/
def zerosResult (m k : Nat) (rest : List Nat) :
    Except Err (List Value) → Except Err (List Value × Nat × List Nat)
  | .error e => .error e
  | .ok vals => .ok (vals, m, List.replicate (k - m) 0 ++ rest)

/-- The engine `blobNine` after `Drop(9)`: the log is one tombstone row. -/
def blobDropped : DB :=
  ⟨⟨blobType⟩, [0, 0, 0, 0, 0, 0, 0, 0, 2, 0, 0], [], []⟩

/-- The engine that `NewDB` opens on the log of `blobDropped`. -/
def blobReopened : DB :=
  ⟨⟨blobType⟩, [0, 0, 0, 0, 0, 0, 0, 0, 2, 0, 0], [(0, 0)], []⟩

/-- The loop of `encodeStructToBinary` with its counter: `w` is what has been
written so far and `bytesWritten` the running count; each call of
`encodeToBinary` returns the number of bytes it wrote. -/
def encodeFieldsN (fields : List Field) (vals : List Value) :
    List String → List Nat → Nat → Except Err (List Nat × Nat)
  | [], w, bytesWritten => .ok (w, bytesWritten)
  | name :: names, w, bytesWritten =>
    match fieldLookup fields vals name with
    | none => .error .panic
    | some (f, v) =>
      match encodeToBinary f.type v with
      | .error e => .error e
      | .ok bs => encodeFieldsN fields vals names (w ++ bs) (bytesWritten + bs.length)

/-- Go `tableSchema.Encode` into an empty buffer: the content of the buffer and
the count returned. -/
def tableSchema.EncodeN (schema : tableSchema) (e : Iface) : Except Err (List Nat × Nat) :=
  match e with
  | .ptr r =>
    if r.type = schema.dataType then
      encodeFieldsN r.type.fields r.vals (getExportedFieldNames r.type) [] 0
    else .error .schemaMismatch
  | .struct r =>
    if r.type = schema.dataType then
      encodeFieldsN r.type.fields r.vals (getExportedFieldNames r.type) [] 0
    else .error .schemaMismatch
  | .other => .error .schemaMismatch

/-- The field values of a record after a trip through the codec into a fresh
struct: an exported field comes back with its nil slices made empty, any other
field is the zero value of its type. -/
def decodedVals : List Field → List Value → List Value
  | f :: fs, v :: vs =>
    (if f.exported then nilToEmpty v else zeroValue f.type) :: decodedVals fs vs
  | _, _ => []

/-- The struct type `Person` of `table_schema_test.go`. -/
def personType : StructType :=
  ⟨"Person",
    [⟨"private", .basic .Uint, false, ""⟩,
     ⟨"Name", .basic .String, true, ""⟩,
     ⟨"Arr", .array 4 (.basic .Uint8), true, ""⟩,
     ⟨"Ints", .slice (.basic .Uint16), true, ""⟩,
     ⟨"Age", .basic .Uint32, true, ""⟩,
     ⟨"Data", .slice (.basic .Uint8), true, ""⟩,
     ⟨"Empty", .slice (.basic .Uint8), true, ""⟩,
     ⟨"Strings", .slice (.basic .String), true, ""⟩]⟩

/-- The value `person` of `table_schema_test.go`. -/
def person : Record :=
  ⟨personType,
    [.uint 20,
     .str [98, 111, 98],
     .array [.uint 1, .uint 2, .uint 3, .uint 4],
     .slice [.uint 0xffff, .uint 8],
     .uint 20,
     .slice [.uint 1, .uint 2, .uint 3, .uint 4],
     .nilSlice,
     .slice [.str [119, 101, 108, 99, 111, 109, 101], .str [104, 111, 109, 101]]]⟩

/-- The bytes of the hexadecimal string `expectedHex` of `table_schema_test.go`. -/
def expectedPersonBytes : List Nat :=
  [0x00, 0x00, 0x00, 0x14, 0x01, 0x02, 0x03, 0x04, 0x04, 0x01, 0x02, 0x03, 0x04, 0x00,
   0x02, 0xff, 0xff, 0x00, 0x08, 0x03, 0x62, 0x6f, 0x62, 0x02, 0x07, 0x77, 0x65, 0x6c,
   0x63, 0x6f, 0x6d, 0x65, 0x04, 0x68, 0x6f, 0x6d, 0x65]

/-- The basic kinds of fixed size the specification lists: booleans, signed
and unsigned integers of 8, 16, 32 and 64 bits, floats and complex numbers. -/
def isSizedKind : Kind → Bool
  | .Bool => true
  | .Int8 | .Int16 | .Int32 | .Int64 => true
  | .Uint8 | .Uint16 | .Uint32 | .Uint64 => true
  | .Float32 | .Float64 | .Complex64 | .Complex128 => true
  | _ => false

/-- A fixed-size type in the words of the specification: one of the sized
basic kinds, or an array whose element type is of fixed size. -/
def fixedSizeSpec : Ty → Bool
  | .basic k => isSizedKind k
  | .array _ e => fixedSizeSpec e
  | .slice _ => false

/-- A valid column type in the words of the specification: a string, a slice
of a valid type, one of the sized basic kinds, or an array whose element type
is of fixed size. -/
def validColumnSpec : Ty → Bool
  | .basic k => decide (k = .String) || isSizedKind k
  | .slice e => validColumnSpec e
  | .array _ e => fixedSizeSpec e

/-- The number that the `w` bytes of a boolean or an integer represent: 0 or 1
for a boolean, the integer itself when it is unsigned, and its residue modulo
`2 ^ (8 * w)`, the two's complement, when it is signed. -/
def representedNat (w : Nat) : Value → Nat
  | .bool b => if b then 1 else 0
  | .int i => (i % 2 ^ (8 * w)).toNat
  | .uint n => n
  | _ => 0

/-- Go `reflect.Value.Len` on a string, a slice or an array: the number of
bytes of the string, the number of elements otherwise. -/
def Value.len : Value → Nat
  | .str s => s.length
  | .slice vs => vs.length
  | .array vs => vs.length
  | _ => 0

/-- The index a scan of the rows of a log builds on top of `index`, the first
of the rows starting at offset `off`: every row, in the order of the log, is
entered under its id at its offset. -/
def scanIndex : List DiskRow → Nat → List (Nat × Int) → List (Nat × Int)
  | [], _, index => index
  | r :: rows, off, index =>
    scanIndex rows (off + r.bytes.length) (mapSet index r.id (off : Int))

/-! ## Iteration (`db_iterate.go`) -/

/-- The state a generator returned by `Iterate` closes over: the snapshot `ids`
and the position `i`. -/
structure RowGenerator where
  ids : List Nat
  i : Nat

/-- Go `DB.Iterate`: the ids of the index in the order `range` visits them, and
the position 0. -/
def DB.Iterate (db : DB) : RowGenerator := ⟨db.index.map (fun p => p.1), 0⟩

/-- The closure `iter` of `Iterate`, called at position `i` with `ids[i:]` as
its first argument and with `locked` telling whether `db.mutex` is held, as it
is when `iter` calls itself.  The result is the new position and what the call
returns; `none` when the call never returns, which is what `db.mutex.Lock()`
does on a mutex that is held. -/
def iterFrom (db : DB) : List Nat → Nat → Bool → Option (Nat × Except Err (Option Row))
  | [], i, _ => some (i, .ok none)
  | id :: rest, i, locked =>
    if locked then none
    else
      match mapGet db.index id with
      | none => iterFrom db rest (i + 1) true
      | some cursor =>
        match db.decodeAt cursor (.ptr (zeroRecord db.schema.dataType)) with
        | .error e => some (i, .error e)
        | .ok rec => some (i + 1, .ok (some ⟨rec, id⟩))

/-- A call of the generator on the engine in state `db`: the generator
afterwards and what the call returns, `none` when it never returns. -/
def RowGenerator.call (g : RowGenerator) (db : DB) :
    Option (RowGenerator × Except Err (Option Row)) :=
  match iterFrom db (g.ids.drop g.i) g.i false with
  | none => none
  | some (i, res) => some (⟨g.ids, i⟩, res)

/-- The first `n` calls of the generator, with no other operation in between:
the generator afterwards and what the calls returned. -/
def RowGenerator.calls (db : DB) : Nat → RowGenerator →
    Option (RowGenerator × List (Except Err (Option Row)))
  | 0, g => some (g, [])
  | n + 1, g =>
    match g.call db with
    | none => none
    | some (g1, res) =>
      match RowGenerator.calls db n g1 with
      | none => none
      | some (g2, rest) => some (g2, res :: rest)

/-- The engine for `blobType` after the inserts of `{Data: []byte{3}}` under the
id 9 and of `{Data: []byte{7}}` under the id 5. -/
def blobTwo : DB :=
  ⟨⟨blobType⟩, [0, 0, 0, 0, 0, 0, 0, 9, 2, 1, 3, 0, 0, 0, 0, 0, 0, 0, 5, 2, 1, 7],
    [(9, 0), (5, 11)], []⟩

/-- A scan of a log from its start: an 8-byte id, a size varint and as many
payload bytes as the size says, row after row until the bytes end exactly at a
row boundary.  `none` when they do not, or when `fuel` rows were not enough. -/
def scanLog : Nat → List Nat → Option (List DiskRow)
  | 0, _ => none
  | _ + 1, [] => some []
  | fuel + 1, b :: bs =>
    match decodeUint64 (b :: bs) with
    | .error _ => none
    | .ok (id, r1) =>
      match ReadUvarint r1 with
      | .error _ => none
      | .ok (size, r2) =>
        if size ≤ r2.length then
          match scanLog fuel (r2.drop size) with
          | none => none
          | some rows => some (⟨id, r2.take size⟩ :: rows)
        else none

/-- The engine `blobNine` after a second `Insert` for which the random source
drew the id 9 again. -/
def blobCollided : DB :=
  ⟨⟨blobType⟩, [0, 0, 0, 0, 0, 0, 0, 9, 2, 1, 3, 0, 0, 0, 0, 0, 0, 0, 9, 2, 1, 7],
    [(9, 11)], []⟩

/-! ## A source that fails -/

/-- Where the source fails during an `insert`, if it does: in the `Seek` to the
end, in the `Write` of the row header after `written` bytes, or in the write of
the payload after `written` bytes; `e` is the error the source returns. -/
inductive InsertFault
  | none
  | seek (e : Err)
  | header (written : Nat) (e : Err)
  | payload (written : Nat) (e : Err)

/-- Go `DB.insert` on a source that may fail as `fault` says. -/
def DB.insertIO (db : DB) (fault : InsertFault) (value : Iface) (id : Nat) : DB × Option Err :=
  -- Seek(0, io.SeekEnd)
  let cursor : Nat := db.source.length
  match fault with
  | .seek e => (db, some e)
  | _ =>
    match db.schema.Encode value with
    | .error e => (db, some e)
    | .ok buf =>
      if buf.length ≥ 2 ^ 63 then (db, some .panic)
      else
        let rowHeader := encodeRowHeader id buf.length
        match fault with
        | .header written e =>
          ({ db with source := writeAt db.source cursor (rowHeader.take written) }, some e)
        | .payload written e =>
          let src1 := writeAt db.source cursor rowHeader
          ({ db with source := writeAt src1 (cursor + rowHeader.length) (buf.take written) },
            some e)
        | _ =>
          let src1 := writeAt db.source cursor rowHeader
          let src2 := writeAt src1 (cursor + rowHeader.length) buf
          DB.addToIndex { db with source := src2 } id cursor (.ok value)

/-- Go `DB.Insert` on a source that may fail, with both values it returns: the
id and the error.  `none` when `newID` does not return. -/
def DB.InsertIO (db : DB) (fault : InsertFault) (value : Iface) (rands : List Nat) :
    Option (DB × Nat × Option Err) :=
  match db.newID rands with
  | none => none
  | some id =>
    match db.insertIO fault value id with
    | (db', some e) => some (db', DeletedID, some e)
    | (db', none) => some (db', id, none)

/-! ## Inputs that are not the encoder's output -/

/-- The varint of `2 ^ 63` in ten bytes, the least length that is negative as a
Go `int`. -/
def varintMinInt : List Nat := [0x80, 0x80, 0x80, 0x80, 0x80, 0x80, 0x80, 0x80, 0x80, 0x01]

/-- The varint of `2 ^ 64 - 1` in ten bytes; as a Go `int` the number is -1. -/
def varintMinusOne : List Nat := [0xff, 0xff, 0xff, 0xff, 0xff, 0xff, 0xff, 0xff, 0xff, 0x01]

/-- A log of 18 bytes: the id 1 and the size varint of `2 ^ 64 - 18`, with no
payload behind. -/
def loopLog : List Nat :=
  [0, 0, 0, 0, 0, 0, 0, 1, 0xee, 0xff, 0xff, 0xff, 0xff, 0xff, 0xff, 0xff, 0xff, 0x01]

/-- An engine for `blobType` on the source `loopLog`, before `PopulateIndex`. -/
def loopDB : DB := ⟨⟨blobType⟩, loopLog, [], []⟩

/-- No size varint that can be read anywhere in the bytes is `2 ^ 63` or
more. -/
def SizesFit (source : List Nat) : Prop :=
  ∀ (k size : Nat) (r : List Nat), ReadUvarint (source.drop k) = .ok (size, r) → size < 2 ^ 63

/-! ## Defined types

`Ty` holds what `Kind()` and `Elem()` show of a type, and the definitions above
are the package on values of the types built from Go's builtin basic types.
The codec of `binary.go` looks at the type itself, not only at its kind, in
two places, both for strings: the assertion `fieldValueInterface.(string)` in
`encodeToBinary` and the `fieldValue.Set(reflect.ValueOf(string(data)))` in
`decodeFromBinary`.  The definitions below keep a defined type such as
`type Email string` apart from `string`. -/

/-- A Go type with the identity of its basic types: `named` is true for a
defined type, such as `type Email string`, whose `Kind()` is the kind of its
underlying type but which is not the builtin type of that kind. -/
inductive GoType
  | basic (k : Kind) (named : Bool)
  | array (n : Nat) (elem : GoType)
  | slice (elem : GoType)
  deriving DecidableEq, Repr

/-- What `Kind()` and `Elem()` show of the type. -/
def GoType.ty : GoType → Ty
  | .basic k _ => .basic k
  | .array n e => .array n e.ty
  | .slice e => .slice e.ty

/-- Whether a defined type of kind `String` occurs in the type. -/
def GoType.hasDefinedString : GoType → Bool
  | .basic k named => decide (k = .String) && named
  | .array _ e => e.hasDefinedString
  | .slice e => e.hasDefinedString

/-- Go `encodeToBinary` on a value of type `t`.  The assertion
`fieldValueInterface.(string)` holds for the type `string` only; a value of a
defined string type stays as it is and is handed to `binary.Write`, which
takes no strings.  Everywhere else the function goes by the kind. -/
def GoType.encodeToBinary : GoType → Value → Except Err (List Nat)
  | .basic k named, v =>
    if k = .String then
      if named then binaryWrite (.basic .String) v
      else .ok (encodeUvarint v.asStr.length ++ v.asStr)
    else binaryWrite (.basic k) v
  | .array n e, v => binaryWrite (.array n e.ty) v
  | .slice e, v =>
    if isVariableSizeType e.ty then
      match encodeEach (GoType.encodeToBinary e) v.elems with
      | .error err => .error err
      | .ok body => .ok (encodeUvarint v.elems.length ++ body)
    else
      match binaryWrite (.slice e.ty) v with
      | .error err => .error err
      | .ok body => .ok (encodeUvarint v.elems.length ++ body)

/-- Go `decodeFromBinary` into a settable value of type `t`.  For a type of
kind `String` the bytes are decoded into a `[]byte` and the field is then set
to a value of type `string`, whatever the decoding returned; `Set` panics when
the field is of a defined string type, to which a `string` is not
assignable. -/
def GoType.decodeFromBinary : GoType → List Nat → Except Err (Value × Nat × List Nat)
  | .basic k named, r =>
    if k = .String then
      if named then .error .panic
      else
        match decodeSliceFixed (.basic .Uint8) r with
        | .error err => .error err
        | .ok (vs, n, rest) => .ok (.str (bytesOf vs), n, rest)
    else
      match binaryRead (.basic k) r with
      | .error err => .error err
      | .ok (v, rest) => .ok (v, (sizeof (.basic k)).getD 0, rest)
  | .array n e, r =>
    match binaryRead (.array n e.ty) r with
    | .error err => .error err
    | .ok (v, rest) => .ok (v, (sizeof (.array n e.ty)).getD 0, rest)
  | .slice e, r =>
    if isVariableSizeType e.ty then
      match ReadUvarint r with
      | .error err => .error err
      | .ok (length, r1) =>
        if length ≥ 2 ^ 63 then .error .panic
        else
          match decodeEach (GoType.decodeFromBinary e) length r1 with
          | .error err => .error err
          | .ok (vs, n, rest) => .ok (.slice vs, (encodeUvarint length).length + n, rest)
    else
      match decodeSliceFixed e.ty r with
      | .error err => .error err
      | .ok (vs, n, rest) => .ok (.slice vs, n, rest)

/-- A struct field with its type kept. -/
structure GoField where
  name : String
  type : GoType
  exported : Bool
  tag : String
  deriving DecidableEq, Repr

/-- The field as the functions that go by the kind see it. -/
def GoField.field (f : GoField) : Field := ⟨f.name, f.type.ty, f.exported, f.tag⟩

/-- A struct type with the types of its fields kept. -/
structure GoStructType where
  name : String
  fields : List GoField
  deriving DecidableEq, Repr

/-- The struct type as the functions that go by the kind see it. -/
def GoStructType.structType (t : GoStructType) : StructType :=
  ⟨t.name, t.fields.map GoField.field⟩

/-- A struct value of such a type. -/
structure GoRecord where
  type : GoStructType
  vals : List Value

/-- The struct value as the functions that go by the kind see it. -/
def GoRecord.record (r : GoRecord) : Record := ⟨r.type.structType, r.vals⟩

/-- Go `Value.FieldByName` on such a struct value. -/
def GoField.lookup : List GoField → List Value → String → Option (GoField × Value)
  | f :: fs, v :: vs, name => if f.name = name then some (f, v) else GoField.lookup fs vs name
  | _, _, _ => none

/-- The loop of `encodeStructToBinary` over the field names. -/
def GoField.encodeFields (fields : List GoField) (vals : List Value) :
    List String → Except Err (List Nat)
  | [] => .ok []
  | name :: names =>
    match GoField.lookup fields vals name with
    | none => .error .panic
    | some (f, v) =>
      match f.type.encodeToBinary v with
      | .error e => .error e
      | .ok bs =>
        match GoField.encodeFields fields vals names with
        | .error e => .error e
        | .ok rest => .ok (bs ++ rest)

/-- Go `encodeStructToBinary` on a struct value whose field types are kept. -/
def GoRecord.encodeStructToBinary (r : GoRecord) : Except Err (List Nat) :=
  GoField.encodeFields r.type.fields r.vals (getExportedFieldNames r.type.structType)

/-- The loop of `decodeStructFromBinary` over the field names. -/
def GoField.decodeFields (fields : List GoField) :
    List String → List Value → List Nat → Except Err (List Value × Nat × List Nat)
  | [], vals, r => .ok (vals, 0, r)
  | name :: names, vals, r =>
    match GoField.lookup fields vals name with
    | none => .error .panic
    | some (f, _) =>
      match f.type.decodeFromBinary r with
      | .error e => .error e
      | .ok (v, n, r1) =>
        match GoField.decodeFields fields names
            (fieldSet (fields.map GoField.field) vals name v) r1 with
        | .error e => .error e
        | .ok (vals', m, r2) => .ok (vals', n + m, r2)

/-- Go `decodeStructFromBinary` into the struct `dest` points to. -/
def GoRecord.decodeStructFromBinary (r : List Nat) (dest : GoRecord) :
    Except Err (GoRecord × Nat × List Nat) :=
  match GoField.decodeFields dest.type.fields (getExportedFieldNames dest.type.structType)
      dest.vals r with
  | .error e => .error e
  | .ok (vals, n, rest) => .ok (⟨dest.type, vals⟩, n, rest)

/-- Go `tableSchema`, with the types of the fields kept. -/
structure GoSchema where
  dataType : GoStructType
  deriving DecidableEq, Repr

/-- Go `tableSchema.Reflect` on a struct value: `isValidColumnType` goes by the
kind of each exported field. -/
def GoSchema.Reflect (strct : GoRecord) : Except Err GoSchema :=
  if strct.type.fields.all (fun f => !f.exported || isValidColumnType f.type.ty) then
    .ok ⟨strct.type⟩
  else .error .schemaMismatch

/-- Go `tableSchema.Encode` on a struct value, or on a pointer to it. -/
def GoSchema.Encode (schema : GoSchema) (e : GoRecord) : Except Err (List Nat) :=
  if e.type = schema.dataType then e.encodeStructToBinary else .error .schemaMismatch

/-- Go `tableSchema.Decode` on a pointer to the struct `dest`. -/
def GoSchema.Decode (schema : GoSchema) (r : List Nat) (dest : GoRecord) :
    Except Err (GoRecord × Nat × List Nat) :=
  if dest.type = schema.dataType then GoRecord.decodeStructFromBinary r dest
  else .error .schemaMismatch

/-- The zero value of the struct type, as `reflect.New` allocates it. -/
def GoStructType.zero (t : GoStructType) : GoRecord :=
  ⟨t, t.fields.map (fun f => zeroValue f.type.ty)⟩

/-- The struct type `type T struct { E Email }` with `type Email string`. -/
def emailType : GoStructType := ⟨"T", [⟨"E", .basic .String true, true, ""⟩]⟩

/-- The value `T{E: "x"}`. -/
def emailRecord : GoRecord := ⟨emailType, [.str [120]]⟩


/-! ## Lemmas on bytes and varints -/

set_option maxRecDepth 1000000 in
theorem lor_128 : ∀ y, y < 256 → 128 ≤ (y ||| 128) ∧ (y ||| 128) &&& 127 = y % 128 := by
  decide

theorem lor_shift_eq_add (acc b s : Nat) (h : acc < 2 ^ s) :
    acc ||| (b <<< s) = acc + b * 2 ^ s := by
  rw [Nat.lor_comm, Nat.shiftLeft_eq, Nat.mul_comm, ← Nat.mul_add_lt_is_or h, Nat.add_comm]

theorem readUvarintLoop_putUvarint (fuel : Nat) :
    ∀ (i x acc : Nat) (rest : List Nat), i + fuel = 10 → 1 ≤ fuel →
      x * 2 ^ (7 * i) < 2 ^ 64 → acc < 2 ^ (7 * i) →
      readUvarintLoop fuel i acc (7 * i) (putUvarint fuel x ++ rest)
        = .ok (acc + x * 2 ^ (7 * i), rest) := by
  induction fuel with
  | zero => intro i x acc rest _ h; omega
  | succ fuel ih =>
    intro i x acc rest hi _ hx hacc
    have hpow : (2:Nat) ^ (7 * (i + 1)) = 2 ^ (7 * i) * 128 := by
      rw [Nat.mul_add, Nat.pow_add]
    have hpos : 0 < 2 ^ (7 * i) := Nat.pow_pos (by decide)
    by_cases hge : x ≥ 0x80
    · have hb := lor_128 (x % 256) (Nat.mod_lt _ (by decide))
      have hi9 : i < 9 := by
        by_contra hcon
        have h9 : i = 9 := by omega
        subst h9
        have : x * 2 ^ 63 ≥ 128 * 2 ^ 63 := Nat.mul_le_mul_right _ hge
        norm_num at hx this
        omega
      simp only [putUvarint, hge, if_true, List.cons_append, readUvarintLoop]
      rw [if_neg (by omega)]
      have hmod : x % 256 % 128 = x % 128 := by omega
      rw [hb.2, hmod, lor_shift_eq_add _ _ _ hacc]
      have hs : 7 * i + 7 = 7 * (i + 1) := by ring
      have h7 : (2:Nat) ^ 7 = 128 := by norm_num
      rw [hs, Nat.shiftRight_eq_div_pow, h7]
      have hx' : x / 128 * 2 ^ (7 * (i + 1)) < 2 ^ 64 := by
        rw [hpow]
        calc x / 128 * (2 ^ (7 * i) * 128) = (x / 128 * 128) * 2 ^ (7 * i) := by ring
          _ ≤ x * 2 ^ (7 * i) := Nat.mul_le_mul_right _ (Nat.div_mul_le_self x 128)
          _ < 2 ^ 64 := hx
      have hacc' : acc + x % 128 * 2 ^ (7 * i) < 2 ^ (7 * (i + 1)) := by
        rw [hpow]
        have : x % 128 < 128 := Nat.mod_lt _ (by decide)
        nlinarith
      rw [ih (i + 1) (x / 128) _ rest (by omega) (by omega) hx' hacc']
      congr 2
      rw [hpow]
      have := Nat.div_add_mod x 128
      nlinarith
    · have hlt : x < 128 := by omega
      have hmod : x % 256 = x := Nat.mod_eq_of_lt (by omega)
      simp only [putUvarint, hge, if_false, List.singleton_append, readUvarintLoop, hmod]
      rw [if_pos hlt, if_neg, lor_shift_eq_add _ _ _ hacc]
      rintro ⟨h9, h1⟩
      subst h9
      have : x * 2 ^ 63 ≥ 2 * 2 ^ 63 := Nat.mul_le_mul_right _ h1
      norm_num at hx this
      omega

/-- Reading back a varint written by `encodeUvarint`. -/
theorem ReadUvarint_encodeUvarint (n : Nat) (h : n < 2 ^ 64) (rest : List Nat) :
    ReadUvarint (encodeUvarint n ++ rest) = .ok (n, rest) := by
  unfold ReadUvarint encodeUvarint
  rw [Nat.mod_eq_of_lt h]
  have := readUvarintLoop_putUvarint 10 0 n 0 rest (by rfl) (by decide) (by simpa using h)
    (by simp)
  simpa using this

theorem fromBigEndian_foldl (w : Nat) : ∀ (n acc : Nat) (rest : List Nat),
    (bigEndian w n ++ rest).foldl (fun a b => a * 256 + b) acc
      = rest.foldl (fun a b => a * 256 + b) (acc * 256 ^ w + n % 256 ^ w) := by
  induction w with
  | zero => intro n acc rest; simp [bigEndian, Nat.mod_one]
  | succ w ih =>
    intro n acc rest
    simp only [bigEndian, List.cons_append, List.foldl_cons]
    rw [ih]
    congr 1
    rw [Nat.mod_pow_succ]
    ring

theorem bigEndian_length (w n : Nat) : (bigEndian w n).length = w := by
  induction w with
  | zero => rfl
  | succ w ih => simp [bigEndian, ih]

theorem fromBigEndian_bigEndian (w n : Nat) :
    fromBigEndian (bigEndian w n) = n % 256 ^ w := by
  have := fromBigEndian_foldl w n 0 []
  simpa [fromBigEndian] using this

theorem take_bigEndian (w n : Nat) (rest : List Nat) :
    (bigEndian w n ++ rest).take w = bigEndian w n := by
  rw [List.take_append_of_le_length (by rw [bigEndian_length])]
  rw [List.take_of_length_le (by rw [bigEndian_length])]

theorem drop_bigEndian (w n : Nat) (rest : List Nat) :
    (bigEndian w n ++ rest).drop w = rest := by
  have := List.drop_left (bigEndian w n) rest
  rwa [bigEndian_length] at this


/-! ## Round trip of fixed-size values -/

theorem isFixedSizeType_sizeof (t : Ty) (h : isFixedSizeType t = true) :
    ∃ sz, sizeof t = some sz := by
  induction t with
  | basic k => cases k <;> simp [isFixedSizeType, PrimitiveFixedSizeKinds, sizeof] at h ⊢
  | array n e ih =>
    obtain ⟨s, hs⟩ := ih (by simpa [isFixedSizeType] using h)
    exact ⟨n * s, by simp [sizeof, hs]⟩
  | slice e _ => simp [isFixedSizeType] at h

theorem toSigned_toUnsigned (w : Nat) (hw : w = 1 ∨ w = 2 ∨ w = 4 ∨ w = 8) (i : Int)
    (h : -(2:Int) ^ (8 * w - 1) ≤ i ∧ i < (2:Int) ^ (8 * w - 1)) :
    toSigned w (toUnsigned w i % 256 ^ w) = i := by
  rcases hw with rfl | rfl | rfl | rfl <;>
  · simp only [toSigned, toUnsigned]
    norm_num at h ⊢
    split <;> omega

theorem isIntOf_spec (w : Nat) (hw : w = 1 ∨ w = 2 ∨ w = 4 ∨ w = 8) (v : Value)
    (h : isIntOf w v = true) :
    (∀ rest, Value.int (toSigned w (fromBigEndian
      ((bigEndian w (toUnsigned w v.asInt) ++ rest).take w))) = v) ∧ nilToEmpty v = v := by
  cases v <;> simp only [isIntOf, Bool.false_eq_true, decide_eq_true_eq] at h
  refine ⟨fun rest => ?_, by simp [nilToEmpty]⟩
  rw [take_bigEndian, fromBigEndian_bigEndian, Value.asInt, toSigned_toUnsigned w hw _ h]

theorem two_pow_eq (w : Nat) : (2:Nat) ^ (8 * w) = 256 ^ w := by
  rw [Nat.pow_mul]

theorem isUintOf_spec (w : Nat) (v : Value) (h : isUintOf w v = true) :
    (∀ rest, Value.uint (fromBigEndian ((bigEndian w v.asUint ++ rest).take w)) = v) ∧
      nilToEmpty v = v := by
  cases v <;> simp only [isUintOf, Bool.false_eq_true, decide_eq_true_eq] at h
  refine ⟨fun rest => ?_, by simp [nilToEmpty]⟩
  rw [two_pow_eq] at h
  rw [take_bigEndian, fromBigEndian_bigEndian, Value.asUint, Nat.mod_eq_of_lt h]

theorem isFloatOf_spec (w : Nat) (v : Value) (h : isFloatOf w v = true) :
    (∀ rest, Value.float (fromBigEndian ((bigEndian w v.asUint ++ rest).take w)) = v) ∧
      nilToEmpty v = v := by
  cases v <;> simp only [isFloatOf, Bool.false_eq_true, decide_eq_true_eq] at h
  refine ⟨fun rest => ?_, by simp [nilToEmpty]⟩
  rw [two_pow_eq] at h
  rw [take_bigEndian, fromBigEndian_bigEndian, Value.asUint, Nat.mod_eq_of_lt h]

theorem isComplexOf_spec (w : Nat) (v : Value) (h : isComplexOf w v = true) :
    (∀ rest, Value.complex
        (fromBigEndian ((bigEndian w v.asRe ++ bigEndian w v.asIm ++ rest).take w))
        (fromBigEndian (((bigEndian w v.asRe ++ bigEndian w v.asIm ++ rest).drop w).take w))
        = v) ∧
      (∀ rest, (bigEndian w v.asRe ++ bigEndian w v.asIm ++ rest).drop (w + w) = rest) ∧
      nilToEmpty v = v := by
  cases v <;> simp only [isComplexOf, Bool.false_eq_true, decide_eq_true_eq] at h
  rw [two_pow_eq] at h
  refine ⟨fun rest => ?_, fun rest => ?_, by simp [nilToEmpty]⟩
  · rw [List.append_assoc, take_bigEndian, drop_bigEndian, take_bigEndian,
      fromBigEndian_bigEndian, fromBigEndian_bigEndian, Value.asRe, Value.asIm,
      Nat.mod_eq_of_lt h.1, Nat.mod_eq_of_lt h.2]
  · rw [← List.drop_drop, List.append_assoc, drop_bigEndian, drop_bigEndian]

theorem encodeBasic_spec (k : Kind) (v : Value) (sz : Nat) (hs : sizeof (.basic k) = some sz)
    (ht : hasKind k v = true) :
    (encodeBasic k v).length = sz ∧
    (∀ rest, decodeBasic k (encodeBasic k v ++ rest) = (v, rest)) ∧ nilToEmpty v = v := by
  cases k <;> simp only [sizeof, Option.some.injEq, reduceCtorEq] at hs <;> subst hs <;>
    simp only [hasKind] at ht <;>
    simp only [encodeBasic, decodeBasic, bigEndian_length, drop_bigEndian,
      List.length_cons, List.length_nil, List.length_append, true_and]
  · cases v <;> simp only [isBoolValue, Bool.false_eq_true] at ht
    rename_i b
    cases b <;> simp [Value.asBool, nilToEmpty]
  · have := isIntOf_spec 1 (by simp) v ht
    exact ⟨fun rest => by rw [this.1], this.2⟩
  · have := isIntOf_spec 2 (by simp) v ht
    exact ⟨fun rest => by rw [this.1], this.2⟩
  · have := isIntOf_spec 4 (by simp) v ht
    exact ⟨fun rest => by rw [this.1], this.2⟩
  · have := isIntOf_spec 8 (by simp) v ht
    exact ⟨fun rest => by rw [this.1], this.2⟩
  · have := isUintOf_spec 1 v ht
    exact ⟨fun rest => by rw [this.1], this.2⟩
  · have := isUintOf_spec 2 v ht
    exact ⟨fun rest => by rw [this.1], this.2⟩
  · have := isUintOf_spec 4 v ht
    exact ⟨fun rest => by rw [this.1], this.2⟩
  · have := isUintOf_spec 8 v ht
    exact ⟨fun rest => by rw [this.1], this.2⟩
  · have := isFloatOf_spec 4 v ht
    exact ⟨fun rest => by rw [this.1], this.2⟩
  · have := isFloatOf_spec 8 v ht
    exact ⟨fun rest => by rw [this.1], this.2⟩
  · have := isComplexOf_spec 4 v ht
    exact ⟨fun rest => by rw [this.1, this.2.1], this.2.2⟩
  · have := isComplexOf_spec 8 v ht
    exact ⟨fun rest => by rw [this.1, this.2.1], this.2.2⟩

theorem encodeFixed_elems (e : Ty) (s : Nat)
    (ih : ∀ v, hasType e v = true → (encodeFixed e v).length = s ∧
      (∀ rest, decodeFixed e (encodeFixed e v ++ rest) = (v, rest)) ∧ nilToEmpty v = v) :
    ∀ vs : List Value, vs.all (hasType e) = true →
      ((vs.map (encodeFixed e)).flatten).length = s * vs.length ∧
      (∀ rest, decodeFixedN (decodeFixed e) vs.length ((vs.map (encodeFixed e)).flatten ++ rest)
        = (vs, rest)) ∧ nilToEmptyList vs = vs := by
  intro vs
  induction vs with
  | nil => intro _; simp [decodeFixedN, nilToEmptyList]
  | cons v vs ihv =>
    intro h
    simp only [List.all_cons, Bool.and_eq_true] at h
    obtain ⟨h1, h2, h3⟩ := ih v h.1
    obtain ⟨g1, g2, g3⟩ := ihv h.2
    refine ⟨?_, ?_, ?_⟩
    · simp only [List.map_cons, List.flatten_cons, List.length_append, h1, g1, List.length_cons]
      ring
    · intro rest
      simp only [List.map_cons, List.flatten_cons, List.length_cons, decodeFixedN,
        List.append_assoc, h2, g2]
    · simp only [nilToEmptyList, h3, g3]

theorem encodeFixed_spec (t : Ty) : ∀ (v : Value) (sz : Nat), sizeof t = some sz →
    hasType t v = true →
    (encodeFixed t v).length = sz ∧
    (∀ rest, decodeFixed t (encodeFixed t v ++ rest) = (v, rest)) ∧ nilToEmpty v = v := by
  induction t with
  | basic k =>
    intro v sz hs ht
    simp only [hasType] at ht
    simpa only [encodeFixed, decodeFixed] using encodeBasic_spec k v sz hs ht
  | array n e ih =>
    intro v sz hs ht
    cases v <;> simp only [hasType, Bool.false_eq_true, Bool.and_eq_true, decide_eq_true_eq] at ht
    rename_i vs
    obtain ⟨hlen, hall⟩ := ht
    cases hse : sizeof e with
    | none => simp [sizeof, hse] at hs
    | some s =>
      simp only [sizeof, hse, Option.map_some', Option.some.injEq] at hs
      obtain ⟨g1, g2, g3⟩ := encodeFixed_elems e s (fun v hv => ih v s hse hv) vs hall
      subst hlen
      refine ⟨?_, ?_, ?_⟩
      · simp only [encodeFixed, g1, ← hs]; ring
      · intro rest; simp only [encodeFixed, decodeFixed, g2]
      · simp only [nilToEmpty, g3]
  | slice e _ => intro v sz hs; simp [sizeof] at hs


/-! ## Round trip of `encodeToBinary` and `decodeFromBinary` -/

theorem encodeUvarint_mod (n : Nat) (h : n < 2 ^ 63) : n < 2 ^ 64 := by
  have : (2:Nat) ^ 63 < 2 ^ 64 := by norm_num
  omega

theorem decodeFixedN_bytes (s : List Nat) :
    decodeFixedN (decodeFixed (.basic .Uint8)) s.length s = (s.map Value.uint, []) := by
  induction s with
  | nil => rfl
  | cons b s ih =>
    have hd : decodeFixed (.basic .Uint8) (b :: s) = (.uint b, s) := by
      simp [decodeFixed, decodeBasic, fromBigEndian]
    simp only [List.length_cons, decodeFixedN, hd, ih, List.map_cons]

theorem bytesOf_map (s : List Nat) : bytesOf (s.map Value.uint) = s := by
  induction s with
  | nil => rfl
  | cons b s ih => simp [bytesOf, ih]

theorem readFull_append (bs rest : List Nat) :
    readFull bs.length (bs ++ rest) = .ok (bs, rest) := by
  simp [readFull]

theorem isValid_of_not_variable (e : Ty) (h : isVariableSizeType e = false) :
    isValidColumnType e = isFixedSizeType e := by
  cases e with
  | basic k => cases k <;> simp [isVariableSizeType] at h <;> rfl
  | array n e => rfl
  | slice e => simp [isVariableSizeType] at h

theorem decode_encode_string (v : Value) (h : hasKind .String v = true) :
    ∀ rest, decodeFromBinary (.basic .String) (encodeUvarint v.asStr.length ++ v.asStr ++ rest)
      = .ok (nilToEmpty v, (encodeUvarint v.asStr.length ++ v.asStr).length, rest) := by
  intro rest
  cases v <;> simp only [hasKind, isStrValue, Bool.false_eq_true, Bool.and_eq_true,
    decide_eq_true_eq] at h
  rename_i s
  have hlen : ¬ s.length ≥ 2 ^ 63 := by omega
  simp only [decodeFromBinary, if_true, decodeSliceFixed, Value.asStr, List.append_assoc,
    ReadUvarint_encodeUvarint _ (encodeUvarint_mod _ h.1), if_neg hlen, binaryReadSlice, sizeof,
    Nat.one_mul, readFull_append, decodeFixedN_bytes, bytesOf_map, nilToEmpty,
    Option.map_some', Option.getD_some, List.length_append, Nat.mul_one]

theorem decode_encode_each (e : Ty)
    (ih : ∀ v, hasType e v = true → ∃ bs, encodeToBinary e v = .ok bs ∧
      ∀ rest, decodeFromBinary e (bs ++ rest) = .ok (nilToEmpty v, bs.length, rest)) :
    ∀ vs : List Value, vs.all (hasType e) = true →
      ∃ body, encodeEach (encodeToBinary e) vs = .ok body ∧
        ∀ rest, decodeEach (decodeFromBinary e) vs.length (body ++ rest)
          = .ok (nilToEmptyList vs, body.length, rest) := by
  intro vs
  induction vs with
  | nil => intro _; exact ⟨[], rfl, fun rest => rfl⟩
  | cons v vs ihv =>
    intro h
    simp only [List.all_cons, Bool.and_eq_true] at h
    obtain ⟨bs, h1, h2⟩ := ih v h.1
    obtain ⟨body, g1, g2⟩ := ihv h.2
    refine ⟨bs ++ body, by simp only [encodeEach, h1, g1], fun rest => ?_⟩
    simp only [List.length_cons, decodeEach, List.append_assoc, h2, g2, nilToEmptyList,
      List.length_append]

/-- Decoding what `encodeToBinary` wrote, followed by any further bytes, gives
the value with nil slices made empty, counts exactly the bytes written and
leaves the further bytes unread. -/
theorem decode_encode (t : Ty) : ∀ v, isValidColumnType t = true → hasType t v = true →
    ∃ bs, encodeToBinary t v = .ok bs ∧
      ∀ rest, decodeFromBinary t (bs ++ rest) = .ok (nilToEmpty v, bs.length, rest) := by
  induction t with
  | basic k =>
    intro v hv ht
    simp only [hasType] at ht
    by_cases hk : k = .String
    · subst hk
      exact ⟨_, by simp [encodeToBinary], decode_encode_string v ht⟩
    · have hfix : isFixedSizeType (.basic k) = true := by
        rw [← isValid_of_not_variable]; exact hv
        cases k <;> first | rfl | exact absurd rfl hk
      obtain ⟨sz, hsz⟩ := isFixedSizeType_sizeof _ hfix
      obtain ⟨h1, h2, h3⟩ := encodeBasic_spec k v sz hsz ht
      refine ⟨encodeBasic k v, by simp [encodeToBinary, hk, binaryWrite, hsz, encodeFixed], ?_⟩
      intro rest
      have hrf := readFull_append (encodeBasic k v) rest
      rw [h1] at hrf
      have hd := h2 []
      rw [List.append_nil] at hd
      simp only [decodeFromBinary, hk, if_false, binaryRead, hsz, hrf, decodeFixed, hd, h3,
        Option.getD_some, h1]
  | array n e _ =>
    intro v hv ht
    have hfix : isFixedSizeType (.array n e) = true := hv
    obtain ⟨sz, hsz⟩ := isFixedSizeType_sizeof _ hfix
    obtain ⟨h1, h2, h3⟩ := encodeFixed_spec (.array n e) v sz hsz ht
    refine ⟨encodeFixed (.array n e) v, by simp [encodeToBinary, binaryWrite, hsz], ?_⟩
    intro rest
    have hrf := readFull_append (encodeFixed (.array n e) v) rest
    rw [h1] at hrf
    have hd := h2 []
    rw [List.append_nil] at hd
    simp only [decodeFromBinary, binaryRead, hsz, hrf, hd, h3, Option.getD_some, h1]
  | slice e ih =>
    intro v hv ht
    have hve : isValidColumnType e = true := hv
    -- the elements of the slice, whether it is nil or not
    have hel : v.elems.length < 2 ^ 63 ∧ v.elems.all (hasType e) = true ∧
        nilToEmpty v = .slice (nilToEmptyList v.elems) := by
      cases v <;> simp only [hasType, Bool.false_eq_true, Bool.and_eq_true,
        decide_eq_true_eq] at ht
      · exact ⟨ht.1, ht.2, by simp [Value.elems, nilToEmpty]⟩
      · exact ⟨by simp [Value.elems], by simp [Value.elems],
          by simp [Value.elems, nilToEmpty, nilToEmptyList]⟩
    obtain ⟨hlen, hall, hnorm⟩ := hel
    have hlen' : ¬ v.elems.length ≥ 2 ^ 63 := by omega
    by_cases hvar : isVariableSizeType e = true
    · obtain ⟨body, g1, g2⟩ := decode_encode_each e (fun v hv => ih v hve hv) v.elems hall
      refine ⟨encodeUvarint v.elems.length ++ body, by simp [encodeToBinary, hvar, g1], ?_⟩
      intro rest
      simp only [decodeFromBinary, hvar, if_true, List.append_assoc,
        ReadUvarint_encodeUvarint _ (encodeUvarint_mod _ hlen), if_neg hlen', g2, hnorm,
        List.length_append]
    · have hvar' : isVariableSizeType e = false := by simpa using hvar
      have hfix : isFixedSizeType e = true := by
        rw [← isValid_of_not_variable e hvar']; exact hve
      obtain ⟨s, hs⟩ := isFixedSizeType_sizeof _ hfix
      obtain ⟨g1, g2, g3⟩ := encodeFixed_elems e s
        (fun v hv => encodeFixed_spec e v s hs hv) v.elems hall
      refine ⟨encodeUvarint v.elems.length ++ (v.elems.map (encodeFixed e)).flatten,
        by simp [encodeToBinary, hvar', binaryWrite, hs], ?_⟩
      intro rest
      have hrf := readFull_append (v.elems.map (encodeFixed e)).flatten rest
      rw [g1] at hrf
      have hd := g2 []
      rw [List.append_nil] at hd
      simp only [decodeFromBinary, hvar', Bool.false_eq_true, if_false, decodeSliceFixed,
        List.append_assoc, ReadUvarint_encodeUvarint _ (encodeUvarint_mod _ hlen), if_neg hlen',
        binaryReadSlice, hs, hrf, hd, hnorm, g3, sizeof, Option.map_some', Option.getD_some,
        List.length_append, g1, Nat.mul_comm]


/-! ## C1: decoding what the encoder wrote -/

mutual
theorem nilToEmpty_of_noNil : ∀ v : Value, hasNil v = false → nilToEmpty v = v
  | .array vs, h => by
    simp only [hasNil] at h
    simp only [nilToEmpty, nilToEmptyList_of_noNil vs h]
  | .slice vs, h => by
    simp only [hasNil] at h
    simp only [nilToEmpty, nilToEmptyList_of_noNil vs h]
  | .nilSlice, h => by simp [hasNil] at h
  | .bool _, _ => rfl
  | .int _, _ => rfl
  | .uint _, _ => rfl
  | .float _, _ => rfl
  | .complex _ _, _ => rfl
  | .str _, _ => rfl
  | .other _, _ => rfl
theorem nilToEmptyList_of_noNil : ∀ vs : List Value, hasNilList vs = false →
    nilToEmptyList vs = vs
  | [], _ => rfl
  | v :: vs, h => by
    simp only [hasNilList, Bool.or_eq_false_iff] at h
    simp only [nilToEmptyList, nilToEmpty_of_noNil v h.1, nilToEmptyList_of_noNil vs h.2]
end

/-- C1 (as amended): for every value `v` of a valid column type `t`, decoding the
bytes `encodeToBinary` wrote for `v` succeeds, reads exactly as many bytes as
were written, leaves nothing unread, and yields `v` with its nil slices replaced
by empty slices; that is `v` itself when no nil slice occurs in `v`. -/
theorem C1_decode_encode (t : Ty) (v : Value) (hvalid : isValidColumnType t = true)
    (hty : hasType t v = true) :
    ∃ bs, encodeToBinary t v = .ok bs ∧
      decodeFromBinary t bs = .ok (nilToEmpty v, bs.length, []) ∧
      (hasNil v = false → decodeFromBinary t bs = .ok (v, bs.length, [])) := by
  obtain ⟨bs, h1, h2⟩ := decode_encode t v hvalid hty
  have h := h2 []
  rw [List.append_nil] at h
  refine ⟨bs, h1, h, fun hn => ?_⟩
  rw [h, nilToEmpty_of_noNil v hn]

/-- Witness of C1 on the `[][]string` fixture of `TestBinaryEncoding`. -/
theorem C1_decode_encode_witness :
    isValidColumnType (.slice (.slice (.basic .String))) = true ∧
    hasType (.slice (.slice (.basic .String)))
      (.slice [.slice [.str [102, 111, 111], .str [98, 97, 114]],
        .slice [.str [], .str [104, 101, 108, 108, 111]]]) = true ∧
    ∃ bs, encodeToBinary (.slice (.slice (.basic .String)))
        (.slice [.slice [.str [102, 111, 111], .str [98, 97, 114]],
          .slice [.str [], .str [104, 101, 108, 108, 111]]]) = .ok bs ∧
      decodeFromBinary (.slice (.slice (.basic .String))) bs
        = .ok (nilToEmpty (.slice [.slice [.str [102, 111, 111], .str [98, 97, 114]],
            .slice [.str [], .str [104, 101, 108, 108, 111]]]), bs.length, []) ∧
      (hasNil (.slice [.slice [.str [102, 111, 111], .str [98, 97, 114]],
            .slice [.str [], .str [104, 101, 108, 108, 111]]]) = false →
        decodeFromBinary (.slice (.slice (.basic .String))) bs
          = .ok (.slice [.slice [.str [102, 111, 111], .str [98, 97, 114]],
            .slice [.str [], .str [104, 101, 108, 108, 111]]], bs.length, [])) :=
  ⟨by decide, by decide, C1_decode_encode _ _ (by decide) (by decide)⟩

/-- C1 as stated fails on a nil slice: `[]byte(nil)` is written as the single
byte 0, which decodes to the empty, non-nil slice. -/
theorem C1_counterexample :
    isValidColumnType (.slice (.basic .Uint8)) = true ∧
    hasType (.slice (.basic .Uint8)) .nilSlice = true ∧
    encodeToBinary (.slice (.basic .Uint8)) .nilSlice = .ok [0] ∧
    decodeFromBinary (.slice (.basic .Uint8)) [0] = .ok (.slice [], 1, []) ∧
    Value.slice [] ≠ Value.nilSlice :=
  ⟨by decide, by decide, by rfl, by rfl, by simp⟩


/-! ## Round trip of records -/

theorem mem_insertSorted (x y : String) (l : List String) :
    y ∈ insertSorted x l ↔ y = x ∨ y ∈ l := by
  induction l with
  | nil => simp [insertSorted]
  | cons z zs ih =>
    simp only [insertSorted]
    split
    · simp
    · simp only [List.mem_cons, ih]
      tauto

theorem mem_sortStrings (y : String) (l : List String) : y ∈ sortStrings l ↔ y ∈ l := by
  induction l with
  | nil => simp [sortStrings]
  | cons x xs ih => simp [sortStrings, mem_insertSorted, ih]

theorem mem_getExportedFieldNames (t : StructType) (name : String) :
    name ∈ getExportedFieldNames t ↔ ∃ f ∈ t.fields, f.exported = true ∧ f.name = name := by
  simp only [getExportedFieldNames, mem_sortStrings, List.mem_map, List.mem_filter]
  constructor
  · rintro ⟨f, ⟨h1, h2⟩, h3⟩; exact ⟨f, h1, h2, h3⟩
  · rintro ⟨f, h1, h2, h3⟩; exact ⟨f, ⟨h1, h2⟩, h3⟩

theorem mem_getExportedIndexedFields (t : StructType) (name : String) :
    name ∈ getExportedIndexedFields t → ∃ f ∈ t.fields, f.exported = true ∧ f.name = name := by
  simp only [getExportedIndexedFields, mem_sortStrings, List.mem_map, List.mem_filter,
    Bool.and_eq_true]
  rintro ⟨f, ⟨h1, h2, _⟩, h3⟩
  exact ⟨f, h1, h2, h3⟩

theorem fieldsTyped_length : ∀ (fs : List Field) (vs : List Value), fieldsTyped fs vs →
    vs.length = fs.length
  | [], [], _ => rfl
  | f :: fs, v :: vs, h => by
    simp only [fieldsTyped] at h
    simp [fieldsTyped_length fs vs h.2]
  | [], _ :: _, h => by simp [fieldsTyped] at h
  | _ :: _, [], h => by simp [fieldsTyped] at h

/-- Looking a field up by its name finds that field when names are distinct
and there are enough values. -/
theorem fieldLookup_mem : ∀ (fs : List Field) (vs : List Value) (g : Field),
    (fs.map (fun f => f.name)).Nodup → vs.length = fs.length → g ∈ fs →
    ∃ v, fieldLookup fs vs g.name = some (g, v)
  | [], _, g, _, _, hg => by simp at hg
  | f :: fs, [], g, _, hl, _ => by simp at hl
  | f :: fs, v :: vs, g, hnd, hl, hg => by
    simp only [List.map_cons, List.nodup_cons, List.mem_map, not_exists, not_and] at hnd
    rcases List.mem_cons.mp hg with rfl | hg'
    · exact ⟨v, by simp [fieldLookup]⟩
    · have hn : f.name ≠ g.name := fun h => hnd.1 g hg' h.symm
      obtain ⟨w, hw⟩ := fieldLookup_mem fs vs g hnd.2 (by simpa using hl) hg'
      exact ⟨w, by simp [fieldLookup, hn, hw]⟩

/-- The value found in a well-typed record is a value of the field's type. -/
theorem fieldLookup_typed : ∀ (fs : List Field) (vs : List Value) (name : String)
    (f : Field) (v : Value), fieldsTyped fs vs → fieldLookup fs vs name = some (f, v) →
    f ∈ fs ∧ f.name = name ∧ hasType f.type v = true
  | [], _, _, _, _, _, h => by simp [fieldLookup] at h
  | _ :: _, [], _, _, _, _, h => by simp [fieldLookup] at h
  | f0 :: fs, v0 :: vs, name, f, v, ht, h => by
    simp only [fieldsTyped] at ht
    simp only [fieldLookup] at h
    by_cases hn : f0.name = name
    · simp only [hn, if_true, Option.some.injEq, Prod.mk.injEq] at h
      obtain ⟨rfl, rfl⟩ := h
      exact ⟨by simp, hn, ht.1⟩
    · simp only [hn, if_false] at h
      obtain ⟨h1, h2, h3⟩ := fieldLookup_typed fs vs name f v ht.2 h
      exact ⟨List.mem_cons_of_mem _ h1, h2, h3⟩

/-- The field found under a name does not depend on the values. -/
theorem fieldLookup_field : ∀ (fs : List Field) (vs ws : List Value) (name : String)
    (f g : Field) (v w : Value),
    fieldLookup fs vs name = some (f, v) → fieldLookup fs ws name = some (g, w) → g = f
  | [], _, _, _, _, _, _, _, h, _ => by simp [fieldLookup] at h
  | _ :: _, [], _, _, _, _, _, _, h, _ => by simp [fieldLookup] at h
  | _ :: _, _ :: _, [], _, _, _, _, _, _, h => by simp [fieldLookup] at h
  | f0 :: fs, v0 :: vs, w0 :: ws, name, f, g, v, w, h1, h2 => by
    simp only [fieldLookup] at h1 h2
    by_cases hn : f0.name = name
    · simp only [hn, if_true, Option.some.injEq, Prod.mk.injEq] at h1 h2
      rw [← h1.1, ← h2.1]
    · simp only [hn, if_false] at h1 h2
      exact fieldLookup_field fs vs ws name f g v w h1 h2

theorem namesOK_exported (t : StructType) (hv : t.Valid) :
    NamesOK t.fields (getExportedFieldNames t) := by
  intro n hn
  obtain ⟨f, h1, h2, h3⟩ := (mem_getExportedFieldNames t n).mp hn
  exact ⟨f, h1, h2, h3, hv f h1 h2⟩

/-- Encoding the fields of a well-typed record succeeds. -/
theorem encodeFields_ok (fs : List Field) (vs : List Value)
    (hnd : (fs.map (fun f => f.name)).Nodup) (htyped : fieldsTyped fs vs) :
    ∀ names : List String, NamesOK fs names → ∃ bs, encodeFields fs vs names = .ok bs := by
  intro names
  induction names with
  | nil => intro _; exact ⟨[], rfl⟩
  | cons n names ih =>
    intro hnames
    obtain ⟨g, hg, _, hgn, hgv⟩ := hnames n (by simp)
    obtain ⟨v, hv⟩ := fieldLookup_mem fs vs g hnd (fieldsTyped_length fs vs htyped) hg
    rw [hgn] at hv
    obtain ⟨_, _, hty⟩ := fieldLookup_typed fs vs n g v htyped hv
    obtain ⟨bs, hb, _⟩ := decode_encode g.type v hgv hty
    obtain ⟨rest, hr⟩ := ih (fun m hm => hnames m (List.mem_cons_of_mem _ hm))
    exact ⟨bs ++ rest, by simp only [encodeFields, hv, hb, hr]⟩

/-- Decoding an encoded record gives the same result whatever follows it. -/
theorem decodeFields_rest (fs : List Field) (vs : List Value)
    (hnd : (fs.map (fun f => f.name)).Nodup) (htyped : fieldsTyped fs vs) :
    ∀ (names : List String) (bs : List Nat), NamesOK fs names →
      encodeFields fs vs names = .ok bs →
      ∀ (ds : List Value) (rest : List Nat),
        decodeFields fs names ds (bs ++ rest) = withRest rest (decodeFields fs names ds bs) := by
  intro names
  induction names with
  | nil =>
    intro bs _ henc ds rest
    simp only [encodeFields, Except.ok.injEq] at henc
    subst henc
    simp [decodeFields, withRest]
  | cons n names ih =>
    intro bs hnames henc ds rest
    obtain ⟨g, hg, _, hgn, hgv⟩ := hnames n (by simp)
    obtain ⟨v, hv⟩ := fieldLookup_mem fs vs g hnd (fieldsTyped_length fs vs htyped) hg
    rw [hgn] at hv
    obtain ⟨_, _, hty⟩ := fieldLookup_typed fs vs n g v htyped hv
    obtain ⟨b1, hb, hdec⟩ := decode_encode g.type v hgv hty
    obtain ⟨b2, hr⟩ := encodeFields_ok fs vs hnd htyped names
      (fun m hm => hnames m (List.mem_cons_of_mem _ hm))
    simp only [encodeFields, hv, hb, hr, Except.ok.injEq] at henc
    subst henc
    cases hl : fieldLookup fs ds n with
    | none => simp [decodeFields, hl, withRest]
    | some p =>
      obtain ⟨g', d⟩ := p
      have hg' : g' = g := fieldLookup_field fs vs ds n g g' v d hv hl
      subst hg'
      have h1 := hdec (b2 ++ rest)
      have h2 := hdec b2
      rw [← List.append_assoc] at h1
      simp only [decodeFields, hl, List.append_assoc] at h1 h2 ⊢
      rw [← List.append_assoc] at h1 ⊢
      simp only [h1, h2]
      rw [ih b2 (fun m hm => hnames m (List.mem_cons_of_mem _ hm)) hr]
      cases decodeFields fs names (fieldSet fs ds n (nilToEmpty v)) b2 with
      | error e => simp [withRest]
      | ok q => obtain ⟨a, b, c⟩ := q; simp [withRest]

theorem fieldSet_length : ∀ (fs : List Field) (ds : List Value) (n : String) (x : Value),
    (fieldSet fs ds n x).length = ds.length
  | [], _, _, _ => by simp [fieldSet]
  | _ :: _, [], _, _ => by simp [fieldSet]
  | f :: fs, d :: ds, n, x => by
    simp only [fieldSet]
    split
    · simp
    · simp [fieldSet_length fs ds n x]

/-- Setting the field called `n` and then merging the fields called `names` is
merging the fields called `n :: names`. -/
theorem mergeBy_fieldSet (names : List String) (n : String) :
    ∀ (fs : List Field) (ss ds : List Value) (g : Field) (v : Value),
    (fs.map (fun f => f.name)).Nodup → ss.length = fs.length → ds.length = fs.length →
    fieldLookup fs ss n = some (g, v) →
    mergeBy names fs ss (fieldSet fs ds n (nilToEmpty v)) = mergeBy (n :: names) fs ss ds
  | [], _, _, _, _, _, _, _, h => by simp [fieldLookup] at h
  | _ :: _, [], _, _, _, _, _, _, h => by simp [fieldLookup] at h
  | _ :: _, _ :: _, [], _, _, _, _, hl, _ => by simp at hl
  | f :: fs, s :: ss, d :: ds, g, v, hnd, hs, hd, h => by
    simp only [List.map_cons, List.nodup_cons, List.mem_map, not_exists, not_and] at hnd
    simp only [fieldLookup] at h
    by_cases hn : f.name = n
    · simp only [hn, if_true, Option.some.injEq, Prod.mk.injEq] at h
      obtain ⟨rfl, rfl⟩ := h
      simp only [fieldSet, hn, if_true, mergeBy, List.mem_cons, true_or, ite_self]
      congr 1
      -- the other fields have other names
      clear hs hd
      have : ∀ (fs' : List Field) (ss' ds' : List Value),
          (∀ f' ∈ fs', f'.name ≠ n) →
          mergeBy names fs' ss' ds' = mergeBy (n :: names) fs' ss' ds' := by
        intro fs'
        induction fs' with
        | nil => intro ss' ds' _; simp [mergeBy]
        | cons f' fs' ih =>
          intro ss' ds' hne
          cases ss' with
          | nil => simp [mergeBy]
          | cons s' ss' =>
            cases ds' with
            | nil => simp [mergeBy]
            | cons d' ds' =>
              have h1 : f'.name ≠ n := hne f' (by simp)
              simp only [mergeBy, List.mem_cons, h1, false_or]
              rw [ih ss' ds' (fun f'' hf => hne f'' (List.mem_cons_of_mem _ hf))]
      exact this fs ss ds (fun f' hf' heq => hnd.1 f' hf' (by rw [heq, hn]))
    · simp only [hn, if_false] at h
      simp only [fieldSet, hn, if_false, mergeBy, List.mem_cons, hn, false_or]
      rw [mergeBy_fieldSet names n fs ss ds g v hnd.2 (by simpa using hs) (by simpa using hd) h]

/-- Decoding an encoded record into `ds` merges the encoded fields into `ds`
and reads exactly the bytes of the encoding. -/
theorem decodeFields_encodeFields (fs : List Field) (vs : List Value)
    (hnd : (fs.map (fun f => f.name)).Nodup) (htyped : fieldsTyped fs vs) :
    ∀ (names : List String) (bs : List Nat), NamesOK fs names →
      encodeFields fs vs names = .ok bs →
      ∀ (ds : List Value) (rest : List Nat), ds.length = fs.length →
        decodeFields fs names ds (bs ++ rest) = .ok (mergeBy names fs vs ds, bs.length, rest) := by
  intro names
  induction names with
  | nil =>
    intro bs _ henc ds rest _
    simp only [encodeFields, Except.ok.injEq] at henc
    subst henc
    have : ∀ (fs' : List Field) (ss' ds' : List Value), mergeBy [] fs' ss' ds' = ds' := by
      intro fs'
      induction fs' with
      | nil => intro ss' ds'; simp [mergeBy]
      | cons f' fs' ih =>
        intro ss' ds'
        cases ss' with
        | nil => simp [mergeBy]
        | cons s' ss' =>
          cases ds' with
          | nil => simp [mergeBy]
          | cons d' ds' => simp [mergeBy, ih]
    simp [decodeFields, this]
  | cons n names ih =>
    intro bs hnames henc ds rest hlen
    obtain ⟨g, hg, _, hgn, hgv⟩ := hnames n (by simp)
    have hvl := fieldsTyped_length fs vs htyped
    obtain ⟨v, hv⟩ := fieldLookup_mem fs vs g hnd hvl hg
    obtain ⟨d, hd⟩ := fieldLookup_mem fs ds g hnd hlen hg
    rw [hgn] at hv hd
    obtain ⟨_, _, hty⟩ := fieldLookup_typed fs vs n g v htyped hv
    obtain ⟨b1, hb, hdec⟩ := decode_encode g.type v hgv hty
    obtain ⟨b2, hr⟩ := encodeFields_ok fs vs hnd htyped names
      (fun m hm => hnames m (List.mem_cons_of_mem _ hm))
    simp only [encodeFields, hv, hb, hr, Except.ok.injEq] at henc
    subst henc
    have h1 := hdec (b2 ++ rest)
    rw [← List.append_assoc] at h1
    simp only [decodeFields, hd, h1]
    rw [ih b2 (fun m hm => hnames m (List.mem_cons_of_mem _ hm)) hr _ rest
      (by rw [fieldSet_length, hlen])]
    simp only [mergeBy_fieldSet names n fs vs ds g v hnd hvl hlen hv, List.length_append]


/-! ## Lemmas on the source and the layout of rows -/

theorem encodeUint64Loop_length : ∀ (k n : Nat) (buf out : List Nat),
    encodeUint64Loop k n buf = some out → out.length = buf.length
  | 0, n, buf, out, h => by
    simp only [encodeUint64Loop] at h
    split at h
    · simp at h
    · simp only [Option.some.injEq] at h; rw [← h]
  | i + 1, n, buf, out, h => by
    simp only [encodeUint64Loop] at h
    split at h
    · have := encodeUint64Loop_length i _ _ out h
      simpa using this
    · simp only [Option.some.injEq] at h; rw [← h]

theorem encodeUint64_length (n : Nat) : (encodeUint64 n).length = 8 := by
  unfold encodeUint64
  cases h : encodeUint64Loop 8 (n % 2 ^ 64) (List.replicate 8 0) with
  | none => simp
  | some out => simpa using encodeUint64Loop_length _ _ _ _ h

theorem encodeUint64_zero : encodeUint64 DeletedID = List.replicate 8 0 := by decide

theorem writeAt_end (data bs : List Nat) : writeAt data data.length bs = data ++ bs := by
  simp [writeAt]

theorem writeAt_mid (a b b' c : List Nat) (h : b'.length = b.length) :
    writeAt (a ++ b ++ c) a.length b' = a ++ b' ++ c := by
  simp only [writeAt, List.append_assoc, List.length_append]
  have h1 : List.take a.length (a ++ (b ++ c)) = a := by simp
  have h2 : a.length - (a.length + (b.length + c.length)) = 0 := by omega
  have h3 : List.drop (a.length + b'.length) (a ++ (b ++ c)) = c := by
    rw [h, ← List.append_assoc, ← List.length_append]
    simp
  rw [h1, h2, h3]
  simp

theorem writeAt_zero_take (data bs : List Nat) :
    (writeAt data 0 bs).take bs.length = bs := by
  simp [writeAt]

theorem layout_nil : layout [] = [] := rfl

theorem layout_cons (r : DiskRow) (rows : List DiskRow) :
    layout (r :: rows) = r.bytes ++ layout rows := by
  simp [layout]

theorem layout_append (a b : List DiskRow) : layout (a ++ b) = layout a ++ layout b := by
  simp [layout]

theorem layout_split (pre post : List DiskRow) (r : DiskRow) :
    layout (pre ++ r :: post) =
      layout pre ++ encodeUint64 r.id ++ encodeUvarint r.payload.length ++ r.payload
        ++ layout post := by
  simp [layout_append, layout_cons, DiskRow.bytes, encodeRowHeader]

theorem tombstone_bytes (r : DiskRow) :
    r.tombstone.bytes = List.replicate 8 0 ++ encodeUvarint r.payload.length
      ++ List.replicate r.payload.length 0 := by
  simp [DiskRow.tombstone, DiskRow.bytes, encodeRowHeader, encodeUint64_zero]

theorem bytes_length_tombstone (r : DiskRow) : r.tombstone.bytes.length = r.bytes.length := by
  simp [DiskRow.tombstone, DiskRow.bytes, encodeRowHeader, encodeUint64_length]

theorem bytes_length_ge (r : DiskRow) : 8 ≤ r.bytes.length := by
  simp only [DiskRow.bytes, encodeRowHeader, List.length_append, encodeUint64_length]
  omega

/-- Reading the size varint of a row that lies in the source. -/
theorem ReadUvarint_row (a id8 p c : List Nat) (h8 : id8.length = 8) (hp : p.length < 2 ^ 63) :
    ReadUvarint ((a ++ id8 ++ encodeUvarint p.length ++ p ++ c).drop (a.length + 8))
      = .ok (p.length, p ++ c) := by
  have : (a ++ id8 ++ encodeUvarint p.length ++ p ++ c).drop (a.length + 8)
      = encodeUvarint p.length ++ (p ++ c) := by
    rw [← h8, ← List.length_append]
    simp only [List.append_assoc]
    rw [← List.append_assoc a id8, List.drop_left]
  rw [this, ReadUvarint_encodeUvarint _ (encodeUvarint_mod _ hp)]

/-- Decoding at the offset of a row decodes the payload of the row. -/
theorem decodeAt_row (db : DB) (pre post : List DiskRow) (r : DiskRow) (off : Int)
    (hsrc : db.source = layout (pre ++ r :: post)) (hoff : off = ((layout pre).length : Int))
    (hp : r.payload.length < 2 ^ 63) (dest : Iface) :
    db.decodeAt off dest = decodeOnly db.schema (r.payload ++ layout post) dest := by
  have h1 : ¬ (off + 8 < 0) := by omega
  have h2 : (off + 8).toNat = (layout pre).length + 8 := by omega
  unfold DB.decodeAt decodeOnly
  rw [if_neg h1, h2, hsrc, layout_split,
    ReadUvarint_row _ _ _ _ (encodeUint64_length _) hp]


/-! ## Lemmas on maps -/

section Maps
variable {κ β : Type} [DecidableEq κ]

theorem mapGet_mem : ∀ (m : List (κ × β)) (k : κ) (v : β), mapGet m k = some v → (k, v) ∈ m
  | [], _, _, h => by simp [mapGet] at h
  | (k', v') :: rest, k, v, h => by
    simp only [mapGet] at h
    split at h
    · rename_i hk
      simp only [Option.some.injEq] at h
      subst hk; subst h
      simp
    · exact List.mem_cons_of_mem _ (mapGet_mem rest k v h)

theorem mapGet_of_mem : ∀ (m : List (κ × β)) (k : κ) (v : β),
    (m.map (fun p => p.1)).Nodup → (k, v) ∈ m → mapGet m k = some v
  | [], _, _, _, h => by simp at h
  | (k', v') :: rest, k, v, hnd, h => by
    simp only [List.map_cons, List.nodup_cons, List.mem_map, not_exists, not_and] at hnd
    simp only [mapGet]
    rcases List.mem_cons.mp h with heq | hmem
    · simp only [Prod.mk.injEq] at heq
      simp [heq.1, heq.2]
    · have hne : k' ≠ k := fun hk => hnd.1 (k, v) hmem hk.symm
      simp only [hne, if_false]
      exact mapGet_of_mem rest k v hnd.2 hmem

theorem mapGet_none : ∀ (m : List (κ × β)) (k : κ),
    mapGet m k = none ↔ k ∉ m.map (fun p => p.1)
  | [], _ => by simp [mapGet]
  | (k', v') :: rest, k => by
    simp only [mapGet, List.map_cons, List.mem_cons, not_or]
    split
    · rename_i hk; simp [hk]
    · rename_i hk
      rw [mapGet_none rest k]
      constructor
      · intro h; exact ⟨fun h' => hk h'.symm, h⟩
      · intro h; exact h.2

theorem mapSet_fresh : ∀ (m : List (κ × β)) (k : κ) (v : β),
    k ∉ m.map (fun p => p.1) → mapSet m k v = m ++ [(k, v)]
  | [], _, _, _ => rfl
  | (k', v') :: rest, k, v, h => by
    simp only [List.map_cons, List.mem_cons, not_or] at h
    have hne : k' ≠ k := fun hk => h.1 hk.symm
    simp only [mapSet, hne, if_false, List.cons_append, mapSet_fresh rest k v h.2]

theorem mapSet_keys : ∀ (m : List (κ × β)) (k : κ) (v : β),
    k ∈ m.map (fun p => p.1) → (mapSet m k v).map (fun p => p.1) = m.map (fun p => p.1)
  | [], _, _, h => by simp at h
  | (k', v') :: rest, k, v, h => by
    simp only [mapSet]
    split
    · rename_i hk; simp [hk]
    · rename_i hk
      simp only [List.map_cons, List.mem_cons] at h
      rcases h with h | h
      · exact absurd h.symm hk
      · simp [mapSet_keys rest k v h]

theorem mapSet_nodup (m : List (κ × β)) (k : κ) (v : β)
    (h : (m.map (fun p => p.1)).Nodup) : ((mapSet m k v).map (fun p => p.1)).Nodup := by
  by_cases hk : k ∈ m.map (fun p => p.1)
  · rw [mapSet_keys m k v hk]; exact h
  · rw [mapSet_fresh m k v hk]
    simp only [List.map_append, List.map_cons, List.map_nil]
    rw [List.nodup_append]
    refine ⟨h, by simp, ?_⟩
    intro a ha hb
    simp only [List.mem_singleton] at hb
    subst hb
    exact hk ha

theorem mem_mapSet : ∀ (m : List (κ × β)) (k : κ) (v : β) (p : κ × β),
    p ∈ mapSet m k v → p = (k, v) ∨ p ∈ m
  | [], k, v, p, h => by simp [mapSet] at h; exact Or.inl h
  | (k', v') :: rest, k, v, p, h => by
    simp only [mapSet] at h
    split at h
    · rcases List.mem_cons.mp h with h | h
      · exact Or.inl h
      · exact Or.inr (List.mem_cons_of_mem _ h)
    · rcases List.mem_cons.mp h with h | h
      · subst h; exact Or.inr (by simp)
      · rcases mem_mapSet rest k v p h with h | h
        · exact Or.inl h
        · exact Or.inr (List.mem_cons_of_mem _ h)

theorem mapGet_mapSet : ∀ (m : List (κ × β)) (k : κ) (v : β) (k' : κ),
    mapGet (mapSet m k v) k' = if k = k' then some v else mapGet m k'
  | [], k, v, k' => by simp [mapSet, mapGet]
  | (k0, v0) :: rest, k, v, k' => by
    simp only [mapSet]
    split
    · rename_i hk
      subst hk
      simp only [mapGet]
      split <;> rfl
    · rename_i hk
      simp only [mapGet]
      split
      · rename_i hk0
        subst hk0
        simp [hk, Ne.symm hk]
      · exact mapGet_mapSet rest k v k'

theorem mem_mapDelete (m : List (κ × β)) (k : κ) (p : κ × β) :
    p ∈ mapDelete m k ↔ p ∈ m ∧ p.1 ≠ k := by
  simp [mapDelete]

theorem mapDelete_nodup (m : List (κ × β)) (k : κ)
    (h : (m.map (fun p => p.1)).Nodup) : ((mapDelete m k).map (fun p => p.1)).Nodup := by
  unfold mapDelete
  exact (List.filter_sublist m).map _ |>.nodup h

theorem mapGet_mapDelete : ∀ (m : List (κ × β)) (k k' : κ),
    mapGet (mapDelete m k) k' = if k' = k then none else mapGet m k'
  | [], k, k' => by simp [mapDelete, mapGet]
  | (k0, v0) :: rest, k, k' => by
    have ih := mapGet_mapDelete rest k k'
    unfold mapDelete at ih ⊢
    simp only [List.filter_cons]
    by_cases h0 : k0 = k
    · subst h0
      simp only [ne_eq, not_true_eq_false, decide_False, Bool.false_eq_true, if_false, ih, mapGet]
      by_cases hk : k' = k0
      · simp [hk]
      · simp [hk, Ne.symm hk]
    · simp only [ne_eq, h0, not_false_eq_true, decide_True, if_true, mapGet, ih]
      by_cases hk : k0 = k'
      · subst hk; simp [h0]
      · simp [hk]

theorem mapDelete_length : ∀ (m : List (κ × β)) (k : κ),
    (m.map (fun p => p.1)).Nodup → k ∈ m.map (fun p => p.1) →
    (mapDelete m k).length + 1 = m.length
  | [], _, _, h => by simp at h
  | (k0, v0) :: rest, k, hnd, h => by
    simp only [List.map_cons, List.nodup_cons] at hnd
    unfold mapDelete
    simp only [List.filter_cons]
    by_cases h0 : k0 = k
    · subst h0
      simp only [ne_eq, not_true_eq_false, decide_False, Bool.false_eq_true, if_false,
        List.length_cons, add_left_inj]
      -- nothing else is removed
      rw [List.filter_eq_self.mpr]
      intro p hp
      simp only [decide_eq_true_eq]
      intro hpk
      exact hnd.1 (List.mem_map.mpr ⟨p, hp, hpk⟩)
    · simp only [ne_eq, h0, not_false_eq_true, decide_True, if_true, List.length_cons,
        add_left_inj]
      simp only [List.map_cons, List.mem_cons] at h
      rcases h with h | h
      · exact absurd h.symm h0
      · have := mapDelete_length rest k hnd.2 h
        unfold mapDelete at this
        exact this

end Maps

/-! ## Stored records decode by themselves -/

theorem mergeBy_eq_mergeFields (names : List String) : ∀ (fs : List Field) (ss ds : List Value),
    (∀ f ∈ fs, f.name ∈ names ↔ f.exported = true) →
    mergeBy names fs ss ds = mergeFields fs ss ds
  | [], _, _, _ => by simp [mergeBy, mergeFields]
  | _ :: _, [], _, _ => by simp [mergeBy, mergeFields]
  | _ :: _, _ :: _, [], _ => by simp [mergeBy, mergeFields]
  | f :: fs, s :: ss, d :: ds, h => by
    have hf := h f (by simp)
    simp only [mergeBy, mergeFields]
    rw [mergeBy_eq_mergeFields names fs ss ds (fun g hg => h g (List.mem_cons_of_mem _ hg))]
    by_cases he : f.exported = true
    · simp [he, hf.mpr he]
    · have : f.name ∉ names := fun hm => he (hf.mp hm)
      simp [he, this]

theorem exported_iff_mem (t : StructType) (hwf : t.WF) (f : Field) (hf : f ∈ t.fields) :
    f.name ∈ getExportedFieldNames t ↔ f.exported = true := by
  rw [mem_getExportedFieldNames]
  constructor
  · rintro ⟨g, hg, hge, hgn⟩
    have : g = f := List.inj_on_of_nodup_map hwf hg hf hgn
    rw [← this]; exact hge
  · intro he; exact ⟨f, hf, he, rfl⟩

/-- The encoding of a record of the schema's type decodes by itself, into the
record with nil slices made empty and the other fields of the destination
kept. -/
theorem decodable_encoded (schema : tableSchema) (hwf : schema.dataType.WF)
    (hvalid : schema.dataType.Valid) (rec : Record) (hty : rec.type = schema.dataType)
    (hwt : rec.WellTyped) (buf : List Nat) (henc : encodeStructToBinary rec = .ok buf) :
    Decodable schema buf ∧
    ∀ dest : Record, dest.type = schema.dataType →
      dest.vals.length = dest.type.fields.length →
      ∀ rest, decodeOnly schema (buf ++ rest) (.ptr dest) = .ok (storedAs rec dest) := by
  unfold encodeStructToBinary at henc
  rw [hty] at henc
  unfold Record.WellTyped at hwt
  rw [hty] at hwt
  have hnames := namesOK_exported schema.dataType hvalid
  have key : ∀ dest : Record, dest.type = schema.dataType →
      dest.vals.length = dest.type.fields.length →
      ∀ rest, decodeOnly schema (buf ++ rest) (.ptr dest) = .ok (storedAs rec dest) := by
    intro dest hd hl rest
    rw [hd] at hl
    simp only [decodeOnly, tableSchema.Decode, hd, if_true, decodeStructFromBinary]
    rw [decodeFields_encodeFields _ _ hwf hwt _ _ hnames henc _ _ hl]
    simp only [storedAs, hd]
    rw [mergeBy_eq_mergeFields _ _ _ _ (fun f hf => exported_iff_mem _ hwf f hf)]
  refine ⟨⟨?_, ?_⟩, key⟩
  · intro dest rest
    cases dest with
    | struct r => rfl
    | other => rfl
    | ptr d =>
      by_cases hd : d.type = schema.dataType
      · simp only [decodeOnly, tableSchema.Decode, hd, if_true, decodeStructFromBinary]
        rw [decodeFields_rest _ _ hwf hwt _ _ hnames henc]
        cases decodeFields schema.dataType.fields (getExportedFieldNames schema.dataType)
          d.vals buf with
        | error e => rfl
        | ok q => rfl
      · simp only [decodeOnly, tableSchema.Decode, hd, if_false]
  · intro dest hd hl
    have := key dest hd hl []
    rw [List.append_nil] at this
    exact ⟨_, this⟩

/-! ## Rows and offsets -/

theorem RowAt_append (rows more : List DiskRow) (off : Nat) (r : DiskRow)
    (h : RowAt rows off r) : RowAt (rows ++ more) off r := by
  obtain ⟨pre, post, h1, h2⟩ := h
  exact ⟨pre, post ++ more, by simp [h1], h2⟩

theorem RowAt_last (rows : List DiskRow) (r : DiskRow) :
    RowAt (rows ++ [r]) (layout rows).length r :=
  ⟨rows, [], rfl, rfl⟩

/-- Replacing a row by one of the same length leaves the rows with other ids
where they are. -/
theorem RowAt_replace (pre post : List DiskRow) (r t r2 : DiskRow) (off : Nat)
    (hlen : t.bytes.length = r.bytes.length) (hne : r2.id ≠ r.id)
    (h : RowAt (pre ++ r :: post) off r2) : RowAt (pre ++ t :: post) off r2 := by
  obtain ⟨pre2, post2, h1, h2⟩ := h
  rcases List.append_eq_append_iff.mp h1 with ⟨a, ha1, ha2⟩ | ⟨c, hc1, hc2⟩
  · -- pre2 = pre ++ a
    cases a with
    | nil =>
      simp only [List.nil_append, List.cons.injEq] at ha2
      exact absurd (by rw [ha2.1]) hne
    | cons x a =>
      simp only [List.cons_append, List.cons.injEq] at ha2
      obtain ⟨rfl, rfl⟩ := ha2
      refine ⟨pre ++ t :: a, post2, by simp, ?_⟩
      rw [← h2, ha1]
      simp [layout_append, layout_cons, hlen]
  · -- pre = pre2 ++ c
    cases c with
    | nil =>
      simp only [List.nil_append, List.cons.injEq] at hc2
      exact absurd (by rw [hc2.1]) hne
    | cons x c =>
      simp only [List.cons_append, List.cons.injEq] at hc2
      obtain ⟨rfl, rfl⟩ := hc2
      exact ⟨pre2, c ++ t :: post, by simp [hc1], h2⟩


/-! ## The invariant is kept by every operation -/

theorem setCustomIndices_some (rec : Record) (id : Nat) (hnd : rec.type.WF)
    (hl : rec.vals.length = rec.type.fields.length) :
    ∀ ci : List (String × List (Nat × Dyn)),
      (∀ p ∈ ci, ∃ f ∈ rec.type.fields, f.name = p.1) →
      ∃ ci', setCustomIndices rec id ci = some ci' ∧
        ci'.map (fun p => p.1) = ci.map (fun p => p.1)
  | [], _ => ⟨[], rfl, rfl⟩
  | (name, m) :: rest, h => by
    obtain ⟨f, hf, hfn⟩ := h (name, m) (by simp)
    obtain ⟨v, hv⟩ := fieldLookup_mem rec.type.fields rec.vals f hnd hl hf
    simp only at hfn
    rw [hfn] at hv
    obtain ⟨rest', h1, h2⟩ := setCustomIndices_some rec id hnd hl rest
      (fun p hp => h p (List.mem_cons_of_mem _ hp))
    refine ⟨(name, mapSet m id ⟨f.type, v⟩) :: rest', ?_, ?_⟩
    · simp only [setCustomIndices, hv, h1]
    · simp [h2]

theorem custom_of_keys (fields : List Field) (ci ci' : List (String × List (Nat × Dyn)))
    (hk : ci'.map (fun p => p.1) = ci.map (fun p => p.1))
    (h : ∀ p ∈ ci, ∃ f ∈ fields, f.name = p.1) :
    ∀ p ∈ ci', ∃ f ∈ fields, f.name = p.1 := by
  intro p hp
  have : p.1 ∈ ci.map (fun p => p.1) := by
    rw [← hk]; exact List.mem_map.mpr ⟨p, hp, rfl⟩
  obtain ⟨q, hq, hqp⟩ := List.mem_map.mp this
  obtain ⟨f, hf, hfn⟩ := h q hq
  exact ⟨f, hf, by rw [hfn, hqp]⟩

/-- What `insert` does to a state that satisfies the invariant: an accepted
value is appended as a new row and indexed at the former end of the source. -/
theorem insert_spec (db : DB) (rows : List DiskRow) (hinv : Inv db rows) (value : Iface)
    (hacc : Accepted db.schema value) (id : Nat) (hid : id < 2 ^ 64) :
    ∃ rec buf ci, value.record = some rec ∧ rec.type = db.schema.dataType ∧
      encodeStructToBinary rec = .ok buf ∧
      db.insert value id =
        ({ db with
            source := db.source ++ encodeRowHeader id buf.length ++ buf
            index := mapSet db.index id db.source.length
            customIndices := ci }, none) ∧
      ci.map (fun p => p.1) = db.customIndices.map (fun p => p.1) ∧
      Inv { db with
            source := db.source ++ encodeRowHeader id buf.length ++ buf
            index := mapSet db.index id db.source.length
            customIndices := ci } (rows ++ [⟨id, buf⟩]) := by
  obtain ⟨hwt, rec, hrec, hty, hfit⟩ := hacc
  have hwt' : rec.WellTyped := by
    cases value <;> simp only [Iface.record, Option.some.injEq, reduceCtorEq] at hrec
    · subst hrec; exact hwt
    · subst hrec; exact hwt
  have hwf : rec.type.WF := by rw [hty]; exact hinv.schemaWF
  obtain ⟨buf, hbuf⟩ := encodeFields_ok rec.type.fields rec.vals hwf hwt'
    (getExportedFieldNames rec.type) (by rw [hty]; exact namesOK_exported _ hinv.schemaValid)
  have hbuf' : encodeStructToBinary rec = .ok buf := hbuf
  have hlen : buf.length < 2 ^ 63 := hfit buf hbuf'
  have henc : db.schema.Encode value = .ok buf := by
    cases value <;> simp only [Iface.record, Option.some.injEq, reduceCtorEq] at hrec
    · subst hrec; simp [tableSchema.Encode, hty, hbuf']
    · subst hrec; simp [tableSchema.Encode, hty, hbuf']
  obtain ⟨ci, hci, hkeys⟩ := setCustomIndices_some rec id hwf
    (fieldsTyped_length _ _ hwt') db.customIndices (by rw [hty]; exact hinv.custom)
  have hins : db.insert value id =
      ({ db with
          source := db.source ++ encodeRowHeader id buf.length ++ buf
          index := mapSet db.index id db.source.length
          customIndices := ci }, none) := by
    have hnl : ¬ buf.length ≥ 2 ^ 63 := by omega
    simp only [DB.insert, henc, if_neg hnl, writeAt_end]
    have h2 : db.source.length + (encodeRowHeader id buf.length).length
        = (db.source ++ encodeRowHeader id buf.length).length := by simp
    rw [h2, writeAt_end]
    unfold DB.addToIndex
    by_cases hc : db.customIndices.length > 0
    · simp only [hc, if_true, hrec, hci]
    · simp only [hc, if_false]
      have : db.customIndices = [] := by
        cases hdc : db.customIndices with
        | nil => rfl
        | cons a b => rw [hdc] at hc; simp at hc
      rw [this] at hci
      simp only [setCustomIndices, Option.some.injEq] at hci
      rw [← hci, this]
  refine ⟨rec, buf, ci, hrec, hty, hbuf', hins, hkeys, ?_⟩
  have hdec := (decodable_encoded db.schema hinv.schemaWF hinv.schemaValid rec hty hwt' buf
    hbuf').1
  constructor
  · exact hinv.schemaWF
  · exact hinv.schemaValid
  · exact custom_of_keys _ _ _ hkeys hinv.custom
  · show db.source ++ encodeRowHeader id buf.length ++ buf = layout (rows ++ [⟨id, buf⟩])
    rw [layout_append, hinv.source]
    simp [layout, DiskRow.bytes]
  · intro r hr
    rcases List.mem_append.mp hr with h | h
    · exact hinv.rowsWF r h
    · simp only [List.mem_singleton] at h
      subst h; exact hlen
  · exact mapSet_nodup _ _ _ hinv.keys
  · intro p hp
    rcases mem_mapSet _ _ _ _ hp with h | h
    · subst h
      refine ⟨hid, by simp, ⟨id, buf⟩, ?_, rfl, hdec⟩
      have : ((db.source.length : Int)).toNat = (layout rows).length := by
        rw [hinv.source]; simp
      show RowAt _ ((db.source.length : Int)).toNat _
      rw [this]
      exact RowAt_last rows _
    · obtain ⟨h1, h2, r, h3, h4, h5⟩ := hinv.entries p h
      exact ⟨h1, h2, r, RowAt_append _ _ _ _ h3, h4, h5⟩
  · intro r hr
    rcases List.mem_append.mp hr with h | h
    · exact hinv.rowsOK r h
    · simp only [List.mem_singleton] at h
      subst h
      exact ⟨hid, rec, buf, hty, hwt', hbuf', Or.inl rfl⟩

/-- Whatever `insert` returns for a Go value, the invariant is kept: a failed
insert leaves the state as it was. -/
theorem insert_fail (db : DB) (rows : List DiskRow) (hinv : Inv db rows) (value : Iface)
    (hwt : value.WellTyped) (id : Nat) (e : Err) (db' : DB)
    (h : db.insert value id = (db', some e)) : db' = db := by
  unfold DB.insert at h
  cases henc : db.schema.Encode value with
  | error e' =>
    simp only [henc, Prod.mk.injEq] at h
    exact h.1.symm
  | ok buf =>
    simp only [henc] at h
    split at h
    · simp only [Prod.mk.injEq] at h
      exact h.1.symm
    · -- the value has the type of the schema, so the index update succeeds
      exfalso
      have hrec : ∃ rec, value.record = some rec ∧ rec.type = db.schema.dataType := by
        cases value with
        | other => simp [tableSchema.Encode] at henc
        | struct r =>
          simp only [tableSchema.Encode] at henc
          split at henc
          · exact ⟨r, rfl, by assumption⟩
          · simp at henc
        | ptr r =>
          simp only [tableSchema.Encode] at henc
          split at henc
          · exact ⟨r, rfl, by assumption⟩
          · simp at henc
      obtain ⟨rec, hrec, hty⟩ := hrec
      have hwt' : rec.WellTyped := by
        cases value <;> simp only [Iface.record, Option.some.injEq, reduceCtorEq] at hrec
        · subst hrec; exact hwt
        · subst hrec; exact hwt
      have hwf : rec.type.WF := by rw [hty]; exact hinv.schemaWF
      obtain ⟨ci, hci, _⟩ := setCustomIndices_some rec id hwf
        (fieldsTyped_length _ _ hwt') db.customIndices (by rw [hty]; exact hinv.custom)
      unfold DB.addToIndex at h
      simp only [hrec, hci] at h
      split at h <;> simp at h


theorem drop_source (a p c : List Nat) (id8 : List Nat) (h8 : id8.length = 8)
    (hp : p.length < 2 ^ 63) :
    let src1 := writeAt (a ++ id8 ++ encodeUvarint p.length ++ p ++ c) a.length
      (encodeUint64 DeletedID)
    src1 = a ++ List.replicate 8 0 ++ encodeUvarint p.length ++ p ++ c ∧
    ReadUvarint (src1.drop (a.length + 8)) = .ok (p.length, p ++ c) ∧
    writeAt src1 (src1.length - (p ++ c).length) (List.replicate p.length 0)
      = a ++ List.replicate 8 0 ++ encodeUvarint p.length ++ List.replicate p.length 0 ++ c := by
  intro src1
  have h1 : src1 = a ++ List.replicate 8 0 ++ encodeUvarint p.length ++ p ++ c := by
    show writeAt _ _ _ = _
    have := writeAt_mid a id8 (encodeUint64 DeletedID) (encodeUvarint p.length ++ p ++ c)
      (by rw [encodeUint64_length, h8])
    simp only [List.append_assoc] at this ⊢
    rw [this, encodeUint64_zero]
  refine ⟨h1, ?_, ?_⟩
  · rw [h1]
    exact ReadUvarint_row a _ p c (by simp) hp
  · rw [h1]
    have hpos : (a ++ List.replicate 8 0 ++ encodeUvarint p.length ++ p ++ c).length
        - (p ++ c).length = (a ++ List.replicate 8 0 ++ encodeUvarint p.length).length := by
      simp only [List.length_append]
      omega
    rw [hpos]
    exact writeAt_mid _ p _ c (by simp)

/-- What `drop` does to a state that satisfies the invariant, for an id that is
not zero and is in the index: the row becomes a tombstone in place and the id
leaves the indices. -/
theorem drop_spec (db : DB) (rows : List DiskRow) (hinv : Inv db rows) (id : Nat)
    (hid : id ≠ 0) (off : Int) (hget : mapGet db.index id = some off) :
    ∃ pre r post, rows = pre ++ r :: post ∧ off = ((layout pre).length : Int) ∧ r.id = id ∧
      db.drop id
        = (DB.removeFromIndex { db with source := layout (pre ++ r.tombstone :: post) } id,
            none) ∧
      Inv (DB.removeFromIndex { db with source := layout (pre ++ r.tombstone :: post) } id)
        (pre ++ r.tombstone :: post) := by
  have hmem := mapGet_mem _ _ _ hget
  obtain ⟨_, hoff, r, ⟨pre, post, hrows, hlen⟩, hrid, _⟩ := hinv.entries _ hmem
  simp only at hoff hlen hrid
  have hp : r.payload.length < 2 ^ 63 := hinv.rowsWF r (by rw [hrows]; simp)
  refine ⟨pre, r, post, hrows, by omega, hrid, ?_, ?_⟩
  · have hsrc : db.source = layout pre ++ encodeUint64 r.id ++ encodeUvarint r.payload.length
        ++ r.payload ++ layout post := by
      rw [hinv.source, hrows, layout_split]
    obtain ⟨h1, h2, h3⟩ := drop_source (layout pre) r.payload (layout post) (encodeUint64 r.id)
      (encodeUint64_length _) hp
    have hnl : ¬ r.payload.length ≥ 2 ^ 63 := by omega
    have hno : ¬ off < 0 := by omega
    have hnd : ¬ id = DeletedID := hid
    have hpos : off.toNat = (layout pre).length := hlen.symm
    unfold DB.drop
    rw [if_neg hnd]
    simp only [hget]
    rw [if_neg hno, hpos, hsrc, h2]
    simp only []
    rw [if_neg hnl, h3, layout_split]
    simp [DiskRow.tombstone, encodeUint64_zero]
  · constructor
    · exact hinv.schemaWF
    · exact hinv.schemaValid
    · intro p hp'
      simp only [DB.removeFromIndex, List.mem_map] at hp'
      obtain ⟨q, hq, rfl⟩ := hp'
      exact hinv.custom q hq
    · rfl
    · intro r' hr'
      rcases List.mem_append.mp hr' with h | h
      · exact hinv.rowsWF r' (by rw [hrows]; simp [h])
      · rcases List.mem_cons.mp h with h | h
        · subst h; simpa [DiskRow.tombstone] using hp
        · exact hinv.rowsWF r' (by rw [hrows]; simp [h])
    · exact mapDelete_nodup _ _ hinv.keys
    · intro p hp'
      simp only [DB.removeFromIndex] at hp'
      obtain ⟨hp1, hp2⟩ := (mem_mapDelete _ _ _).mp hp'
      obtain ⟨h1, h2, r2, h3, h4, h5⟩ := hinv.entries p hp1
      refine ⟨h1, h2, r2, ?_, h4, h5⟩
      rw [hrows] at h3
      exact RowAt_replace pre post r r.tombstone r2 _ (bytes_length_tombstone r)
        (by rw [h4, hrid]; exact hp2) h3
    · intro r' hr'
      rcases List.mem_append.mp hr' with h | h
      · exact hinv.rowsOK r' (by rw [hrows]; simp [h])
      · rcases List.mem_cons.mp h with h | h
        · subst h
          obtain ⟨_, rec, buf, a1, a2, a3, a4⟩ := hinv.rowsOK r (by rw [hrows]; simp)
          refine ⟨by simp [DiskRow.tombstone, DeletedID], rec, buf, a1, a2, a3, Or.inr ?_⟩
          rcases a4 with a4 | a4
          · simp [DiskRow.tombstone, a4]
          · simp [DiskRow.tombstone, a4]
        · exact hinv.rowsOK r' (by rw [hrows]; simp [h])

/-- A `drop` that returns `ErrNotFound` changes nothing; this is the case
exactly when the id is zero or not in the index. -/
theorem drop_notFound (db : DB) (id : Nat) (h : id = 0 ∨ mapGet db.index id = none) :
    db.drop id = (db, some .notFound) := by
  unfold DB.drop
  rcases h with h | h
  · simp [h, DeletedID]
  · simp [h]

/-- Whatever `drop` returns, a state that satisfies the invariant is left in
one that does. -/
theorem drop_inv (db : DB) (rows : List DiskRow) (hinv : Inv db rows) (id : Nat) :
    ∃ rows', Inv (db.drop id).1 rows' := by
  by_cases h0 : id = 0
  · rw [drop_notFound db id (Or.inl h0)]; exact ⟨rows, hinv⟩
  · cases hget : mapGet db.index id with
    | none => rw [drop_notFound db id (Or.inr hget)]; exact ⟨rows, hinv⟩
    | some off =>
      obtain ⟨pre, r, post, _, _, _, h1, h2⟩ := drop_spec db rows hinv id h0 off hget
      rw [h1]; exact ⟨_, h2⟩


theorem copyN_payload (p c : List Nat) (hp : p.length < 2 ^ 63) :
    copyN (p ++ c) (toInt64 p.length) = .ok p := by
  have h1 : toInt64 p.length = (p.length : Int) := by
    unfold toInt64; rw [if_pos hp]
  rw [h1]
  unfold copyN
  by_cases h0 : p.length = 0
  · have : p = [] := List.length_eq_zero.mp h0
    simp [this]
  · have h2 : ¬ ((p.length : Int) ≤ 0) := by omega
    rw [if_neg h2]
    simp

theorem toInt64_small (n : Nat) (h : n < 2 ^ 63) : toInt64 n = (n : Int) := by
  unfold toInt64; rw [if_pos h]

/-- The loop of `Defrag` copies the row of every index entry, in the order of
the index, and records where it put it. -/
theorem defragLoop_spec (schema : tableSchema) (rows : List DiskRow)
    (hwf : ∀ r ∈ rows, r.payload.length < 2 ^ 63) (P : DiskRow → Prop)
    (hP : ∀ r ∈ rows, P r) :
    ∀ (es done : List (Nat × Int)) (rowsT : List DiskRow) (newIndex : List (Nat × Int)),
      (∀ p ∈ es, p.1 < 2 ^ 64 ∧ 0 ≤ p.2 ∧
        ∃ r, RowAt rows p.2.toNat r ∧ r.id = p.1 ∧ Decodable schema r.payload) →
      ((done ++ es).map (fun p => p.1)).Nodup →
      newIndex.map (fun p => p.1) = done.map (fun p => p.1) →
      (∀ q ∈ newIndex, q.1 < 2 ^ 64 ∧ 0 ≤ q.2 ∧ ∃ p ∈ done, p.1 = q.1 ∧
        ∃ r, RowAt rows p.2.toNat r ∧ RowAt rowsT q.2.toNat r ∧ r.id = q.1 ∧
          Decodable schema r.payload) →
      (∀ r ∈ rowsT, r.payload.length < 2 ^ 63 ∧ P r) →
      ∃ rowsT' newIndex',
        defragLoop (layout rows) es (layout rowsT) newIndex ((layout rowsT).length : Int)
          = .ok (layout rowsT', newIndex') ∧
        newIndex'.map (fun p => p.1) = (done ++ es).map (fun p => p.1) ∧
        (∀ q ∈ newIndex', q.1 < 2 ^ 64 ∧ 0 ≤ q.2 ∧ ∃ p ∈ done ++ es, p.1 = q.1 ∧
          ∃ r, RowAt rows p.2.toNat r ∧ RowAt rowsT' q.2.toNat r ∧ r.id = q.1 ∧
            Decodable schema r.payload) ∧
        (∀ r ∈ rowsT', r.payload.length < 2 ^ 63 ∧ P r) := by
  intro es
  induction es with
  | nil =>
    intro done rowsT newIndex _ _ hk hq hT
    exact ⟨rowsT, newIndex, rfl, by simpa using hk, by simpa using hq, hT⟩
  | cons e es ih =>
    intro done rowsT newIndex hes hnd hk hq hT
    obtain ⟨id, cursor⟩ := e
    obtain ⟨hid, hc, r, ⟨pre, post, hrows, hlen⟩, hrid, hdec⟩ := hes (id, cursor) (by simp)
    simp only at hid hc hlen hrid
    have hp : r.payload.length < 2 ^ 63 := hwf r (by rw [hrows]; simp)
    have hfresh : id ∉ newIndex.map (fun p => p.1) := by
      rw [hk]
      intro hmem
      have hnd' := hnd
      rw [List.map_append, List.nodup_append] at hnd'
      exact hnd'.2.2 hmem (by simp)
    -- one step of the loop
    have hstep : defragLoop (layout rows) ((id, cursor) :: es) (layout rowsT) newIndex
        ((layout rowsT).length : Int)
        = defragLoop (layout rows) es (layout (rowsT ++ [r]))
            (newIndex ++ [(id, ((layout rowsT).length : Int))])
            ((layout (rowsT ++ [r])).length : Int) := by
      have h1 : ¬ (cursor + 8 < 0) := by omega
      have h2 : (cursor + 8).toNat = (layout pre).length + 8 := by omega
      have h3 : ReadUvarint ((layout rows).drop ((layout pre).length + 8))
          = .ok (r.payload.length, r.payload ++ layout post) := by
        rw [hrows, layout_split]
        exact ReadUvarint_row _ _ _ _ (encodeUint64_length _) hp
      rw [defragLoop, if_neg h1, h2, h3]
      simp only []
      rw [copyN_payload _ _ hp]
      simp only []
      rw [mapSet_fresh _ _ _ hfresh, toInt64_small _ hp]
      congr 1
      · rw [layout_append, layout_cons, layout_nil, List.append_nil, DiskRow.bytes, hrid,
          List.append_assoc]
      · rw [layout_append, layout_cons, layout_nil, List.append_nil, DiskRow.bytes, hrid]
        simp only [List.length_append, Nat.cast_add]
        ring
    rw [hstep]
    have hdone : (done ++ [(id, cursor)]) ++ es = done ++ (id, cursor) :: es := by simp
    obtain ⟨rowsT', newIndex', g1, g2, g3, g4⟩ :=
      ih (done ++ [(id, cursor)]) (rowsT ++ [r]) (newIndex ++ [(id, ((layout rowsT).length : Int))])
        (fun p hp' => hes p (List.mem_cons_of_mem _ hp'))
        (by rw [hdone]; exact hnd)
        (by simp [hk])
        (by
          intro q hq'
          rcases List.mem_append.mp hq' with h | h
          · obtain ⟨a1, a2, p, a3, a4, r', a5, a6, a7, a8⟩ := hq q h
            exact ⟨a1, a2, p, List.mem_append_left _ a3, a4, r', a5,
              RowAt_append _ _ _ _ a6, a7, a8⟩
          · simp only [List.mem_singleton] at h
            subst h
            refine ⟨hid, by simp, (id, cursor), by simp, rfl, r, ⟨pre, post, hrows, hlen⟩, ?_,
              hrid, hdec⟩
            simpa using RowAt_last rowsT r)
        (by
          intro r' hr'
          rcases List.mem_append.mp hr' with h | h
          · exact hT r' h
          · simp only [List.mem_singleton] at h
            subst h; exact ⟨hp, hP _ (by rw [hrows]; simp)⟩)
    rw [hdone] at g2 g3
    exact ⟨rowsT', newIndex', g1, g2, g3, g4⟩

/-- What `Defrag` does to a state that satisfies the invariant: it succeeds,
keeps the ids of the index in their order, and every id points at the same row
in the new source as in the old one. -/
theorem defrag_spec (db : DB) (rows : List DiskRow) (hinv : Inv db rows) :
    ∃ rows' newIndex,
      db.Defrag = ({ db with source := layout rows', index := newIndex }, none) ∧
      newIndex.map (fun p => p.1) = db.index.map (fun p => p.1) ∧
      (∀ q ∈ newIndex, ∃ p ∈ db.index, p.1 = q.1 ∧
        ∃ r, RowAt rows p.2.toNat r ∧ RowAt rows' q.2.toNat r ∧ 0 ≤ p.2 ∧ 0 ≤ q.2 ∧
          Decodable db.schema r.payload) ∧
      Inv { db with source := layout rows', index := newIndex } rows' := by
  obtain ⟨rows', newIndex, h1, h2, h3, h4⟩ :=
    defragLoop_spec db.schema rows hinv.rowsWF
      (fun r => r.id < 2 ^ 64 ∧ RowPayload db.schema r.payload) hinv.rowsOK db.index [] [] []
      hinv.entries (by simpa using hinv.keys) rfl (by simp) (by simp)
  simp only [layout_nil, List.length_nil, Nat.cast_zero, List.nil_append] at h1 h2 h3
  refine ⟨rows', newIndex, ?_, h2, ?_, ?_⟩
  · unfold DB.Defrag
    rw [hinv.source, h1]
    simp only [writeAt_zero_take]
  · intro q hq
    obtain ⟨_, a2, p, a3, a4, r, a5, a6, _, a8⟩ := h3 q hq
    exact ⟨p, a3, a4, r, a5, a6, (hinv.entries p a3).2.1, a2, a8⟩
  · constructor
    · exact hinv.schemaWF
    · exact hinv.schemaValid
    · exact hinv.custom
    · rfl
    · exact fun r hr => (h4 r hr).1
    · show (newIndex.map (fun p => p.1)).Nodup
      rw [h2]; exact hinv.keys
    · intro q hq
      obtain ⟨a1, a2, p, a3, a4, r, a5, a6, a7, a8⟩ := h3 q hq
      exact ⟨a1, a2, r, a6, a7, a8⟩
    · exact fun r hr => (h4 r hr).2


/-! ## The id field of a row header -/

theorem bigEndian_snoc (w : Nat) : ∀ n, bigEndian w (n / 256) ++ [n % 256] = bigEndian (w + 1) n := by
  induction w with
  | zero => intro n; simp [bigEndian]
  | succ w ih =>
    intro n
    have h : n / 256 / 256 ^ w = n / 256 ^ (w + 1) := by
      rw [Nat.div_div_eq_div_mul, pow_succ, Nat.mul_comm]
    rw [bigEndian, List.cons_append, ih n, h]
    rfl

theorem bigEndian_zero (w : Nat) : bigEndian w 0 = List.replicate w 0 := by
  induction w with
  | zero => rfl
  | succ w ih => simp [bigEndian, ih, List.replicate_succ]

theorem set_replicate (k x : Nat) (tail : List Nat) :
    (List.replicate (k + 1) 0 ++ tail).set k x = List.replicate k 0 ++ x :: tail := by
  induction k with
  | zero => simp
  | succ k ih =>
    rw [List.replicate_succ, List.cons_append, List.set_cons_succ, ih]
    simp [List.replicate_succ]

theorem encodeUint64Loop_eq : ∀ (k n : Nat) (tail : List Nat), n < 256 ^ k →
    encodeUint64Loop k n (List.replicate k 0 ++ tail) = some (bigEndian k n ++ tail)
  | 0, n, tail, h => by
    have h0 : n = 0 := by simpa using h
    subst h0
    simp [encodeUint64Loop, bigEndian]
  | k + 1, n, tail, h => by
    rw [encodeUint64Loop]
    by_cases hn : n > 0
    · rw [if_pos hn, set_replicate]
      have hand : n &&& 0xff = n % 256 := Nat.and_pow_two_sub_one_eq_mod n 8
      have hshift : n >>> 8 = n / 256 := by rw [Nat.shiftRight_eq_div_pow]
      have hlt : n / 256 < 256 ^ k := by
        rw [Nat.div_lt_iff_lt_mul (by norm_num)]
        rw [pow_succ] at h
        exact h
      rw [hand, hshift, encodeUint64Loop_eq k (n / 256) _ hlt, ← bigEndian_snoc]
      simp
    · have h0 : n = 0 := by omega
      subst h0
      rw [if_neg (by simp), bigEndian_zero]

/-- For a `uint64` the loop of `encodeUint64` stays inside its buffer and
leaves the big-endian bytes of the number. -/
theorem encodeUint64_eq (n : Nat) (h : n < 2 ^ 64) : encodeUint64 n = bigEndian 8 n := by
  unfold encodeUint64
  rw [Nat.mod_eq_of_lt h]
  have := encodeUint64Loop_eq 8 n [] (by norm_num at h ⊢; exact h)
  simp only [List.append_nil] at this
  rw [this]
  rfl

theorem lor_step (F b s t : Nat) (ht : t = s + 8) (hb : b < 256) :
    (F * 2 ^ t) ||| (b <<< s) = (F * 256 + b) * 2 ^ s := by
  subst ht
  have h1 : b * 2 ^ s < 2 ^ (s + 8) := by
    rw [pow_add]
    have : (2:Nat) ^ 8 = 256 := by norm_num
    rw [this, Nat.mul_comm]
    exact Nat.mul_lt_mul_of_pos_left hb (Nat.pow_pos (by norm_num))
  rw [Nat.lor_comm, Nat.shiftLeft_eq, ← Nat.shiftLeft_eq F, lor_shift_eq_add _ _ _ h1, pow_add]
  ring

theorem decodeUint64_bytes (b0 b1 b2 b3 b4 b5 b6 b7 : Nat) (h1 : b1 < 256)
    (h2 : b2 < 256) (h3 : b3 < 256) (h4 : b4 < 256) (h5 : b5 < 256) (h6 : b6 < 256)
    (h7 : b7 < 256) :
    (List.range 8).foldl
      (fun n i => n ||| (([b0, b1, b2, b3, b4, b5, b6, b7].getD i 0) <<< (64 - (i + 1) * 8))) 0
      = fromBigEndian [b0, b1, b2, b3, b4, b5, b6, b7] := by
  have hr : List.range 8 = [0, 1, 2, 3, 4, 5, 6, 7] := by decide
  rw [hr]
  simp only [List.foldl_cons, List.foldl_nil, fromBigEndian, List.getD_cons_zero,
    List.getD_cons_succ]
  norm_num only
  rw [Nat.zero_or, Nat.shiftLeft_eq b0, lor_step _ b1 48 56 rfl h1, lor_step _ b2 40 48 rfl h2,
    lor_step _ b3 32 40 rfl h3, lor_step _ b4 24 32 rfl h4, lor_step _ b5 16 24 rfl h5,
    lor_step _ b6 8 16 rfl h6, lor_step _ b7 0 8 rfl h7]
  norm_num

/-- Reading back the id field of a row header. -/
theorem decodeUint64_encodeUint64 (n : Nat) (h : n < 2 ^ 64) (rest : List Nat) :
    decodeUint64 (encodeUint64 n ++ rest) = .ok (n, rest) := by
  rw [encodeUint64_eq n h]
  unfold decodeUint64
  have hrf := readFull_append (bigEndian 8 n) rest
  rw [bigEndian_length] at hrf
  rw [hrf]
  simp only []
  have hb : bigEndian 8 n = [n / 256 ^ 7 % 256, n / 256 ^ 6 % 256, n / 256 ^ 5 % 256,
      n / 256 ^ 4 % 256, n / 256 ^ 3 % 256, n / 256 ^ 2 % 256, n / 256 ^ 1 % 256,
      n / 256 ^ 0 % 256] := by
    simp only [bigEndian]
  have hm : ∀ x : Nat, x % 256 < 256 := fun x => Nat.mod_lt _ (by norm_num)
  have hfold := decodeUint64_bytes (n / 256 ^ 7 % 256) _ _ _ _ _ _ _ (hm (n / 256 ^ 6))
    (hm (n / 256 ^ 5)) (hm (n / 256 ^ 4)) (hm (n / 256 ^ 3)) (hm (n / 256 ^ 2))
    (hm (n / 256 ^ 1)) (hm (n / 256 ^ 0))
  rw [← hb] at hfold
  rw [hfold, fromBigEndian_bigEndian, Nat.mod_eq_of_lt (by norm_num at h ⊢; exact h)]


/-! ## Tombstones decode by themselves -/

theorem ReadUvarint_zero (xs : List Nat) : ReadUvarint (0 :: xs) = .ok (0, xs) := by
  simp [ReadUvarint, readUvarintLoop]

theorem encodeUvarint_length_pos (n : Nat) : 1 ≤ (encodeUvarint n).length := by
  unfold encodeUvarint
  rw [putUvarint]
  split <;> simp

theorem replicate_split (k m : Nat) (h : m ≤ k) (rest : List Nat) :
    List.replicate k 0 ++ rest = List.replicate m 0 ++ (List.replicate (k - m) 0 ++ rest) := by
  rw [← List.append_assoc, ← List.replicate_add]
  congr 2
  omega

theorem readFull_zeros (k m : Nat) (h : m ≤ k) (rest : List Nat) :
    readFull m (List.replicate k 0 ++ rest)
      = .ok (List.replicate m 0, List.replicate (k - m) 0 ++ rest) := by
  rw [replicate_split k m h rest]
  have := readFull_append (List.replicate m 0) (List.replicate (k - m) 0 ++ rest)
  simpa using this

/-- Decoding a value of a valid column type from zero bytes takes `minSize`
of them, whatever follows. -/
theorem decode_zeros (t : Ty) (hv : isValidColumnType t = true) :
    ∃ v, ∀ k rest, minSize t ≤ k →
      decodeFromBinary t (List.replicate k 0 ++ rest)
        = .ok (v, minSize t, List.replicate (k - minSize t) 0 ++ rest) := by
  have hfixed : ∀ t : Ty, isFixedSizeType t = true → isVariableSizeType t = false →
      (∀ r, decodeFromBinary t r = match binaryRead t r with
        | .error err => .error err
        | .ok (v, rest) => .ok (v, (sizeof t).getD 0, rest)) →
      ∃ v, ∀ k rest, minSize t ≤ k →
        decodeFromBinary t (List.replicate k 0 ++ rest)
          = .ok (v, minSize t, List.replicate (k - minSize t) 0 ++ rest) := by
    intro t hf hnv hdef
    obtain ⟨sz, hsz⟩ := isFixedSizeType_sizeof t hf
    refine ⟨(decodeFixed t (List.replicate sz 0)).1, fun k rest hk => ?_⟩
    have hm : minSize t = sz := by simp [minSize, hnv, hsz]
    rw [hm] at hk ⊢
    rw [hdef]
    simp only [binaryRead, hsz, readFull_zeros k sz hk rest, Option.getD_some]
  have hvarzero : ∀ k rest, 1 ≤ k →
      List.replicate k 0 ++ rest = 0 :: (List.replicate (k - 1) 0 ++ rest) := by
    intro k rest hk
    obtain ⟨j, rfl⟩ : ∃ j, k = j + 1 := ⟨k - 1, by omega⟩
    simp [List.replicate_succ]
  have hlen0 : ¬ (0 : Nat) ≥ 2 ^ 63 := by norm_num
  cases t with
  | basic k0 =>
    by_cases hk : k0 = .String
    · subst hk
      refine ⟨.str [], fun k rest hk => ?_⟩
      have hm : minSize (.basic .String) = 1 := rfl
      rw [hm] at hk ⊢
      rw [hvarzero k rest hk]
      simp [decodeFromBinary, decodeSliceFixed, ReadUvarint_zero, binaryReadSlice, sizeof,
        readFull, decodeFixedN, bytesOf, encodeUvarint, putUvarint]
    · have hnv : isVariableSizeType (.basic k0) = false := by
        cases k0 <;> first | rfl | exact absurd rfl hk
      have hf : isFixedSizeType (.basic k0) = true := by
        rw [← isValid_of_not_variable _ hnv]; exact hv
      exact hfixed _ hf hnv (fun r => by simp [decodeFromBinary, hk])
  | array n e =>
    exact hfixed _ hv rfl (fun r => by simp [decodeFromBinary])
  | slice e =>
    have hm : minSize (.slice e) = 1 := rfl
    have hve : isValidColumnType e = true := hv
    refine ⟨.slice [], fun k rest hk => ?_⟩
    rw [hm] at hk ⊢
    rw [hvarzero k rest hk]
    by_cases hvar : isVariableSizeType e = true
    · simp [decodeFromBinary, hvar, ReadUvarint_zero, decodeEach, encodeUvarint, putUvarint]
    · have hvar' : isVariableSizeType e = false := by simpa using hvar
      have hfix : isFixedSizeType e = true := by
        rw [← isValid_of_not_variable e hvar']; exact hve
      obtain ⟨s, hs⟩ := isFixedSizeType_sizeof _ hfix
      simp [decodeFromBinary, hvar', decodeSliceFixed, ReadUvarint_zero, binaryReadSlice, hs,
        readFull, decodeFixedN, sizeof, encodeUvarint, putUvarint]

/-- An encoding is at least `minSize` bytes long. -/
theorem minSize_le (t : Ty) (v : Value) (hv : isValidColumnType t = true)
    (ht : hasType t v = true) (bs : List Nat) (h : encodeToBinary t v = .ok bs) :
    minSize t ≤ bs.length := by
  have hfixed : ∀ t : Ty, isFixedSizeType t = true → isVariableSizeType t = false →
      hasType t v = true → encodeToBinary t v = binaryWrite t v → encodeToBinary t v = .ok bs →
      (∀ sz, sizeof t = some sz → binaryWrite t v = .ok (encodeFixed t v)) →
      minSize t ≤ bs.length := by
    intro t hf hnv ht hdef h hbw
    obtain ⟨sz, hsz⟩ := isFixedSizeType_sizeof t hf
    have hm : minSize t = sz := by simp [minSize, hnv, hsz]
    rw [hdef, hbw sz hsz] at h
    simp only [Except.ok.injEq] at h
    rw [hm, ← h, (encodeFixed_spec t v sz hsz ht).1]
  cases t with
  | basic k0 =>
    by_cases hk : k0 = .String
    · subst hk
      simp only [encodeToBinary, if_true, Except.ok.injEq] at h
      rw [← h]
      have := encodeUvarint_length_pos v.asStr.length
      have hm : minSize (.basic .String) = 1 := rfl
      rw [hm, List.length_append]
      omega
    · have hnv : isVariableSizeType (.basic k0) = false := by
        cases k0 <;> first | rfl | exact absurd rfl hk
      have hf : isFixedSizeType (.basic k0) = true := by
        rw [← isValid_of_not_variable _ hnv]; exact hv
      exact hfixed _ hf hnv ht (by simp [encodeToBinary, hk]) h
        (fun sz hsz => by simp [binaryWrite, hsz])
  | array n e =>
    exact hfixed _ hv rfl ht (by simp [encodeToBinary]) h
      (fun sz hsz => by simp [binaryWrite, hsz])
  | slice e =>
    have hm : minSize (.slice e) = 1 := rfl
    rw [hm]
    have := encodeUvarint_length_pos v.elems.length
    simp only [encodeToBinary] at h
    split at h
    · split at h
      · simp at h
      · simp only [Except.ok.injEq] at h
        rw [← h, List.length_append]; omega
    · split at h
      · simp at h
      · simp only [Except.ok.injEq] at h
        rw [← h, List.length_append]; omega

/-- Decoding a record from as many zero bytes as an encoding has succeeds
inside those bytes, whatever follows them. -/
theorem decodeFields_zeros (fs : List Field) (vs : List Value)
    (hnd : (fs.map (fun f => f.name)).Nodup) (htyped : fieldsTyped fs vs) :
    ∀ (names : List String) (bs : List Nat), NamesOK fs names →
      encodeFields fs vs names = .ok bs →
      ∃ m, m ≤ bs.length ∧ ∀ ds : List Value, ∃ res : Except Err (List Value),
        (ds.length = fs.length → ∃ vals, res = .ok vals) ∧
        ∀ k rest, bs.length ≤ k →
          decodeFields fs names ds (List.replicate k 0 ++ rest) = zerosResult m k rest res := by
  intro names
  induction names with
  | nil =>
    intro bs _ henc
    simp only [encodeFields, Except.ok.injEq] at henc
    subst henc
    refine ⟨0, le_refl _, fun ds => ⟨.ok ds, fun _ => ⟨ds, rfl⟩, fun k rest _ => ?_⟩⟩
    simp [decodeFields, zerosResult]
  | cons n names ih =>
    intro bs hnames henc
    obtain ⟨g, hg, _, hgn, hgv⟩ := hnames n (by simp)
    have hvl := fieldsTyped_length fs vs htyped
    obtain ⟨v, hv⟩ := fieldLookup_mem fs vs g hnd hvl hg
    rw [hgn] at hv
    obtain ⟨_, _, hty⟩ := fieldLookup_typed fs vs n g v htyped hv
    obtain ⟨b1, hb, _⟩ := decode_encode g.type v hgv hty
    obtain ⟨b2, hr⟩ := encodeFields_ok fs vs hnd htyped names
      (fun m hm => hnames m (List.mem_cons_of_mem _ hm))
    simp only [encodeFields, hv, hb, hr, Except.ok.injEq] at henc
    subst henc
    obtain ⟨m2, hm2, ih2⟩ := ih b2 (fun m hm => hnames m (List.mem_cons_of_mem _ hm)) hr
    obtain ⟨v0, hv0⟩ := decode_zeros g.type hgv
    have hmin := minSize_le g.type v hgv hty b1 hb
    refine ⟨minSize g.type + m2, by rw [List.length_append]; omega, fun ds => ?_⟩
    cases hl : fieldLookup fs ds n with
    | none =>
      refine ⟨.error .panic, fun hlen => ?_, fun k rest _ => ?_⟩
      · obtain ⟨d, hd⟩ := fieldLookup_mem fs ds g hnd hlen hg
        rw [hgn, hl] at hd
        simp at hd
      · simp [decodeFields, hl, zerosResult]
    | some p =>
      obtain ⟨g', d⟩ := p
      have hg' : g' = g := fieldLookup_field fs vs ds n g g' v d hv hl
      subst hg'
      obtain ⟨res2, hres2, hdec2⟩ := ih2 (fieldSet fs ds n v0)
      refine ⟨res2, fun hlen => hres2 (by rw [fieldSet_length, hlen]), fun k rest hk => ?_⟩
      rw [List.length_append] at hk
      simp only [decodeFields, hl, hv0 k rest (by omega)]
      rw [hdec2 (k - minSize g'.type) rest (by omega)]
      cases res2 with
      | error e => rfl
      | ok vals =>
        simp only [zerosResult]
        have : k - minSize g'.type - m2 = k - (minSize g'.type + m2) := by omega
        rw [this]

/-- A tombstone of a row written for a record of the schema's type decodes by
itself. -/
theorem decodable_zeros (schema : tableSchema) (hwf : schema.dataType.WF)
    (hvalid : schema.dataType.Valid) (rec : Record) (hty : rec.type = schema.dataType)
    (hwt : rec.WellTyped) (buf : List Nat) (henc : encodeStructToBinary rec = .ok buf) :
    Decodable schema (List.replicate buf.length 0) := by
  unfold encodeStructToBinary at henc
  rw [hty] at henc
  unfold Record.WellTyped at hwt
  rw [hty] at hwt
  have hnames := namesOK_exported schema.dataType hvalid
  obtain ⟨m, _, hz⟩ := decodeFields_zeros _ _ hwf hwt _ _ hnames henc
  constructor
  · intro dest rest
    cases dest with
    | struct r => rfl
    | other => rfl
    | ptr d =>
      by_cases hd : d.type = schema.dataType
      · obtain ⟨res, _, hres⟩ := hz d.vals
        have h1 := hres buf.length rest (le_refl _)
        have h2 := hres buf.length [] (le_refl _)
        rw [List.append_nil] at h2
        simp only [decodeOnly, tableSchema.Decode, hd, if_true, decodeStructFromBinary, h1, h2]
        cases res with
        | error e => rfl
        | ok vals => rfl
      · simp only [decodeOnly, tableSchema.Decode, hd, if_false]
  · intro dest hd hl
    rw [hd] at hl
    obtain ⟨res, hok, hres⟩ := hz dest.vals
    obtain ⟨vals, hvals⟩ := hok hl
    have h2 := hres buf.length [] (le_refl _)
    rw [List.append_nil, hvals] at h2
    exact ⟨⟨dest.type, vals⟩, by
      simp only [decodeOnly, tableSchema.Decode, hd, if_true, decodeStructFromBinary, h2,
        zerosResult]⟩

/-- Every row written for a record of the schema's type decodes by itself. -/
theorem rowPayload_decodable (schema : tableSchema) (hwf : schema.dataType.WF)
    (hvalid : schema.dataType.Valid) (p : List Nat) (h : RowPayload schema p) :
    Decodable schema p := by
  obtain ⟨rec, buf, h1, h2, h3, h4⟩ := h
  rcases h4 with rfl | rfl
  · exact (decodable_encoded schema hwf hvalid rec h1 h2 _ h3).1
  · exact decodable_zeros schema hwf hvalid rec h1 h2 buf h3


/-! ## PopulateIndex keeps the invariant -/

theorem setCustomIndices_keys (rec : Record) (id : Nat) :
    ∀ (ci ci' : List (String × List (Nat × Dyn))), setCustomIndices rec id ci = some ci' →
      ci'.map (fun p => p.1) = ci.map (fun p => p.1)
  | [], ci', h => by
    simp only [setCustomIndices, Option.some.injEq] at h
    subst h; rfl
  | (name, m) :: rest, ci', h => by
    simp only [setCustomIndices] at h
    split at h
    · simp at h
    · split at h
      · simp at h
      · rename_i rest' hrest
        simp only [Option.some.injEq] at h
        subst h
        simp [setCustomIndices_keys rec id rest rest' hrest]

/-- Whatever `addToIndex` returns for the row at `cursor`, the invariant is
kept. -/
theorem addToIndex_inv (db : DB) (rows : List DiskRow) (hinv : Inv db rows) (r : DiskRow)
    (cursor : Int) (hc : 0 ≤ cursor) (hrow : RowAt rows cursor.toNat r)
    (decodeValue : Except Err Iface) :
    Inv (db.addToIndex r.id cursor decodeValue).1 rows ∧
    (db.addToIndex r.id cursor decodeValue).1.source = db.source := by
  have hmem : r ∈ rows := by
    obtain ⟨pre, post, h, _⟩ := hrow
    rw [h]; simp
  have hid := (hinv.rowsOK r hmem).1
  have hdec := rowPayload_decodable db.schema hinv.schemaWF hinv.schemaValid r.payload
    (hinv.rowsOK r hmem).2
  have hnew : ∀ ci : List (String × List (Nat × Dyn)),
      ci.map (fun p => p.1) = db.customIndices.map (fun p => p.1) →
      Inv { db with customIndices := ci, index := mapSet db.index r.id cursor } rows := by
    intro ci hci
    constructor
    · exact hinv.schemaWF
    · exact hinv.schemaValid
    · exact custom_of_keys _ _ _ hci hinv.custom
    · exact hinv.source
    · exact hinv.rowsWF
    · exact mapSet_nodup _ _ _ hinv.keys
    · intro p hp
      rcases mem_mapSet _ _ _ _ hp with h | h
      · subst h
        exact ⟨hid, hc, r, hrow, rfl, hdec⟩
      · exact hinv.entries p h
    · exact hinv.rowsOK
  unfold DB.addToIndex
  by_cases hlen : db.customIndices.length > 0
  · rw [if_pos hlen]
    cases decodeValue with
    | error e => exact ⟨hinv, rfl⟩
    | ok value =>
      simp only []
      cases hrec : value.record with
      | none => exact ⟨hinv, rfl⟩
      | some rec =>
        simp only []
        cases hset : setCustomIndices rec r.id db.customIndices with
        | none => exact ⟨hinv, rfl⟩
        | some ci => exact ⟨hnew ci (setCustomIndices_keys _ _ _ _ hset), rfl⟩
  · rw [if_neg hlen]
    exact ⟨hnew db.customIndices rfl, rfl⟩

theorem wrapInt64_id (x : Int) (h0 : 0 ≤ x) (h : x < 2 ^ 63) : wrapInt64 x = x := by
  unfold wrapInt64
  rw [Int.emod_eq_of_lt (by omega) (by omega)]
  omega

theorem encodeUvarint_length_le (n : Nat) : (encodeUvarint n).length ≤ 10 := by
  unfold encodeUvarint
  have : ∀ (fuel x : Nat), (putUvarint fuel x).length ≤ fuel := by
    intro fuel
    induction fuel with
    | zero => intro x; simp [putUvarint]
    | succ fuel ih =>
      intro x
      rw [putUvarint]
      split
      · simp only [List.length_cons]
        have := ih (x >>> 7)
        omega
      · simp
  exact this 10 _

/-- The loop of `PopulateIndex`, started at a row boundary, keeps the
invariant whatever it returns. -/
theorem populateLoop_inv (rows : List DiskRow) :
    ∀ (fuel : Nat) (pre suf : List DiskRow) (db : DB) (offset : Int) (db' : DB)
      (e : Option Err),
      rows = pre ++ suf → Inv db rows → db.source.length < 2 ^ 63 →
      offset = ((layout pre).length : Int) →
      populateLoop fuel offset db = some (db', e) → Inv db' rows := by
  intro fuel
  induction fuel with
  | zero => intro pre suf db offset db' e _ _ _ _ h; simp [populateLoop] at h
  | succ fuel ih =>
    intro pre suf db offset db' e hrows hinv hlen hoff h
    have hsrc : db.source = layout pre ++ layout suf := by
      rw [hinv.source, hrows, layout_append]
    have hdrop : db.source.drop offset.toNat = layout suf := by
      have : offset.toNat = (layout pre).length := by omega
      rw [this, hsrc, List.drop_left]
    rw [populateLoop, hdrop] at h
    cases suf with
    | nil =>
      simp only [layout_nil, decodeUint64, readFull, List.length_nil] at h
      simp only [Nat.le_zero_eq, OfNat.ofNat_ne_zero, if_false, if_true,
        Option.some.injEq, Prod.mk.injEq] at h
      rw [← h.1]; exact hinv
    | cons r suf' =>
      have hmem : r ∈ rows := by rw [hrows]; simp
      have hid := (hinv.rowsOK r hmem).1
      have hp := hinv.rowsWF r hmem
      have hlay : layout (r :: suf') = encodeUint64 r.id
          ++ (encodeUvarint r.payload.length ++ (r.payload ++ layout suf')) := by
        simp [layout_cons, DiskRow.bytes, encodeRowHeader]
      rw [hlay, decodeUint64_encodeUint64 _ hid] at h
      simp only [] at h
      rw [ReadUvarint_encodeUvarint _ (encodeUvarint_mod _ hp)] at h
      simp only [] at h
      have hrow : RowAt rows offset.toNat r :=
        ⟨pre, suf', hrows, by omega⟩
      obtain ⟨hinv1, hsrc1⟩ := addToIndex_inv db rows hinv r offset (by omega) hrow
        (match db.schema.Decode (r.payload ++ layout suf')
            (Iface.ptr (zeroRecord db.schema.dataType)) with
          | .error e => .error e
          | .ok (rec, _, _) => .ok (Iface.ptr rec))
      cases hadd : db.addToIndex r.id offset
        (match db.schema.Decode (r.payload ++ layout suf')
            (Iface.ptr (zeroRecord db.schema.dataType)) with
          | .error e => .error e
          | .ok (rec, _, _) => .ok (Iface.ptr rec)) with
      | mk db1 e1 =>
        rw [hadd] at h hinv1 hsrc1
        simp only [] at hinv1 hsrc1
        cases e1 with
        | some e1 =>
          simp only [Option.some.injEq, Prod.mk.injEq] at h
          rw [← h.1]; exact hinv1
        | none =>
          simp only [] at h
          -- the offset of the next row, without overflow
          have htot : (layout pre).length + (8 + (encodeUvarint r.payload.length).length
              + r.payload.length) ≤ db.source.length := by
            rw [hsrc, hlay]
            simp only [List.length_append, encodeUint64_length]
            omega
          have hvl := encodeUvarint_length_le r.payload.length
          have h63 : (2:Int) ^ 63 = 9223372036854775808 := by norm_num
          have h63n : (2:Nat) ^ 63 = 9223372036854775808 := by norm_num
          have hnext : wrapInt64 (offset + wrapInt64 (toInt64 r.payload.length
              + (((encodeUvarint r.payload.length).length : Int) + 8)))
              = ((layout (pre ++ [r])).length : Int) := by
            have hin : wrapInt64 ((r.payload.length : Int)
                + (((encodeUvarint r.payload.length).length : Int) + 8))
                = (r.payload.length : Int)
                  + (((encodeUvarint r.payload.length).length : Int) + 8) :=
              wrapInt64_id _ (by omega) (by omega)
            rw [toInt64_small _ hp, hin, wrapInt64_id _ (by omega) (by omega), hoff]
            simp only [layout_append, layout_cons, layout_nil, List.append_nil, DiskRow.bytes,
              encodeRowHeader, List.length_append, encodeUint64_length, Nat.cast_add,
              Nat.cast_ofNat]
            ring
          rw [hnext] at h
          have hnn : ¬ (((layout (pre ++ [r])).length : Int) < 0) := by omega
          rw [if_neg hnn] at h
          exact ih (pre ++ [r]) suf' db1 _ db' e (by rw [hrows]; simp) hinv1
            (by rw [hsrc1]; exact hlen) rfl h

/-- Whatever `PopulateIndex` returns, the invariant is kept. -/
theorem populate_inv (db : DB) (rows : List DiskRow) (hinv : Inv db rows)
    (hlen : db.source.length < 2 ^ 63) (fuel : Nat) (db' : DB) (e : Option Err)
    (h : db.PopulateIndex fuel = some (db', e)) : Inv db' rows := by
  unfold DB.PopulateIndex at h
  have hinv0 : Inv { db with index := [] } rows := by
    constructor
    · exact hinv.schemaWF
    · exact hinv.schemaValid
    · exact hinv.custom
    · exact hinv.source
    · exact hinv.rowsWF
    · simp
    · intro p hp; simp at hp
    · exact hinv.rowsOK
  exact populateLoop_inv rows fuel [] rows _ 0 db' e rfl hinv0 hlen (by simp [layout_nil]) h

/-- Reopening the source with the same record type keeps the invariant. -/
theorem reopen_inv (db : DB) (rows : List DiskRow) (hinv : Inv db rows)
    (hlen : db.source.length < 2 ^ 63) (exampleValue : Record)
    (hty : exampleValue.type = db.schema.dataType) (fuel : Nat) (db' : DB)
    (h : NewDB db.source (.struct exampleValue) fuel = some (.ok db')) : Inv db' rows := by
  unfold NewDB DB.ReflectSchema tableSchema.Reflect at h
  simp only [Iface.record] at h
  split at h
  · simp at h
  · rename_i db1 hdb1
    split at hdb1
    · simp at hdb1
    · rename_i schema hschema
      split at hschema
      · simp only [Except.ok.injEq] at hschema hdb1
        subst hschema
        subst hdb1
        have hinv1 : Inv (⟨⟨exampleValue.type⟩, db.source, [],
            (getExportedIndexedFields exampleValue.type).map (fun n => (n, []))⟩ : DB) rows := by
          have hs : (⟨exampleValue.type⟩ : tableSchema) = db.schema := by
            cases hdb : db.schema with
            | mk dt => rw [hdb] at hty; simp only at hty; rw [hty]
          constructor
          · show exampleValue.type.WF
            rw [hty]; exact hinv.schemaWF
          · show exampleValue.type.Valid
            rw [hty]; exact hinv.schemaValid
          · intro p hp
            simp only [List.mem_map] at hp
            obtain ⟨name, hname, rfl⟩ := hp
            obtain ⟨f, hf, _, hfn⟩ := mem_getExportedIndexedFields _ _ hname
            exact ⟨f, hf, hfn⟩
          · exact hinv.source
          · exact hinv.rowsWF
          · simp
          · intro p hp; simp at hp
          · show ∀ r ∈ rows, r.id < 2 ^ 64 ∧ RowPayload ⟨exampleValue.type⟩ r.payload
            rw [hs]; exact hinv.rowsOK
        cases hpop : DB.PopulateIndex (⟨⟨exampleValue.type⟩, db.source, [],
            (getExportedIndexedFields exampleValue.type).map (fun n => (n, []))⟩ : DB) fuel with
        | none => rw [hpop] at h; simp at h
        | some res =>
          obtain ⟨db2, e2⟩ := res
          rw [hpop] at h
          cases e2 with
          | some e2 => simp at h
          | none =>
            simp only [Option.some.injEq, Except.ok.injEq] at h
            subst h
            exact populate_inv _ rows hinv1 hlen fuel db2 none hpop
      · simp at hschema


theorem encode_ok_record (schema : tableSchema) (value : Iface) (buf : List Nat)
    (h : schema.Encode value = .ok buf) :
    ∃ rec, value.record = some rec ∧ rec.type = schema.dataType ∧
      encodeStructToBinary rec = .ok buf := by
  cases value with
  | other => simp [tableSchema.Encode] at h
  | struct r =>
    simp only [tableSchema.Encode] at h
    split at h
    · exact ⟨r, rfl, by assumption, h⟩
    · simp at h
  | ptr r =>
    simp only [tableSchema.Encode] at h
    split at h
    · exact ⟨r, rfl, by assumption, h⟩
    · simp at h

/-- A successful `insert` was given an accepted value. -/
theorem insert_ok_accepted (db : DB) (value : Iface) (hwt : value.WellTyped) (id : Nat)
    (db' : DB) (h : db.insert value id = (db', none)) : Accepted db.schema value := by
  unfold DB.insert at h
  cases henc : db.schema.Encode value with
  | error e => simp [henc] at h
  | ok buf =>
    simp only [henc] at h
    split at h
    · simp at h
    · rename_i hl
      obtain ⟨rec, h1, h2, h3⟩ := encode_ok_record _ _ _ henc
      refine ⟨hwt, rec, h1, h2, ?_⟩
      intro buf' hb
      rw [h3] at hb
      simp only [Except.ok.injEq] at hb
      subst hb
      omega

/-- Whatever `insert` returns for a Go value, the invariant is kept. -/
theorem insert_inv (db : DB) (rows : List DiskRow) (hinv : Inv db rows) (value : Iface)
    (hwt : value.WellTyped) (id : Nat) (hid : id < 2 ^ 64) :
    ∃ rows', Inv (db.insert value id).1 rows' := by
  cases hres : db.insert value id with
  | mk db' e =>
    cases e with
    | some e =>
      rw [insert_fail db rows hinv value hwt id e db' hres]
      exact ⟨rows, hinv⟩
    | none =>
      have hacc := insert_ok_accepted db value hwt id db' hres
      obtain ⟨rec, buf, ci, _, _, _, h4, _, h6⟩ := insert_spec db rows hinv value hacc id hid
      rw [hres] at h4
      simp only [Prod.mk.injEq, and_true] at h4
      rw [h4]
      exact ⟨_, h6⟩

theorem newIDLoop_lt (index : List (Nat × Int)) : ∀ (rands : List Nat) (id x : Nat),
    id < 2 ^ 64 → newIDLoop index id rands = some x → x < 2 ^ 64 ∧ x ≠ 0
  | [], id, x, hid, h => by
    simp only [newIDLoop] at h
    split at h
    · simp at h
    · rename_i hne
      simp only [Option.some.injEq] at h
      subst h
      exact ⟨hid, hne⟩
  | r :: rs, id, x, hid, h => by
    simp only [newIDLoop] at h
    split at h
    · have hr : r % 2 ^ 64 < 2 ^ 64 := Nat.mod_lt _ (by norm_num)
      split at h
      · exact newIDLoop_lt index rs _ x hr h
      · exact newIDLoop_lt index rs _ x hr h
    · rename_i hne
      simp only [Option.some.injEq] at h
      subst h
      exact ⟨hid, hne⟩

theorem newID_lt (db : DB) (rands : List Nat) (id : Nat) (h : db.newID rands = some id) :
    id < 2 ^ 64 ∧ id ≠ 0 :=
  newIDLoop_lt db.index rands DeletedID id (by simp [DeletedID]) h

/-- The state `NewDB` returns on an empty source. -/
theorem NewDB_empty (exampleValue : Record) (fuel : Nat) (db : DB)
    (h : NewDB [] (.struct exampleValue) fuel = some (.ok db)) :
    exampleValue.type.Valid ∧
    db = ⟨⟨exampleValue.type⟩, [], [],
      (getExportedIndexedFields exampleValue.type).map (fun fieldName => (fieldName, []))⟩ := by
  unfold NewDB DB.ReflectSchema tableSchema.Reflect at h
  simp only [Iface.record] at h
  split at h
  · simp at h
  · rename_i db1 hdb1
    split at hdb1
    · simp at hdb1
    · rename_i schema hschema
      split at hschema
      · rename_i hall
        simp only [Except.ok.injEq] at hschema hdb1
        subst hschema
        subst hdb1
        cases fuel with
        | zero => simp [DB.PopulateIndex, populateLoop] at h
        | succ fuel =>
          simp only [DB.PopulateIndex, populateLoop, List.drop_nil, decodeUint64, readFull,
            List.length_nil] at h
          simp only [Nat.le_zero_eq, OfNat.ofNat_ne_zero, if_false, if_true,
            Option.some.injEq, Except.ok.injEq] at h
          refine ⟨?_, h.symm⟩
          intro f hf he
          have := List.all_eq_true.mp hall f hf
          simpa [he] using this
      · simp at hschema

theorem inv_init (exampleValue : Record) (fuel : Nat) (db : DB)
    (hwf : exampleValue.type.WF)
    (h : NewDB [] (.struct exampleValue) fuel = some (.ok db)) : Inv db [] := by
  obtain ⟨hvalid, rfl⟩ := NewDB_empty exampleValue fuel db h
  constructor
  · exact hwf
  · exact hvalid
  · intro p hp
    simp only [List.mem_map] at hp
    obtain ⟨name, hname, rfl⟩ := hp
    obtain ⟨f, hf, _, hfn⟩ := mem_getExportedIndexedFields _ _ hname
    exact ⟨f, hf, hfn⟩
  · rfl
  · intro r hr; simp at hr
  · simp
  · intro p hp; simp at hp
  · intro r hr; simp at hr

theorem inv_reorder (db : DB) (rows : List DiskRow) (hinv : Inv db rows)
    (l : List (Nat × Int)) (hl : l.Perm db.index) : Inv { db with index := l } rows := by
  constructor
  · exact hinv.schemaWF
  · exact hinv.schemaValid
  · exact hinv.custom
  · exact hinv.source
  · exact hinv.rowsWF
  · exact (hl.map _).nodup_iff.mpr hinv.keys
  · intro p hp
    exact hinv.entries p (hl.mem_iff.mp hp)
  · exact hinv.rowsOK

theorem pop_state (db : DB) (id : Nat) (destPtr : Iface) :
    (db.Pop id destPtr).1 = db ∨ (db.Pop id destPtr).1 = (db.drop id).1 := by
  unfold DB.Pop
  cases mapGet db.index id with
  | none => exact Or.inl rfl
  | some cursor =>
    cases destPtr.record with
    | none => exact Or.inl rfl
    | some dest =>
      simp only []
      cases db.decodeAt cursor (Iface.ptr (zeroRecord dest.type)) with
      | error e => exact Or.inl rfl
      | ok held =>
        simp only []
        cases hd : db.drop id with
        | mk db' e =>
          cases e with
          | some e => exact Or.inr rfl
          | none =>
            cases destPtr <;> exact Or.inr rfl


/-- Every reachable state satisfies the invariant. -/
theorem reachable_inv (db : DB) (h : Reachable db) : ∃ rows, Inv db rows := by
  induction h with
  | init exampleValue fuel db hwf hnew => exact ⟨[], inv_init exampleValue fuel db hwf hnew⟩
  | insert db value rands db' res _ hwt hins ih =>
    obtain ⟨rows, hinv⟩ := ih
    unfold DB.Insert at hins
    cases hid : db.newID rands with
    | none => simp [hid] at hins
    | some id =>
      simp only [hid] at hins
      have := insert_inv db rows hinv value hwt id (newID_lt db rands id hid).1
      cases hres : db.insert value id with
      | mk db1 e =>
        rw [hres] at this hins
        cases e with
        | some e =>
          simp only [Option.some.injEq, Prod.mk.injEq] at hins
          rw [← hins.1]; exact this
        | none =>
          simp only [Option.some.injEq, Prod.mk.injEq] at hins
          rw [← hins.1]; exact this
  | drop db id _ ih =>
    obtain ⟨rows, hinv⟩ := ih
    exact drop_inv db rows hinv id
  | update db id value _ hwt ih =>
    obtain ⟨rows, hinv⟩ := ih
    unfold DB.Update DB.Drop
    by_cases h0 : id = 0
    · rw [drop_notFound db id (Or.inl h0)]; exact ⟨rows, hinv⟩
    · cases hget : mapGet db.index id with
      | none => rw [drop_notFound db id (Or.inr hget)]; exact ⟨rows, hinv⟩
      | some off =>
        obtain ⟨pre, r, post, _, _, _, h1, h2⟩ := drop_spec db rows hinv id h0 off hget
        rw [h1]
        have hid : id < 2 ^ 64 := (hinv.entries _ (mapGet_mem _ _ _ hget)).1
        exact insert_inv _ _ h2 value hwt id hid
  | pop db id destPtr _ ih =>
    obtain ⟨rows, hinv⟩ := ih
    rcases pop_state db id destPtr with h | h
    · rw [h]; exact ⟨rows, hinv⟩
    · rw [h]; exact drop_inv db rows hinv id
  | defrag db _ ih =>
    obtain ⟨rows, hinv⟩ := ih
    obtain ⟨rows', newIndex, h1, _, _, h4⟩ := defrag_spec db rows hinv
    rw [h1]; exact ⟨rows', h4⟩
  | reorder db l _ hl ih =>
    obtain ⟨rows, hinv⟩ := ih
    exact ⟨rows, inv_reorder db rows hinv l hl⟩
  | populate db fuel db' e _ hlen hpop ih =>
    obtain ⟨rows, hinv⟩ := ih
    exact ⟨rows, populate_inv db rows hinv hlen fuel db' e hpop⟩
  | reopen db exampleValue fuel db' _ hlen hty hnew ih =>
    obtain ⟨rows, hinv⟩ := ih
    exact ⟨rows, reopen_inv db rows hinv hlen exampleValue hty fuel db' hnew⟩


/-! ## Finding a stored row -/

/-- `Find` of an indexed id decodes the payload of its row. -/
theorem find_row (db : DB) (rows : List DiskRow) (hinv : Inv db rows) (id : Nat) (off : Int)
    (hget : mapGet db.index id = some off) (hoff : 0 ≤ off) (r : DiskRow)
    (hrow : RowAt rows off.toNat r) (hdec : Decodable db.schema r.payload) (dest : Iface) :
    db.Find id dest = decodeOnly db.schema r.payload dest := by
  obtain ⟨pre, post, hrows, hlen⟩ := hrow
  have hp : r.payload.length < 2 ^ 63 := hinv.rowsWF r (by rw [hrows]; simp)
  unfold DB.Find
  rw [hget]
  simp only []
  rw [decodeAt_row db pre post r off (by rw [hinv.source, hrows]) (by omega) hp dest]
  exact hdec.1 dest _

theorem mergeFields_self : ∀ (fs : List Field) (ss ds : List Value),
    unexportedAgree fs ss ds → hasNilList ss = false → mergeFields fs ss ds = ss
  | [], [], [], _, _ => rfl
  | f :: fs, s :: ss, d :: ds, h, hn => by
    simp only [unexportedAgree] at h
    simp only [hasNilList, Bool.or_eq_false_iff] at hn
    simp only [mergeFields]
    rw [mergeFields_self fs ss ds h.2 hn.2]
    by_cases he : f.exported = true
    · simp [he, nilToEmpty_of_noNil s hn.1]
    · simp only [Bool.not_eq_true] at he
      simp [he, h.1 he]
  | [], [], _ :: _, h, _ => by simp [unexportedAgree] at h
  | [], _ :: _, _, h, _ => by simp [unexportedAgree] at h
  | _ :: _, [], _, h, _ => by simp [unexportedAgree] at h
  | _ :: _, _ :: _, [], h, _ => by simp [unexportedAgree] at h

/-- `Find` of a stored encoded record. -/
theorem find_stored (db : DB) (id : Nat) (R : Record) (buf : List Nat)
    (hty : R.type = db.schema.dataType) (hwt : R.WellTyped)
    (henc : encodeStructToBinary R = .ok buf) (hst : Stored db id buf)
    (dest : Record) (hdt : dest.type = db.schema.dataType)
    (hdl : dest.vals.length = dest.type.fields.length) :
    db.Find id (.ptr dest) = .ok (storedAs R dest) := by
  obtain ⟨rows, off, hinv, hget, hoff, hrow⟩ := hst
  obtain ⟨hdec, hkey⟩ := decodable_encoded db.schema hinv.schemaWF hinv.schemaValid R hty hwt
    buf henc
  rw [find_row db rows hinv id off hget hoff ⟨id, buf⟩ hrow hdec]
  have := hkey dest hdt hdl []
  rwa [List.append_nil] at this

/-- A successful `insert` stores the encoding of the value under the id. -/
theorem stored_insert (db : DB) (rows : List DiskRow) (hinv : Inv db rows) (value : Iface)
    (hwt : value.WellTyped) (id : Nat) (hid : id < 2 ^ 64) (db' : DB)
    (h : db.insert value id = (db', none)) :
    ∃ rec buf, value.record = some rec ∧ rec.type = db.schema.dataType ∧ rec.WellTyped ∧
      encodeStructToBinary rec = .ok buf ∧ db'.schema = db.schema ∧ Stored db' id buf ∧
      db'.source = db.source ++ encodeRowHeader id buf.length ++ buf ∧
      db'.index = mapSet db.index id db.source.length ∧
      ∀ id' p, id' ≠ id → Stored db id' p → Stored db' id' p := by
  have hacc := insert_ok_accepted db value hwt id db' h
  obtain ⟨rec, buf, ci, h1, h2, h3, h4, _, h6⟩ := insert_spec db rows hinv value hacc id hid
  rw [h] at h4
  simp only [Prod.mk.injEq, and_true] at h4
  subst h4
  have hwt' : rec.WellTyped := by
    cases value <;> simp only [Iface.record, Option.some.injEq, reduceCtorEq] at h1
    · subst h1; exact hwt
    · subst h1; exact hwt
  refine ⟨rec, buf, h1, h2, hwt', h3, rfl, ?_, rfl, rfl, ?_⟩
  · refine ⟨_, (db.source.length : Int), h6, ?_, by simp, ?_⟩
    · show mapGet (mapSet db.index id _) id = _
      rw [mapGet_mapSet]; simp
    · have : ((db.source.length : Int)).toNat = (layout rows).length := by
        rw [hinv.source]; simp
      rw [this]
      exact RowAt_last rows _
  · intro id' p hne hst
    obtain ⟨rows0, off, hinv0, hget, hoff, hrow⟩ := hst
    -- the same insert, seen from the rows the other record is stored in
    obtain ⟨rec', buf', ci', g1, _, g3, g4, _, g6⟩ :=
      insert_spec db rows0 hinv0 value hacc id hid
    rw [h1] at g1
    simp only [Option.some.injEq] at g1
    subst g1
    rw [h3] at g3
    simp only [Except.ok.injEq] at g3
    subst g3
    rw [h] at g4
    simp only [Prod.mk.injEq, and_true] at g4
    rw [g4]
    refine ⟨_, off, g6, ?_, hoff, RowAt_append _ _ _ _ hrow⟩
    show mapGet (mapSet db.index id _) id' = _
    rw [mapGet_mapSet, if_neg (Ne.symm hne)]
    exact hget

/-- A successful `drop` of another id leaves a stored row where it is. -/
theorem stored_drop (db : DB) (id id' : Nat) (p : List Nat) (hne : id' ≠ id) (db' : DB)
    (h : db.drop id' = (db', none)) (hst : Stored db id p) :
    Stored db' id p ∧ db'.schema = db.schema := by
  obtain ⟨rows, off, hinv, hget, hoff, hrow⟩ := hst
  have h0 : id' ≠ 0 := by
    intro h0
    rw [drop_notFound db id' (Or.inl h0)] at h
    simp at h
  cases hg : mapGet db.index id' with
  | none =>
    rw [drop_notFound db id' (Or.inr hg)] at h
    simp at h
  | some off' =>
    obtain ⟨pre, r, post, hrows, _, hrid, h1, h2⟩ := drop_spec db rows hinv id' h0 off' hg
    rw [h] at h1
    simp only [Prod.mk.injEq, and_true] at h1
    subst h1
    refine ⟨⟨_, off, h2, ?_, hoff, ?_⟩, rfl⟩
    · show mapGet (mapDelete db.index id') id = _
      rw [mapGet_mapDelete, if_neg (Ne.symm hne)]
      exact hget
    · rw [hrows] at hrow
      exact RowAt_replace pre post r r.tombstone ⟨id, p⟩ _ (bytes_length_tombstone r)
        (by rw [hrid]; exact Ne.symm hne) hrow

theorem stored_inv (db : DB) (id : Nat) (p : List Nat) (h : Stored db id p) :
    ∃ rows, Inv db rows := by
  obtain ⟨rows, _, hinv, _⟩ := h
  exact ⟨rows, hinv⟩

theorem stored_lt (db : DB) (id : Nat) (p : List Nat) (h : Stored db id p) : id < 2 ^ 64 := by
  obtain ⟨rows, off, hinv, hget, _⟩ := h
  exact (hinv.entries _ (mapGet_mem _ _ _ hget)).1

theorem pop_ok_drop (db : DB) (id : Nat) (destPtr : Iface) (db' : DB) (res : Option Record)
    (h : db.Pop id destPtr = (db', none, res)) : db.drop id = (db', none) := by
  unfold DB.Pop at h
  cases hg : mapGet db.index id with
  | none => simp [hg] at h
  | some cursor =>
    simp only [hg] at h
    cases hr : destPtr.record with
    | none => simp [hr] at h
    | some dest =>
      simp only [hr] at h
      cases hd : db.decodeAt cursor (Iface.ptr (zeroRecord dest.type)) with
      | error e => simp [hd] at h
      | ok held =>
        simp only [hd] at h
        cases hdrop : db.drop id with
        | mk db1 e =>
          rw [hdrop] at h
          cases e with
          | some e => simp at h
          | none =>
            cases destPtr <;> simp at h
            rw [h.1]

/-- A later successful operation on another id leaves a stored row where it
is. -/
theorem stored_otherStep (id : Nat) (p : List Nat) (db db' : DB) (hs : OtherStep id db db')
    (hst : Stored db id p) : Stored db' id p ∧ db'.schema = db.schema := by
  cases hs with
  | insert value rands id' hwt hins hne =>
    obtain ⟨rows, hinv⟩ := stored_inv db id p hst
    unfold DB.Insert at hins
    cases hid : db.newID rands with
    | none => simp [hid] at hins
    | some id1 =>
      simp only [hid] at hins
      cases hres : db.insert value id1 with
      | mk db1 e =>
        rw [hres] at hins
        cases e with
        | some e => simp at hins
        | none =>
          simp only [Option.some.injEq, Prod.mk.injEq, Except.ok.injEq] at hins
          obtain ⟨rfl, rfl⟩ := hins
          obtain ⟨_, _, _, _, _, _, hsch, _, _, _, hkeep⟩ :=
            stored_insert db rows hinv value hwt id1 (newID_lt db rands id1 hid).1 db1 hres
          exact ⟨hkeep id p (Ne.symm hne) hst, hsch⟩
  | drop id' hne hdrop => exact stored_drop db id id' p hne db' hdrop hst
  | update id' value hne hwt hupd =>
    unfold DB.Update DB.Drop at hupd
    cases hdrop : db.drop id' with
    | mk db1 e =>
      rw [hdrop] at hupd
      cases e with
      | some e => simp at hupd
      | none =>
        simp only [] at hupd
        obtain ⟨hst1, hsch1⟩ := stored_drop db id id' p hne db1 hdrop hst
        obtain ⟨rows1, hinv1⟩ := stored_inv db1 id p hst1
        have hlt : id' < 2 ^ 64 := by
          cases hg : mapGet db.index id' with
          | none =>
            rw [drop_notFound db id' (Or.inr hg)] at hdrop
            simp at hdrop
          | some off =>
            obtain ⟨rows, hinv⟩ := stored_inv db id p hst
            exact (hinv.entries _ (mapGet_mem _ _ _ hg)).1
        obtain ⟨_, _, _, _, _, _, hsch, _, _, _, hkeep⟩ :=
          stored_insert db1 rows1 hinv1 value hwt id' hlt db' hupd
        exact ⟨hkeep id p (Ne.symm hne) hst1, by rw [hsch, hsch1]⟩
  | pop id' destPtr res hne hpop =>
    exact stored_drop db id id' p hne db' (pop_ok_drop db id' destPtr db' res hpop) hst


/-! ## C2: Find after Insert -/

theorem stored_steps (id : Nat) (p : List Nat) (db db' : DB)
    (hs : Relation.ReflTransGen (OtherStep id) db db') (hst : Stored db id p) :
    Stored db' id p ∧ db'.schema = db.schema := by
  induction hs with
  | refl => exact ⟨hst, rfl⟩
  | tail _ hstep ih =>
    obtain ⟨h1, h2⟩ := ih
    obtain ⟨g1, g2⟩ := stored_otherStep id p _ _ hstep h1
    exact ⟨g1, by rw [g2, h2]⟩

theorem blobEmpty_reachable : Reachable blobEmpty :=
  Reachable.init ⟨blobType, [.nilSlice]⟩ 1 blobEmpty (by simp [StructType.WF, blobType]) rfl

theorem blobNine_reachable : Reachable blobNine :=
  Reachable.insert blobEmpty (.struct ⟨blobType, [.slice [.uint 3]]⟩) [9] blobNine (.ok 9)
    blobEmpty_reachable (by simp [Iface.WellTyped, Record.WellTyped, blobType, fieldsTyped]; decide)
    rfl

/-- C2 (as amended): in a reachable state, if `Insert(R)` returns `id` without
error, then `Find(id, out)` succeeds and leaves in each exported field of `out`
the field of `R` with nil slices made empty, and in the other fields what
`out` held; so `out` ends equal to `R` when `R` has no nil slice and the
unexported fields of `out` held the values of `R`.  This keeps holding after
any later successful `Insert` that returns another id and any successful
`Drop`, `Update` or `Pop` of another id. -/
theorem C2_find_after_insert (db : DB) (hr : Reachable db) (value : Iface) (R : Record)
    (hR : value.record = some R) (hwt : value.WellTyped) (rands : List Nat) (db1 : DB)
    (id : Nat) (hins : db.Insert value rands = some (db1, .ok id)) (db2 : DB)
    (hsteps : Relation.ReflTransGen (OtherStep id) db1 db2) (dest : Record)
    (hdt : dest.type = db.schema.dataType)
    (hdl : dest.vals.length = dest.type.fields.length) :
    db2.Find id (.ptr dest) = .ok (storedAs R dest) ∧
    (unexportedAgree dest.type.fields R.vals dest.vals → hasNilList R.vals = false →
      db2.Find id (.ptr dest) = .ok R) := by
  obtain ⟨rows, hinv⟩ := reachable_inv db hr
  unfold DB.Insert at hins
  cases hid : db.newID rands with
  | none => simp [hid] at hins
  | some id1 =>
    simp only [hid] at hins
    cases hres : db.insert value id1 with
    | mk db' e =>
      rw [hres] at hins
      cases e with
      | some e => simp at hins
      | none =>
        simp only [Option.some.injEq, Prod.mk.injEq, Except.ok.injEq] at hins
        obtain ⟨rfl, rfl⟩ := hins
        obtain ⟨rec, buf, h1, h2, h3, h4, h5, h6, _⟩ :=
          stored_insert db rows hinv value hwt id1 (newID_lt db rands id1 hid).1 db' hres
        rw [hR] at h1
        simp only [Option.some.injEq] at h1
        subst h1
        obtain ⟨g1, g2⟩ := stored_steps id1 buf db' db2 hsteps h6
        have hfind : db2.Find id1 (.ptr dest) = .ok (storedAs R dest) :=
          find_stored db2 id1 R buf (by rw [g2, h5]; exact h2) h3 h4 g1 dest
            (by rw [g2, h5]; exact hdt) hdl
        refine ⟨hfind, fun ha hn => ?_⟩
        rw [hfind]
        have : storedAs R dest = R := by
          unfold storedAs
          rw [mergeFields_self _ _ _ ha hn, hdt, ← h2]
        rw [this]

/-- Witness of C2: `{Data: []byte{1, 2}}` inserted under id 7 next to the row 9,
found after `Drop(9)`. -/
theorem C2_find_after_insert_witness :
    Reachable blobNine ∧
    (Iface.struct ⟨blobType, [.slice [.uint 1, .uint 2]]⟩).WellTyped ∧
    (∃ db1 db2, blobNine.Insert (.struct ⟨blobType, [.slice [.uint 1, .uint 2]]⟩) [7]
        = some (db1, .ok 7) ∧
      Relation.ReflTransGen (OtherStep 7) db1 db2 ∧ db2.Has 9 = false ∧
      db2.Find 7 (.ptr ⟨blobType, [.nilSlice]⟩)
        = .ok (storedAs ⟨blobType, [.slice [.uint 1, .uint 2]]⟩ ⟨blobType, [.nilSlice]⟩) ∧
      (unexportedAgree blobType.fields [.slice [.uint 1, .uint 2]] [.nilSlice] →
        hasNilList [.slice [.uint 1, .uint 2]] = false →
        db2.Find 7 (.ptr ⟨blobType, [.nilSlice]⟩)
          = .ok ⟨blobType, [.slice [.uint 1, .uint 2]]⟩)) :=
  have hwt : (Iface.struct ⟨blobType, [.slice [.uint 1, .uint 2]]⟩).WellTyped := by
    simp [Iface.WellTyped, Record.WellTyped, blobType, fieldsTyped]; decide
  have hstep : OtherStep 7
      (blobNine.insert (.struct ⟨blobType, [.slice [.uint 1, .uint 2]]⟩) 7).1
      ((blobNine.insert (.struct ⟨blobType, [.slice [.uint 1, .uint 2]]⟩) 7).1.Drop 9).1 :=
    OtherStep.drop _ _ 9 (by decide) rfl
  ⟨blobNine_reachable, hwt, _, _, rfl, Relation.ReflTransGen.single hstep, rfl,
    (C2_find_after_insert blobNine blobNine_reachable
      (.struct ⟨blobType, [.slice [.uint 1, .uint 2]]⟩) ⟨blobType, [.slice [.uint 1, .uint 2]]⟩
      rfl hwt [7] _ 7 rfl _
      (Relation.ReflTransGen.single hstep) ⟨blobType, [.nilSlice]⟩ rfl rfl).1,
    (C2_find_after_insert blobNine blobNine_reachable
      (.struct ⟨blobType, [.slice [.uint 1, .uint 2]]⟩) ⟨blobType, [.slice [.uint 1, .uint 2]]⟩
      rfl hwt [7] _ 7 rfl _
      (Relation.ReflTransGen.single hstep) ⟨blobType, [.nilSlice]⟩ rfl rfl).2⟩

/-- C2 as stated fails for a record with a nil slice: `{Data: nil}` inserted
into a fresh engine is found as `{Data: []byte{}}`. -/
theorem C2_counterexample :
    NewDB [] (.struct ⟨blobType, [.nilSlice]⟩) 1 = some (.ok blobEmpty) ∧
    (Iface.struct ⟨blobType, [.nilSlice]⟩).WellTyped ∧
    ∃ db1, blobEmpty.Insert (.struct ⟨blobType, [.nilSlice]⟩) [1] = some (db1, .ok 1) ∧
      db1.Find 1 (.ptr ⟨blobType, [.nilSlice]⟩) = .ok ⟨blobType, [.slice []]⟩ ∧
      (⟨blobType, [.slice []]⟩ : Record) ≠ ⟨blobType, [.nilSlice]⟩ :=
  ⟨rfl, by simp [Iface.WellTyped, Record.WellTyped, blobType, fieldsTyped, hasType],
    _, rfl, rfl, by simp⟩


/-! ## C3 and C4: Drop -/

theorem mapGet_map_snd {κ β : Type} [DecidableEq κ] (f : β → β) :
    ∀ (m : List (κ × β)) (k : κ),
    mapGet (m.map (fun p => (p.1, f p.2))) k = (mapGet m k).map f
  | [], _ => rfl
  | (k0, v0) :: rest, k => by
    simp only [List.map_cons, mapGet]
    split
    · rfl
    · exact mapGet_map_snd f rest k

/-- C3: `Drop(id)` returns `ErrNotFound` exactly when `id` is 0 or not in the
primary index, and then changes nothing; otherwise it succeeds, and afterwards
`Has(id)` is false, `Find(id)` returns `ErrNotFound`, `RowCount` is one less,
`id` is in no secondary index, and every other id keeps its entry in the
primary index and in each secondary index. -/
theorem C3_drop (db : DB) (hr : Reachable db) (id : Nat) :
    ((db.Drop id).2 = some .notFound ↔ (id = 0 ∨ mapGet db.index id = none)) ∧
    ((id = 0 ∨ mapGet db.index id = none) → (db.Drop id).1 = db) ∧
    (¬ (id = 0 ∨ mapGet db.index id = none) →
      (db.Drop id).2 = none ∧
      (db.Drop id).1.Has id = false ∧
      (∀ destPtr, (db.Drop id).1.Find id destPtr = .error .notFound) ∧
      (db.Drop id).1.RowCount + 1 = db.RowCount ∧
      (∀ p ∈ (db.Drop id).1.customIndices, mapGet p.2 id = none) ∧
      (∀ id', id' ≠ id → mapGet (db.Drop id).1.index id' = mapGet db.index id') ∧
      (∀ name m, mapGet db.customIndices name = some m →
        ∃ m', mapGet (db.Drop id).1.customIndices name = some m' ∧
          ∀ id', id' ≠ id → mapGet m' id' = mapGet m id')) := by
  obtain ⟨rows, hinv⟩ := reachable_inv db hr
  have hsucc : ¬ (id = 0 ∨ mapGet db.index id = none) →
      db.Drop id = (DB.removeFromIndex { db with source := (db.Drop id).1.source } id, none) := by
    intro hn
    simp only [not_or] at hn
    obtain ⟨h0, hg⟩ := hn
    cases hget : mapGet db.index id with
    | none => exact absurd hget hg
    | some off =>
      obtain ⟨pre, r, post, _, _, _, h1, _⟩ := drop_spec db rows hinv id h0 off hget
      unfold DB.Drop
      rw [h1]
      rfl
  refine ⟨⟨?_, fun h => ?_⟩, fun h => ?_, fun hn => ?_⟩
  · intro h
    by_contra hn
    rw [hsucc hn] at h
    simp at h
  · unfold DB.Drop; rw [drop_notFound db id h]
  · unfold DB.Drop; rw [drop_notFound db id h]
  · have hd := hsucc hn
    simp only [not_or] at hn
    have hmem : id ∈ db.index.map (fun p => p.1) := by
      by_contra hc
      exact hn.2 ((mapGet_none _ _).mpr hc)
    rw [hd]
    refine ⟨rfl, ?_, ?_, ?_, ?_, ?_, ?_⟩
    · simp [DB.Has, DB.removeFromIndex, mapGet_mapDelete]
    · intro destPtr
      simp [DB.Find, DB.removeFromIndex, mapGet_mapDelete]
    · simp only [DB.RowCount, DB.removeFromIndex]
      exact mapDelete_length _ _ hinv.keys hmem
    · intro p hp
      simp only [DB.removeFromIndex, List.mem_map] at hp
      obtain ⟨q, _, rfl⟩ := hp
      simp [mapGet_mapDelete]
    · intro id' hne
      simp [DB.removeFromIndex, mapGet_mapDelete, hne]
    · intro name m hm
      refine ⟨mapDelete m id, ?_, ?_⟩
      · simp only [DB.removeFromIndex]
        rw [mapGet_map_snd (fun m => mapDelete m id), hm]
        rfl
      · intro id' hne
        simp [mapGet_mapDelete, hne]

/-- Witness of C3: the drop of the only row of `blobNine`. -/
theorem C3_drop_witness :
    Reachable blobNine ∧
    ((blobNine.Drop 9).2 = some .notFound ↔ (9 = 0 ∨ mapGet blobNine.index 9 = none)) ∧
    ((9 = 0 ∨ mapGet blobNine.index 9 = none) → (blobNine.Drop 9).1 = blobNine) ∧
    (¬ (9 = 0 ∨ mapGet blobNine.index 9 = none) →
      (blobNine.Drop 9).2 = none ∧
      (blobNine.Drop 9).1.Has 9 = false ∧
      (∀ destPtr, (blobNine.Drop 9).1.Find 9 destPtr = .error .notFound) ∧
      (blobNine.Drop 9).1.RowCount + 1 = blobNine.RowCount ∧
      (∀ p ∈ (blobNine.Drop 9).1.customIndices, mapGet p.2 9 = none) ∧
      (∀ id', id' ≠ 9 → mapGet (blobNine.Drop 9).1.index id' = mapGet blobNine.index id') ∧
      (∀ name m, mapGet blobNine.customIndices name = some m →
        ∃ m', mapGet (blobNine.Drop 9).1.customIndices name = some m' ∧
          ∀ id', id' ≠ 9 → mapGet m' id' = mapGet m id')) :=
  ⟨blobNine_reachable, C3_drop blobNine blobNine_reachable 9⟩

/-- C4: a successful `Drop(id)` of the row at offset `o` whose header records
the payload size `s` overwrites the 8 id bytes at `[o, o+8)` and the `s` payload
bytes after the size varint with zeros and nothing else: the size varint, the
bytes before and after the row and the length of the source stay as they
were. -/
theorem C4_drop_frame (db : DB) (hr : Reachable db) (id : Nat) (hid : id ≠ 0) (o : Int)
    (hget : mapGet db.index id = some o) :
    ∃ pre payload post : List Nat,
      0 ≤ o ∧ pre.length = o.toNat ∧
      db.source = pre ++ encodeUint64 id ++ encodeUvarint payload.length ++ payload ++ post ∧
      ReadUvarint (db.source.drop (o.toNat + 8)) = .ok (payload.length, payload ++ post) ∧
      (db.Drop id).2 = none ∧
      (db.Drop id).1.source = pre ++ List.replicate 8 0 ++ encodeUvarint payload.length
        ++ List.replicate payload.length 0 ++ post ∧
      (db.Drop id).1.source.length = db.source.length := by
  obtain ⟨rows, hinv⟩ := reachable_inv db hr
  obtain ⟨pre, r, post, hrows, hoff, hrid, h1, _⟩ := drop_spec db rows hinv id hid o hget
  have hp : r.payload.length < 2 ^ 63 := hinv.rowsWF r (by rw [hrows]; simp)
  have hsrc : db.source = layout pre ++ encodeUint64 id ++ encodeUvarint r.payload.length
      ++ r.payload ++ layout post := by
    rw [hinv.source, hrows, layout_split, hrid]
  have hnew : (db.Drop id).1.source = layout pre ++ List.replicate 8 0
      ++ encodeUvarint r.payload.length ++ List.replicate r.payload.length 0 ++ layout post := by
    unfold DB.Drop
    rw [h1]
    show layout (pre ++ r.tombstone :: post) = _
    rw [layout_split]
    simp [DiskRow.tombstone, encodeUint64_zero]
  refine ⟨layout pre, r.payload, layout post, by omega, by omega, hsrc, ?_, ?_, hnew, ?_⟩
  · have : o.toNat = (layout pre).length := by omega
    rw [this, hsrc]
    exact ReadUvarint_row _ _ _ _ (encodeUint64_length _) hp
  · unfold DB.Drop; rw [h1]
  · rw [hnew, hsrc]
    simp only [List.length_append, List.length_replicate, encodeUint64_length]

/-- Witness of C4: the drop of the row of `blobNine`, which starts at offset
0. -/
theorem C4_drop_frame_witness :
    Reachable blobNine ∧ (9 : Nat) ≠ 0 ∧ mapGet blobNine.index 9 = some 0 ∧
    ∃ pre payload post : List Nat,
      (0 : Int) ≤ 0 ∧ pre.length = (0 : Int).toNat ∧
      blobNine.source
        = pre ++ encodeUint64 9 ++ encodeUvarint payload.length ++ payload ++ post ∧
      ReadUvarint (blobNine.source.drop ((0 : Int).toNat + 8))
        = .ok (payload.length, payload ++ post) ∧
      (blobNine.Drop 9).2 = none ∧
      (blobNine.Drop 9).1.source = pre ++ List.replicate 8 0 ++ encodeUvarint payload.length
        ++ List.replicate payload.length 0 ++ post ∧
      (blobNine.Drop 9).1.source.length = blobNine.source.length :=
  ⟨blobNine_reachable, by decide, rfl,
    C4_drop_frame blobNine blobNine_reachable 9 (by decide) 0 rfl⟩


/-! ## C5: Update -/

theorem has_iff (db : DB) (id : Nat) : db.Has id = true ↔ ∃ off, mapGet db.index id = some off := by
  unfold DB.Has
  cases mapGet db.index id <;> simp

/-- What `Update` does to a state that satisfies the invariant, for a live id
and an accepted value. -/
theorem update_spec (db : DB) (rows : List DiskRow) (hinv : Inv db rows) (id : Nat)
    (hid : id ≠ 0) (off : Int) (hget : mapGet db.index id = some off) (value : Iface)
    (hacc : Accepted db.schema value) :
    ∃ pre r post rec buf db',
      rows = pre ++ r :: post ∧ off = ((layout pre).length : Int) ∧ r.id = id ∧
      value.record = some rec ∧ rec.type = db.schema.dataType ∧ rec.WellTyped ∧
      encodeStructToBinary rec = .ok buf ∧
      db.Update id value = (db', none) ∧ db'.schema = db.schema ∧
      Stored db' id buf ∧
      db'.source = layout (pre ++ r.tombstone :: post) ++ encodeRowHeader id buf.length ++ buf ∧
      db'.index = mapSet (mapDelete db.index id) id (db.source.length : Int) := by
  obtain ⟨pre, r, post, hrows, hoff, hrid, h1, h2⟩ := drop_spec db rows hinv id hid off hget
  have hlt : id < 2 ^ 64 := (hinv.entries _ (mapGet_mem _ _ _ hget)).1
  obtain ⟨rec, buf, ci, g1, g2, g3, g4, _, _⟩ := insert_spec _ _ h2 value hacc id hlt
  obtain ⟨rec', buf', k1, k2, k3, k4, k5, k6, k7, k8, _⟩ :=
    stored_insert _ _ h2 value hacc.1 id hlt _ g4
  have hlen : (layout (pre ++ r.tombstone :: post)).length = db.source.length := by
    rw [hinv.source, hrows]
    simp [layout_append, layout_cons, bytes_length_tombstone]
  refine ⟨pre, r, post, rec', buf', _, hrows, hoff, hrid, k1, k2, k3, k4, ?_, k5, k6, k7, ?_⟩
  · unfold DB.Update DB.Drop
    rw [h1]
    exact g4
  · rw [k8]
    show mapSet (mapDelete db.index id) id _ = _
    simp only [DB.removeFromIndex, hlen]

/-- C5 (as amended): for a live id and a record `V` accepted by the schema,
`Update(id, V)` succeeds; afterwards `Has(id)` is true, `Find(id, out)` leaves
in each exported field of `out` the field of `V` with nil slices made empty
(so `out` ends equal to `V` when `V` has no nil slice and the unexported
fields of `out` held the values of `V`), `RowCount` is unchanged, the old row
is a tombstone and the new row, with the same id, starts at the former end of
the source.  If `id` is 0 or not in the index, `Update` returns `ErrNotFound`
and changes nothing. -/
theorem C5_update (db : DB) (hr : Reachable db) (id : Nat) (value : Iface) (V : Record)
    (hacc : Accepted db.schema value) (hV : value.record = some V) :
    (id ≠ 0 → db.Has id = true →
      (db.Update id value).2 = none ∧
      (db.Update id value).1.Has id = true ∧
      (∀ dest : Record, dest.type = db.schema.dataType →
        dest.vals.length = dest.type.fields.length →
        (db.Update id value).1.Find id (.ptr dest) = .ok (storedAs V dest) ∧
        (unexportedAgree dest.type.fields V.vals dest.vals → hasNilList V.vals = false →
          (db.Update id value).1.Find id (.ptr dest) = .ok V)) ∧
      (db.Update id value).1.RowCount = db.RowCount ∧
      ∃ pre payload post buf : List Nat,
        db.source = pre ++ encodeUint64 id ++ encodeUvarint payload.length ++ payload ++ post ∧
        mapGet db.index id = some (pre.length : Int) ∧
        db.schema.Encode value = .ok buf ∧
        (db.Update id value).1.source
          = (pre ++ List.replicate 8 0 ++ encodeUvarint payload.length
              ++ List.replicate payload.length 0 ++ post)
            ++ encodeRowHeader id buf.length ++ buf ∧
        mapGet (db.Update id value).1.index id = some (db.source.length : Int)) ∧
    ((id = 0 ∨ db.Has id = false) → db.Update id value = (db, some .notFound)) := by
  obtain ⟨rows, hinv⟩ := reachable_inv db hr
  constructor
  · intro hid hhas
    obtain ⟨off, hget⟩ := (has_iff db id).mp hhas
    obtain ⟨pre, r, post, rec, buf, db', hrows, hoff, hrid, h1, h2, h3, h4, h5, h6, h7, h8, h9⟩ :=
      update_spec db rows hinv id hid off hget value hacc
    rw [hV] at h1
    simp only [Option.some.injEq] at h1
    subst h1
    rw [h5]
    have hfind : ∀ dest : Record, dest.type = db.schema.dataType →
        dest.vals.length = dest.type.fields.length →
        db'.Find id (.ptr dest) = .ok (storedAs V dest) := fun dest hdt hdl =>
      find_stored db' id V buf (by rw [h6]; exact h2) h3 h4 h7 dest (by rw [h6]; exact hdt) hdl
    refine ⟨rfl, ?_, ?_, ?_, ?_⟩
    · rw [has_iff]
      exact ⟨(db.source.length : Int), by simp only [h9, mapGet_mapSet, if_true]⟩
    · intro dest hdt hdl
      refine ⟨hfind dest hdt hdl, fun ha hn => ?_⟩
      simp only []
      rw [hfind dest hdt hdl]
      have : storedAs V dest = V := by
        unfold storedAs
        rw [mergeFields_self _ _ _ ha hn, hdt, ← h2]
      rw [this]
    · simp only [DB.RowCount, h9]
      have hmem : id ∈ db.index.map (fun p => p.1) :=
        List.mem_map.mpr ⟨_, mapGet_mem _ _ _ hget, rfl⟩
      have hnot : id ∉ (mapDelete db.index id).map (fun p => p.1) := by
        rw [← mapGet_none, mapGet_mapDelete]; simp
      rw [mapSet_fresh _ _ _ hnot, List.length_append, List.length_singleton]
      exact mapDelete_length _ _ hinv.keys hmem
    · refine ⟨layout pre, r.payload, layout post, buf, ?_, ?_, ?_, ?_, ?_⟩
      · rw [hinv.source, hrows, layout_split, hrid]
      · rw [hget, hoff]
      · cases value <;> simp only [Iface.record, Option.some.injEq, reduceCtorEq] at hV
        · subst hV; simp [tableSchema.Encode, h2, h4]
        · subst hV; simp [tableSchema.Encode, h2, h4]
      · show db'.source = _
        rw [h8, layout_split]
        simp [DiskRow.tombstone, encodeUint64_zero]
      · show mapGet db'.index id = _
        simp only [h9, mapGet_mapSet, if_true]
  · intro h
    have hnf : db.drop id = (db, some .notFound) := by
      apply drop_notFound
      rcases h with h | h
      · exact Or.inl h
      · right
        unfold DB.Has at h
        cases hg : mapGet db.index id with
        | none => rfl
        | some v => rw [hg] at h; simp at h
    unfold DB.Update DB.Drop
    rw [hnf]

/-- Witness of C5: the row 9 of `blobNine` updated to `{Data: []byte{4, 5}}`. -/
theorem C5_update_witness :
    Reachable blobNine ∧
    Accepted blobNine.schema (.struct ⟨blobType, [.slice [.uint 4, .uint 5]]⟩) ∧
    ((9 : Nat) ≠ 0 → blobNine.Has 9 = true →
      (blobNine.Update 9 (.struct ⟨blobType, [.slice [.uint 4, .uint 5]]⟩)).2 = none ∧
      (blobNine.Update 9 (.struct ⟨blobType, [.slice [.uint 4, .uint 5]]⟩)).1.Has 9 = true ∧
      (∀ dest : Record, dest.type = blobNine.schema.dataType →
        dest.vals.length = dest.type.fields.length →
        (blobNine.Update 9 (.struct ⟨blobType, [.slice [.uint 4, .uint 5]]⟩)).1.Find 9
            (.ptr dest)
          = .ok (storedAs ⟨blobType, [.slice [.uint 4, .uint 5]]⟩ dest) ∧
        (unexportedAgree dest.type.fields [.slice [.uint 4, .uint 5]] dest.vals →
          hasNilList [.slice [.uint 4, .uint 5]] = false →
          (blobNine.Update 9 (.struct ⟨blobType, [.slice [.uint 4, .uint 5]]⟩)).1.Find 9
              (.ptr dest)
            = .ok ⟨blobType, [.slice [.uint 4, .uint 5]]⟩)) ∧
      (blobNine.Update 9 (.struct ⟨blobType, [.slice [.uint 4, .uint 5]]⟩)).1.RowCount
        = blobNine.RowCount ∧
      ∃ pre payload post buf : List Nat,
        blobNine.source
          = pre ++ encodeUint64 9 ++ encodeUvarint payload.length ++ payload ++ post ∧
        mapGet blobNine.index 9 = some (pre.length : Int) ∧
        blobNine.schema.Encode (.struct ⟨blobType, [.slice [.uint 4, .uint 5]]⟩) = .ok buf ∧
        (blobNine.Update 9 (.struct ⟨blobType, [.slice [.uint 4, .uint 5]]⟩)).1.source
          = (pre ++ List.replicate 8 0 ++ encodeUvarint payload.length
              ++ List.replicate payload.length 0 ++ post)
            ++ encodeRowHeader 9 buf.length ++ buf ∧
        mapGet (blobNine.Update 9 (.struct ⟨blobType, [.slice [.uint 4, .uint 5]]⟩)).1.index 9
          = some (blobNine.source.length : Int)) ∧
    (((9 : Nat) = 0 ∨ blobNine.Has 9 = false) →
      blobNine.Update 9 (.struct ⟨blobType, [.slice [.uint 4, .uint 5]]⟩)
        = (blobNine, some .notFound)) :=
  have hacc : Accepted blobNine.schema (.struct ⟨blobType, [.slice [.uint 4, .uint 5]]⟩) :=
    ⟨by simp [Iface.WellTyped, Record.WellTyped, blobType, fieldsTyped]; decide,
      ⟨blobType, [.slice [.uint 4, .uint 5]]⟩, rfl, rfl, by
        intro buf hb
        have : encodeStructToBinary ⟨blobType, [.slice [.uint 4, .uint 5]]⟩ = .ok [2, 4, 5] := rfl
        rw [this] at hb
        simp only [Except.ok.injEq] at hb
        subst hb
        norm_num⟩
  ⟨blobNine_reachable, hacc,
    C5_update blobNine blobNine_reachable 9 (.struct ⟨blobType, [.slice [.uint 4, .uint 5]]⟩)
      ⟨blobType, [.slice [.uint 4, .uint 5]]⟩ hacc rfl⟩

/-- C5 as stated fails for a record with a nil slice: after
`Update(9, {Data: nil})`, `Find(9)` yields `{Data: []byte{}}`. -/
theorem C5_counterexample :
    Reachable blobNine ∧ blobNine.Has 9 = true ∧
    (Iface.struct ⟨blobType, [.nilSlice]⟩).WellTyped ∧
    (blobNine.Update 9 (.struct ⟨blobType, [.nilSlice]⟩)).2 = none ∧
    (blobNine.Update 9 (.struct ⟨blobType, [.nilSlice]⟩)).1.Find 9
        (.ptr ⟨blobType, [.nilSlice]⟩) = .ok ⟨blobType, [.slice []]⟩ ∧
    (⟨blobType, [.slice []]⟩ : Record) ≠ ⟨blobType, [.nilSlice]⟩ :=
  ⟨blobNine_reachable, rfl,
    by simp [Iface.WellTyped, Record.WellTyped, blobType, fieldsTyped, hasType],
    rfl, rfl, by simp⟩


/-! ## C6 and C7: Pop -/

theorem zeroRecord_length (t : StructType) :
    (zeroRecord t).vals.length = (zeroRecord t).type.fields.length := by
  simp [zeroRecord]

/-- `Pop` of a live id through a pointer to a struct of the schema's type:
the record read is the one `Find` reads into a fresh struct, and the state
changes as by `Drop`. -/
theorem pop_live (db : DB) (rows : List DiskRow) (hinv : Inv db rows) (id : Nat)
    (hid : id ≠ 0) (hhas : db.Has id = true) (dest : Record)
    (hdt : dest.type = db.schema.dataType) :
    ∃ rec, db.Find id (.ptr (zeroRecord db.schema.dataType)) = .ok rec ∧
      db.Pop id (.ptr dest) = ((db.Drop id).1, none, some rec) ∧
      (db.Drop id).2 = none ∧ (db.Drop id).1.Has id = false ∧
      (db.Drop id).1.schema = db.schema ∧
      ∃ rows', Inv (db.Drop id).1 rows' := by
  obtain ⟨off, hget⟩ := (has_iff db id).mp hhas
  obtain ⟨_, hoff, r, hrow, _, hdec⟩ := hinv.entries _ (mapGet_mem _ _ _ hget)
  obtain ⟨rec, hrec⟩ := hdec.2 (zeroRecord db.schema.dataType) rfl (zeroRecord_length _)
  have hfind : db.Find id (.ptr (zeroRecord db.schema.dataType)) = .ok rec := by
    rw [find_row db rows hinv id off hget hoff r hrow hdec]; exact hrec
  obtain ⟨pre, r', post, _, _, _, h1, h2⟩ := drop_spec db rows hinv id hid off hget
  have hdecAt : db.decodeAt off (.ptr (zeroRecord dest.type)) = .ok rec := by
    have := hfind
    unfold DB.Find at this
    rw [hget] at this
    rw [hdt]
    exact this
  refine ⟨rec, hfind, ?_, ?_, ?_, ?_, ?_⟩
  · unfold DB.Pop DB.Drop
    rw [hget]
    simp only [Iface.record, hdecAt, h1]
  · unfold DB.Drop; rw [h1]
  · unfold DB.Drop; rw [h1]
    simp [DB.Has, DB.removeFromIndex, mapGet_mapDelete]
  · unfold DB.Drop; rw [h1]; rfl
  · unfold DB.Drop; rw [h1]; exact ⟨_, h2⟩

/-- Whenever `Pop` does not succeed, nothing was stored through `destPtr`. -/
theorem pop_error_dest (db : DB) (id : Nat) (destPtr : Iface) (e : Err)
    (h : (db.Pop id destPtr).2.1 = some e) : (db.Pop id destPtr).2.2 = destPtr.record := by
  unfold DB.Pop at h ⊢
  cases hg : mapGet db.index id with
  | none => rfl
  | some cursor =>
    simp only [hg] at h ⊢
    cases hr : destPtr.record with
    | none => rfl
    | some dest =>
      simp only [hr] at h ⊢
      cases hd : db.decodeAt cursor (Iface.ptr (zeroRecord dest.type)) with
      | error e' => rfl
      | ok held =>
        simp only [hd] at h ⊢
        cases hdrop : db.drop id with
        | mk db1 e1 =>
          cases e1 with
          | some e' => rfl
          | none =>
            cases destPtr with
            | ptr r => rw [hdrop] at h; simp at h
            | struct r => rfl
            | other => rfl

/-- C6: `Pop(id, dest)` on a live id sets `dest` to the record stored under
`id` (what `Find` reads into a fresh struct), and leaves the state `Drop(id)`
leaves: the row a tombstone, `id` gone from the primary and the secondary
indices.  Whenever `Pop` returns an error, the value behind `dest` is what it
was before the call. -/
theorem C6_pop (db : DB) (hr : Reachable db) (id : Nat) (destPtr : Iface) :
    (id ≠ 0 → db.Has id = true →
      ∀ dest : Record, destPtr = .ptr dest → dest.type = db.schema.dataType →
      ∃ rec, db.Find id (.ptr (zeroRecord db.schema.dataType)) = .ok rec ∧
        db.Pop id destPtr = ((db.Drop id).1, none, some rec) ∧
        (db.Drop id).2 = none ∧
        (db.Pop id destPtr).1.Has id = false ∧
        (∀ p ∈ (db.Pop id destPtr).1.customIndices, mapGet p.2 id = none) ∧
        ∃ pre payload post : List Nat,
          db.source = pre ++ encodeUint64 id ++ encodeUvarint payload.length ++ payload
            ++ post ∧
          mapGet db.index id = some (pre.length : Int) ∧
          (db.Pop id destPtr).1.source = pre ++ List.replicate 8 0
            ++ encodeUvarint payload.length ++ List.replicate payload.length 0 ++ post) ∧
    (∀ e, (db.Pop id destPtr).2.1 = some e → (db.Pop id destPtr).2.2 = destPtr.record) := by
  obtain ⟨rows, hinv⟩ := reachable_inv db hr
  refine ⟨?_, fun e h => pop_error_dest db id destPtr e h⟩
  intro hid hhas dest hdp hdt
  subst hdp
  obtain ⟨rec, h1, h2, h3, h4, _, _⟩ := pop_live db rows hinv id hid hhas dest hdt
  obtain ⟨off, hget⟩ := (has_iff db id).mp hhas
  obtain ⟨pre, r, post, hrows, hoff, hrid, g1, _⟩ := drop_spec db rows hinv id hid off hget
  refine ⟨rec, h1, h2, h3, ?_, ?_, layout pre, r.payload, layout post, ?_, ?_, ?_⟩
  · rw [h2]; exact h4
  · rw [h2]
    intro p hp
    simp only [DB.Drop, g1, DB.removeFromIndex, List.mem_map] at hp
    obtain ⟨q, _, rfl⟩ := hp
    simp [mapGet_mapDelete]
  · rw [hinv.source, hrows, layout_split, hrid]
  · rw [hget, hoff]
  · rw [h2]
    simp only [DB.Drop, g1]
    show layout (pre ++ r.tombstone :: post) = _
    rw [layout_split]
    simp [DiskRow.tombstone, encodeUint64_zero]

/-- Witness of C6: `Pop(9, dest)` on `blobNine`. -/
theorem C6_pop_witness :
    Reachable blobNine ∧
    ((9 : Nat) ≠ 0 → blobNine.Has 9 = true →
      ∀ dest : Record, Iface.ptr ⟨blobType, [.nilSlice]⟩ = .ptr dest →
        dest.type = blobNine.schema.dataType →
      ∃ rec, blobNine.Find 9 (.ptr (zeroRecord blobNine.schema.dataType)) = .ok rec ∧
        blobNine.Pop 9 (.ptr ⟨blobType, [.nilSlice]⟩) = ((blobNine.Drop 9).1, none, some rec) ∧
        (blobNine.Drop 9).2 = none ∧
        (blobNine.Pop 9 (.ptr ⟨blobType, [.nilSlice]⟩)).1.Has 9 = false ∧
        (∀ p ∈ (blobNine.Pop 9 (.ptr ⟨blobType, [.nilSlice]⟩)).1.customIndices,
          mapGet p.2 9 = none) ∧
        ∃ pre payload post : List Nat,
          blobNine.source = pre ++ encodeUint64 9 ++ encodeUvarint payload.length ++ payload
            ++ post ∧
          mapGet blobNine.index 9 = some (pre.length : Int) ∧
          (blobNine.Pop 9 (.ptr ⟨blobType, [.nilSlice]⟩)).1.source = pre ++ List.replicate 8 0
            ++ encodeUvarint payload.length ++ List.replicate payload.length 0 ++ post) ∧
    (∀ e, (blobNine.Pop 9 (.ptr ⟨blobType, [.nilSlice]⟩)).2.1 = some e →
      (blobNine.Pop 9 (.ptr ⟨blobType, [.nilSlice]⟩)).2.2
        = (Iface.ptr ⟨blobType, [.nilSlice]⟩).record) :=
  ⟨blobNine_reachable, C6_pop blobNine blobNine_reachable 9 (.ptr ⟨blobType, [.nilSlice]⟩)⟩

theorem popAll_absent (id : Nat) : ∀ (ds : List Iface) (db : DB), db.Has id = false →
    popAll db id ds = (db, List.replicate ds.length (some .notFound))
  | [], _, _ => rfl
  | d :: ds, db, h => by
    have hg : mapGet db.index id = none := by
      unfold DB.Has at h
      cases hg : mapGet db.index id with
      | none => rfl
      | some v => rw [hg] at h; simp at h
    have hp : db.Pop id d = (db, some .notFound, d.record) := by
      unfold DB.Pop; rw [hg]
    simp only [popAll, hp, popAll_absent id ds db h, List.length_cons, List.replicate_succ]

/-- C7: when `k ≥ 1` calls `Pop(id, dest_i)` on a live id run one after the
other, in whatever order the lock serialises them, exactly one of them
succeeds, namely the first to run, every other one returns `ErrNotFound`, and
`id` is not in the index afterwards. -/
theorem C7_pop_once (db : DB) (hr : Reachable db) (id : Nat) (hid : id ≠ 0)
    (hhas : db.Has id = true) (dests : List Record)
    (hd : ∀ d ∈ dests, d.type = db.schema.dataType) (hk : 1 ≤ dests.length) :
    (popAll db id (dests.map Iface.ptr)).2
      = none :: List.replicate (dests.length - 1) (some Err.notFound) ∧
    ((popAll db id (dests.map Iface.ptr)).2.filter (fun e => e.isNone)).length = 1 ∧
    (popAll db id (dests.map Iface.ptr)).1.Has id = false := by
  obtain ⟨rows, hinv⟩ := reachable_inv db hr
  cases dests with
  | nil => simp at hk
  | cons d ds =>
    obtain ⟨rec, _, h2, _, h4, _, _⟩ := pop_live db rows hinv id hid hhas d (hd d (by simp))
    have hrest := popAll_absent id (ds.map Iface.ptr) (db.Drop id).1 h4
    have hall : popAll db id ((d :: ds).map Iface.ptr)
        = ((db.Drop id).1, none :: List.replicate ds.length (some Err.notFound)) := by
      simp only [List.map_cons, popAll, h2, hrest, List.length_map]
    rw [hall]
    refine ⟨by simp, ?_, h4⟩
    simp only [List.filter_cons, Option.isNone_none, if_true, List.length_cons]
    have : (List.replicate ds.length (some Err.notFound)).filter (fun e => e.isNone) = [] := by
      rw [List.filter_eq_nil_iff]
      intro a ha
      rw [List.eq_of_mem_replicate ha]
      simp
    rw [this]
    rfl

/-- Witness of C7: three calls of `Pop(9, _)` on `blobNine`. -/
theorem C7_pop_once_witness :
    Reachable blobNine ∧ (9 : Nat) ≠ 0 ∧ blobNine.Has 9 = true ∧
    (popAll blobNine 9 ([⟨blobType, [.nilSlice]⟩, ⟨blobType, [.slice []]⟩,
        ⟨blobType, [.nilSlice]⟩].map Iface.ptr)).2
      = none :: List.replicate (3 - 1) (some Err.notFound) ∧
    ((popAll blobNine 9 ([⟨blobType, [.nilSlice]⟩, ⟨blobType, [.slice []]⟩,
        ⟨blobType, [.nilSlice]⟩].map Iface.ptr)).2.filter (fun e => e.isNone)).length = 1 ∧
    (popAll blobNine 9 ([⟨blobType, [.nilSlice]⟩, ⟨blobType, [.slice []]⟩,
        ⟨blobType, [.nilSlice]⟩].map Iface.ptr)).1.Has 9 = false :=
  ⟨blobNine_reachable, by decide, rfl,
    C7_pop_once blobNine blobNine_reachable 9 (by decide) rfl
      [⟨blobType, [.nilSlice]⟩, ⟨blobType, [.slice []]⟩, ⟨blobType, [.nilSlice]⟩]
      (by intro d hd; simp only [List.mem_cons, List.mem_singleton, List.not_mem_nil,
            or_false] at hd
          rcases hd with rfl | rfl | rfl <;> rfl)
      (by decide)⟩


/-! ## C8 and C9: Filter -/

/-- C8, the code at the failing input: in an engine whose column `Data` is
indexed, the record `{Data: nil}` is inserted under id 1.  Its row is live and
decodes to `{Data: []byte{}}`, which matches the query `{Data: []byte{}}`, yet
`Filter` returns no row: the secondary index holds the nil slice that was
inserted, not the decoded value, and the pre-check skips the row. -/
theorem C8_filter_omits_matching_row :
    NewDB [] (.struct ⟨indexedBlobType, [.nilSlice]⟩) 1 = some (.ok indexedBlobEmpty) ∧
    ∃ db1, indexedBlobEmpty.Insert (.struct ⟨indexedBlobType, [.nilSlice]⟩) [1]
        = some (db1, .ok 1) ∧
      db1.Has 1 = true ∧
      db1.Find 1 (.ptr (zeroRecord indexedBlobType)) = .ok ⟨indexedBlobType, [.slice []]⟩ ∧
      matchesFilterQuery ⟨indexedBlobType, [.slice []]⟩
        [("Data", ⟨.slice (.basic .Uint8), .slice []⟩)] = .ok true ∧
      db1.Filter [("Data", ⟨.slice (.basic .Uint8), .slice []⟩)] = .ok [] :=
  ⟨rfl, _, rfl, rfl, rfl, rfl, rfl⟩

/-- C9, the code at the failing input: the same insert of `{Data: nil}` and the
same query `{Data: []byte{}}` on two engines whose record types differ in the
`indexed` tag only.  Without the tag `Filter` returns the row, with the tag it
returns nothing. -/
theorem C9_filter_differs_with_index :
    (∃ db1, blobEmpty.Insert (.struct ⟨blobType, [.nilSlice]⟩) [1] = some (db1, .ok 1) ∧
      db1.Filter [("Data", ⟨.slice (.basic .Uint8), .slice []⟩)]
        = .ok [⟨⟨blobType, [.slice []]⟩, 1⟩]) ∧
    (∃ db1, indexedBlobEmpty.Insert (.struct ⟨indexedBlobType, [.nilSlice]⟩) [1]
        = some (db1, .ok 1) ∧
      db1.Filter [("Data", ⟨.slice (.basic .Uint8), .slice []⟩)] = .ok []) :=
  ⟨⟨_, rfl, rfl⟩, ⟨_, rfl, rfl⟩⟩

/-! ## C10: Defrag -/

theorem has_eq_of_keys (db db' : DB)
    (h : db'.index.map (fun p => p.1) = db.index.map (fun p => p.1)) (id : Nat) :
    db'.Has id = db.Has id := by
  unfold DB.Has
  cases h1 : mapGet db.index id with
  | none =>
    have := (mapGet_none _ _).mp h1
    rw [← h] at this
    rw [(mapGet_none _ _).mpr this]
  | some v =>
    cases h2 : mapGet db'.index id with
    | some w => rfl
    | none =>
      have := (mapGet_none _ _).mp h2
      rw [h] at this
      rw [(mapGet_none _ _).mpr this] at h1
      simp at h1

/-- C10: in a reachable state `Defrag` succeeds and leaves the ids of the
primary index as they were; for every id, `Find` gives after `Defrag` what it
gave before; the secondary indices are unchanged. -/
theorem C10_defrag (db : DB) (hr : Reachable db) :
    db.Defrag.2 = none ∧
    db.Defrag.1.index.map (fun p => p.1) = db.index.map (fun p => p.1) ∧
    (∀ id, db.Defrag.1.Has id = db.Has id) ∧
    (∀ id destPtr, db.Defrag.1.Find id destPtr = db.Find id destPtr) ∧
    db.Defrag.1.customIndices = db.customIndices := by
  obtain ⟨rows, hinv⟩ := reachable_inv db hr
  obtain ⟨rows', newIndex, h1, h2, h3, h4⟩ := defrag_spec db rows hinv
  rw [h1]
  refine ⟨rfl, h2, fun id => has_eq_of_keys db _ h2 id, ?_, rfl⟩
  intro id destPtr
  cases hg : mapGet db.index id with
  | none =>
    have hn : mapGet newIndex id = none := by
      rw [mapGet_none, h2, ← mapGet_none]; exact hg
    simp [DB.Find, hg, hn]
  | some off =>
    cases hn : mapGet newIndex id with
    | none =>
      have := (mapGet_none _ _).mp hn
      rw [h2, ← mapGet_none, hg] at this
      simp at this
    | some off' =>
      obtain ⟨p, hp, hpid, r, g1, g2, g3, g4, g5⟩ := h3 _ (mapGet_mem _ _ _ hn)
      simp only at hpid g2 g4
      have hpoff : p.2 = off := by
        have : mapGet db.index id = some p.2 := by
          apply mapGet_of_mem _ _ _ hinv.keys
          rw [← hpid]; exact hp
        rw [hg] at this
        simp only [Option.some.injEq] at this
        exact this.symm
      rw [hpoff] at g1 g3
      rw [find_row db rows hinv id off hg g3 r g1 g5 destPtr]
      exact find_row _ rows' h4 id off' hn g4 r g2 g5 destPtr

/-- Witness of C10: `Defrag` after the row 9 was dropped and a row 7 inserted
behind it. -/
theorem C10_defrag_witness :
    Reachable ((blobNine.Drop 9).1.insert (.struct ⟨blobType, [.slice [.uint 1]]⟩) 7).1 ∧
    ((blobNine.Drop 9).1.insert (.struct ⟨blobType, [.slice [.uint 1]]⟩) 7).1.Defrag.1.source
      = [0, 0, 0, 0, 0, 0, 0, 7, 2, 1, 1] ∧
    ((blobNine.Drop 9).1.insert (.struct ⟨blobType, [.slice [.uint 1]]⟩) 7).1.Defrag.2 = none ∧
    ((blobNine.Drop 9).1.insert (.struct ⟨blobType, [.slice [.uint 1]]⟩) 7).1.Defrag.1.index.map
        (fun p => p.1)
      = ((blobNine.Drop 9).1.insert (.struct ⟨blobType, [.slice [.uint 1]]⟩) 7).1.index.map
        (fun p => p.1) ∧
    (∀ id, ((blobNine.Drop 9).1.insert (.struct ⟨blobType, [.slice [.uint 1]]⟩) 7).1.Defrag.1.Has
        id
      = ((blobNine.Drop 9).1.insert (.struct ⟨blobType, [.slice [.uint 1]]⟩) 7).1.Has id) ∧
    (∀ id destPtr,
      ((blobNine.Drop 9).1.insert (.struct ⟨blobType, [.slice [.uint 1]]⟩) 7).1.Defrag.1.Find
        id destPtr
      = ((blobNine.Drop 9).1.insert (.struct ⟨blobType, [.slice [.uint 1]]⟩) 7).1.Find
        id destPtr) ∧
    ((blobNine.Drop 9).1.insert (.struct ⟨blobType, [.slice [.uint 1]]⟩) 7).1.Defrag.1.customIndices
      = ((blobNine.Drop 9).1.insert (.struct ⟨blobType, [.slice [.uint 1]]⟩) 7).1.customIndices :=
  have hreach :
      Reachable ((blobNine.Drop 9).1.insert (.struct ⟨blobType, [.slice [.uint 1]]⟩) 7).1 :=
    Reachable.insert (blobNine.Drop 9).1 (.struct ⟨blobType, [.slice [.uint 1]]⟩) [7] _ (.ok 7)
      (Reachable.drop blobNine 9 blobNine_reachable)
      (by simp [Iface.WellTyped, Record.WellTyped, blobType, fieldsTyped]; decide) rfl
  ⟨hreach, rfl, C10_defrag _ hreach⟩


/-! ## C13 and C14: the index of a reopened log, and fresh ids -/

theorem newIDLoop_nonzero (index : List (Nat × Int)) (id : Nat) (h : id ≠ DeletedID)
    (rands : List Nat) : newIDLoop index id rands = some id := by
  cases rands with
  | nil => simp [newIDLoop, h]
  | cons r rs => simp [newIDLoop, h]

/-- The loop of `newID` returns the first draw that is not zero, whatever the
index holds. -/
theorem newIDLoop_first (index : List (Nat × Int)) : ∀ rands : List Nat,
    newIDLoop index DeletedID rands
      = (rands.map (fun r => r % 2 ^ 64)).find? (fun id => decide (id ≠ DeletedID))
  | [] => by simp [newIDLoop]
  | r :: rs => by
    rw [newIDLoop]
    simp only [if_true, ite_self, List.map_cons]
    by_cases h : r % 2 ^ 64 = DeletedID
    · rw [h, newIDLoop_first index rs, List.find?_cons_of_neg]
      simp
    · rw [newIDLoop_nonzero index _ h, List.find?_cons_of_pos]
      simpa using h

/-- C14, the code at the failing input: `newID` returns the first non-zero
draw of the random source and never looks at the result of the index lookup;
what it returns is not zero.  On the engine `blobNine`, where 9 is a key of the primary index, a random source
that draws 9 makes `newID` return 9 and `Insert` return 9: the log then holds
two rows with the id 9, the index still has one entry, and `Find(9)` gives the
record of the second insert. -/
theorem C14_newID_returns_indexed_id :
    (∀ (db : DB) (rands : List Nat), db.newID rands
      = (rands.map (fun r => r % 2 ^ 64)).find? (fun id => decide (id ≠ DeletedID))) ∧
    (∀ (db : DB) (rands : List Nat) (id : Nat), db.newID rands = some id → id ≠ DeletedID) ∧
    blobNine.Has 9 = true ∧
    blobNine.newID [9] = some 9 ∧
    ∃ db1, blobNine.Insert (.struct ⟨blobType, [.slice [.uint 7]]⟩) [9] = some (db1, .ok 9) ∧
      db1.source = [0, 0, 0, 0, 0, 0, 0, 9, 2, 1, 3, 0, 0, 0, 0, 0, 0, 0, 9, 2, 1, 7] ∧
      db1.index = [(9, 11)] ∧
      db1.Find 9 (.ptr (zeroRecord blobType)) = .ok ⟨blobType, [.slice [.uint 7]]⟩ :=
  ⟨fun db rands => newIDLoop_first db.index rands,
   fun db rands id h => by
     unfold DB.newID at h
     rw [newIDLoop_first] at h
     simpa using List.find?_some h,
   rfl, rfl, _, rfl, rfl, rfl, rfl⟩

/-- C13, the code at the failing input: a fresh engine, one successful `Insert`
and one successful `Drop` of the id it returned.  The index built by these
calls is empty; `NewDB` on the resulting log builds an index with the id 0 in
it, under which `Find` decodes the zero bytes of the tombstone. -/
theorem C13_reopened_index_differs :
    NewDB [] (.struct ⟨blobType, [.nilSlice]⟩) 1 = some (.ok blobEmpty) ∧
    blobEmpty.Insert (.struct ⟨blobType, [.slice [.uint 3]]⟩) [9] = some (blobNine, .ok 9) ∧
    blobNine.Drop 9 = (blobDropped, none) ∧
    NewDB blobDropped.source (.struct ⟨blobType, [.nilSlice]⟩) 2 = some (.ok blobReopened) ∧
    blobDropped.index = [] ∧ blobReopened.index = [(0, 0)] ∧
    blobDropped.Has 0 = false ∧ blobReopened.Has 0 = true ∧
    blobDropped.Find 0 (.ptr (zeroRecord blobType)) = .error .notFound ∧
    blobReopened.Find 0 (.ptr (zeroRecord blobType)) = .ok ⟨blobType, [.slice []]⟩ :=
  ⟨rfl, rfl, rfl, rfl, rfl, rfl, rfl, rfl, rfl, rfl⟩

theorem blobReopened_reachable : Reachable blobReopened :=
  Reachable.reopen blobDropped ⟨blobType, [.nilSlice]⟩ 2 blobReopened
    (Reachable.drop blobNine 9 blobNine_reachable) (by decide) rfl rfl


/-! ## A record through `Encode` and `Decode` -/

/-- The counter of `encodeStructToBinary` counts the bytes written. -/
theorem encodeFieldsN_eq (fs : List Field) (vs : List Value) :
    ∀ (names : List String) (w : List Nat) (c : Nat),
      encodeFieldsN fs vs names w c =
        match encodeFields fs vs names with
        | .error e => .error e
        | .ok bs => .ok (w ++ bs, c + bs.length)
  | [], w, c => by simp [encodeFieldsN, encodeFields]
  | name :: names, w, c => by
    rw [encodeFieldsN, encodeFields]
    cases fieldLookup fs vs name with
    | none => rfl
    | some p =>
      obtain ⟨f, v⟩ := p
      simp only []
      cases encodeToBinary f.type v with
      | error e => rfl
      | ok bs =>
        simp only []
        rw [encodeFieldsN_eq fs vs names]
        cases encodeFields fs vs names with
        | error e => rfl
        | ok rest => simp [List.append_assoc, Nat.add_assoc]

theorem mergeFields_zero : ∀ (fs : List Field) (vs : List Value), vs.length = fs.length →
    mergeFields fs vs (fs.map (fun f => zeroValue f.type)) = decodedVals fs vs
  | [], [], _ => rfl
  | [], _ :: _, h => by simp at h
  | _ :: _, [], h => by simp at h
  | f :: fs, v :: vs, h => by
    simp only [List.map_cons, mergeFields, decodedVals]
    rw [mergeFields_zero fs vs (by simpa using h)]

/-- For a record `p` of a struct type that `Reflect` accepts, `Encode`
succeeds on `p` and on a pointer to `p` and returns as its count the number of
bytes it wrote; `Decode` of these bytes into a fresh struct succeeds, returns
the same count, leaves nothing unread, and stores `p` with its nil slices made
empty and its unexported fields zero.  Decoding into any other struct of the
type sets the exported fields the same way and keeps the others. -/
theorem schema_round_trip (schema : tableSchema) (hwf : schema.dataType.WF)
    (hvalid : schema.dataType.Valid) (p : Record) (hty : p.type = schema.dataType)
    (hwt : p.WellTyped) :
    ∃ buf, schema.EncodeN (.struct p) = .ok (buf, buf.length) ∧
      schema.EncodeN (.ptr p) = .ok (buf, buf.length) ∧
      schema.Decode buf (.ptr (zeroRecord schema.dataType))
        = .ok (⟨schema.dataType, decodedVals schema.dataType.fields p.vals⟩, buf.length, []) ∧
      ∀ dest : Record, dest.type = schema.dataType →
        dest.vals.length = dest.type.fields.length →
        schema.Decode buf (.ptr dest) = .ok (storedAs p dest, buf.length, []) := by
  have hwt' : fieldsTyped schema.dataType.fields p.vals := by
    unfold Record.WellTyped at hwt
    rwa [hty] at hwt
  have hnames := namesOK_exported schema.dataType hvalid
  obtain ⟨buf, hbuf⟩ := encodeFields_ok _ _ hwf hwt' _ hnames
  have hdec : ∀ dest : Record, dest.type = schema.dataType →
      dest.vals.length = dest.type.fields.length →
      schema.Decode buf (.ptr dest) = .ok (storedAs p dest, buf.length, []) := by
    intro dest hd hl
    rw [hd] at hl
    have h := decodeFields_encodeFields _ _ hwf hwt' _ _ hnames hbuf dest.vals [] hl
    rw [List.append_nil] at h
    simp only [tableSchema.Decode, hd, if_true, decodeStructFromBinary, h, storedAs]
    rw [mergeBy_eq_mergeFields _ _ _ _ (fun f hf => exported_iff_mem _ hwf f hf)]
  have henc : encodeFieldsN p.type.fields p.vals (getExportedFieldNames p.type) [] 0
      = .ok (buf, buf.length) := by
    rw [encodeFieldsN_eq, hty, hbuf]
    simp
  refine ⟨buf, ?_, ?_, ?_, hdec⟩
  · simp only [tableSchema.EncodeN, hty, if_true]
    rw [← hty]; exact henc
  · simp only [tableSchema.EncodeN, hty, if_true]
    rw [← hty]; exact henc
  · have h := hdec (zeroRecord schema.dataType) rfl (by simp [zeroRecord])
    rw [h]
    simp only [storedAs, zeroRecord]
    rw [mergeFields_zero _ _ (fieldsTyped_length _ _ hwt')]

/-- The round trip of the `Person` of `table_schema_test.go`. -/
theorem schema_round_trip_person :
    personType.WF ∧ personType.Valid ∧ person.WellTyped ∧
    ∃ buf, tableSchema.EncodeN ⟨personType⟩ (.struct person) = .ok (buf, buf.length) ∧
      tableSchema.EncodeN ⟨personType⟩ (.ptr person) = .ok (buf, buf.length) ∧
      tableSchema.Decode ⟨personType⟩ buf (.ptr (zeroRecord personType))
        = .ok (⟨personType, decodedVals personType.fields person.vals⟩, buf.length, []) ∧
      ∀ dest : Record, dest.type = personType →
        dest.vals.length = dest.type.fields.length →
        tableSchema.Decode ⟨personType⟩ buf (.ptr dest) = .ok (storedAs person dest, buf.length, []) :=
  ⟨by simp [StructType.WF, personType],
   by simp [StructType.Valid, personType]; decide,
   by simp [Record.WellTyped, person, personType, fieldsTyped, hasType]; decide,
   schema_round_trip ⟨personType⟩ (by simp [StructType.WF, personType])
     (by simp [StructType.Valid, personType]; decide) person rfl
     (by simp [Record.WellTyped, person, personType, fieldsTyped, hasType]; decide)⟩


/-! ## C16: the order of the fields in the encoding of a record -/

theorem codesLe_total : ∀ a b : List Nat, codesLe a b = true ∨ codesLe b a = true
  | [], _ => Or.inl (by simp [codesLe])
  | _ :: _, [] => Or.inr (by simp [codesLe])
  | a :: as, b :: bs => by
    simp only [codesLe, Bool.or_eq_true, Bool.and_eq_true, decide_eq_true_eq, beq_iff_eq]
    rcases Nat.lt_trichotomy a b with h | h | h
    · exact Or.inl (Or.inl h)
    · subst h
      rcases codesLe_total as bs with h' | h'
      · exact Or.inl (Or.inr ⟨rfl, h'⟩)
      · exact Or.inr (Or.inr ⟨rfl, h'⟩)
    · exact Or.inr (Or.inl h)

theorem codesLe_trans : ∀ a b c : List Nat, codesLe a b = true → codesLe b c = true →
    codesLe a c = true
  | [], _, _, _, _ => by simp [codesLe]
  | _ :: _, [], _, h, _ => by simp [codesLe] at h
  | _ :: _, _ :: _, [], _, h => by simp [codesLe] at h
  | a :: as, b :: bs, c :: cs, h1, h2 => by
    simp only [codesLe, Bool.or_eq_true, Bool.and_eq_true, decide_eq_true_eq,
      beq_iff_eq] at h1 h2 ⊢
    rcases h1 with h1 | ⟨rfl, h1⟩
    · rcases h2 with h2 | ⟨rfl, _⟩
      · exact Or.inl (by omega)
      · exact Or.inl h1
    · rcases h2 with h2 | ⟨rfl, h2⟩
      · exact Or.inl h2
      · exact Or.inr ⟨rfl, codesLe_trans as bs cs h1 h2⟩

theorem codesLe_antisymm : ∀ a b : List Nat, codesLe a b = true → codesLe b a = true → a = b
  | [], [], _, _ => rfl
  | [], _ :: _, _, h => by simp [codesLe] at h
  | _ :: _, [], h, _ => by simp [codesLe] at h
  | a :: as, b :: bs, h1, h2 => by
    simp only [codesLe, Bool.or_eq_true, Bool.and_eq_true, decide_eq_true_eq,
      beq_iff_eq] at h1 h2
    rcases h1 with h1 | ⟨rfl, h1⟩
    · rcases h2 with h2 | ⟨rfl, _⟩
      · omega
      · omega
    · rcases h2 with h2 | ⟨_, h2⟩
      · omega
      · rw [codesLe_antisymm as bs h1 h2]

theorem strLe_total (a b : String) : strLe a b = true ∨ strLe b a = true :=
  codesLe_total _ _

theorem strLe_trans (a b c : String) (h1 : strLe a b = true) (h2 : strLe b c = true) :
    strLe a c = true :=
  codesLe_trans _ _ _ h1 h2

theorem strLe_antisymm (a b : String) (h1 : strLe a b = true) (h2 : strLe b a = true) :
    a = b := by
  have h := codesLe_antisymm _ _ h1 h2
  have hinj : Function.Injective Char.toNat := by
    intro x y hxy
    rw [← Char.ofNat_toNat x, ← Char.ofNat_toNat y, hxy]
  exact String.ext (List.map_injective_iff.mpr hinj h)

theorem insertSorted_sorted (x : String) : ∀ l : List String,
    l.Pairwise (fun a b => strLe a b = true) →
    (insertSorted x l).Pairwise (fun a b => strLe a b = true)
  | [], _ => by simp [insertSorted]
  | y :: ys, h => by
    rw [List.pairwise_cons] at h
    rw [insertSorted]
    split
    · rename_i hxy
      rw [List.pairwise_cons]
      refine ⟨?_, List.pairwise_cons.mpr h⟩
      intro z hz
      rcases List.mem_cons.mp hz with rfl | hz
      · exact hxy
      · exact strLe_trans _ _ _ hxy (h.1 z hz)
    · rename_i hxy
      have hyx : strLe y x = true := by
        rcases strLe_total x y with h' | h'
        · exact absurd h' hxy
        · exact h'
      rw [List.pairwise_cons]
      refine ⟨?_, insertSorted_sorted x ys h.2⟩
      intro z hz
      rcases (mem_insertSorted x z ys).mp hz with rfl | hz
      · exact hyx
      · exact h.1 z hz

/-- The result of `sort.Strings` is in ascending order. -/
theorem sortStrings_sorted : ∀ l : List String,
    (sortStrings l).Pairwise (fun a b => strLe a b = true)
  | [] => by simp [sortStrings]
  | x :: xs => by
    rw [sortStrings]
    exact insertSorted_sorted x _ (sortStrings_sorted xs)

theorem insertSorted_perm (x : String) : ∀ l : List String, (insertSorted x l).Perm (x :: l)
  | [] => by simp [insertSorted]
  | y :: ys => by
    rw [insertSorted]
    split
    · exact List.Perm.refl _
    · exact ((insertSorted_perm x ys).cons y).trans (List.Perm.swap x y ys)

/-- The result of `sort.Strings` holds the strings it was given. -/
theorem sortStrings_perm : ∀ l : List String, (sortStrings l).Perm l
  | [] => by simp [sortStrings]
  | x :: xs => by
    rw [sortStrings]
    exact (insertSorted_perm x _).trans ((sortStrings_perm xs).cons x)

/-- The result of `sort.Strings` does not depend on the order of its input. -/
theorem sortStrings_congr (l l' : List String) (h : l.Perm l') :
    sortStrings l = sortStrings l' := by
  haveI : IsAntisymm String (fun a b => strLe a b = true) :=
    ⟨fun a b h1 h2 => strLe_antisymm a b h1 h2⟩
  exact List.eq_of_perm_of_sorted
    ((sortStrings_perm l).trans (h.trans (sortStrings_perm l').symm))
    (sortStrings_sorted l) (sortStrings_sorted l')

theorem encodeFields_congr (fs fs' : List Field) (vs vs' : List Value) :
    ∀ names : List String, (∀ n ∈ names, fieldLookup fs' vs' n = fieldLookup fs vs n) →
      encodeFields fs' vs' names = encodeFields fs vs names
  | [], _ => rfl
  | n :: names, h => by
    rw [encodeFields, encodeFields, h n (by simp),
      encodeFields_congr fs fs' vs vs' names (fun m hm => h m (List.mem_cons_of_mem _ hm))]

/-- What `encodeStructToBinary` writes is, name by name, what `encodeToBinary`
writes for the field of that name. -/
theorem encodeFields_parts (fs : List Field) (vs : List Value) :
    ∀ (names : List String) (buf : List Nat), encodeFields fs vs names = .ok buf →
      ∃ parts, List.Forall₂ (fun name bs => ∃ f v, fieldLookup fs vs name = some (f, v) ∧
          encodeToBinary f.type v = .ok bs) names parts ∧ buf = parts.flatten
  | [], buf, h => by
    simp only [encodeFields, Except.ok.injEq] at h
    exact ⟨[], List.Forall₂.nil, by simp [← h]⟩
  | n :: names, buf, h => by
    rw [encodeFields] at h
    cases hl : fieldLookup fs vs n with
    | none => simp [hl] at h
    | some p =>
      obtain ⟨f, v⟩ := p
      simp only [hl] at h
      cases he : encodeToBinary f.type v with
      | error e => simp [he] at h
      | ok bs =>
        simp only [he] at h
        cases hr : encodeFields fs vs names with
        | error e => simp [hr] at h
        | ok rest =>
          simp only [hr, Except.ok.injEq] at h
          obtain ⟨parts, hp, hflat⟩ := encodeFields_parts fs vs names rest hr
          exact ⟨bs :: parts, List.Forall₂.cons ⟨f, v, hl, he⟩ hp, by simp [← h, hflat]⟩

/-- With distinct field names, `FieldByName` finds the one field of that name
and its value. -/
theorem fieldLookup_iff_mem_zip : ∀ (fs : List Field) (vs : List Value) (n : String)
    (f : Field) (v : Value), (fs.map (fun f => f.name)).Nodup →
    (fieldLookup fs vs n = some (f, v) ↔ (f, v) ∈ fs.zip vs ∧ f.name = n)
  | [], _, _, _, _, _ => by simp [fieldLookup]
  | _ :: _, [], _, _, _, _ => by simp [fieldLookup]
  | f0 :: fs, v0 :: vs, n, f, v, hnd => by
    simp only [List.map_cons, List.nodup_cons, List.mem_map, not_exists, not_and] at hnd
    simp only [fieldLookup, List.zip_cons_cons, List.mem_cons, Prod.mk.injEq]
    by_cases hn : f0.name = n
    · simp only [hn, if_true, Option.some.injEq, Prod.mk.injEq]
      constructor
      · rintro ⟨rfl, rfl⟩
        exact ⟨Or.inl ⟨rfl, rfl⟩, hn⟩
      · rintro ⟨h | h, hfn⟩
        · exact ⟨h.1.symm, h.2.symm⟩
        · exact absurd (hfn.trans hn.symm) (hnd.1 f (List.of_mem_zip h).1)
    · simp only [hn, if_false]
      rw [fieldLookup_iff_mem_zip fs vs n f v hnd.2]
      constructor
      · rintro ⟨h, hfn⟩
        exact ⟨Or.inr h, hfn⟩
      · rintro ⟨h | h, hfn⟩
        · exact absurd (h.1 ▸ hfn) hn
        · exact ⟨h, hfn⟩

/-- Field lookup by name does not depend on the order in which the fields are
declared. -/
theorem fieldLookup_perm (fs fs' : List Field) (vs vs' : List Value)
    (hnd : (fs.map (fun f => f.name)).Nodup) (hnd' : (fs'.map (fun f => f.name)).Nodup)
    (hp : (fs'.zip vs').Perm (fs.zip vs)) (n : String) :
    fieldLookup fs' vs' n = fieldLookup fs vs n := by
  cases h : fieldLookup fs vs n with
  | some p =>
    obtain ⟨f, v⟩ := p
    rw [fieldLookup_iff_mem_zip fs vs n f v hnd] at h
    rw [fieldLookup_iff_mem_zip fs' vs' n f v hnd']
    exact ⟨hp.symm.subset h.1, h.2⟩
  | none =>
    cases h' : fieldLookup fs' vs' n with
    | none => rfl
    | some p =>
      obtain ⟨f, v⟩ := p
      rw [fieldLookup_iff_mem_zip fs' vs' n f v hnd'] at h'
      have := (fieldLookup_iff_mem_zip fs vs n f v hnd).mpr ⟨hp.subset h'.1, h'.2⟩
      rw [h] at this
      exact absurd this (by simp)

/-- Field lookup by name finds the same when the values of the fields of that
name are the same. -/
theorem fieldLookup_agree : ∀ (fs : List Field) (vs vs' : List Value) (n : String),
    vs'.length = vs.length →
    (∀ (i : Nat) (f : Field), fs[i]? = some f → f.name = n → vs'[i]? = vs[i]?) →
    fieldLookup fs vs' n = fieldLookup fs vs n
  | [], _, _, _, _, _ => by simp [fieldLookup]
  | _ :: _, [], [], _, _, _ => rfl
  | _ :: _, [], _ :: _, _, hl, _ => by simp at hl
  | _ :: _, _ :: _, [], _, hl, _ => by simp at hl
  | f0 :: fs, v :: vs, v' :: vs', n, hl, h => by
    simp only [fieldLookup]
    by_cases hn : f0.name = n
    · have := h 0 f0 (by simp) hn
      simp only [List.getElem?_cons_zero, Option.some.injEq] at this
      simp [hn, this]
    · simp only [hn, if_false]
      exact fieldLookup_agree fs vs vs' n (by simpa using hl)
        (fun i f hf hfn => by simpa using h (i + 1) f (by simpa using hf) hfn)

/-- C16: the encoding of a record is the concatenation, over the names of its
exported fields in ascending order, of what `encodeToBinary` writes for the
field of each name.  It is the same for a struct that declares the same fields
in another order, and the same whatever the unexported fields hold.  The
`Person` of `table_schema_test.go` has its fields encoded in the order `Age`,
`Arr`, `Data`, `Empty`, `Ints`, `Name`, `Strings` and gives the bytes of the
test. -/
theorem C16_encoding_order (r : Record) (hwf : r.type.WF) (hvalid : r.type.Valid)
    (hwt : r.WellTyped) :
    (getExportedFieldNames r.type).Pairwise (fun a b => strLe a b = true) ∧
    (getExportedFieldNames r.type).Perm
      ((r.type.fields.filter (fun f => f.exported)).map (fun f => f.name)) ∧
    (∃ parts, List.Forall₂ (fun name bs => ∃ f v,
          fieldLookup r.type.fields r.vals name = some (f, v) ∧
          encodeToBinary f.type v = .ok bs) (getExportedFieldNames r.type) parts ∧
        encodeStructToBinary r = .ok parts.flatten) ∧
    (∀ r' : Record, r'.vals.length = r'.type.fields.length →
      (r'.type.fields.zip r'.vals).Perm (r.type.fields.zip r.vals) →
      encodeStructToBinary r' = encodeStructToBinary r) ∧
    (∀ vals' : List Value, vals'.length = r.vals.length →
      (∀ (i : Nat) (f : Field), r.type.fields[i]? = some f → f.exported = true →
        vals'[i]? = r.vals[i]?) →
      encodeStructToBinary ⟨r.type, vals'⟩ = encodeStructToBinary r) ∧
    getExportedFieldNames personType
      = ["Age", "Arr", "Data", "Empty", "Ints", "Name", "Strings"] ∧
    encodeStructToBinary person = .ok expectedPersonBytes := by
  have hl := fieldsTyped_length _ _ hwt
  refine ⟨sortStrings_sorted _, sortStrings_perm _, ?_, ?_, ?_, by decide, rfl⟩
  · obtain ⟨buf, hbuf⟩ := encodeFields_ok _ _ hwf hwt _ (namesOK_exported r.type hvalid)
    obtain ⟨parts, hparts, hflat⟩ := encodeFields_parts _ _ _ _ hbuf
    exact ⟨parts, hparts, by rw [← hflat]; exact hbuf⟩
  · intro r' hl' hp
    have hfs : r'.type.fields.Perm r.type.fields := by
      have h := hp.map Prod.fst
      rwa [List.map_fst_zip _ _ (by omega), List.map_fst_zip _ _ (by omega)] at h
    have hnd' : (r'.type.fields.map (fun f => f.name)).Nodup :=
      (hfs.map _).nodup_iff.mpr hwf
    have hnames : getExportedFieldNames r'.type = getExportedFieldNames r.type :=
      sortStrings_congr _ _ ((hfs.filter _).map _)
    unfold encodeStructToBinary
    rw [hnames]
    exact encodeFields_congr _ _ _ _ _ (fun n _ => fieldLookup_perm _ _ _ _ hwf hnd' hp n)
  · intro vals' hl' h
    unfold encodeStructToBinary
    refine encodeFields_congr _ _ _ _ _ (fun n hn => ?_)
    refine fieldLookup_agree _ _ _ n hl' (fun i f hf hfn => h i f hf ?_)
    have hmem : f ∈ r.type.fields := List.getElem?_mem hf
    exact (exported_iff_mem r.type hwf f hmem).mp (hfn ▸ hn)

/-- Witness of C16: the `Person` of `table_schema_test.go`. -/
theorem C16_encoding_order_witness :
    personType.WF ∧ personType.Valid ∧ person.WellTyped ∧
    (getExportedFieldNames person.type).Pairwise (fun a b => strLe a b = true) ∧
    (getExportedFieldNames person.type).Perm
      ((person.type.fields.filter (fun f => f.exported)).map (fun f => f.name)) ∧
    (∃ parts, List.Forall₂ (fun name bs => ∃ f v,
          fieldLookup person.type.fields person.vals name = some (f, v) ∧
          encodeToBinary f.type v = .ok bs) (getExportedFieldNames person.type) parts ∧
        encodeStructToBinary person = .ok parts.flatten) ∧
    (∀ r' : Record, r'.vals.length = r'.type.fields.length →
      (r'.type.fields.zip r'.vals).Perm (person.type.fields.zip person.vals) →
      encodeStructToBinary r' = encodeStructToBinary person) ∧
    (∀ vals' : List Value, vals'.length = person.vals.length →
      (∀ (i : Nat) (f : Field), person.type.fields[i]? = some f → f.exported = true →
        vals'[i]? = person.vals[i]?) →
      encodeStructToBinary ⟨person.type, vals'⟩ = encodeStructToBinary person) ∧
    getExportedFieldNames personType
      = ["Age", "Arr", "Data", "Empty", "Ints", "Name", "Strings"] ∧
    encodeStructToBinary person = .ok expectedPersonBytes :=
  ⟨by simp [StructType.WF, personType],
   by simp [StructType.Valid, personType]; decide,
   by simp [Record.WellTyped, person, personType, fieldsTyped, hasType]; decide,
   C16_encoding_order person (by simp [StructType.WF, person, personType])
     (by simp [StructType.Valid, person, personType]; decide)
     (by simp [Record.WellTyped, person, personType, fieldsTyped, hasType]; decide)⟩


/-! ## C17: the struct types `Reflect` accepts -/

theorem isFixedSizeType_eq_spec : ∀ t : Ty, isFixedSizeType t = fixedSizeSpec t
  | .basic k => by cases k <;> rfl
  | .array _ e => by
    rw [isFixedSizeType, fixedSizeSpec, isFixedSizeType_eq_spec e]
  | .slice _ => rfl

theorem isValidColumnType_eq_spec : ∀ t : Ty, isValidColumnType t = validColumnSpec t
  | .basic k => by cases k <;> rfl
  | .array n e => by
    show isFixedSizeType (.array n e) = fixedSizeSpec e
    rw [isFixedSizeType, isFixedSizeType_eq_spec e]
  | .slice e => by
    show isValidColumnType e = validColumnSpec e
    exact isValidColumnType_eq_spec e

/-- C17: `Reflect(v)` succeeds exactly when `v` is a struct whose exported
fields all have a valid column type, and the schema is then the type of `v`.
A value that is not a struct, a pointer to a struct, an exported field of type
`uint`, `int`, `[]int`, of a struct type, `[2]string` or `[2][]byte` make it
fail; an unexported field of type `uint` does not. -/
theorem C17_reflect (v : Iface) (s : tableSchema) :
    ((∃ s', tableSchema.Reflect v = .ok s') ↔
      ∃ r, v = .struct r ∧
        ∀ f ∈ r.type.fields, f.exported = true → validColumnSpec f.type = true) ∧
    (tableSchema.Reflect v = .ok s ↔
      ∃ r, v = .struct r ∧ s = ⟨r.type⟩ ∧
        ∀ f ∈ r.type.fields, f.exported = true → validColumnSpec f.type = true) ∧
    tableSchema.Reflect .other = .error .schemaMismatch ∧
    tableSchema.Reflect (.ptr person) = .error .schemaMismatch ∧
    tableSchema.Reflect (.struct ⟨⟨"", [⟨"Age", .basic .Uint, true, ""⟩]⟩, [.uint 0]⟩)
      = .error .schemaMismatch ∧
    tableSchema.Reflect (.struct ⟨⟨"", [⟨"Age", .basic .Int, true, ""⟩]⟩, [.int 0]⟩)
      = .error .schemaMismatch ∧
    tableSchema.Reflect
        (.struct ⟨⟨"", [⟨"IntArray", .slice (.basic .Int), true, ""⟩]⟩, [.nilSlice]⟩)
      = .error .schemaMismatch ∧
    tableSchema.Reflect (.struct ⟨⟨"", [⟨"SubStruct", .basic .Struct, true, ""⟩]⟩, [.other 0]⟩)
      = .error .schemaMismatch ∧
    tableSchema.Reflect
        (.struct ⟨⟨"", [⟨"Names", .array 2 (.basic .String), true, ""⟩]⟩,
          [.array [.str [], .str []]]⟩)
      = .error .schemaMismatch ∧
    tableSchema.Reflect
        (.struct ⟨⟨"", [⟨"Blobs", .array 2 (.slice (.basic .Uint8)), true, ""⟩]⟩,
          [.array [.nilSlice, .nilSlice]]⟩)
      = .error .schemaMismatch ∧
    tableSchema.Reflect (.struct ⟨⟨"", [⟨"private", .basic .Uint, false, ""⟩]⟩, [.uint 0]⟩)
      = .ok ⟨⟨"", [⟨"private", .basic .Uint, false, ""⟩]⟩⟩ ∧
    tableSchema.Reflect (.struct person) = .ok ⟨personType⟩ := by
  have key : ∀ s0 : tableSchema, tableSchema.Reflect v = .ok s0 ↔
      ∃ r, v = .struct r ∧ s0 = ⟨r.type⟩ ∧
        ∀ f ∈ r.type.fields, f.exported = true → validColumnSpec f.type = true := by
    intro s0
    cases v with
    | other => simp [tableSchema.Reflect]
    | ptr r => simp [tableSchema.Reflect]
    | struct r =>
      have hall : (r.type.fields.all (fun f => !f.exported || isValidColumnType f.type)) = true ↔
          ∀ f ∈ r.type.fields, f.exported = true → validColumnSpec f.type = true := by
        rw [List.all_eq_true]
        constructor
        · intro h f hf he
          have := h f hf
          rw [he, isValidColumnType_eq_spec] at this
          simpa using this
        · intro h f hf
          cases he : f.exported with
          | false => simp
          | true => simpa [isValidColumnType_eq_spec] using h f hf he
      simp only [tableSchema.Reflect]
      by_cases hc : (r.type.fields.all (fun f => !f.exported || isValidColumnType f.type)) = true
      · rw [if_pos hc]
        constructor
        · intro h
          simp only [Except.ok.injEq] at h
          exact ⟨r, rfl, h.symm, hall.mp hc⟩
        · rintro ⟨r', hr', hs, _⟩
          simp only [Iface.struct.injEq] at hr'
          rw [hs, ← hr']
      · rw [if_neg hc]
        constructor
        · intro h; simp at h
        · rintro ⟨r', hr', _, hv⟩
          simp only [Iface.struct.injEq] at hr'
          rw [← hr'] at hv
          exact absurd (hall.mpr hv) hc
  refine ⟨?_, key s, rfl, rfl, rfl, rfl, rfl, rfl, rfl, rfl, rfl, rfl⟩
  constructor
  · rintro ⟨s', hs'⟩
    obtain ⟨r, h1, _, h3⟩ := (key s').mp hs'
    exact ⟨r, h1, h3⟩
  · rintro ⟨r, h1, h3⟩
    exact ⟨⟨r.type⟩, (key _).mpr ⟨r, h1, rfl, h3⟩⟩


/-! ## C18: the encoding of fixed-size values -/

theorem bigEndian_getElem : ∀ (w n j : Nat), j < w →
    (bigEndian w n)[j]? = some (n / 256 ^ (w - 1 - j) % 256)
  | 0, _, _, h => by omega
  | w + 1, n, 0, _ => by simp [bigEndian]
  | w + 1, n, j + 1, h => by
    rw [bigEndian, List.getElem?_cons_succ, bigEndian_getElem w n j (by omega)]
    have : w + 1 - 1 - (j + 1) = w - 1 - j := by omega
    rw [this]

/-- What `encodeToBinary` writes for a value of a fixed-size type is what
package `encoding/binary` writes for it. -/
theorem encodeToBinary_fixed (t : Ty) (h : isFixedSizeType t = true) (v : Value) :
    encodeToBinary t v = .ok (encodeFixed t v) := by
  obtain ⟨sz, hsz⟩ := isFixedSizeType_sizeof t h
  cases t with
  | basic k =>
    have hk : k ≠ .String := by
      rintro rfl
      simp [isFixedSizeType, PrimitiveFixedSizeKinds] at h
    simp [encodeToBinary, hk, binaryWrite, hsz]
  | array n e => simp [encodeToBinary, binaryWrite, hsz]
  | slice e => simp [isFixedSizeType] at h

/-- The elements of an array, each through `encodeToBinary`. -/
theorem encodeFixed_parts (e : Ty) (he : isFixedSizeType e = true) (sz : Nat)
    (hsz : sizeof e = some sz) : ∀ vs : List Value, vs.all (hasType e) = true →
    List.Forall₂ (fun v bs => encodeToBinary e v = .ok bs ∧ bs.length = sz) vs
      (vs.map (encodeFixed e))
  | [], _ => List.Forall₂.nil
  | v :: vs, h => by
    simp only [List.all_cons, Bool.and_eq_true] at h
    exact List.Forall₂.cons
      ⟨encodeToBinary_fixed e he v, (encodeFixed_spec e v sz hsz h.1).1⟩
      (encodeFixed_parts e he sz hsz vs h.2)

/-- C18: for a boolean and for an integer of 1, 2, 4 or 8 bytes, signed or
unsigned, `encodeToBinary` writes that many bytes, the byte at position `j`
being digit `w - 1 - j` in base 256 of the number represented (0 or 1 for a
boolean, the two's complement for a signed integer).  For an array of `n`
elements of a fixed-size type it writes what it writes for each element, one
after the other and nothing else: `n` times the element size.  `[10]byte{}`
gives ten zero bytes and `int32(-0xffff)` gives `ff ff 00 01`. -/
theorem C18_fixed_size_encoding :
    (∀ (k : Kind) (w : Nat) (v : Value),
      (k, w) ∈ [(Kind.Bool, 1), (.Int8, 1), (.Int16, 2), (.Int32, 4), (.Int64, 8),
        (.Uint8, 1), (.Uint16, 2), (.Uint32, 4), (.Uint64, 8)] →
      hasKind k v = true →
      ∃ bs, encodeToBinary (.basic k) v = .ok bs ∧ bs.length = w ∧
        ∀ j, j < w → bs[j]? = some (representedNat w v / 256 ^ (w - 1 - j) % 256)) ∧
    (∀ (n : Nat) (e : Ty) (vs : List Value), isFixedSizeType e = true →
      hasType (.array n e) (.array vs) = true →
      ∃ parts sz, sizeof e = some sz ∧ parts.length = n ∧
        List.Forall₂ (fun v bs => encodeToBinary e v = .ok bs ∧ bs.length = sz) vs parts ∧
        encodeToBinary (.array n e) (.array vs) = .ok parts.flatten ∧
        parts.flatten.length = n * sz) ∧
    encodeToBinary (.array 10 (.basic .Uint8)) (zeroValue (.array 10 (.basic .Uint8)))
      = .ok [0, 0, 0, 0, 0, 0, 0, 0, 0, 0] ∧
    encodeToBinary (.basic .Int32) (.int (-0xffff)) = .ok [0xff, 0xff, 0x00, 0x01] := by
  refine ⟨?_, ?_, rfl, rfl⟩
  · intro k w v hk hv
    simp only [List.mem_cons, Prod.mk.injEq, List.mem_singleton, List.not_mem_nil,
      or_false] at hk
    have hint : ∀ (w : Nat) (i : Int), (w = 1 ∨ w = 2 ∨ w = 4 ∨ w = 8) →
        ∀ j, j < w → (bigEndian w (toUnsigned w i))[j]?
          = some (representedNat w (.int i) / 256 ^ (w - 1 - j) % 256) := by
      intro w i _ j hj
      rw [bigEndian_getElem w _ j hj]
      simp only [representedNat, toUnsigned]
      have : (256 : Int) ^ w = 2 ^ (8 * w) := by
        rw [pow_mul]; norm_num
      rw [this]
    rcases hk with ⟨rfl, rfl⟩ | ⟨rfl, rfl⟩ | ⟨rfl, rfl⟩ | ⟨rfl, rfl⟩ | ⟨rfl, rfl⟩ |
      ⟨rfl, rfl⟩ | ⟨rfl, rfl⟩ | ⟨rfl, rfl⟩ | ⟨rfl, rfl⟩
    · cases v <;> simp only [hasKind, isBoolValue, Bool.false_eq_true] at hv
      rename_i b
      refine ⟨[if b then 1 else 0], rfl, rfl, ?_⟩
      intro j hj
      have : j = 0 := by omega
      subst this
      cases b <;> rfl
    · cases v <;> simp only [hasKind, isIntOf, Bool.false_eq_true] at hv
      exact ⟨_, rfl, bigEndian_length _ _, hint 1 _ (by simp)⟩
    · cases v <;> simp only [hasKind, isIntOf, Bool.false_eq_true] at hv
      exact ⟨_, rfl, bigEndian_length _ _, hint 2 _ (by simp)⟩
    · cases v <;> simp only [hasKind, isIntOf, Bool.false_eq_true] at hv
      exact ⟨_, rfl, bigEndian_length _ _, hint 4 _ (by simp)⟩
    · cases v <;> simp only [hasKind, isIntOf, Bool.false_eq_true] at hv
      exact ⟨_, rfl, bigEndian_length _ _, hint 8 _ (by simp)⟩
    · cases v <;> simp only [hasKind, isUintOf, Bool.false_eq_true] at hv
      exact ⟨_, rfl, bigEndian_length _ _, fun j hj => bigEndian_getElem 1 _ j hj⟩
    · cases v <;> simp only [hasKind, isUintOf, Bool.false_eq_true] at hv
      exact ⟨_, rfl, bigEndian_length _ _, fun j hj => bigEndian_getElem 2 _ j hj⟩
    · cases v <;> simp only [hasKind, isUintOf, Bool.false_eq_true] at hv
      exact ⟨_, rfl, bigEndian_length _ _, fun j hj => bigEndian_getElem 4 _ j hj⟩
    · cases v <;> simp only [hasKind, isUintOf, Bool.false_eq_true] at hv
      exact ⟨_, rfl, bigEndian_length _ _, fun j hj => bigEndian_getElem 8 _ j hj⟩
  · intro n e vs he hv
    obtain ⟨sz, hsz⟩ := isFixedSizeType_sizeof e he
    simp only [hasType, Bool.and_eq_true, decide_eq_true_eq] at hv
    have hparts := encodeFixed_parts e he sz hsz vs hv.2
    have hlen := (encodeFixed_elems e sz (fun v hv => encodeFixed_spec e v sz hsz hv) vs hv.2).1
    refine ⟨vs.map (encodeFixed e), sz, hsz, by simp [hv.1], hparts, ?_, ?_⟩
    · rw [encodeToBinary_fixed (.array n e) (by simpa [isFixedSizeType] using he)]
      rfl
    · rw [hlen, hv.1, Nat.mul_comm]


/-! ## C19: the encoding of strings and slices -/

/-- The encoding of a value of variable size starts with the varint of its
length. -/
theorem encodeToBinary_prefix (e : Ty) (hvar : isVariableSizeType e = true) (x : Value)
    (hx : hasType e x = true) (bs : List Nat) (h : encodeToBinary e x = .ok bs) :
    ∃ body, bs = encodeUvarint x.len ++ body := by
  cases e with
  | array n e' => simp [isVariableSizeType] at hvar
  | basic k =>
    have hk : k = .String := by
      cases k <;> first | rfl | simp [isVariableSizeType] at hvar
    subst hk
    cases x <;> simp only [hasType, hasKind, isStrValue, Bool.false_eq_true] at hx
    simp only [encodeToBinary, if_true, Value.asStr, Except.ok.injEq] at h
    exact ⟨_, by rw [← h]; rfl⟩
  | slice e' =>
    have hlen : x.len = x.elems.length := by
      cases x <;> simp only [hasType, Bool.false_eq_true] at hx <;> rfl
    rw [hlen]
    simp only [encodeToBinary] at h
    split at h
    · split at h
      · simp at h
      · simp only [Except.ok.injEq] at h
        exact ⟨_, h.symm⟩
    · split at h
      · simp at h
      · simp only [Except.ok.injEq] at h
        exact ⟨_, h.symm⟩

/-- The loop of `encodeToBinary` over the elements writes the encoding of each
element in turn. -/
theorem encodeEach_parts (e : Ty) (hvalid : isValidColumnType e = true)
    (hvar : isVariableSizeType e = true) : ∀ vs : List Value, vs.all (hasType e) = true →
    ∃ parts, List.Forall₂ (fun x bs => encodeToBinary e x = .ok bs ∧
        (isFixedSizeType e = true → sizeof e = some bs.length) ∧
        (isVariableSizeType e = true → ∃ body, bs = encodeUvarint x.len ++ body)) vs parts ∧
      encodeEach (encodeToBinary e) vs = .ok parts.flatten
  | [], _ => ⟨[], List.Forall₂.nil, rfl⟩
  | v :: vs, h => by
    simp only [List.all_cons, Bool.and_eq_true] at h
    obtain ⟨bs, hbs, _⟩ := decode_encode e v hvalid h.1
    obtain ⟨parts, hp, hflat⟩ := encodeEach_parts e hvalid hvar vs h.2
    have hnf : isFixedSizeType e = false := by
      cases e with
      | basic k => cases k <;> first | rfl | simp [isVariableSizeType] at hvar
      | array n e' => simp [isVariableSizeType] at hvar
      | slice e' => rfl
    refine ⟨bs :: parts, List.Forall₂.cons ⟨hbs, ?_, ?_⟩ hp, ?_⟩
    · intro hf; rw [hnf] at hf; exact absurd hf (by simp)
    · intro _; exact encodeToBinary_prefix e hvar v h.1 bs hbs
    · simp [encodeEach, hbs, hflat]

/-- C19: for a string, `encodeToBinary` writes the varint of its length in
bytes and then its bytes.  For a slice of a valid column type it writes the
varint of the number of elements and then what it writes for each element, in
order; an element of fixed-size type takes the size of its type, an element of
variable size starts with the varint of its own length.  A `[]uint32` of three
elements gives the byte 3 and twelve more bytes, and
`[][]string{{"foo","bar"},{"","hello"}}` gives the bytes of the test. -/
theorem C19_variable_size_encoding :
    (∀ v : Value, hasKind .String v = true →
      encodeToBinary (.basic .String) v = .ok (encodeUvarint v.len ++ v.asStr) ∧
      v.len = v.asStr.length) ∧
    (∀ (e : Ty) (v : Value), isValidColumnType e = true → hasType (.slice e) v = true →
      ∃ parts, parts.length = v.len ∧
        List.Forall₂ (fun x bs => encodeToBinary e x = .ok bs ∧
          (isFixedSizeType e = true → sizeof e = some bs.length) ∧
          (isVariableSizeType e = true → ∃ body, bs = encodeUvarint x.len ++ body))
          v.elems parts ∧
        encodeToBinary (.slice e) v = .ok (encodeUvarint v.len ++ parts.flatten)) ∧
    (∀ a b c : Nat, a < 2 ^ 32 → b < 2 ^ 32 → c < 2 ^ 32 →
      ∃ body, encodeToBinary (.slice (.basic .Uint32)) (.slice [.uint a, .uint b, .uint c])
        = .ok (0x03 :: body) ∧ body.length = 12) ∧
    encodeToBinary (.slice (.slice (.basic .String)))
        (.slice [.slice [.str [0x66, 0x6f, 0x6f], .str [0x62, 0x61, 0x72]],
          .slice [.str [], .str [0x68, 0x65, 0x6c, 0x6c, 0x6f]]])
      = .ok [0x02, 0x02, 0x03, 0x66, 0x6f, 0x6f, 0x03, 0x62, 0x61, 0x72, 0x02, 0x00, 0x05,
          0x68, 0x65, 0x6c, 0x6c, 0x6f] := by
  refine ⟨?_, ?_, ?_, rfl⟩
  · intro v hv
    cases v <;> simp only [hasKind, isStrValue, Bool.false_eq_true] at hv
    exact ⟨rfl, rfl⟩
  · intro e v hvalid hv
    have hel : v.len = v.elems.length ∧ v.elems.all (hasType e) = true := by
      cases v <;> simp only [hasType, Bool.false_eq_true, Bool.and_eq_true,
        decide_eq_true_eq] at hv
      · exact ⟨rfl, hv.2⟩
      · exact ⟨rfl, by simp [Value.elems]⟩
    obtain ⟨hlen, hall⟩ := hel
    rw [hlen]
    by_cases hvar : isVariableSizeType e = true
    · obtain ⟨parts, hp, hflat⟩ := encodeEach_parts e hvalid hvar v.elems hall
      exact ⟨parts, hp.length_eq.symm, hp, by simp [encodeToBinary, hvar, hflat]⟩
    · have hvar' : isVariableSizeType e = false := by simpa using hvar
      have hfix : isFixedSizeType e = true := by
        rw [← isValid_of_not_variable e hvar']; exact hvalid
      obtain ⟨sz, hsz⟩ := isFixedSizeType_sizeof e hfix
      have hp := encodeFixed_parts e hfix sz hsz v.elems hall
      refine ⟨v.elems.map (encodeFixed e), by simp, ?_, ?_⟩
      · refine hp.imp ?_
        rintro x bs ⟨h1, h2⟩
        exact ⟨h1, fun _ => by rw [hsz, h2], fun h => by rw [hvar'] at h; exact absurd h (by simp)⟩
      · simp [encodeToBinary, hvar', binaryWrite, hsz]
  · intro a b c _ _ _
    exact ⟨bigEndian 4 a ++ (bigEndian 4 b ++ (bigEndian 4 c ++ [])), rfl,
      by simp [bigEndian_length]⟩


/-! ## C20: the row header -/

/-- The bytes `binary.PutUvarint` writes: groups of seven bits, the least
significant group first, the high bit set on every byte but the last, and no
more bytes than the number needs. -/
theorem putUvarint_digits : ∀ (fuel x : Nat), 1 ≤ fuel → x < 128 ^ fuel →
    1 ≤ (putUvarint fuel x).length ∧ x < 128 ^ (putUvarint fuel x).length ∧
    ∀ j, j < (putUvarint fuel x).length →
      ∃ b, (putUvarint fuel x)[j]? = some b ∧ b < 256 ∧ b % 128 = x / 128 ^ j % 128 ∧
        (128 ≤ b ↔ j + 1 < (putUvarint fuel x).length)
  | 0, _, h, _ => by omega
  | fuel + 1, x, _, hx => by
    rw [putUvarint]
    by_cases h : x ≥ 0x80
    · rw [if_pos h]
      have hfuel : 1 ≤ fuel := by
        rcases Nat.eq_zero_or_pos fuel with h0 | h0
        · subst h0; simp at hx; omega
        · exact h0
      have hx' : x >>> 7 < 128 ^ fuel := by
        rw [Nat.shiftRight_eq_div_pow]
        rw [pow_succ] at hx
        exact Nat.div_lt_of_lt_mul (by rw [Nat.mul_comm]; exact hx)
      obtain ⟨h1, h2, h3⟩ := putUvarint_digits fuel (x >>> 7) hfuel hx'
      have hdiv : x >>> 7 = x / 128 := by rw [Nat.shiftRight_eq_div_pow]
      rw [hdiv] at h1 h2 h3 ⊢
      refine ⟨by simp, ?_, ?_⟩
      · simp only [List.length_cons, pow_succ]
        have := (Nat.div_lt_iff_lt_mul (by norm_num : 0 < 128)).mp h2
        exact this
      · intro j hj
        cases j with
        | zero =>
          have hb := lor_128 (x % 256) (Nat.mod_lt _ (by norm_num))
          refine ⟨x % 256 ||| 128, by simp, ?_, ?_, ?_⟩
          · exact Nat.or_lt_two_pow (n := 8) (Nat.mod_lt _ (by norm_num)) (by norm_num)
          · have h127 : (x % 256 ||| 128) &&& 127 = (x % 256 ||| 128) % 128 :=
              Nat.and_pow_two_sub_one_eq_mod _ 7
            rw [← h127, hb.2]
            simp only [pow_zero, Nat.div_one]
            omega
          · simp only [List.length_cons]
            constructor
            · intro _; omega
            · intro _; exact hb.1
        | succ j =>
          simp only [List.length_cons] at hj
          obtain ⟨b, hb1, hb2, hb3, hb4⟩ := h3 j (by omega)
          refine ⟨b, by simpa using hb1, hb2, ?_, ?_⟩
          · rw [hb3, Nat.div_div_eq_div_mul, pow_succ, Nat.mul_comm]
          · simp only [List.length_cons]
            rw [hb4]
            omega
    · rw [if_neg h]
      have hlt : x < 128 := by omega
      refine ⟨by simp, by simpa using hlt, ?_⟩
      intro j hj
      simp only [List.length_singleton] at hj
      have : j = 0 := by omega
      subst this
      refine ⟨x % 256, by simp, Nat.mod_lt _ (by norm_num), ?_, ?_⟩
      · simp only [pow_zero, Nat.div_one]; omega
      · simp only [List.length_singleton]
        omega

/-- C20: for `id` and `size` in `uint64`, the loop of `encodeUint64` stays
inside its buffer and gives the 8 bytes of `id`, the one at position `i`
being `(id >> 8*(7-i)) & 0xff`; `encodeRowHeader` appends the varint of `size`:
between 1 and 10 bytes, not more than `size` needs, byte `j` holding bits
`7j` to `7j+6` of `size` and having its high bit set exactly when it is not the
last.  The header has 9 to 18 bytes, and `decodeUint64` followed by
`ReadUvarint` reads `id` and `size` back from it, consuming the header and
nothing after it. -/
theorem C20_row_header (id size : Nat) (hid : id < 2 ^ 64) (hsize : size < 2 ^ 64) :
    encodeUint64Loop 8 id (List.replicate 8 0) = some (encodeUint64 id) ∧
    (encodeUint64 id).length = 8 ∧
    (∀ i, i < 8 → (encodeUint64 id)[i]? = some ((id >>> (8 * (7 - i))) &&& 0xff)) ∧
    encodeRowHeader id size = encodeUint64 id ++ encodeUvarint size ∧
    1 ≤ (encodeUvarint size).length ∧ (encodeUvarint size).length ≤ 10 ∧
    size < 128 ^ (encodeUvarint size).length ∧
    (∀ j, j < (encodeUvarint size).length →
      ∃ b, (encodeUvarint size)[j]? = some b ∧ b < 256 ∧
        b % 128 = (size >>> (7 * j)) % 128 ∧
        (128 ≤ b ↔ j + 1 < (encodeUvarint size).length)) ∧
    9 ≤ (encodeRowHeader id size).length ∧ (encodeRowHeader id size).length ≤ 18 ∧
    ∀ rest, decodeUint64 (encodeRowHeader id size ++ rest)
        = .ok (id, encodeUvarint size ++ rest) ∧
      ReadUvarint (encodeUvarint size ++ rest) = .ok (size, rest) := by
  have hid' : id < 256 ^ 8 := by
    have : (256 : Nat) ^ 8 = 2 ^ 64 := by norm_num
    omega
  have hmod : size % 2 ^ 64 = size := Nat.mod_eq_of_lt hsize
  have hloop := encodeUint64Loop_eq 8 id [] hid'
  simp only [List.append_nil] at hloop
  have heq := encodeUint64_eq id hid
  have hsz : size < 128 ^ 10 := by
    have : (2 : Nat) ^ 64 < 128 ^ 10 := by norm_num
    omega
  obtain ⟨v1, v2, v3⟩ := putUvarint_digits 10 size (by norm_num) hsz
  have hv : encodeUvarint size = putUvarint 10 size := by
    unfold encodeUvarint; rw [hmod]
  have hle := encodeUvarint_length_le size
  refine ⟨by rw [hloop, heq], by rw [heq, bigEndian_length], ?_, rfl, by rw [hv]; exact v1,
    hle, by rw [hv]; exact v2, ?_, ?_, ?_, ?_⟩
  · intro i hi
    rw [heq, bigEndian_getElem 8 id i hi, Nat.shiftRight_eq_div_pow]
    have h1 : (2 : Nat) ^ (8 * (7 - i)) = 256 ^ (8 - 1 - i) := by
      rw [pow_mul]
      have : 8 - 1 - i = 7 - i := by omega
      rw [this]
      norm_num
    have h2 : ∀ y : Nat, y &&& 0xff = y % 256 := fun y =>
      Nat.and_pow_two_sub_one_eq_mod y 8
    rw [h1, h2]
  · intro j hj
    rw [hv] at hj ⊢
    obtain ⟨b, hb1, hb2, hb3, hb4⟩ := v3 j hj
    refine ⟨b, hb1, hb2, ?_, hb4⟩
    rw [hb3, Nat.shiftRight_eq_div_pow, pow_mul]
    norm_num
  · simp only [encodeRowHeader, List.length_append, heq, bigEndian_length]
    rw [hv]; omega
  · simp only [encodeRowHeader, List.length_append, heq, bigEndian_length]
    omega
  · intro rest
    refine ⟨?_, ReadUvarint_encodeUvarint size hsize rest⟩
    simp only [encodeRowHeader, List.append_assoc]
    exact decodeUint64_encodeUint64 id hid _

/-- Witness of C20: the header of a row with id `0x0102030405060708` and a
payload of 300 bytes. -/
theorem C20_row_header_witness :
    encodeRowHeader 0x0102030405060708 300 = [1, 2, 3, 4, 5, 6, 7, 8, 0xac, 0x02] ∧
    ∀ rest, decodeUint64 (encodeRowHeader 0x0102030405060708 300 ++ rest)
        = .ok (0x0102030405060708, encodeUvarint 300 ++ rest) ∧
      ReadUvarint (encodeUvarint 300 ++ rest) = .ok (300, rest) :=
  ⟨by decide,
   (C20_row_header 0x0102030405060708 300 (by norm_num) (by norm_num)).2.2.2.2.2.2.2.2.2.2⟩


/-! ## C11: the log after `Defrag` -/

/-- The loop of `Defrag` appends to the temporary file, entry by entry, the
row each entry points at. -/
theorem defragLoop_rows (rows : List DiskRow) (hwf : ∀ r ∈ rows, r.payload.length < 2 ^ 63) :
    ∀ (es : List (Nat × Int)) (tempFile : List Nat) (newIndex : List (Nat × Int))
      (offset : Int),
      (∀ p ∈ es, 0 ≤ p.2 ∧ ∃ r, RowAt rows p.2.toNat r ∧ r.id = p.1) →
      ∃ rs newIndex', defragLoop (layout rows) es tempFile newIndex offset
          = .ok (tempFile ++ layout rs, newIndex') ∧
        List.Forall₂ (fun p r => 0 ≤ p.2 ∧ RowAt rows p.2.toNat r ∧ r.id = p.1) es rs := by
  intro es
  induction es with
  | nil =>
    intro tempFile newIndex offset _
    exact ⟨[], newIndex, by simp [defragLoop, layout_nil], List.Forall₂.nil⟩
  | cons e es ih =>
    intro tempFile newIndex offset hes
    obtain ⟨id, cursor⟩ := e
    obtain ⟨hc, r, ⟨pre, post, hrows, hlen⟩, hrid⟩ := hes (id, cursor) (by simp)
    simp only at hc hlen hrid
    have hp : r.payload.length < 2 ^ 63 := hwf r (by rw [hrows]; simp)
    have h1 : ¬ (cursor + 8 < 0) := by omega
    have h2 : (cursor + 8).toNat = (layout pre).length + 8 := by omega
    have h3 : ReadUvarint ((layout rows).drop ((layout pre).length + 8))
        = .ok (r.payload.length, r.payload ++ layout post) := by
      rw [hrows, layout_split]
      exact ReadUvarint_row _ _ _ _ (encodeUint64_length _) hp
    obtain ⟨rs, newIndex', g1, g2⟩ := ih
      (tempFile ++ encodeRowHeader id r.payload.length ++ r.payload)
      (mapSet newIndex id offset)
      (offset + toInt64 r.payload.length + ((encodeRowHeader id r.payload.length).length : Int))
      (fun p hp' => hes p (List.mem_cons_of_mem _ hp'))
    refine ⟨r :: rs, newIndex', ?_, List.Forall₂.cons ⟨hc, ⟨pre, post, hrows, hlen⟩, hrid⟩ g2⟩
    rw [defragLoop, if_neg h1, h2, h3]
    simp only []
    rw [copyN_payload _ _ hp]
    simp only []
    rw [g1, layout_cons, DiskRow.bytes, hrid]
    simp only [List.append_assoc]

theorem layout_length (rows : List DiskRow) :
    (layout rows).length
      = (rows.map (fun r => 8 + (encodeUvarint r.payload.length).length
          + r.payload.length)).sum := by
  induction rows with
  | nil => rfl
  | cons r rows ih =>
    rw [layout_cons, List.length_append, ih]
    simp only [DiskRow.bytes, encodeRowHeader, List.length_append, encodeUint64_length,
      List.map_cons, List.sum_cons]

/-- The rows the entries point at carry the ids of the entries and are rows of
the log. -/
theorem forall₂_rows (rows : List DiskRow) (es : List (Nat × Int)) (rs : List DiskRow)
    (h : List.Forall₂ (fun p r => 0 ≤ p.2 ∧ RowAt rows p.2.toNat r ∧ r.id = p.1) es rs) :
    rs.map (fun r => r.id) = es.map (fun p => p.1) ∧ rs ⊆ rows := by
  induction h with
  | nil => exact ⟨rfl, by simp⟩
  | cons h _ ih =>
    refine ⟨by simp [h.2.2, ih.1], ?_⟩
    intro r hr
    rcases List.mem_cons.mp hr with rfl | hr'
    · obtain ⟨pre, post, hrows, _⟩ := h.2.1
      rw [hrows]; simp
    · exact ih.2 hr'

/-- What `Defrag` leaves in the source of a state that satisfies the
invariant: the rows the index entries point at, in the order of the index. -/
theorem defrag_rows (db : DB) (rows : List DiskRow) (hinv : Inv db rows) :
    ∃ rs, db.Defrag.2 = none ∧ db.Defrag.1.source = layout rs ∧
      List.Forall₂ (fun p r => 0 ≤ p.2 ∧ RowAt rows p.2.toNat r ∧ r.id = p.1) db.index rs ∧
      rs.map (fun r => r.id) = db.index.map (fun p => p.1) ∧
      (layout rs).length ≤ db.source.length := by
  obtain ⟨rs, newIndex, h1, h2⟩ := defragLoop_rows rows hinv.rowsWF db.index [] [] 0
    (fun p hp => by
      obtain ⟨_, a2, r, a3, a4, _⟩ := hinv.entries p hp
      exact ⟨a2, r, a3, a4⟩)
  obtain ⟨hids, hsub⟩ := forall₂_rows rows db.index rs h2
  have hnd : rs.Nodup := by
    apply List.Nodup.of_map (fun r : DiskRow => r.id)
    rw [hids]; exact hinv.keys
  obtain ⟨l, hl, hsl⟩ := List.subperm_of_subset hnd hsub
  refine ⟨rs, ?_, ?_, h2, hids, ?_⟩
  · unfold DB.Defrag
    rw [hinv.source, h1]
  · unfold DB.Defrag
    rw [hinv.source, h1]
    simp only [List.nil_append, writeAt_zero_take]
  · rw [hinv.source, layout_length, layout_length]
    rw [← (hl.map _).sum_eq]
    exact (hsl.map _).sum_le_sum (fun _ _ => Nat.zero_le _)

/-- C11: in a reachable state `Defrag` succeeds and leaves as the log the rows
the index entries point at, one per entry and with the id of the entry; the
length of the log is the sum over these rows of 8, the length of the size
varint and the size, and it is not more than the length before.  The log then
has a row with the id 0 exactly when 0 is a key of the index.  And 0 is a key
in `blobReopened`, the state after `Insert`, `Drop` of the id returned and a
reopening of the log by `NewDB`: there `Defrag` succeeds and leaves the log as
it was, eleven bytes that are one tombstone row, whose id field reads 0. -/
theorem C11_defrag_keeps_tombstone :
    (∀ db : DB, Reachable db → ∃ rs : List DiskRow,
      db.Defrag.2 = none ∧ db.Defrag.1.source = layout rs ∧
      rs.map (fun r => r.id) = db.index.map (fun p => p.1) ∧
      List.Forall₂ (fun p r => ∃ pre post : List Nat,
        db.source = pre ++ r.bytes ++ post ∧ (pre.length : Int) = p.2) db.index rs ∧
      db.Defrag.1.source.length
        = (rs.map (fun r => 8 + (encodeUvarint r.payload.length).length
            + r.payload.length)).sum ∧
      db.Defrag.1.source.length ≤ db.source.length ∧
      ((∀ r ∈ rs, r.id ≠ DeletedID) ↔ db.Has DeletedID = false)) ∧
    Reachable blobReopened ∧
    blobReopened.Has DeletedID = true ∧
    blobReopened.Defrag = (blobReopened, none) ∧
    blobReopened.Defrag.1.source = layout [⟨DeletedID, [0, 0]⟩] ∧
    decodeUint64 blobReopened.Defrag.1.source = .ok (DeletedID, [2, 0, 0]) ∧
    blobReopened.Defrag.1.source.length = 11 := by
  refine ⟨?_, blobReopened_reachable, rfl, rfl, rfl, rfl, rfl⟩
  intro db hr
  obtain ⟨rows, hinv⟩ := reachable_inv db hr
  obtain ⟨rs, h1, h2, h3, h4, h5⟩ := defrag_rows db rows hinv
  refine ⟨rs, h1, h2, h4, ?_, ?_, ?_, ?_⟩
  · refine h3.imp ?_
    rintro p r ⟨hc, ⟨pre, post, hrows, hlen⟩, _⟩
    refine ⟨layout pre, layout post, ?_, ?_⟩
    · rw [hinv.source, hrows, layout_append, layout_cons, List.append_assoc]
    · omega
  · rw [h2, layout_length]
  · rw [h2]; exact h5
  · have hkey : (∀ r ∈ rs, r.id ≠ DeletedID) ↔ DeletedID ∉ rs.map (fun r => r.id) := by
      simp only [List.mem_map, not_exists, not_and]
    rw [hkey, h4]
    unfold DB.Has
    rw [← mapGet_none]
    cases mapGet db.index DeletedID <;> simp


/-! ## C12: what `PopulateIndex` puts in the index -/

theorem decodeFields_length (fs : List Field) : ∀ (names : List String) (ds : List Value)
    (r : List Nat) (vals : List Value) (n : Nat) (rest : List Nat),
    decodeFields fs names ds r = .ok (vals, n, rest) → vals.length = ds.length
  | [], ds, r, vals, n, rest, h => by
    simp only [decodeFields, Except.ok.injEq, Prod.mk.injEq] at h
    rw [← h.1]
  | name :: names, ds, r, vals, n, rest, h => by
    rw [decodeFields] at h
    cases hl : fieldLookup fs ds name with
    | none => simp [hl] at h
    | some p =>
      obtain ⟨f, v0⟩ := p
      simp only [hl] at h
      cases hd : decodeFromBinary f.type r with
      | error e => simp [hd] at h
      | ok q =>
        obtain ⟨v, k, r1⟩ := q
        simp only [hd] at h
        cases hr : decodeFields fs names (fieldSet fs ds name v) r1 with
        | error e => simp [hr] at h
        | ok q' =>
          obtain ⟨vals', m, r2⟩ := q'
          simp only [hr, Except.ok.injEq, Prod.mk.injEq] at h
          have := decodeFields_length fs names _ r1 vals' m r2 hr
          rw [← h.1, this, fieldSet_length]

/-- The callback `decodeValue` of `PopulateIndex` succeeds on a row whose
payload decodes, and gives a struct of the schema's type. -/
theorem decode_row_ok (db : DB) (rows : List DiskRow) (hinv : Inv db rows) (r : DiskRow)
    (hmem : r ∈ rows) (rest : List Nat) :
    ∃ rec n r', db.schema.Decode (r.payload ++ rest)
        (Iface.ptr (zeroRecord db.schema.dataType)) = .ok (rec, n, r') ∧
      rec.type = db.schema.dataType ∧ rec.vals.length = rec.type.fields.length := by
  have hdec := rowPayload_decodable db.schema hinv.schemaWF hinv.schemaValid r.payload
    (hinv.rowsOK r hmem).2
  obtain ⟨rec, hrec⟩ := hdec.2 (zeroRecord db.schema.dataType) rfl (by simp [zeroRecord])
  rw [← hdec.1 _ rest] at hrec
  unfold decodeOnly at hrec
  cases hd : db.schema.Decode (r.payload ++ rest)
      (Iface.ptr (zeroRecord db.schema.dataType)) with
  | error e => rw [hd] at hrec; simp at hrec
  | ok q =>
    obtain ⟨rec', n, r'⟩ := q
    refine ⟨rec', n, r', rfl, ?_⟩
    simp only [tableSchema.Decode, zeroRecord, if_true, decodeStructFromBinary] at hd
    split at hd
    · simp at hd
    · rename_i vals k r2 hfs
      simp only [Except.ok.injEq, Prod.mk.injEq] at hd
      rw [← hd.1]
      exact ⟨rfl, by simp [decodeFields_length _ _ _ _ _ _ _ hfs]⟩

/-- Given a struct of the schema's type, `addToIndex` enters the id. -/
theorem addToIndex_ok (db : DB) (rows : List DiskRow) (hinv : Inv db rows) (id : Nat)
    (cursor : Int) (rec : Record) (hty : rec.type = db.schema.dataType)
    (hl : rec.vals.length = rec.type.fields.length) :
    ∃ ci, db.addToIndex id cursor (.ok (.ptr rec))
      = ({ db with customIndices := ci, index := mapSet db.index id cursor }, none) := by
  unfold DB.addToIndex
  by_cases hlen : db.customIndices.length > 0
  · rw [if_pos hlen]
    simp only [Iface.record]
    obtain ⟨ci, hci, _⟩ := setCustomIndices_some rec id
      (by rw [hty]; exact hinv.schemaWF) hl db.customIndices
      (by rw [hty]; exact hinv.custom)
    exact ⟨ci, by rw [hci]⟩
  · rw [if_neg hlen]
    exact ⟨db.customIndices, rfl⟩

/-- The offset `PopulateIndex` computes for the next row is the end of the row
it has read, when the log is one a file can hold. -/
theorem next_offset (pre : List DiskRow) (r : DiskRow) (n : Nat)
    (hp : r.payload.length < 2 ^ 63) (htot : (layout (pre ++ [r])).length ≤ n)
    (hn : n < 2 ^ 63) :
    wrapInt64 (((layout pre).length : Int) + wrapInt64 (toInt64 r.payload.length
      + (((encodeUvarint r.payload.length).length : Int) + 8)))
      = ((layout (pre ++ [r])).length : Int) := by
  have hlen : (layout (pre ++ [r])).length = (layout pre).length
      + (8 + (encodeUvarint r.payload.length).length + r.payload.length) := by
    simp only [layout_append, layout_cons, layout_nil, List.append_nil, DiskRow.bytes,
      encodeRowHeader, List.length_append, encodeUint64_length]
  have h63 : (2:Int) ^ 63 = 9223372036854775808 := by norm_num
  have h63n : (2:Nat) ^ 63 = 9223372036854775808 := by norm_num
  have hin : wrapInt64 ((r.payload.length : Int)
      + (((encodeUvarint r.payload.length).length : Int) + 8))
      = (r.payload.length : Int)
        + (((encodeUvarint r.payload.length).length : Int) + 8) :=
    wrapInt64_id _ (by omega) (by omega)
  rw [toInt64_small _ hp, hin, wrapInt64_id _ (by omega) (by omega), hlen]
  push_cast
  ring

/-- On a log of well-formed rows that a file can hold, with fuel for every
row and the end of the log, the loop of `PopulateIndex` returns without error
and has entered every row it read, whatever its id. -/
theorem populateLoop_ok (rows : List DiskRow) :
    ∀ (fuel : Nat) (pre suf : List DiskRow) (db : DB) (offset : Int),
      rows = pre ++ suf → Inv db rows → db.source.length < 2 ^ 63 →
      offset = ((layout pre).length : Int) → suf.length < fuel →
      ∃ db', populateLoop fuel offset db = some (db', none) ∧
        db'.index = scanIndex suf (layout pre).length db.index ∧
        db'.source = db.source ∧ db'.schema = db.schema := by
  intro fuel
  induction fuel with
  | zero => intro pre suf db offset _ _ _ _ h; omega
  | succ fuel ih =>
    intro pre suf db offset hrows hinv hlen hoff hfuel
    have hsrc : db.source = layout pre ++ layout suf := by
      rw [hinv.source, hrows, layout_append]
    have hdrop : db.source.drop offset.toNat = layout suf := by
      have : offset.toNat = (layout pre).length := by omega
      rw [this, hsrc, List.drop_left]
    rw [populateLoop, hdrop]
    cases suf with
    | nil =>
      refine ⟨db, ?_, rfl, rfl, rfl⟩
      simp [layout_nil, decodeUint64, readFull]
    | cons r suf' =>
      have hmem : r ∈ rows := by rw [hrows]; simp
      have hid := (hinv.rowsOK r hmem).1
      have hp := hinv.rowsWF r hmem
      have hlay : layout (r :: suf') = encodeUint64 r.id
          ++ (encodeUvarint r.payload.length ++ (r.payload ++ layout suf')) := by
        simp [layout_cons, DiskRow.bytes, encodeRowHeader]
      rw [hlay, decodeUint64_encodeUint64 _ hid]
      simp only []
      rw [ReadUvarint_encodeUvarint _ (encodeUvarint_mod _ hp)]
      simp only []
      have hrow : RowAt rows offset.toNat r := ⟨pre, suf', hrows, by omega⟩
      obtain ⟨rec, n, r', hd, hty, hl⟩ := decode_row_ok db rows hinv r hmem (layout suf')
      rw [hd]
      simp only []
      obtain ⟨ci, hadd⟩ := addToIndex_ok db rows hinv r.id offset rec hty hl
      have hinv1 := (addToIndex_inv db rows hinv r offset (by omega) hrow
        (.ok (.ptr rec))).1
      rw [hadd] at hinv1 ⊢
      simp only [] at hinv1 ⊢
      have htot : (layout (pre ++ [r])).length ≤ db.source.length := by
        rw [hsrc, layout_append, layout_cons r suf', layout_cons, layout_nil,
          List.append_nil]
        simp only [List.length_append]
        omega
      have hnext := next_offset pre r db.source.length hp htot hlen
      rw [← hoff] at hnext
      rw [hnext]
      have hnn : ¬ (((layout (pre ++ [r])).length : Int) < 0) := by omega
      rw [if_neg hnn]
      obtain ⟨db', g1, g2, g3, g4⟩ := ih (pre ++ [r]) suf'
        { db with customIndices := ci, index := mapSet db.index r.id offset }
        ((layout (pre ++ [r])).length : Int) (by rw [hrows]; simp) hinv1 hlen rfl
        (by simp only [List.length_cons] at hfuel; omega)
      refine ⟨db', g1, ?_, g3, g4⟩
      rw [g2, scanIndex, hoff]
      simp only [layout_append, layout_cons, layout_nil, List.append_nil, List.length_append]

/-- Every row that is scanned is in the index afterwards, and so is every id
that was in it before. -/
theorem scanIndex_has : ∀ (rows : List DiskRow) (off : Nat) (index : List (Nat × Int)),
    (∀ k, (mapGet index k).isSome = true → (mapGet (scanIndex rows off index) k).isSome = true) ∧
    ∀ r ∈ rows, (mapGet (scanIndex rows off index) r.id).isSome = true
  | [], off, index => ⟨fun k hk => by rw [scanIndex]; exact hk, by simp⟩
  | r :: rows, off, index => by
    obtain ⟨h1, h2⟩ := scanIndex_has rows (off + r.bytes.length) (mapSet index r.id (off : Int))
    rw [scanIndex]
    constructor
    · intro k hk
      apply h1
      rw [mapGet_mapSet]
      split
      · rfl
      · exact hk
    · intro r' hr'
      rcases List.mem_cons.mp hr' with rfl | hr''
      · apply h1
        rw [mapGet_mapSet]
        simp
      · exact h2 r' hr''

/-- C12: on a log that is a concatenation of rows written for records of the
schema, live or tombstoned, and that a file can hold, `PopulateIndex` with fuel
for every row returns without error; the index it leaves is the one a scan
builds that enters every row under its id at the offset of its header, so every
row of the log has its id in the index, whatever the id.  At the failing
input, the log of `blobDropped` is one tombstone row (id 0, size 2, two zero
bytes), left by `Drop(9)` on `blobNine`: the rebuilt primary index maps the
id 0 to the offset of the tombstone. -/
theorem C12_populate_indexes_tombstone :
    (∀ (db : DB) (rows : List DiskRow) (fuel : Nat),
      db.schema.dataType.WF → db.schema.dataType.Valid →
      (∀ p ∈ db.customIndices, ∃ f ∈ db.schema.dataType.fields, f.name = p.1) →
      db.source = layout rows →
      (∀ r ∈ rows, r.id < 2 ^ 64 ∧ r.payload.length < 2 ^ 63 ∧
        RowPayload db.schema r.payload) →
      db.source.length < 2 ^ 63 → rows.length < fuel →
      ∃ db1, db.PopulateIndex fuel = some (db1, none) ∧
        db1.index = scanIndex rows 0 [] ∧ db1.source = db.source ∧
        ∀ r ∈ rows, db1.Has r.id = true) ∧
    blobNine.Drop 9 = (blobDropped, none) ∧
    blobDropped.source = layout [⟨DeletedID, [0, 0]⟩] ∧
    ∃ db1, blobDropped.PopulateIndex 2 = some (db1, none) ∧
      db1.index = [(0, 0)] ∧ db1.Has DeletedID = true ∧ db1.RowCount = 1 := by
  refine ⟨?_, rfl, rfl, _, rfl, rfl, rfl, rfl⟩
  intro db rows fuel hwf hvalid hcustom hsrc hrows hlen hfuel
  have hinv : Inv { db with index := [] } rows := by
    constructor
    · exact hwf
    · exact hvalid
    · exact hcustom
    · exact hsrc
    · exact fun r hr => (hrows r hr).2.1
    · simp
    · intro p hp; simp at hp
    · exact fun r hr => ⟨(hrows r hr).1, (hrows r hr).2.2⟩
  obtain ⟨db1, g1, g2, g3, _⟩ := populateLoop_ok rows fuel [] rows { db with index := [] } 0
    rfl hinv hlen (by simp [layout_nil]) hfuel
  refine ⟨db1, g1, ?_, g3, ?_⟩
  · simpa [layout_nil] using g2
  · intro r hr
    unfold DB.Has
    rw [g2]
    exact (scanIndex_has rows _ _).2 r hr


/-! ## C21: the count `decodeFromBinary` returns -/

/-- What the loop of `binary.ReadUvarint` returns after reading `j` more bytes
is below `2 ^ (s + 7 * j)`. -/
theorem readUvarintLoop_used : ∀ (fuel i acc s : Nat) (r : List Nat) (x : Nat)
    (rest : List Nat), acc < 2 ^ s → readUvarintLoop fuel i acc s r = .ok (x, rest) →
    ∃ used, r = used ++ rest ∧ 1 ≤ used.length ∧ x < 2 ^ (s + 7 * used.length)
  | 0, _, _, _, _, _, _, _, h => by simp [readUvarintLoop] at h
  | _ + 1, _, _, _, [], _, _, _, h => by simp [readUvarintLoop] at h
  | fuel + 1, i, acc, s, b :: r, x, rest, hacc, h => by
    rw [readUvarintLoop] at h
    split at h
    · rename_i hb
      split at h
      · simp at h
      · simp only [Except.ok.injEq, Prod.mk.injEq] at h
        refine ⟨[b], by simp [h.2], by simp, ?_⟩
        rw [← h.1]
        have h1 : acc < 2 ^ (s + 7) := lt_of_lt_of_le hacc
          (Nat.pow_le_pow_right (by norm_num) (by omega))
        have h2 : b <<< s < 2 ^ (s + 7) := by
          rw [Nat.shiftLeft_eq, Nat.pow_add, Nat.mul_comm]
          exact Nat.mul_lt_mul_of_pos_left (by norm_num; omega) (Nat.pow_pos (by norm_num))
        simpa using Nat.or_lt_two_pow h1 h2
    · have h1 : acc < 2 ^ (s + 7) := lt_of_lt_of_le hacc
        (Nat.pow_le_pow_right (by norm_num) (by omega))
      have h2 : (b &&& 0x7f) <<< s < 2 ^ (s + 7) := by
        rw [Nat.shiftLeft_eq, Nat.pow_add, Nat.mul_comm]
        have h127 : b &&& 0x7f < 2 ^ 7 := by
          have : b &&& 0x7f = b % 2 ^ 7 := Nat.and_pow_two_sub_one_eq_mod b 7
          rw [this]
          exact Nat.mod_lt _ (by norm_num)
        exact Nat.mul_lt_mul_of_pos_left h127 (Nat.pow_pos (by norm_num))
      obtain ⟨used, g1, g2, g3⟩ := readUvarintLoop_used fuel (i + 1) _ (s + 7) r x rest
        (Nat.or_lt_two_pow h1 h2) h
      refine ⟨b :: used, by simp [g1], by simp, ?_⟩
      have : s + 7 + 7 * used.length = s + 7 * (b :: used).length := by
        simp only [List.length_cons]; omega
      rw [← this]; exact g3

/-- The varint `binary.PutUvarint` writes is not longer than any other varint
of the same number. -/
theorem putUvarint_length_le : ∀ (fuel y j : Nat), 1 ≤ j → y < 128 ^ j →
    (putUvarint fuel y).length ≤ j
  | 0, _, _, _, _ => by simp [putUvarint]
  | fuel + 1, y, j, hj, hy => by
    rw [putUvarint]
    split
    · rename_i hge
      have hj2 : 2 ≤ j := by
        rcases Nat.lt_or_ge j 2 with h | h
        · have : j = 1 := by omega
          subst this
          simp at hy
          omega
        · exact h
      have hy' : y >>> 7 < 128 ^ (j - 1) := by
        rw [Nat.shiftRight_eq_div_pow]
        have : y < 128 ^ (j - 1) * 2 ^ 7 := by
          have h128 : (128 : Nat) ^ j = 128 ^ (j - 1) * 128 := by
            rw [← pow_succ]; congr 1; omega
          rw [h128] at hy
          simpa using hy
        exact Nat.div_lt_of_lt_mul (by rw [Nat.mul_comm]; exact this)
      have := putUvarint_length_le fuel (y >>> 7) (j - 1) (by omega) hy'
      simp only [List.length_cons]
      omega
    · simp only [List.length_singleton]
      exact hj

/-- The bytes `binary.ReadUvarint` consumes are at least as many as the count
`decodeFromBinary` adds for them. -/
theorem ReadUvarint_used (r : List Nat) (x : Nat) (rest : List Nat)
    (h : ReadUvarint r = .ok (x, rest)) :
    ∃ used, r = used ++ rest ∧ (encodeUvarint x).length ≤ used.length := by
  obtain ⟨used, h1, h2, h3⟩ := readUvarintLoop_used 10 0 0 0 r x rest (by norm_num) h
  refine ⟨used, h1, ?_⟩
  unfold encodeUvarint
  apply putUvarint_length_le 10 _ _ h2
  have : x % 2 ^ 64 ≤ x := Nat.mod_le _ _
  have h128 : (128 : Nat) ^ used.length = 2 ^ (0 + 7 * used.length) := by
    rw [Nat.zero_add, pow_mul]
    norm_num
  rw [h128]
  omega

theorem readFull_used (n : Nat) (r buf rest : List Nat) (h : readFull n r = .ok (buf, rest)) :
    r = buf ++ rest ∧ buf.length = n := by
  unfold readFull at h
  split at h
  · rename_i hle
    simp only [Except.ok.injEq, Prod.mk.injEq] at h
    rw [← h.1, ← h.2]
    exact ⟨(List.take_append_drop n r).symm, by simp [hle]⟩
  · split at h <;> simp at h

theorem decodeSliceFixed_used (e : Ty) (r : List Nat) (vs : List Value) (n : Nat)
    (rest : List Nat) (h : decodeSliceFixed e r = .ok (vs, n, rest)) :
    ∃ used, r = used ++ rest ∧ n ≤ used.length := by
  unfold decodeSliceFixed at h
  cases hr : ReadUvarint r with
  | error err => simp [hr] at h
  | ok q =>
    obtain ⟨length, r1⟩ := q
    obtain ⟨u1, g1, g2⟩ := ReadUvarint_used r length r1 hr
    simp only [hr] at h
    split at h
    · simp at h
    · unfold binaryReadSlice at h
      cases hs : sizeof e with
      | none => simp [hs] at h
      | some sz =>
        simp only [hs] at h
        cases hf : readFull (sz * length) r1 with
        | error err => simp [hf] at h
        | ok q2 =>
          obtain ⟨buf, rest2⟩ := q2
          obtain ⟨f1, f2⟩ := readFull_used _ _ _ _ hf
          simp only [hf, Except.ok.injEq, Prod.mk.injEq] at h
          refine ⟨u1 ++ buf, ?_, ?_⟩
          · rw [g1, f1, ← h.2.2, List.append_assoc]
          · rw [← h.2.1]
            simp only [sizeof, hs, Option.map_some', Option.getD_some, List.length_append, f2]
            have : length * sz = sz * length := Nat.mul_comm _ _
            omega

theorem decodeEach_used (dec : List Nat → Except Err (Value × Nat × List Nat))
    (ih : ∀ r v n rest, dec r = .ok (v, n, rest) → ∃ used, r = used ++ rest ∧ n ≤ used.length) :
    ∀ (k : Nat) (r : List Nat) (vs : List Value) (n : Nat) (rest : List Nat),
      decodeEach dec k r = .ok (vs, n, rest) → ∃ used, r = used ++ rest ∧ n ≤ used.length
  | 0, r, vs, n, rest, h => by
    simp only [decodeEach, Except.ok.injEq, Prod.mk.injEq] at h
    exact ⟨[], by simp [h.2.2], by simp [← h.2.1]⟩
  | k + 1, r, vs, n, rest, h => by
    rw [decodeEach] at h
    cases hd : dec r with
    | error err => simp [hd] at h
    | ok q =>
      obtain ⟨v, m, r1⟩ := q
      obtain ⟨u1, g1, g2⟩ := ih r v m r1 hd
      simp only [hd] at h
      cases hrest : decodeEach dec k r1 with
      | error err => simp [hrest] at h
      | ok q2 =>
        obtain ⟨vs', ms, r2⟩ := q2
        obtain ⟨u2, f1, f2⟩ := decodeEach_used dec ih k r1 vs' ms r2 hrest
        simp only [hrest, Except.ok.injEq, Prod.mk.injEq] at h
        refine ⟨u1 ++ u2, ?_, ?_⟩
        · rw [g1, f1, ← h.2.2, List.append_assoc]
        · rw [← h.2.1, List.length_append]; omega

/-- On every input on which it succeeds, `decodeFromBinary` has consumed a
prefix of the input that has at least as many bytes as the count it
returns. -/
theorem decodeFromBinary_used (t : Ty) : ∀ (r : List Nat) (v : Value) (n : Nat)
    (rest : List Nat), decodeFromBinary t r = .ok (v, n, rest) →
    ∃ used, r = used ++ rest ∧ n ≤ used.length := by
  induction t with
  | basic k =>
    intro r v n rest h
    unfold decodeFromBinary at h
    split at h
    · cases hd : decodeSliceFixed (.basic .Uint8) r with
      | error err => simp [hd] at h
      | ok q =>
        obtain ⟨vs, m, r1⟩ := q
        simp only [hd, Except.ok.injEq, Prod.mk.injEq] at h
        obtain ⟨used, g1, g2⟩ := decodeSliceFixed_used _ _ _ _ _ hd
        exact ⟨used, by rw [g1, h.2.2], by rw [← h.2.1]; exact g2⟩
    · unfold binaryRead at h
      cases hs : sizeof (.basic k) with
      | none => simp [hs] at h
      | some sz =>
        simp only [hs] at h
        cases hf : readFull sz r with
        | error err => simp [hf] at h
        | ok q =>
          obtain ⟨buf, r1⟩ := q
          obtain ⟨f1, f2⟩ := readFull_used _ _ _ _ hf
          simp only [hf, Except.ok.injEq, Prod.mk.injEq, Option.getD_some] at h
          exact ⟨buf, by rw [f1, h.2.2], by rw [← h.2.1, f2]⟩
  | array k e _ =>
    intro r v n rest h
    unfold decodeFromBinary binaryRead at h
    cases hs : sizeof (.array k e) with
    | none => simp [hs] at h
    | some sz =>
      simp only [hs] at h
      cases hf : readFull sz r with
      | error err => simp [hf] at h
      | ok q =>
        obtain ⟨buf, r1⟩ := q
        obtain ⟨f1, f2⟩ := readFull_used _ _ _ _ hf
        simp only [hf, Except.ok.injEq, Prod.mk.injEq, Option.getD_some] at h
        exact ⟨buf, by rw [f1, h.2.2], by rw [← h.2.1, f2]⟩
  | slice e ih =>
    intro r v n rest h
    unfold decodeFromBinary at h
    split at h
    · cases hr : ReadUvarint r with
      | error err => simp [hr] at h
      | ok q =>
        obtain ⟨length, r1⟩ := q
        obtain ⟨u1, g1, g2⟩ := ReadUvarint_used r length r1 hr
        simp only [hr] at h
        split at h
        · simp at h
        · cases hd : decodeEach (decodeFromBinary e) length r1 with
          | error err => simp [hd] at h
          | ok q2 =>
            obtain ⟨vs, m, r2⟩ := q2
            obtain ⟨u2, f1, f2⟩ := decodeEach_used _ ih _ _ _ _ _ hd
            simp only [hd, Except.ok.injEq, Prod.mk.injEq] at h
            refine ⟨u1 ++ u2, ?_, ?_⟩
            · rw [g1, f1, ← h.2.2, List.append_assoc]
            · rw [← h.2.1, List.length_append]; omega
    · cases hd : decodeSliceFixed e r with
      | error err => simp [hd] at h
      | ok q =>
        obtain ⟨vs, m, r1⟩ := q
        simp only [hd, Except.ok.injEq, Prod.mk.injEq] at h
        obtain ⟨used, g1, g2⟩ := decodeSliceFixed_used _ _ _ _ _ hd
        exact ⟨used, by rw [g1, h.2.2], by rw [← h.2.1]; exact g2⟩

/-- C21: on every input on which `decodeFromBinary` succeeds, the bytes it has
consumed are a prefix of the input with at least as many bytes as the count
it returns; but they can be more.  The two bytes `80 00` are a varint of the
value 0 in two bytes: `decodeFromBinary` into a `[]byte` succeeds on them,
consumes both, and returns the count 1, the length of the one-byte varint of
0; decoding into a string does the same.  With other bytes behind, the count
points one byte before the first unread byte. -/
theorem C21_count_of_long_varint :
    (∀ (t : Ty) (r : List Nat) (v : Value) (n : Nat) (rest : List Nat),
      decodeFromBinary t r = .ok (v, n, rest) →
      ∃ used, r = used ++ rest ∧ n ≤ used.length) ∧
    ReadUvarint [0x80, 0x00] = .ok (0, []) ∧
    encodeUvarint 0 = [0x00] ∧
    decodeFromBinary (.slice (.basic .Uint8)) [0x80, 0x00] = .ok (.slice [], 1, []) ∧
    decodeFromBinary (.basic .String) [0x80, 0x00] = .ok (.str [], 1, []) ∧
    decodeFromBinary (.slice (.basic .Uint8)) [0x80, 0x00, 0xaa, 0xbb]
      = .ok (.slice [], 1, [0xaa, 0xbb]) ∧
    [0x80, 0x00, 0xaa, 0xbb].drop 1 ≠ [0xaa, 0xbb] :=
  ⟨decodeFromBinary_used, rfl, rfl, rfl, rfl, rfl, by decide⟩


/-! ## C26 and C28: a dropped id in a snapshot, and the secondary indices -/

theorem blobTwo_reachable : Reachable blobTwo :=
  Reachable.insert blobNine (.struct ⟨blobType, [.slice [.uint 7]]⟩) [5] blobTwo (.ok 5)
    blobNine_reachable (by simp [Iface.WellTyped, Record.WellTyped, blobType, fieldsTyped]; decide)
    rfl

/-- C26, the code at the failing input: `blobTwo` holds the ids 9 and 5 and
`Iterate` takes the snapshot `[9, 5]`.  After `Drop(9)` the first call of the
generator never returns, although the id 5 is live: it finds 9 gone, calls
itself with the mutex held and blocks in `Lock`.  After `Drop(9)` and
`Drop(5)` it never returns either.  Only when the id that is gone is the last of
the snapshot does the call return: after `Drop(5)` alone the first call yields
the row of 9 and the second returns no row and no error. -/
theorem C26_generator_blocks_after_drop :
    Reachable blobTwo ∧
    blobTwo.Iterate = ⟨[9, 5], 0⟩ ∧
    (blobTwo.Drop 9).2 = none ∧ (blobTwo.Drop 9).1.Has 5 = true ∧
    blobTwo.Iterate.call (blobTwo.Drop 9).1 = none ∧
    ((blobTwo.Drop 9).1.Drop 5).2 = none ∧
    blobTwo.Iterate.call ((blobTwo.Drop 9).1.Drop 5).1 = none ∧
    (blobTwo.Drop 5).2 = none ∧
    RowGenerator.calls (blobTwo.Drop 5).1 2 blobTwo.Iterate
      = some (⟨[9, 5], 2⟩, [.ok (some ⟨⟨blobType, [.slice [.uint 3]]⟩, 9⟩), .ok none]) :=
  ⟨blobTwo_reachable, rfl, rfl, rfl, rfl, rfl, rfl, rfl, rfl⟩

/-- C28, the code at the failing input: in a fresh engine whose column `Data`
is indexed, `{Data: nil}` is inserted under the id 1.  The secondary index of
`Data` then maps 1 to the nil slice, while the row of 1 decodes to
`{Data: []byte{}}`, and the two are not deeply equal. -/
theorem C28_secondary_index_holds_raw_value :
    NewDB [] (.struct ⟨indexedBlobType, [.nilSlice]⟩) 1 = some (.ok indexedBlobEmpty) ∧
    ∃ db1, indexedBlobEmpty.Insert (.struct ⟨indexedBlobType, [.nilSlice]⟩) [1]
        = some (db1, .ok 1) ∧
      db1.index = [(1, 0)] ∧
      db1.customIndices = [("Data", [(1, ⟨.slice (.basic .Uint8), .nilSlice⟩)])] ∧
      db1.Find 1 (.ptr (zeroRecord indexedBlobType)) = .ok ⟨indexedBlobType, [.slice []]⟩ ∧
      deepEqual ⟨.slice (.basic .Uint8), .nilSlice⟩ ⟨.slice (.basic .Uint8), .slice []⟩
        = false :=
  ⟨rfl, _, rfl, rfl, rfl, rfl, rfl⟩


/-! ## C27, C29 and C30: index entries, a rejected update, and the log -/

/-- A scan of the bytes of well-formed rows gives the rows back and ends at
the end of the bytes. -/
theorem scanLog_layout : ∀ (rows : List DiskRow),
    (∀ r ∈ rows, r.id < 2 ^ 64 ∧ r.payload.length < 2 ^ 63) →
    ∀ fuel, rows.length < fuel → scanLog fuel (layout rows) = some rows
  | [], _, fuel, hf => by
    cases fuel with
    | zero => omega
    | succ f => rfl
  | r :: rows, h, fuel, hf => by
    cases fuel with
    | zero => omega
    | succ f =>
      obtain ⟨hid, hp⟩ := h r (by simp)
      have hlay : layout (r :: rows) = encodeUint64 r.id
          ++ (encodeUvarint r.payload.length ++ (r.payload ++ layout rows)) := by
        simp [layout_cons, DiskRow.bytes, encodeRowHeader]
      have hne : layout (r :: rows) ≠ [] := by
        intro h0
        have := congrArg List.length h0
        rw [hlay] at this
        simp [encodeUint64_length] at this
      obtain ⟨b, bs, hb⟩ := List.exists_cons_of_ne_nil hne
      rw [hb, scanLog, ← hb, hlay, decodeUint64_encodeUint64 _ hid]
      simp only []
      rw [ReadUvarint_encodeUvarint _ (encodeUvarint_mod _ hp)]
      simp only []
      rw [if_pos (by simp), List.drop_left, List.take_left,
        scanLog_layout rows (fun r' hr' => h r' (List.mem_cons_of_mem _ hr')) f
          (by simp only [List.length_cons] at hf; omega)]

theorem blobCollided_reachable : Reachable blobCollided :=
  Reachable.insert blobNine (.struct ⟨blobType, [.slice [.uint 7]]⟩) [9] blobCollided (.ok 9)
    blobNine_reachable (by simp [Iface.WellTyped, Record.WellTyped, blobType, fieldsTyped]; decide)
    rfl

/-- C30: in a reachable state the source is the bytes of a list of rows, which
a scan from offset 0 reads back ending exactly at the end of the source, and
the payload of each row is the encoding of a record of the schema's type or
as many zero bytes.  But a row need not be a tombstone or the row its id is
indexed under: in `blobCollided`, reached from `blobNine` by a successful
`Insert` for which the random source drew 9 again, the row at offset 0 has the
id 9 and the payload of the first insert, and the index maps 9 to offset
11. -/
theorem C30_row_neither_tombstone_nor_indexed :
    (∀ db : DB, Reachable db → ∃ rows : List DiskRow,
      db.source = layout rows ∧ scanLog (rows.length + 1) db.source = some rows ∧
      ∀ r ∈ rows, ∃ rec buf, rec.type = db.schema.dataType ∧ rec.WellTyped ∧
        encodeStructToBinary rec = .ok buf ∧ r.payload.length = buf.length ∧
        (r.payload = buf ∨ r.payload = List.replicate buf.length 0)) ∧
    blobNine.Insert (.struct ⟨blobType, [.slice [.uint 7]]⟩) [9]
      = some (blobCollided, .ok 9) ∧
    Reachable blobCollided ∧
    scanLog 3 blobCollided.source = some [⟨9, [1, 3]⟩, ⟨9, [1, 7]⟩] ∧
    blobCollided.index = [(9, 11)] ∧
    mapGet blobCollided.index 9 ≠ some 0 ∧
    (⟨9, [1, 3]⟩ : DiskRow).id ≠ DeletedID := by
  refine ⟨?_, rfl, blobCollided_reachable, rfl, rfl, by decide, by decide⟩
  intro db hr
  obtain ⟨rows, hinv⟩ := reachable_inv db hr
  refine ⟨rows, hinv.source, ?_, ?_⟩
  · rw [hinv.source]
    exact scanLog_layout rows
      (fun r hr' => ⟨(hinv.rowsOK r hr').1, hinv.rowsWF r hr'⟩) _ (Nat.lt_succ_self _)
  · intro r hr'
    obtain ⟨rec, buf, h1, h2, h3, h4⟩ := (hinv.rowsOK r hr').2
    refine ⟨rec, buf, h1, h2, h3, ?_, h4⟩
    rcases h4 with h | h
    · rw [h]
    · rw [h]; simp

/-- C27: in a reachable state, at the offset the primary index holds for an
id the source has the 8 bytes that `decodeUint64` reads as that id, then a size
varint, then at least as many bytes as the size says. -/
theorem C27_index_points_at_row (db : DB) (hr : Reachable db) (id : Nat) (off : Int)
    (hget : mapGet db.index id = some off) :
    0 ≤ off ∧ off.toNat + 8 ≤ db.source.length ∧
    ∃ r1 size r2, decodeUint64 (db.source.drop off.toNat) = .ok (id, r1) ∧
      r1 = db.source.drop (off.toNat + 8) ∧
      ReadUvarint r1 = .ok (size, r2) ∧ size ≤ r2.length ∧
      ∃ pre, db.source = pre ++ r2 ∧ pre.length + size ≤ db.source.length := by
  obtain ⟨rows, hinv⟩ := reachable_inv db hr
  obtain ⟨hid, h0, r, ⟨pre, post, hrows, hlen⟩, hrid, _⟩ :=
    hinv.entries (id, off) (mapGet_mem _ _ _ hget)
  simp only at hid h0 hlen hrid
  have hp : r.payload.length < 2 ^ 63 := hinv.rowsWF r (by rw [hrows]; simp)
  have hsrc : db.source = layout pre ++ (encodeUint64 id
      ++ (encodeUvarint r.payload.length ++ (r.payload ++ layout post))) := by
    rw [hinv.source, hrows, layout_split, hrid]
    simp only [List.append_assoc]
  have hdrop : db.source.drop off.toNat = encodeUint64 id
      ++ (encodeUvarint r.payload.length ++ (r.payload ++ layout post)) := by
    rw [← hlen, hsrc, List.drop_left]
  have hdrop8 : db.source.drop (off.toNat + 8)
      = encodeUvarint r.payload.length ++ (r.payload ++ layout post) := by
    rw [← List.drop_drop, hdrop]
    have : (encodeUint64 id).length = 8 := encodeUint64_length id
    rw [← this, List.drop_left]
  refine ⟨h0, ?_, _, r.payload.length, r.payload ++ layout post, ?_, hdrop8.symm, ?_, ?_, ?_⟩
  · rw [hsrc, ← hlen]
    simp only [List.length_append, encodeUint64_length]
    omega
  · rw [hdrop, decodeUint64_encodeUint64 _ hid]
  · exact ReadUvarint_encodeUvarint _ (encodeUvarint_mod _ hp) _
  · simp
  · refine ⟨layout pre ++ (encodeUint64 id ++ encodeUvarint r.payload.length), ?_, ?_⟩
    · rw [hsrc]; simp only [List.append_assoc]
    · rw [hsrc]
      simp only [List.length_append]
      omega

/-- Witness of C27: the entry of the id 9 in `blobNine`. -/
theorem C27_index_points_at_row_witness :
    Reachable blobNine ∧ mapGet blobNine.index 9 = some 0 ∧
    ∃ r1 size r2, decodeUint64 (blobNine.source.drop (0 : Int).toNat) = .ok (9, r1) ∧
      r1 = blobNine.source.drop ((0 : Int).toNat + 8) ∧
      ReadUvarint r1 = .ok (size, r2) ∧ size ≤ r2.length ∧
      ∃ pre, blobNine.source = pre ++ r2 ∧ pre.length + size ≤ blobNine.source.length :=
  ⟨blobNine_reachable, rfl, (C27_index_points_at_row blobNine blobNine_reachable 9 0 rfl).2.2⟩


/-! ## C29: an update the schema rejects -/

/-- C29: when `Update(id, V)` is called in a reachable state on an id that is
in the index and the schema rejects `V`, `Update` returns the error of
`Encode`, and the state is the one `Drop(id)` leaves: the row of `id` has its
id bytes and its payload overwritten with zeros, `id` is in no index, and
`Has(id)` is false although it was true before the call. -/
theorem C29_update_rejected (db : DB) (hr : Reachable db) (id : Nat) (hid : id ≠ 0)
    (hhas : db.Has id = true) (value : Iface) (e : Err)
    (hrej : db.schema.Encode value = .error e) :
    db.Update id value = ((db.Drop id).1, some e) ∧
    (db.Drop id).2 = none ∧
    (db.Update id value).1.Has id = false ∧
    (db.Update id value).1.Has id ≠ db.Has id ∧
    (∀ p ∈ (db.Update id value).1.customIndices, mapGet p.2 id = none) ∧
    ∃ pre payload post : List Nat,
      db.source = pre ++ encodeUint64 id ++ encodeUvarint payload.length ++ payload ++ post ∧
      mapGet db.index id = some (pre.length : Int) ∧
      (db.Update id value).1.source = pre ++ List.replicate 8 0
        ++ encodeUvarint payload.length ++ List.replicate payload.length 0 ++ post := by
  obtain ⟨rows, hinv⟩ := reachable_inv db hr
  obtain ⟨off, hget⟩ := (has_iff db id).mp hhas
  obtain ⟨pre, r, post, hrows, hoff, hrid, hdrop, _⟩ := drop_spec db rows hinv id hid off hget
  have hupd : db.Update id value
      = (DB.removeFromIndex { db with source := layout (pre ++ r.tombstone :: post) } id,
          some e) := by
    unfold DB.Update DB.Drop
    rw [hdrop]
    simp only [DB.insert]
    have : (DB.removeFromIndex
        { db with source := layout (pre ++ r.tombstone :: post) } id).schema = db.schema := rfl
    rw [this, hrej]
  have hD : db.Drop id
      = (DB.removeFromIndex { db with source := layout (pre ++ r.tombstone :: post) } id,
          none) := hdrop
  have hfalse : (DB.removeFromIndex
      { db with source := layout (pre ++ r.tombstone :: post) } id).Has id = false := by
    simp [DB.Has, DB.removeFromIndex, mapGet_mapDelete]
  rw [hupd, hD]
  refine ⟨rfl, rfl, hfalse, ?_, ?_, ?_⟩
  · simp only []
    rw [hfalse, hhas]
    simp
  · intro p hp
    simp only [DB.removeFromIndex, List.mem_map] at hp
    obtain ⟨q, _, rfl⟩ := hp
    simp [mapGet_mapDelete]
  · refine ⟨layout pre, r.payload, layout post, ?_, ?_, ?_⟩
    · rw [hinv.source, hrows, layout_split, hrid]
    · rw [hget, hoff]
    · simp only [DB.removeFromIndex]
      rw [layout_split]
      simp [DiskRow.tombstone, encodeUint64_zero]

/-- Witness of C29: `Update(9, v)` on `blobNine` with a `v` that is not a
struct of the schema's type. -/
theorem C29_update_rejected_witness :
    Reachable blobNine ∧ blobNine.Has 9 = true ∧
    blobNine.schema.Encode .other = .error .schemaMismatch ∧
    blobNine.Update 9 .other = ((blobNine.Drop 9).1, some .schemaMismatch) ∧
    (blobNine.Drop 9).2 = none ∧
    (blobNine.Update 9 .other).1.Has 9 = false :=
  ⟨blobNine_reachable, rfl, rfl,
   (C29_update_rejected blobNine blobNine_reachable 9 (by decide) rfl .other .schemaMismatch
      rfl).1,
   (C29_update_rejected blobNine blobNine_reachable 9 (by decide) rfl .other .schemaMismatch
      rfl).2.1,
   (C29_update_rejected blobNine blobNine_reachable 9 (by decide) rfl .other .schemaMismatch
      rfl).2.2.1⟩


/-! ## C23 and C24: what an insert writes, and an insert that fails -/

/-- Without a failure of the source, `insertIO` is `insert`. -/
theorem insertIO_none (db : DB) (value : Iface) (id : Nat) :
    db.insertIO .none value id = db.insert value id := by
  unfold DB.insertIO DB.insert
  cases db.schema.Encode value with
  | error e => rfl
  | ok buf => rfl

/-- A call of `addToIndex` that returns an error leaves the state as it was. -/
theorem addToIndex_error (db : DB) (id : Nat) (cursor : Int) (dv : Except Err Iface)
    (db' : DB) (e : Err) (h : db.addToIndex id cursor dv = (db', some e)) : db' = db := by
  unfold DB.addToIndex at h
  split at h
  · cases dv with
    | error e0 =>
      simp only [Prod.mk.injEq] at h
      exact h.1.symm
    | ok value =>
      simp only [] at h
      cases hrec : value.record with
      | none =>
        simp only [hrec, Prod.mk.injEq] at h
        exact h.1.symm
      | some rec =>
        simp only [hrec] at h
        cases hset : setCustomIndices rec id db.customIndices with
        | none =>
          simp only [hset, Prod.mk.injEq] at h
          exact h.1.symm
        | some ci => simp [hset] at h
  · simp at h

/-- An `insert` that returns an error has left the state as it was, or has
appended bytes to the source after `Encode` accepted the value. -/
theorem insertIO_error_state (db : DB) (fault : InsertFault) (value : Iface) (id : Nat)
    (db' : DB) (e : Err) (h : db.insertIO fault value id = (db', some e)) :
    db' = db ∨ ((∃ buf, db.schema.Encode value = .ok buf) ∧
      ∃ src, db' = { db with source := db.source ++ src }) := by
  unfold DB.insertIO at h
  cases henc : db.schema.Encode value with
  | error e0 =>
    left
    rw [henc] at h
    cases fault <;> simp only [Prod.mk.injEq] at h <;> exact h.1.symm
  | ok buf =>
    rw [henc] at h
    have hl : db.source.length + (encodeRowHeader id buf.length).length
        = (db.source ++ encodeRowHeader id buf.length).length := by simp
    cases fault with
    | seek e0 =>
      simp only [Prod.mk.injEq] at h
      exact Or.inl h.1.symm
    | none =>
      simp only [] at h
      split at h
      · simp only [Prod.mk.injEq] at h
        exact Or.inl h.1.symm
      · have := addToIndex_error _ _ _ _ _ _ h
        refine Or.inr ⟨⟨buf, rfl⟩, encodeRowHeader id buf.length ++ buf, ?_⟩
        rw [this, writeAt_end, hl, writeAt_end, List.append_assoc]
    | header written e0 =>
      simp only [] at h
      split at h
      · simp only [Prod.mk.injEq] at h
        exact Or.inl h.1.symm
      · simp only [Prod.mk.injEq] at h
        refine Or.inr ⟨⟨buf, rfl⟩, (encodeRowHeader id buf.length).take written, ?_⟩
        rw [← h.1, writeAt_end]
    | payload written e0 =>
      simp only [] at h
      split at h
      · simp only [Prod.mk.injEq] at h
        exact Or.inl h.1.symm
      · simp only [Prod.mk.injEq] at h
        refine Or.inr ⟨⟨buf, rfl⟩, encodeRowHeader id buf.length ++ buf.take written, ?_⟩
        rw [← h.1, writeAt_end, hl, writeAt_end, List.append_assoc]

/-- An `insert` that returns an error leaves the indices as they were and the
old bytes of the source in place; when `Encode` rejects the value it leaves the
source as it was. -/
theorem insertIO_error (db : DB) (fault : InsertFault) (value : Iface) (id : Nat) (db' : DB)
    (e : Err) (h : db.insertIO fault value id = (db', some e)) :
    db'.index = db.index ∧ db'.customIndices = db.customIndices ∧ db'.schema = db.schema ∧
    db'.source.take db.source.length = db.source ∧
    (∀ e', db.schema.Encode value = .error e' → db' = db) := by
  rcases insertIO_error_state db fault value id db' e h with heq | ⟨⟨buf, hb⟩, src, heq⟩
  · subst heq
    exact ⟨rfl, rfl, rfl, by simp, fun _ _ => rfl⟩
  · subst heq
    refine ⟨rfl, rfl, rfl, by simp, ?_⟩
    intro e' he'
    rw [hb] at he'
    simp at he'

/-- C24: whenever `Insert` returns an error, whether `Encode` rejected the value
or the source failed in the seek or in one of the two writes, the id it
returns is 0, the primary index and the secondary indices are as before the
call, and the bytes the source held are still in place; when `Encode` rejected
the value the whole state is as before the call. -/
theorem C24_insert_error (db : DB) (fault : InsertFault) (value : Iface) (rands : List Nat)
    (db' : DB) (id : Nat) (e : Err)
    (h : db.InsertIO fault value rands = some (db', id, some e)) :
    id = DeletedID ∧ db'.index = db.index ∧ db'.customIndices = db.customIndices ∧
    db'.schema = db.schema ∧ db'.source.take db.source.length = db.source ∧
    (∀ e', db.schema.Encode value = .error e' → db' = db) ∧
    (fault = .none → db.Insert value rands = some (db', .error e)) := by
  unfold DB.InsertIO at h
  cases hid : db.newID rands with
  | none => simp [hid] at h
  | some id0 =>
    simp only [hid] at h
    cases hins : db.insertIO fault value id0 with
    | mk db1 res =>
      rw [hins] at h
      cases res with
      | none => simp at h
      | some e1 =>
        simp only [Option.some.injEq, Prod.mk.injEq] at h
        obtain ⟨rfl, rfl, rfl⟩ := h
        obtain ⟨h1, h2, h3, h4, h5⟩ := insertIO_error db fault value id0 db1 e1 hins
        refine ⟨rfl, h1, h2, h3, h4, h5, ?_⟩
        intro hf
        subst hf
        rw [insertIO_none] at hins
        simp [DB.Insert, hid, hins]

/-- Witness of C24: an `Insert` into a fresh engine of a value that is not a
struct. -/
theorem C24_insert_error_witness :
    blobEmpty.InsertIO .none .other [1] = some (blobEmpty, 0, some .schemaMismatch) ∧
    (0 : Nat) = DeletedID ∧ blobEmpty.index = blobEmpty.index ∧
    blobEmpty.customIndices = blobEmpty.customIndices ∧
    blobEmpty.schema = blobEmpty.schema ∧
    blobEmpty.source.take blobEmpty.source.length = blobEmpty.source ∧
    (∀ e', blobEmpty.schema.Encode .other = .error e' → blobEmpty = blobEmpty) ∧
    (InsertFault.none = .none → blobEmpty.Insert .other [1]
      = some (blobEmpty, .error .schemaMismatch)) :=
  ⟨rfl, C24_insert_error blobEmpty .none .other [1] blobEmpty 0 .schemaMismatch rfl⟩

/-- The loop of `addToIndex` over the secondary indices sets the entry of `id`
in each and nothing else. -/
theorem setCustomIndices_frame (rec : Record) (id : Nat) :
    ∀ (ci ci' : List (String × List (Nat × Dyn))), setCustomIndices rec id ci = some ci' →
      List.Forall₂ (fun p p' => p'.1 = p.1 ∧ (mapGet p'.2 id).isSome = true ∧
        ∀ id', id' ≠ id → mapGet p'.2 id' = mapGet p.2 id') ci ci'
  | [], ci', h => by
    simp only [setCustomIndices, Option.some.injEq] at h
    subst h; exact List.Forall₂.nil
  | (name, m) :: rest, ci', h => by
    simp only [setCustomIndices] at h
    split at h
    · simp at h
    · split at h
      · simp at h
      · rename_i f v _ rest' hrest
        simp only [Option.some.injEq] at h
        subst h
        refine List.Forall₂.cons ⟨rfl, ?_, ?_⟩ (setCustomIndices_frame rec id rest rest' hrest)
        · simp [mapGet_mapSet]
        · intro id' hne
          rw [mapGet_mapSet, if_neg (fun h => hne h.symm)]

/-- C23: a successful `insert` of a value under `id` into a source of length
`L` leaves the source with the row header of `id` and of the length `n` of the
encoding of the value, followed by the `n` bytes of the encoding, appended to
the old bytes: the first `L` bytes are unchanged and the new length is
`L + 8 + varintLen(n) + n`.  The primary index maps `id` to `L` and holds for
every other id what it held, `Has(id)` is true, and each secondary index has an
entry for `id` and holds for every other id what it held. -/
theorem C23_insert_appends_row (db : DB) (value : Iface) (id : Nat) (db' : DB)
    (h : db.insert value id = (db', none)) :
    ∃ rec buf, value.record = some rec ∧ db.schema.Encode value = .ok buf ∧
      encodeStructToBinary rec = .ok buf ∧
      db'.source = db.source ++ encodeRowHeader id buf.length ++ buf ∧
      db'.source.take db.source.length = db.source ∧
      db'.source.length
        = db.source.length + 8 + (encodeUvarint buf.length).length + buf.length ∧
      mapGet db'.index id = some (db.source.length : Int) ∧
      (∀ id', id' ≠ id → mapGet db'.index id' = mapGet db.index id') ∧
      db'.Has id = true ∧
      (db.customIndices.length > 0 →
        List.Forall₂ (fun p p' => p'.1 = p.1 ∧ (mapGet p'.2 id).isSome = true ∧
          ∀ id', id' ≠ id → mapGet p'.2 id' = mapGet p.2 id')
          db.customIndices db'.customIndices) ∧
      (db.customIndices.length = 0 → db'.customIndices = db.customIndices) ∧
      db'.schema = db.schema := by
  unfold DB.insert at h
  cases henc : db.schema.Encode value with
  | error e => simp [henc] at h
  | ok buf =>
    obtain ⟨rec, hrec, _, hbuf⟩ := encode_ok_record db.schema value buf henc
    simp only [henc] at h
    split at h
    · simp at h
    · have hl : db.source.length + (encodeRowHeader id buf.length).length
          = (db.source ++ encodeRowHeader id buf.length).length := by simp
      rw [writeAt_end, hl, writeAt_end] at h
      have key : ∃ ci, db' = { db with
            source := db.source ++ encodeRowHeader id buf.length ++ buf
            index := mapSet db.index id (db.source.length : Int)
            customIndices := ci } ∧
          (db.customIndices.length > 0 →
            List.Forall₂ (fun p p' => p'.1 = p.1 ∧ (mapGet p'.2 id).isSome = true ∧
              ∀ id', id' ≠ id → mapGet p'.2 id' = mapGet p.2 id') db.customIndices ci) ∧
          (db.customIndices.length = 0 → ci = db.customIndices) := by
        unfold DB.addToIndex at h
        simp only [] at h
        split at h
        · rename_i hlen
          simp only [hrec] at h
          cases hset : setCustomIndices rec id db.customIndices with
          | none => simp [hset] at h
          | some ci =>
            simp only [hset, Prod.mk.injEq, and_true] at h
            exact ⟨ci, h.symm, fun _ => setCustomIndices_frame rec id _ _ hset,
              fun h0 => by omega⟩
        · rename_i hlen
          simp only [Prod.mk.injEq, and_true] at h
          exact ⟨db.customIndices, h.symm, fun h0 => absurd h0 hlen, fun _ => rfl⟩
      obtain ⟨ci, heq, hci1, hci2⟩ := key
      subst heq
      refine ⟨rec, buf, hrec, rfl, hbuf, rfl, ?_, ?_, ?_, ?_, ?_, hci1, hci2, rfl⟩
      · simp only [List.append_assoc]
        exact List.take_left _ _
      · simp only [List.length_append, encodeRowHeader, encodeUint64_length]
        omega
      · simp [mapGet_mapSet]
      · intro id' hne
        simp only []
        rw [mapGet_mapSet, if_neg (fun h => hne h.symm)]
      · simp [DB.Has, mapGet_mapSet]

/-- Witness of C23: the insert that leads from `blobEmpty` to `blobNine`. -/
theorem C23_insert_appends_row_witness :
    blobEmpty.insert (.struct ⟨blobType, [.slice [.uint 3]]⟩) 9 = (blobNine, none) ∧
    ∃ rec buf, (Iface.struct ⟨blobType, [.slice [.uint 3]]⟩).record = some rec ∧
      blobEmpty.schema.Encode (.struct ⟨blobType, [.slice [.uint 3]]⟩) = .ok buf ∧
      encodeStructToBinary rec = .ok buf ∧
      blobNine.source = blobEmpty.source ++ encodeRowHeader 9 buf.length ++ buf ∧
      blobNine.source.take blobEmpty.source.length = blobEmpty.source ∧
      blobNine.source.length
        = blobEmpty.source.length + 8 + (encodeUvarint buf.length).length + buf.length ∧
      mapGet blobNine.index 9 = some (blobEmpty.source.length : Int) ∧
      (∀ id', id' ≠ 9 → mapGet blobNine.index id' = mapGet blobEmpty.index id') ∧
      blobNine.Has 9 = true ∧
      (blobEmpty.customIndices.length > 0 →
        List.Forall₂ (fun p p' => p'.1 = p.1 ∧ (mapGet p'.2 9).isSome = true ∧
          ∀ id', id' ≠ 9 → mapGet p'.2 id' = mapGet p.2 id')
          blobEmpty.customIndices blobNine.customIndices) ∧
      (blobEmpty.customIndices.length = 0 →
        blobNine.customIndices = blobEmpty.customIndices) ∧
      blobNine.schema = blobEmpty.schema :=
  ⟨rfl, C23_insert_appends_row blobEmpty (.struct ⟨blobType, [.slice [.uint 3]]⟩) 9 blobNine rfl⟩


/-! ## C25: a pass of the generator of `Iterate` -/

/-- In a state that satisfies the invariant, `Find` into a fresh struct
succeeds for every entry of the index, and it is the decode at the offset of
the entry. -/
theorem find_entry (db : DB) (rows : List DiskRow) (hinv : Inv db rows) (p : Nat × Int)
    (hp : p ∈ db.index) :
    mapGet db.index p.1 = some p.2 ∧
    ∃ rec, db.decodeAt p.2 (.ptr (zeroRecord db.schema.dataType)) = .ok rec ∧
      db.Find p.1 (.ptr (zeroRecord db.schema.dataType)) = .ok rec := by
  have hget : mapGet db.index p.1 = some p.2 := mapGet_of_mem _ _ _ hinv.keys hp
  obtain ⟨_, h0, r, hrow, _, hdec⟩ := hinv.entries p hp
  obtain ⟨rec, hrec⟩ := hdec.2 (zeroRecord db.schema.dataType) rfl (by simp [zeroRecord])
  have hfind := find_row db rows hinv p.1 p.2 hget h0 r hrow hdec
    (.ptr (zeroRecord db.schema.dataType))
  rw [hrec] at hfind
  refine ⟨hget, rec, ?_, hfind⟩
  unfold DB.Find at hfind
  rw [hget] at hfind
  exact hfind

/-- Past the end of the snapshot every call returns no row and no error. -/
theorem calls_done (db : DB) (ids : List Nat) (i : Nat) (h : ids.length ≤ i) :
    ∀ k, RowGenerator.calls db k ⟨ids, i⟩ = some (⟨ids, i⟩, List.replicate k (.ok none))
  | 0 => rfl
  | k + 1 => by
    have hcall : RowGenerator.call ⟨ids, i⟩ db = some (⟨ids, i⟩, .ok none) := by
      simp only [RowGenerator.call, List.drop_eq_nil_of_le h, iterFrom]
    rw [RowGenerator.calls, hcall]
    simp only []
    rw [calls_done db ids i h k]
    rfl

/-- From a position in the snapshot on, with every id from there on in the
index and decodable, the calls yield the rows of these ids in order and then
no row. -/
theorem calls_live (db : DB) : ∀ (es : List (Nat × Int)) (pre : List Nat) (k : Nat),
    (∀ p ∈ es, mapGet db.index p.1 = some p.2 ∧
      ∃ rec, db.decodeAt p.2 (.ptr (zeroRecord db.schema.dataType)) = .ok rec ∧
        db.Find p.1 (.ptr (zeroRecord db.schema.dataType)) = .ok rec) →
    ∃ rows : List Row,
      List.Forall₂ (fun p row => row.ID = p.1 ∧
        db.Find p.1 (.ptr (zeroRecord db.schema.dataType)) = .ok row.Value) es rows ∧
      RowGenerator.calls db (es.length + k) ⟨pre ++ es.map (fun p => p.1), pre.length⟩
        = some (⟨pre ++ es.map (fun p => p.1), pre.length + es.length⟩,
            rows.map (fun r => .ok (some r)) ++ List.replicate k (.ok none))
  | [], pre, k, _ => by
    refine ⟨[], List.Forall₂.nil, ?_⟩
    simp only [List.map_nil, List.append_nil, List.length_nil, Nat.zero_add, Nat.add_zero,
      List.nil_append]
    exact calls_done db pre pre.length (Nat.le_refl _) k
  | p :: es, pre, k, h => by
    obtain ⟨hget, rec, hdec, hfind⟩ := h p (by simp)
    obtain ⟨rows, hrows, hcalls⟩ := calls_live db es (pre ++ [p.1]) k
      (fun q hq => h q (List.mem_cons_of_mem _ hq))
    have hids : pre ++ [p.1] ++ es.map (fun p => p.1)
        = pre ++ (p :: es).map (fun p => p.1) := by simp
    have hlen : (pre ++ [p.1]).length = pre.length + 1 := by simp
    rw [hids, hlen] at hcalls
    have hcall : RowGenerator.call ⟨pre ++ (p :: es).map (fun p => p.1), pre.length⟩ db
        = some (⟨pre ++ (p :: es).map (fun p => p.1), pre.length + 1⟩,
            .ok (some ⟨rec, p.1⟩)) := by
      simp only [RowGenerator.call, List.drop_left, List.map_cons, iterFrom, hget, hdec,
        Bool.false_eq_true, if_false]
    refine ⟨⟨rec, p.1⟩ :: rows, List.Forall₂.cons ⟨rfl, hfind⟩ hrows, ?_⟩
    have hn : (p :: es).length + k = (es.length + k) + 1 := by
      simp only [List.length_cons]; omega
    rw [hn, RowGenerator.calls, hcall]
    simp only []
    rw [hcalls]
    simp only [List.map_cons, List.cons_append, List.length_cons]
    congr 3
    omega

/-- C25: in a reachable state, with no other operation between the calls, the
generator that `Iterate` returns yields one row for each entry of the primary
index, in the order of the snapshot: the id of the entry, which occurs once,
with the record `Find` stores for it in a fresh struct.  The call after the
last row and every later call return no row and no error.  `Iterate` returns
the same snapshot at position 0 each time it is called, so a second generator
makes the same pass. -/
theorem C25_iterate_pass (db : DB) (hr : Reachable db) (k : Nat) :
    db.Iterate = ⟨db.index.map (fun p => p.1), 0⟩ ∧
    (db.index.map (fun p => p.1)).Nodup ∧
    ∃ rows : List Row,
      List.Forall₂ (fun p row => row.ID = p.1 ∧
        db.Find p.1 (.ptr (zeroRecord db.schema.dataType)) = .ok row.Value) db.index rows ∧
      RowGenerator.calls db (db.RowCount + k) db.Iterate
        = some (⟨db.index.map (fun p => p.1), db.RowCount⟩,
            rows.map (fun r => .ok (some r)) ++ List.replicate k (.ok none)) := by
  obtain ⟨rows, hinv⟩ := reachable_inv db hr
  refine ⟨rfl, hinv.keys, ?_⟩
  obtain ⟨rs, h1, h2⟩ := calls_live db db.index [] k
    (fun p hp => find_entry db rows hinv p hp)
  refine ⟨rs, h1, ?_⟩
  simpa [DB.Iterate, DB.RowCount] using h2

/-- Witness of C25: four calls of the generator on `blobTwo`. -/
theorem C25_iterate_pass_witness :
    Reachable blobTwo ∧
    blobTwo.Iterate = ⟨[9, 5], 0⟩ ∧
    RowGenerator.calls blobTwo 4 blobTwo.Iterate
      = some (⟨[9, 5], 2⟩,
          [.ok (some ⟨⟨blobType, [.slice [.uint 3]]⟩, 9⟩),
           .ok (some ⟨⟨blobType, [.slice [.uint 7]]⟩, 5⟩), .ok none, .ok none]) ∧
    ∃ rows : List Row,
      List.Forall₂ (fun p row => row.ID = p.1 ∧
        blobTwo.Find p.1 (.ptr (zeroRecord blobTwo.schema.dataType)) = .ok row.Value)
        blobTwo.index rows ∧
      RowGenerator.calls blobTwo (blobTwo.RowCount + 2) blobTwo.Iterate
        = some (⟨blobTwo.index.map (fun p => p.1), blobTwo.RowCount⟩,
            rows.map (fun r => .ok (some r)) ++ List.replicate 2 (.ok none)) :=
  ⟨blobTwo_reachable, rfl, rfl, (C25_iterate_pass blobTwo blobTwo_reachable 2).2.2⟩


/-! ## C22: decoding a truncated encoding -/

theorem readFull_short (n : Nat) (r : List Nat) (h : r.length < n) :
    ∃ e, readFull n r = .error e := by
  unfold readFull
  rw [if_neg (by omega)]
  split
  · exact ⟨_, rfl⟩
  · exact ⟨_, rfl⟩

/-- A cut of `a ++ b` falls inside `a`, leaving a part of `a` unread, or at or
after the end of `a`. -/
theorem cut_cases (a b pre suf : List Nat) (h : a ++ b = pre ++ suf) :
    (∃ a2, a = pre ++ a2 ∧ a2 ≠ []) ∨ (∃ pre2, pre = a ++ pre2 ∧ b = pre2 ++ suf) := by
  rcases List.append_eq_append_iff.mp h with ⟨a', h1, h2⟩ | ⟨c', h1, h2⟩
  · exact Or.inr ⟨a', h1, h2⟩
  · by_cases hc : c' = []
    · subst hc
      refine Or.inr ⟨[], ?_, ?_⟩
      · simpa using h1.symm
      · simpa using h2.symm
    · exact Or.inl ⟨c', h1, hc⟩

/-- The loop of `binary.ReadUvarint` on fewer bytes than `binary.PutUvarint`
wrote runs into the end of the input. -/
theorem readUvarintLoop_short : ∀ (fuel i x acc s : Nat) (pre suf : List Nat),
    putUvarint fuel x = pre ++ suf → suf ≠ [] →
    ∃ e, readUvarintLoop fuel i acc s pre = .error e
  | 0, _, _, _, _, pre, suf, h, hne => by
    simp only [putUvarint] at h
    have := List.append_eq_nil.mp h.symm
    exact absurd this.2 hne
  | fuel + 1, i, x, acc, s, [], suf, _, _ => ⟨_, rfl⟩
  | fuel + 1, i, x, acc, s, b :: pre, suf, h, hne => by
    rw [putUvarint] at h
    split at h
    · simp only [List.cons_append, List.cons.injEq] at h
      obtain ⟨hb, hrest⟩ := h
      have hb128 : ¬ b < 0x80 := by
        have := (lor_128 (x % 256) (Nat.mod_lt _ (by norm_num))).1
        rw [hb] at this
        omega
      rw [readUvarintLoop, if_neg hb128]
      exact readUvarintLoop_short fuel _ _ _ _ pre suf hrest hne
    · simp only [List.cons_append, List.cons.injEq] at h
      have := List.append_eq_nil.mp h.2.symm
      exact absurd this.2 hne

theorem ReadUvarint_short (n : Nat) (pre suf : List Nat) (h : encodeUvarint n = pre ++ suf)
    (hne : suf ≠ []) : ∃ e, ReadUvarint pre = .error e :=
  readUvarintLoop_short 10 0 _ 0 0 pre suf h hne

/-- The decode of a slice of fixed-size elements fails on a truncated
encoding, whether the cut is in the length varint or in the elements. -/
theorem decodeSliceFixed_short (e : Ty) (sz : Nat) (hs : sizeof e = some sz) (n : Nat)
    (hn : n < 2 ^ 63) (body : List Nat) (hb : body.length = sz * n) (pre suf : List Nat)
    (h : encodeUvarint n ++ body = pre ++ suf) (hne : suf ≠ []) :
    ∃ err, decodeSliceFixed e pre = .error err := by
  unfold decodeSliceFixed
  rcases cut_cases _ _ _ _ h with ⟨a2, h1, h2⟩ | ⟨pre2, h1, h2⟩
  · obtain ⟨err, herr⟩ := ReadUvarint_short n pre a2 h1 h2
    rw [herr]
    exact ⟨_, rfl⟩
  · rw [h1, ReadUvarint_encodeUvarint _ (encodeUvarint_mod _ hn)]
    simp only []
    rw [if_neg (by omega)]
    have hshort : pre2.length < sz * n := by
      have := congrArg List.length h2
      rw [List.length_append, hb] at this
      have : 0 < suf.length := List.length_pos.mpr hne
      omega
    obtain ⟨err, herr⟩ := readFull_short (sz * n) pre2 hshort
    simp only [binaryReadSlice, hs, herr]
    exact ⟨_, rfl⟩

/-- The loop of `decodeFromBinary` over the elements fails on a truncated
encoding of the elements, when the decode of each element does. -/
theorem decodeEach_short (e : Ty) (hvalid : isValidColumnType e = true)
    (ih : ∀ (v : Value) (bs pre suf : List Nat), hasType e v = true →
      encodeToBinary e v = .ok bs → bs = pre ++ suf → suf ≠ [] →
      ∃ err, decodeFromBinary e pre = .error err) :
    ∀ (vs : List Value) (body pre suf : List Nat), vs.all (hasType e) = true →
      encodeEach (encodeToBinary e) vs = .ok body → body = pre ++ suf → suf ≠ [] →
      ∃ err, decodeEach (decodeFromBinary e) vs.length pre = .error err
  | [], body, pre, suf, _, henc, hcut, hne => by
    simp only [encodeEach, Except.ok.injEq] at henc
    rw [← henc] at hcut
    exact absurd (List.append_eq_nil.mp hcut.symm).2 hne
  | v :: vs, body, pre, suf, hall, henc, hcut, hne => by
    simp only [List.all_cons, Bool.and_eq_true] at hall
    obtain ⟨bs, hbs, hdec⟩ := decode_encode e v hvalid hall.1
    rw [encodeEach, hbs] at henc
    simp only [] at henc
    cases hrest : encodeEach (encodeToBinary e) vs with
    | error err => simp [hrest] at henc
    | ok body' =>
      simp only [hrest, Except.ok.injEq] at henc
      rw [← henc] at hcut
      simp only [List.length_cons, decodeEach]
      rcases cut_cases _ _ _ _ hcut with ⟨a2, h1, h2⟩ | ⟨pre2, h1, h2⟩
      · obtain ⟨err, herr⟩ := ih v bs pre a2 hall.1 hbs h1 h2
        rw [herr]
        exact ⟨_, rfl⟩
      · rw [h1, hdec pre2]
        simp only []
        obtain ⟨err, herr⟩ := decodeEach_short e hvalid ih vs body' pre2 suf hall.2 hrest h2 hne
        rw [herr]
        exact ⟨_, rfl⟩

/-- C22: for a value `v` of a valid column type and bytes `pre` that are the
bytes `encodeToBinary` writes for `v` with one or more bytes missing at the end,
`decodeFromBinary` on `pre` returns an error. -/
theorem C22_truncated_encoding (t : Ty) : ∀ (v : Value) (bs pre suf : List Nat),
    isValidColumnType t = true → hasType t v = true →
    encodeToBinary t v = .ok bs → bs = pre ++ suf → suf ≠ [] →
    ∃ err, decodeFromBinary t pre = .error err := by
  induction t with
  | basic k =>
    intro v bs pre suf hv ht henc hcut hne
    simp only [hasType] at ht
    by_cases hk : k = .String
    · subst hk
      have hstr : v.asStr.length < 2 ^ 63 := by
        cases v <;> simp only [hasKind, isStrValue, Bool.false_eq_true, Bool.and_eq_true,
          decide_eq_true_eq] at ht
        exact ht.1
      simp only [encodeToBinary, if_true, Except.ok.injEq] at henc
      rw [← henc] at hcut
      obtain ⟨err, herr⟩ := decodeSliceFixed_short (.basic .Uint8) 1 rfl v.asStr.length hstr
        v.asStr (by simp) pre suf hcut hne
      simp only [decodeFromBinary, if_true, herr]
      exact ⟨_, rfl⟩
    · have hfix : isFixedSizeType (.basic k) = true := by
        rw [← isValid_of_not_variable]; exact hv
        cases k <;> first | rfl | exact absurd rfl hk
      obtain ⟨sz, hsz⟩ := isFixedSizeType_sizeof _ hfix
      rw [encodeToBinary_fixed _ hfix] at henc
      simp only [Except.ok.injEq] at henc
      have hlen := (encodeFixed_spec (.basic k) v sz hsz ht).1
      have hshort : pre.length < sz := by
        have := congrArg List.length hcut
        rw [← henc, hlen, List.length_append] at this
        have : 0 < suf.length := List.length_pos.mpr hne
        omega
      obtain ⟨err, herr⟩ := readFull_short sz pre hshort
      simp only [decodeFromBinary, hk, if_false, binaryRead, hsz, herr]
      exact ⟨_, rfl⟩
  | array n e _ =>
    intro v bs pre suf hv ht henc hcut hne
    have hfix : isFixedSizeType (.array n e) = true := hv
    obtain ⟨sz, hsz⟩ := isFixedSizeType_sizeof _ hfix
    rw [encodeToBinary_fixed _ hfix] at henc
    simp only [Except.ok.injEq] at henc
    have hlen := (encodeFixed_spec (.array n e) v sz hsz ht).1
    have hshort : pre.length < sz := by
      have := congrArg List.length hcut
      rw [← henc, hlen, List.length_append] at this
      have : 0 < suf.length := List.length_pos.mpr hne
      omega
    obtain ⟨err, herr⟩ := readFull_short sz pre hshort
    simp only [decodeFromBinary, binaryRead, hsz, herr]
    exact ⟨_, rfl⟩
  | slice e ih =>
    intro v bs pre suf hv ht henc hcut hne
    have hve : isValidColumnType e = true := hv
    have hel : v.elems.length < 2 ^ 63 ∧ v.elems.all (hasType e) = true := by
      cases v <;> simp only [hasType, Bool.false_eq_true, Bool.and_eq_true,
        decide_eq_true_eq] at ht
      · exact ⟨ht.1, ht.2⟩
      · exact ⟨by simp [Value.elems], by simp [Value.elems]⟩
    obtain ⟨hlen, hall⟩ := hel
    by_cases hvar : isVariableSizeType e = true
    · simp only [encodeToBinary, hvar, if_true] at henc
      cases hbody : encodeEach (encodeToBinary e) v.elems with
      | error err => simp [hbody] at henc
      | ok body =>
        simp only [hbody, Except.ok.injEq] at henc
        rw [← henc] at hcut
        simp only [decodeFromBinary, hvar, if_true]
        rcases cut_cases _ _ _ _ hcut with ⟨a2, h1, h2⟩ | ⟨pre2, h1, h2⟩
        · obtain ⟨err, herr⟩ := ReadUvarint_short _ pre a2 h1 h2
          rw [herr]
          exact ⟨_, rfl⟩
        · rw [h1, ReadUvarint_encodeUvarint _ (encodeUvarint_mod _ hlen)]
          simp only []
          rw [if_neg (by omega)]
          obtain ⟨err, herr⟩ := decodeEach_short e hve
            (fun v bs pre suf h1 h2 h3 h4 => ih v bs pre suf hve h1 h2 h3 h4)
            v.elems body pre2 suf hall hbody h2 hne
          rw [herr]
          exact ⟨_, rfl⟩
    · have hvar' : isVariableSizeType e = false := by simpa using hvar
      have hfix : isFixedSizeType e = true := by
        rw [← isValid_of_not_variable e hvar']; exact hve
      obtain ⟨sz, hsz⟩ := isFixedSizeType_sizeof _ hfix
      have hbl := (encodeFixed_elems e sz (fun v hv => encodeFixed_spec e v sz hsz hv)
        v.elems hall).1
      simp only [encodeToBinary, hvar', Bool.false_eq_true, if_false, binaryWrite, hsz,
        Except.ok.injEq] at henc
      rw [← henc] at hcut
      obtain ⟨err, herr⟩ := decodeSliceFixed_short e sz hsz v.elems.length hlen _ hbl
        pre suf hcut hne
      simp only [decodeFromBinary, hvar', Bool.false_eq_true, if_false, herr]
      exact ⟨_, rfl⟩

/-- Witness of C22: the encoding `02 03 66 6f 6f 03 62 61 72` of
`[]string{"foo", "bar"}` cut after its fifth byte, inside the first string. -/
theorem C22_truncated_encoding_witness :
    encodeToBinary (.slice (.basic .String)) (.slice [.str [102, 111, 111], .str [98, 97, 114]])
      = .ok ([2, 3, 102, 111, 111] ++ [3, 98, 97, 114]) ∧
    ∃ err, decodeFromBinary (.slice (.basic .String)) [2, 3, 102, 111, 111] = .error err :=
  ⟨rfl, C22_truncated_encoding (.slice (.basic .String))
    (.slice [.str [102, 111, 111], .str [98, 97, 114]]) _ [2, 3, 102, 111, 111] [3, 98, 97, 114]
    rfl (by decide) rfl rfl (by simp)⟩


/-! ## C31: decoding is self-delimiting -/

/-- The fields after a decode, one by one: an exported field holds the field
of the source with nil slices made empty, any other field what it held. -/
theorem mergeFields_getElem : ∀ (fs : List Field) (ss ds : List Value),
    ss.length = fs.length → ds.length = fs.length →
    ∀ (i : Nat) (f : Field), fs[i]? = some f →
      (mergeFields fs ss ds)[i]? = if f.exported then (ss[i]?).map nilToEmpty else ds[i]?
  | [], _, _, _, _, i, f, h => by simp at h
  | g :: fs, [], _, hs, _, _, _, _ => by simp at hs
  | g :: fs, _ :: _, [], _, hd, _, _, _ => by simp at hd
  | g :: fs, s :: ss, d :: ds, hs, hd, 0, f, h => by
    simp only [List.getElem?_cons_zero, Option.some.injEq] at h
    subst h
    by_cases hx : g.exported = true <;> simp [mergeFields, hx]
  | g :: fs, s :: ss, d :: ds, hs, hd, i + 1, f, h => by
    simp only [List.getElem?_cons_succ] at h
    simp only [mergeFields, List.getElem?_cons_succ]
    exact mergeFields_getElem fs ss ds (by simpa using hs) (by simpa using hd) i f h

/-- C31 (as amended): for a value `v` of a valid column type, decoding the
bytes `encodeToBinary` wrote for `v` followed by any bytes `rest` succeeds,
counts exactly the bytes written, leaves exactly `rest` unread and yields `v`
with its nil slices replaced by empty slices, which is `v` when no nil slice
occurs in it.  For a record `p` of a struct type `Reflect` accepts, the bytes
`encodeStructToBinary` writes are the encodings of its exported fields one
after the other, and decoding them followed by `rest` into a struct `dest` of
the type leaves `rest` unread and sets each exported field of `dest` to the
field of `p` with nil slices replaced by empty slices; the other fields of
`dest` keep their values. -/
theorem C31_self_delimiting (t : Ty) (v : Value) (hvalid : isValidColumnType t = true)
    (hty : hasType t v = true) (p dest : Record) (hwf : p.type.WF) (hval : p.type.Valid)
    (hwt : p.WellTyped) (hdt : dest.type = p.type)
    (hdl : dest.vals.length = dest.type.fields.length) :
    (∃ bs, encodeToBinary t v = .ok bs ∧
      ∀ rest, decodeFromBinary t (bs ++ rest) = .ok (nilToEmpty v, bs.length, rest) ∧
        (hasNil v = false → decodeFromBinary t (bs ++ rest) = .ok (v, bs.length, rest))) ∧
    (∃ parts, List.Forall₂ (fun name bs => ∃ f x,
          fieldLookup p.type.fields p.vals name = some (f, x) ∧
          encodeToBinary f.type x = .ok bs) (getExportedFieldNames p.type) parts ∧
        encodeStructToBinary p = .ok parts.flatten ∧
        ∀ rest, decodeStructFromBinary (parts.flatten ++ rest) dest
          = .ok (storedAs p dest, parts.flatten.length, rest)) ∧
    (∀ (i : Nat) (f : Field), p.type.fields[i]? = some f →
      (storedAs p dest).vals[i]?
        = if f.exported then (p.vals[i]?).map nilToEmpty else dest.vals[i]?) := by
  refine ⟨?_, ?_, ?_⟩
  · obtain ⟨bs, h1, h2⟩ := decode_encode t v hvalid hty
    refine ⟨bs, h1, fun rest => ⟨h2 rest, fun hn => ?_⟩⟩
    rw [h2 rest, nilToEmpty_of_noNil v hn]
  · have hnames := namesOK_exported p.type hval
    obtain ⟨buf, hbuf⟩ := encodeFields_ok _ _ hwf hwt _ hnames
    obtain ⟨parts, hparts, hflat⟩ := encodeFields_parts _ _ _ _ hbuf
    refine ⟨parts, hparts, ?_, fun rest => ?_⟩
    · unfold encodeStructToBinary
      rw [hbuf, hflat]
    · rw [hdt] at hdl
      have h := decodeFields_encodeFields _ _ hwf hwt _ _ hnames hbuf dest.vals rest hdl
      rw [← hflat]
      simp only [decodeStructFromBinary, hdt, h, storedAs]
      rw [mergeBy_eq_mergeFields _ _ _ _ (fun f hf => exported_iff_mem _ hwf f hf)]
  · intro i f hf
    simp only [storedAs, hdt]
    exact mergeFields_getElem _ _ _ (fieldsTyped_length _ _ hwt) (by rw [← hdt]; exact hdl) i f hf

/-- Witness of C31: the value `[]string{"foo", "bar"}` and the `Person` of
`table_schema_test.go`, decoded into a fresh struct. -/
theorem C31_self_delimiting_witness :
    isValidColumnType (.slice (.basic .String)) = true ∧
    hasType (.slice (.basic .String)) (.slice [.str [102, 111, 111], .str [98, 97, 114]])
      = true ∧
    personType.WF ∧ personType.Valid ∧ person.WellTyped ∧
    (∃ bs, encodeToBinary (.slice (.basic .String))
        (.slice [.str [102, 111, 111], .str [98, 97, 114]]) = .ok bs ∧
      ∀ rest, decodeFromBinary (.slice (.basic .String)) (bs ++ rest)
          = .ok (nilToEmpty (.slice [.str [102, 111, 111], .str [98, 97, 114]]),
              bs.length, rest) ∧
        (hasNil (.slice [.str [102, 111, 111], .str [98, 97, 114]]) = false →
          decodeFromBinary (.slice (.basic .String)) (bs ++ rest)
            = .ok (.slice [.str [102, 111, 111], .str [98, 97, 114]], bs.length, rest))) ∧
    (∀ (i : Nat) (f : Field), person.type.fields[i]? = some f →
      (storedAs person (zeroRecord personType)).vals[i]?
        = if f.exported then (person.vals[i]?).map nilToEmpty
          else (zeroRecord personType).vals[i]?) :=
  ⟨by decide, by decide,
   by simp [StructType.WF, personType],
   by simp [StructType.Valid, personType]; decide,
   by simp [Record.WellTyped, person, personType, fieldsTyped, hasType]; decide,
   (C31_self_delimiting (.slice (.basic .String))
      (.slice [.str [102, 111, 111], .str [98, 97, 114]]) (by decide) (by decide)
      person (zeroRecord personType) (by simp [StructType.WF, person, personType])
      (by simp [StructType.Valid, person, personType]; decide)
      (by simp [Record.WellTyped, person, personType, fieldsTyped, hasType]; decide)
      rfl (by simp [zeroRecord])).1,
   (C31_self_delimiting (.slice (.basic .String))
      (.slice [.str [102, 111, 111], .str [98, 97, 114]]) (by decide) (by decide)
      person (zeroRecord personType) (by simp [StructType.WF, person, personType])
      (by simp [StructType.Valid, person, personType]; decide)
      (by simp [Record.WellTyped, person, personType, fieldsTyped, hasType]; decide)
      rfl (by simp [zeroRecord])).2.2⟩

/-- C31 as stated fails where a nil slice occurs: `[][]byte{nil}` is written as
the bytes `01 00`, and decoding `01 00 07` leaves `07` unread, counts 2 bytes
and yields `[][]byte{{}}`, which is not the value encoded.  In the same way the
field `Empty` of the `Person` of `table_schema_test.go`, a nil `[]byte`, is
decoded from the bytes of the record as the empty slice. -/
theorem C31_counterexample :
    isValidColumnType (.slice (.slice (.basic .Uint8))) = true ∧
    hasType (.slice (.slice (.basic .Uint8))) (.slice [.nilSlice]) = true ∧
    encodeToBinary (.slice (.slice (.basic .Uint8))) (.slice [.nilSlice]) = .ok [1, 0] ∧
    decodeFromBinary (.slice (.slice (.basic .Uint8))) ([1, 0] ++ [7])
      = .ok (.slice [.slice []], 2, [7]) ∧
    Value.slice [.slice []] ≠ Value.slice [.nilSlice] ∧
    encodeStructToBinary person = .ok expectedPersonBytes ∧
    person.vals[6]? = some .nilSlice ∧
    ∃ vals, decodeStructFromBinary (expectedPersonBytes ++ [7]) (zeroRecord personType)
        = .ok (⟨personType, vals⟩, 37, [7]) ∧
      vals[6]? = some (.slice []) :=
  ⟨by decide, by decide, by rfl, by rfl, by simp, by rfl, by rfl, _, by rfl, by rfl⟩


/-! ## C32: a length that is negative as an `int` -/

theorem sizesFit_drop (s : List Nat) (h : SizesFit s) (k : Nat) : SizesFit (s.drop k) := by
  intro j size r hr
  rw [List.drop_drop] at hr
  exact h _ size r hr

theorem sizesFit_suffix (used rest : List Nat) (h : SizesFit (used ++ rest)) : SizesFit rest := by
  have := sizesFit_drop _ h used.length
  rwa [List.drop_left] at this

/-- Bytes below `0x80` are one-byte varints, so no size read from them is
large. -/
theorem sizesFit_of_small (s : List Nat) (h : ∀ b ∈ s, b < 0x80) : SizesFit s := by
  intro k size r hr
  cases hd : s.drop k with
  | nil => rw [hd] at hr; simp [ReadUvarint, readUvarintLoop] at hr
  | cons b rest =>
    have hb : b < 0x80 := h b (List.mem_of_mem_drop (by rw [hd]; simp))
    rw [hd] at hr
    simp only [ReadUvarint, readUvarintLoop, if_pos hb] at hr
    split at hr
    · simp at hr
    · simp only [Except.ok.injEq, Prod.mk.injEq] at hr
      rw [← hr.1]
      simp only [Nat.shiftLeft_zero, Nat.zero_or]
      omega

theorem readUvarintLoop_ne_panic : ∀ (fuel i x s : Nat) (r : List Nat),
    readUvarintLoop fuel i x s r ≠ .error .panic
  | 0, _, _, _, _ => by simp [readUvarintLoop]
  | _ + 1, i, _, _, [] => by
    simp only [readUvarintLoop]
    split <;> simp
  | fuel + 1, i, x, s, b :: r => by
    rw [readUvarintLoop]
    split
    · split <;> simp
    · exact readUvarintLoop_ne_panic fuel _ _ _ r

theorem readFull_ne_panic (n : Nat) (r : List Nat) : readFull n r ≠ .error .panic := by
  unfold readFull
  split
  · simp
  · split <;> simp

theorem binaryRead_ne_panic (t : Ty) (r : List Nat) : binaryRead t r ≠ .error .panic := by
  unfold binaryRead
  cases sizeof t with
  | none => simp
  | some sz =>
    simp only []
    cases h : readFull sz r with
    | error e =>
      simp only [ne_eq, Except.error.injEq]
      intro he
      exact readFull_ne_panic sz r (by rw [h, he])
    | ok q => simp

theorem decodeSliceFixed_no_panic (e : Ty) (r : List Nat) (h : SizesFit r) :
    decodeSliceFixed e r ≠ .error .panic := by
  unfold decodeSliceFixed
  cases hr : ReadUvarint r with
  | error err =>
    simp only [ne_eq, Except.error.injEq]
    intro he
    exact readUvarintLoop_ne_panic 10 0 0 0 r (by rw [← he]; exact hr)
  | ok q =>
    obtain ⟨length, r1⟩ := q
    have hfit : length < 2 ^ 63 := by
      have := h 0 length r1 (by simpa using hr)
      exact this
    simp only [if_neg (Nat.not_le.mpr hfit)]
    unfold binaryReadSlice
    cases sizeof e with
    | none => simp
    | some sz =>
      simp only []
      cases hf : readFull (sz * length) r1 with
      | error err =>
        simp only [ne_eq, Except.error.injEq]
        intro he
        exact readFull_ne_panic _ r1 (by rw [hf, he])
      | ok q2 => simp

theorem decodeEach_no_panic (dec : List Nat → Except Err (Value × Nat × List Nat))
    (ih : ∀ r, SizesFit r → dec r ≠ .error .panic)
    (hused : ∀ r v n rest, dec r = .ok (v, n, rest) →
      ∃ used, r = used ++ rest ∧ n ≤ used.length) :
    ∀ (k : Nat) (r : List Nat), SizesFit r → decodeEach dec k r ≠ .error .panic
  | 0, r, _ => by simp [decodeEach]
  | k + 1, r, h => by
    rw [decodeEach]
    cases hd : dec r with
    | error err =>
      simp only [ne_eq, Except.error.injEq]
      intro he
      exact ih r h (by rw [hd, he])
    | ok q =>
      obtain ⟨v, m, r1⟩ := q
      obtain ⟨used, g1, _⟩ := hused r v m r1 hd
      have h1 : SizesFit r1 := sizesFit_suffix used r1 (g1 ▸ h)
      simp only []
      cases hrest : decodeEach dec k r1 with
      | error err =>
        simp only [ne_eq, Except.error.injEq]
        intro he
        exact decodeEach_no_panic dec ih hused k r1 h1 (by rw [hrest, he])
      | ok q2 => simp

/-- On an input in which no length of `2 ^ 63` or more can be read,
`decodeFromBinary` returns a value or an error, whatever the type. -/
theorem decodeFromBinary_no_panic (t : Ty) : ∀ r : List Nat, SizesFit r →
    decodeFromBinary t r ≠ .error .panic := by
  induction t with
  | basic k =>
    intro r h
    unfold decodeFromBinary
    split
    · cases hd : decodeSliceFixed (.basic .Uint8) r with
      | error err =>
        simp only [ne_eq, Except.error.injEq]
        intro he
        exact decodeSliceFixed_no_panic _ r h (by rw [hd, he])
      | ok q => simp
    · cases hd : binaryRead (.basic k) r with
      | error err =>
        simp only [ne_eq, Except.error.injEq]
        intro he
        exact binaryRead_ne_panic _ r (by rw [hd, he])
      | ok q => simp
  | array n e _ =>
    intro r h
    unfold decodeFromBinary
    cases hd : binaryRead (.array n e) r with
    | error err =>
      simp only [ne_eq, Except.error.injEq]
      intro he
      exact binaryRead_ne_panic _ r (by rw [hd, he])
    | ok q => simp
  | slice e ih =>
    intro r h
    unfold decodeFromBinary
    split
    · cases hr : ReadUvarint r with
      | error err =>
        simp only [ne_eq, Except.error.injEq]
        intro he
        exact readUvarintLoop_ne_panic 10 0 0 0 r (by rw [← he]; exact hr)
      | ok q =>
        obtain ⟨length, r1⟩ := q
        have hfit : length < 2 ^ 63 := h 0 length r1 (by simpa using hr)
        obtain ⟨used, g1, _⟩ := ReadUvarint_used r length r1 hr
        have h1 : SizesFit r1 := sizesFit_suffix used r1 (g1 ▸ h)
        simp only [if_neg (Nat.not_le.mpr hfit)]
        cases hd : decodeEach (decodeFromBinary e) length r1 with
        | error err =>
          simp only [ne_eq, Except.error.injEq]
          intro he
          exact decodeEach_no_panic _ ih (decodeFromBinary_used e) length r1 h1
            (by rw [hd, he])
        | ok q2 => simp
    · cases hd : decodeSliceFixed e r with
      | error err =>
        simp only [ne_eq, Except.error.injEq]
        intro he
        exact decodeSliceFixed_no_panic _ r h (by rw [hd, he])
      | ok q => simp

/-- An input whose length varint is `2 ^ 63` or more makes `reflect.MakeSlice`
panic, for a slice of any element type and for a string. -/
theorem decodeFromBinary_negative_length (e : Ty) (r : List Nat) (length : Nat)
    (r1 : List Nat) (h : ReadUvarint r = .ok (length, r1)) (hneg : 2 ^ 63 ≤ length) :
    decodeFromBinary (.slice e) r = .error .panic ∧
    decodeFromBinary (.basic .String) r = .error .panic := by
  constructor
  · unfold decodeFromBinary
    split
    · simp only [h, ge_iff_le, if_pos hneg]
    · simp only [decodeSliceFixed, h, ge_iff_le, if_pos hneg]
  · simp only [decodeFromBinary, if_true, decodeSliceFixed, h, ge_iff_le, if_pos hneg]

/-- C32, the code at the failing input: the ten bytes `ff ff ff ff ff ff ff ff
ff 01` are the varint of `2 ^ 64 - 1`, which is -1 as an `int`, and
`decodeFromBinary` on them into a `[]byte`, a string, a `[]string` or a
`[][]byte` ends in the panic of `reflect.MakeSlice`, not in a value or an
error; so it does on the varint of `2 ^ 63`.  Whenever the length varint at the
start of the input is `2 ^ 63` or more the decoding of a slice or string ends
in that panic.  On an input in which no varint of `2 ^ 63` or more can be read
at any position, `decodeFromBinary` does return a value or an error, for every
type. -/
theorem C32_negative_length_panics :
    ReadUvarint varintMinusOne = .ok (2 ^ 64 - 1, []) ∧
    toInt64 (2 ^ 64 - 1) = -1 ∧
    decodeFromBinary (.slice (.basic .Uint8)) varintMinusOne = .error .panic ∧
    decodeFromBinary (.basic .String) varintMinusOne = .error .panic ∧
    decodeFromBinary (.slice (.basic .String)) varintMinusOne = .error .panic ∧
    decodeFromBinary (.slice (.slice (.basic .Uint8))) varintMinusOne = .error .panic ∧
    ReadUvarint varintMinInt = .ok (2 ^ 63, []) ∧
    decodeFromBinary (.slice (.basic .Uint8)) varintMinInt = .error .panic ∧
    decodeFromBinary (.basic .String) (varintMinInt ++ [1, 2, 3]) = .error .panic ∧
    (∀ (e : Ty) (r : List Nat) (length : Nat) (r1 : List Nat),
      ReadUvarint r = .ok (length, r1) → 2 ^ 63 ≤ length →
      decodeFromBinary (.slice e) r = .error .panic ∧
      decodeFromBinary (.basic .String) r = .error .panic) ∧
    (∀ (t : Ty) (r : List Nat), SizesFit r → decodeFromBinary t r ≠ .error .panic) ∧
    SizesFit [2, 1, 3] :=
  ⟨by rfl, by rfl, by rfl, by rfl, by rfl, by rfl, by rfl, by rfl, by rfl,
   decodeFromBinary_negative_length, decodeFromBinary_no_panic,
   sizesFit_of_small _ (by decide)⟩


/-! ## C33: termination of `PopulateIndex` -/

theorem addToIndex_source (db : DB) (id : Nat) (cursor : Int) (dv : Except Err Iface) :
    (db.addToIndex id cursor dv).1.source = db.source := by
  unfold DB.addToIndex
  split
  · cases dv with
    | error e => rfl
    | ok value =>
      simp only []
      cases value.record with
      | none => rfl
      | some rec =>
        simp only []
        cases setCustomIndices rec id db.customIndices with
        | none => rfl
        | some ci => rfl
  · rfl

theorem decodeUint64_ok_drop (r : List Nat) (id : Nat) (r1 : List Nat)
    (h : decodeUint64 r = .ok (id, r1)) : 8 ≤ r.length ∧ r1 = r.drop 8 := by
  unfold decodeUint64 at h
  cases hf : readFull 8 r with
  | error e => simp [hf] at h
  | ok q =>
    obtain ⟨buf, rest⟩ := q
    obtain ⟨f1, f2⟩ := readFull_used _ _ _ _ hf
    simp only [hf, Except.ok.injEq, Prod.mk.injEq] at h
    constructor
    · rw [f1, List.length_append]; omega
    · rw [← h.2, f1, ← f2, List.drop_left]

/-- After a row whose size is below `2 ^ 63`, in a source a file can hold, the
offset `PopulateIndex` seeks to is negative or at least 9 bytes further. -/
theorem offset_advances (offset : Int) (size h L : Nat)
    (hL : offset + 8 ≤ (L : Int)) (hlen : L < 2 ^ 63 - 10) (hsize : size < 2 ^ 63)
    (h1 : 1 ≤ h) (h10 : h ≤ 10)
    (hnn : ¬ wrapInt64 (offset + wrapInt64 (toInt64 size + ((h : Int) + 8))) < 0) :
    offset + 9 ≤ wrapInt64 (offset + wrapInt64 (toInt64 size + ((h : Int) + 8))) := by
  rw [toInt64_small size hsize] at hnn ⊢
  unfold wrapInt64 at hnn ⊢
  omega

/-- On a source a file can hold in which no size of `2 ^ 63` or more can be
read, the loop of `PopulateIndex` returns: every pass that goes on moves the
offset forward. -/
theorem populateLoop_terminates : ∀ (fuel : Nat) (offset : Int) (db : DB),
    0 ≤ offset → db.source.length < 2 ^ 63 - 10 → SizesFit db.source →
    1 ≤ fuel → (db.source.length : Int) + 1 ≤ (fuel : Int) + offset →
    ∃ res, populateLoop fuel offset db = some res
  | 0, _, _, _, _, _, h, _ => by omega
  | fuel + 1, offset, db, h0, hlen, hfit, _, hfuel => by
    rw [populateLoop]
    cases hd : decodeUint64 (db.source.drop offset.toNat) with
    | error e =>
      simp only []
      split <;> exact ⟨_, rfl⟩
    | ok q =>
      obtain ⟨id, r1⟩ := q
      obtain ⟨h8, hr1⟩ := decodeUint64_ok_drop _ _ _ hd
      simp only []
      cases hv : ReadUvarint r1 with
      | error e => exact ⟨_, rfl⟩
      | ok q2 =>
        obtain ⟨size, r2⟩ := q2
        have hsize : size < 2 ^ 63 := by
          rw [hr1, List.drop_drop] at hv
          exact hfit _ size r2 hv
        simp only []
        split
        · exact ⟨_, rfl⟩
        · rename_i db' heq
          have hsrc : db'.source = db.source := by
            have h' := congrArg (fun p => p.1.source) heq
            simp only [addToIndex_source] at h'
            exact h'.symm
          split
          · exact ⟨_, rfl⟩
          · rename_i hnn
            have hdl : offset + 8 ≤ (db.source.length : Int) := by
              rw [List.length_drop] at h8
              omega
            have hadv := offset_advances offset size (encodeUvarint size).length
              db.source.length hdl hlen hsize (encodeUvarint_length_pos size)
              (encodeUvarint_length_le size) hnn
            exact populateLoop_terminates fuel _ db' (by omega) (by rw [hsrc]; exact hlen)
              (by rw [hsrc]; exact hfit) (by omega) (by rw [hsrc]; omega)

/-- On `loopLog` the loop of `PopulateIndex` is at offset 0 again after each
pass, whatever the index holds, so no number of passes ends it. -/
theorem populateLoop_loopLog : ∀ (fuel : Nat) (index : List (Nat × Int)),
    populateLoop fuel 0 ⟨⟨blobType⟩, loopLog, index, []⟩ = none
  | 0, _ => rfl
  | fuel + 1, index => by
    have ih := populateLoop_loopLog fuel (mapSet index 1 0)
    have h1 : decodeUint64 (loopLog.drop (0 : Int).toNat)
        = .ok (1, [0xee, 0xff, 0xff, 0xff, 0xff, 0xff, 0xff, 0xff, 0xff, 0x01]) := by rfl
    have h2 : ReadUvarint [0xee, 0xff, 0xff, 0xff, 0xff, 0xff, 0xff, 0xff, 0xff, 0x01]
        = .ok (2 ^ 64 - 18, []) := by rfl
    have h3 : wrapInt64 ((0 : Int) + wrapInt64 (toInt64 (2 ^ 64 - 18)
        + (((encodeUvarint (2 ^ 64 - 18)).length : Int) + 8))) = 0 := by rfl
    rw [populateLoop]
    simp only [h1, h2, DB.addToIndex, List.length_nil, gt_iff_lt, Nat.lt_irrefl, if_false, h3,
      Int.lt_irrefl]
    exact ih

/-- C33, the code at the failing input: `loopLog` is a stream of 18 bytes, the
id 1 and the size varint of `2 ^ 64 - 18`.  The size is -18 as an `int64` and
the row header has 18 bytes, so after the first pass of the loop the offset is
0 again, the seek succeeds, and `PopulateIndex`, and `NewDB` with it, does not
return whatever the number of passes.  When the stream is one a file can hold
and no size of `2 ^ 63` or more can be read in it, as in `blobNine`,
`PopulateIndex` does return. -/
theorem C33_populate_loops_forever :
    loopLog.length = 18 ∧
    decodeUint64 loopLog
      = .ok (1, [0xee, 0xff, 0xff, 0xff, 0xff, 0xff, 0xff, 0xff, 0xff, 0x01]) ∧
    ReadUvarint [0xee, 0xff, 0xff, 0xff, 0xff, 0xff, 0xff, 0xff, 0xff, 0x01]
      = .ok (2 ^ 64 - 18, []) ∧
    toInt64 (2 ^ 64 - 18) = -18 ∧
    (((encodeUvarint (2 ^ 64 - 18)).length : Int) + 8) = 18 ∧
    wrapInt64 ((0 : Int) + wrapInt64 (toInt64 (2 ^ 64 - 18)
      + (((encodeUvarint (2 ^ 64 - 18)).length : Int) + 8))) = 0 ∧
    (∀ fuel, loopDB.PopulateIndex fuel = none) ∧
    (∀ fuel, NewDB loopLog (.struct ⟨blobType, [.nilSlice]⟩) fuel = none) ∧
    (∀ (db : DB) (fuel : Nat), db.source.length < 2 ^ 63 - 10 → SizesFit db.source →
      db.source.length < fuel → ∃ res, db.PopulateIndex fuel = some res) ∧
    SizesFit blobNine.source ∧
    blobNine.PopulateIndex 12 = some (blobNine, none) := by
  refine ⟨rfl, by rfl, by rfl, by rfl, by rfl, by rfl, ?_, ?_, ?_, ?_, by rfl⟩
  · intro fuel
    exact populateLoop_loopLog fuel []
  · intro fuel
    have h := populateLoop_loopLog fuel []
    have hr : DB.ReflectSchema ⟨⟨⟨"", []⟩⟩, loopLog, [], []⟩ (.struct ⟨blobType, [.nilSlice]⟩)
        = .ok ⟨⟨blobType⟩, loopLog, [], []⟩ := by rfl
    simp only [NewDB, hr, DB.PopulateIndex, h]
  · intro db fuel hlen hfit hfuel
    exact populateLoop_terminates fuel 0 { db with index := [] } (le_refl _) hlen hfit
      (by omega) (by simp only []; omega)
  · exact sizesFit_of_small _ (by decide)


/-! ## C15: a field of a defined string type -/

/-- On a type in which no defined string type occurs, `encodeToBinary` is the
function that goes by the kind. -/
theorem encodeToBinary_goType (g : GoType) : g.hasDefinedString = false →
    ∀ v, g.encodeToBinary v = encodeToBinary g.ty v := by
  induction g with
  | basic k named =>
    intro h v
    simp only [GoType.hasDefinedString, Bool.and_eq_false_imp, decide_eq_true_eq] at h
    by_cases hk : k = .String
    · simp [GoType.encodeToBinary, encodeToBinary, GoType.ty, hk, h hk]
    · simp [GoType.encodeToBinary, encodeToBinary, GoType.ty, hk]
  | array n e _ =>
    intro _ v
    simp [GoType.encodeToBinary, encodeToBinary, GoType.ty]
  | slice e ih =>
    intro h v
    simp only [GoType.hasDefinedString] at h
    have hf : GoType.encodeToBinary e = encodeToBinary e.ty := funext (ih h)
    simp only [GoType.encodeToBinary, encodeToBinary, GoType.ty, hf]

/-- On a type in which no defined string type occurs, `decodeFromBinary` is
the function that goes by the kind. -/
theorem decodeFromBinary_goType (g : GoType) : g.hasDefinedString = false →
    ∀ r, g.decodeFromBinary r = decodeFromBinary g.ty r := by
  induction g with
  | basic k named =>
    intro h r
    simp only [GoType.hasDefinedString, Bool.and_eq_false_imp, decide_eq_true_eq] at h
    by_cases hk : k = .String
    · simp [GoType.decodeFromBinary, decodeFromBinary, GoType.ty, hk, h hk]
    · simp [GoType.decodeFromBinary, decodeFromBinary, GoType.ty, hk]
  | array n e _ =>
    intro _ r
    simp [GoType.decodeFromBinary, decodeFromBinary, GoType.ty]
  | slice e ih =>
    intro h r
    simp only [GoType.hasDefinedString] at h
    have hf : GoType.decodeFromBinary e = decodeFromBinary e.ty := funext (ih h)
    simp only [GoType.decodeFromBinary, decodeFromBinary, GoType.ty, hf]

theorem goLookup_map : ∀ (fs : List GoField) (vs : List Value) (name : String),
    fieldLookup (fs.map GoField.field) vs name
      = (GoField.lookup fs vs name).map (fun p => (p.1.field, p.2))
  | [], _, _ => by simp [fieldLookup, GoField.lookup]
  | _ :: _, [], _ => by simp [fieldLookup, GoField.lookup]
  | f :: fs, v :: vs, name => by
    simp only [List.map_cons, fieldLookup, GoField.lookup, GoField.field]
    split
    · rfl
    · exact goLookup_map fs vs name

theorem goLookup_mem : ∀ (fs : List GoField) (vs : List Value) (name : String)
    (f : GoField) (v : Value), GoField.lookup fs vs name = some (f, v) →
    f ∈ fs ∧ f.name = name
  | [], _, _, _, _, h => by simp [GoField.lookup] at h
  | _ :: _, [], _, _, _, h => by simp [GoField.lookup] at h
  | f0 :: fs, v0 :: vs, name, f, v, h => by
    simp only [GoField.lookup] at h
    split at h
    · rename_i hn
      simp only [Option.some.injEq, Prod.mk.injEq] at h
      rw [← h.1]
      exact ⟨List.mem_cons_self _ _, hn⟩
    · obtain ⟨h1, h2⟩ := goLookup_mem fs vs name f v h
      exact ⟨List.mem_cons_of_mem _ h1, h2⟩

/-- The field a name of `getExportedFieldNames` stands for is exported, when
the field names are distinct. -/
theorem goLookup_exported (t : GoStructType) (hwf : t.structType.WF) (vs : List Value)
    (name : String) (hn : name ∈ getExportedFieldNames t.structType) (f : GoField) (v : Value)
    (h : GoField.lookup t.fields vs name = some (f, v)) : f.exported = true := by
  obtain ⟨hmem, hname⟩ := goLookup_mem _ _ _ _ _ h
  have hmem' : f.field ∈ t.structType.fields := List.mem_map_of_mem _ hmem
  have := (exported_iff_mem t.structType hwf f.field hmem').mp (by
    show f.name ∈ _
    rw [hname]; exact hn)
  exact this

theorem goEncodeFields_map (fs : List GoField) (vs : List Value) :
    ∀ names : List String,
      (∀ n ∈ names, ∀ f v, GoField.lookup fs vs n = some (f, v) →
        f.type.hasDefinedString = false) →
      GoField.encodeFields fs vs names = encodeFields (fs.map GoField.field) vs names
  | [], _ => rfl
  | n :: names, h => by
    have ih := goEncodeFields_map fs vs names
      (fun m hm => h m (List.mem_cons_of_mem _ hm))
    rw [GoField.encodeFields, encodeFields, goLookup_map, ih]
    cases hl : GoField.lookup fs vs n with
    | none => rfl
    | some p =>
      obtain ⟨f, v⟩ := p
      have hb := h n (List.mem_cons_self _ _) f v hl
      simp only [Option.map_some', GoField.field, encodeToBinary_goType f.type hb v]

theorem goDecodeFields_map (fs : List GoField) :
    ∀ (names : List String) (vs : List Value) (r : List Nat),
      (∀ n ∈ names, ∀ ws f v, GoField.lookup fs ws n = some (f, v) →
        f.type.hasDefinedString = false) →
      GoField.decodeFields fs names vs r = decodeFields (fs.map GoField.field) names vs r
  | [], _, _, _ => rfl
  | n :: names, vs, r, h => by
    have ih := fun ws r1 => goDecodeFields_map fs names ws r1
      (fun m hm => h m (List.mem_cons_of_mem _ hm))
    rw [GoField.decodeFields, decodeFields, goLookup_map]
    cases hl : GoField.lookup fs vs n with
    | none => rfl
    | some p =>
      obtain ⟨f, v⟩ := p
      have hb := h n (List.mem_cons_self _ _) vs f v hl
      simp only [Option.map_some', GoField.field, decodeFromBinary_goType f.type hb r, ih]

/-- C15: `Reflect` accepts the struct type `T struct { E Email }` with
`type Email string`, because the kind of `Email` is `String`; but `Encode` of
`T{E: "x"}` returns an error, since the value is not a `string` and
`binary.Write` takes no strings, and `Decode` into a `T` ends in the panic of
`Set` whatever the bytes are.  A `[]Email` with an element is not encoded
either.  For a struct type with distinct field names in whose exported fields
no defined string type occurs, `Encode` and `Decode` are the functions that go
by the kind, and for these the claim holds: on a record `p` of a type `Reflect`
accepts `Encode` succeeds and returns the number of bytes it wrote, and
`Decode` of the bytes succeeds with the same count and stores `p` with its nil
slices made empty and its unexported fields zero. -/
theorem C15_defined_string_field :
    GoSchema.Reflect emailRecord = .ok ⟨emailType⟩ ∧
    isValidColumnType (GoType.basic .String true).ty = true ∧
    GoSchema.Encode ⟨emailType⟩ emailRecord = .error .invalidType ∧
    (∀ r : List Nat, GoSchema.Decode ⟨emailType⟩ r emailType.zero = .error .panic) ∧
    isValidColumnType (GoType.slice (.basic .String true)).ty = true ∧
    GoType.encodeToBinary (.slice (.basic .String true)) (.slice [.str [120]])
      = .error .invalidType ∧
    (∀ (schema : GoSchema) (p : GoRecord), schema.dataType.structType.WF →
      (∀ f ∈ schema.dataType.fields, f.exported = true → f.type.hasDefinedString = false) →
      p.type = schema.dataType →
      schema.Encode p = tableSchema.Encode ⟨schema.dataType.structType⟩ (.struct p.record) ∧
      ∀ r : List Nat, schema.Decode r p
        = match tableSchema.Decode ⟨schema.dataType.structType⟩ r (.ptr p.record) with
          | .error e => .error e
          | .ok (rec, n, rest) => .ok (⟨p.type, rec.vals⟩, n, rest)) ∧
    (∀ (schema : tableSchema) (p : Record), schema.dataType.WF → schema.dataType.Valid →
      p.type = schema.dataType → p.WellTyped →
      ∃ buf, schema.EncodeN (.struct p) = .ok (buf, buf.length) ∧
        schema.EncodeN (.ptr p) = .ok (buf, buf.length) ∧
        schema.Encode (.struct p) = .ok buf ∧
        schema.Decode buf (.ptr (zeroRecord schema.dataType))
          = .ok (⟨schema.dataType, decodedVals schema.dataType.fields p.vals⟩,
              buf.length, [])) := by
  refine ⟨by rfl, by rfl, by rfl, fun r => by rfl, by rfl, by rfl, ?_, ?_⟩
  · intro schema p hwf hb hty
    have hlook : ∀ n ∈ getExportedFieldNames p.type.structType, ∀ ws f v,
        GoField.lookup p.type.fields ws n = some (f, v) → f.type.hasDefinedString = false := by
      intro n hn ws f v hl
      have hmem := (goLookup_mem _ _ _ _ _ hl).1
      rw [hty] at hmem
      exact hb f hmem (goLookup_exported p.type (hty ▸ hwf) ws n hn f v hl)
    constructor
    · simp only [GoSchema.Encode, tableSchema.Encode, hty, if_true, GoRecord.record]
      rw [← hty]
      simp only [GoRecord.encodeStructToBinary, encodeStructToBinary, GoStructType.structType]
      exact goEncodeFields_map _ _ _ (fun n hn f v hl => hlook n hn p.vals f v hl)
    · intro r
      simp only [GoSchema.Decode, tableSchema.Decode, hty, if_true, GoRecord.record]
      rw [← hty]
      simp only [GoRecord.decodeStructFromBinary, decodeStructFromBinary]
      rw [goDecodeFields_map _ _ _ _ hlook]
      simp only [GoStructType.structType]
      generalize decodeFields (List.map GoField.field p.type.fields) _ p.vals r = d
      cases d with
      | error e => rfl
      | ok q => rfl
  · intro schema p hwf hvalid hty hwt
    obtain ⟨buf, h1, h2, h3, _⟩ := schema_round_trip schema hwf hvalid p hty hwt
    refine ⟨buf, h1, h2, ?_, h3⟩
    have hn := h1
    simp only [tableSchema.EncodeN, hty, if_true] at hn
    rw [← hty, encodeFieldsN_eq] at hn
    simp only [tableSchema.Encode, hty, if_true, encodeStructToBinary]
    rw [← hty]
    cases henc : encodeFields p.type.fields p.vals (getExportedFieldNames p.type) with
    | error e => simp [henc] at hn
    | ok bs =>
      simp only [henc, List.nil_append, Nat.zero_add, Except.ok.injEq, Prod.mk.injEq] at hn
      rw [hn.1]

end SimpleDB
